import Mathlib

/-!
# LumosQuad: quadtree mesh, potential solver, growth engine and connectivity graph

A shallow embedding of the core of the lightning generator
(`CELL`, `QUAD_POISSON`, `CG_SOLVER`, `QUAD_DBM_2D`, `DAG`).

Conventions of the embedding.

* `float` values are rationals and float arithmetic is exact, except in the
  candidate walk of `addParticle`, whose arithmetic is a parameter so that both
  exact and rounded arithmetic can be plugged in.
* A `CELL*` that points into the quadtree is the address of the cell: the list
  of child slots on the way from the cell up to the root (head = the slot of the
  cell in its parent, `[]` = the root).  `this->parent` is the tail of the
  address, `parent->children[k] == this` says that the head is slot `k`.
* A ghost cell (`new CELL(depth)`) is never written to after its construction,
  so a pointer to one is the value `CellRef.ghost depth`.
* Members that the constructors leave uninitialised (`stencil`, `b`,
  `residual`) start at 0.
-/

namespace Lumo

/-! ## CELL.h -/

/-- Possible states of a cell in the simulation (`enum CELL_STATE`). -/
inductive CELL_STATE
  | EMPTY | NEGATIVE | POSITIVE | REPULSOR | ATTRACTOR
  deriving DecidableEq, Repr

/-- Index into `children[4]`; winding order 0 = north-west, 1 = north-east,
2 = south-east, 3 = south-west. -/
inductive Quadrant
  | q0 | q1 | q2 | q3
  deriving DecidableEq, Repr

/-- Address of a cell of the tree: the child slots from the cell up to the root. -/
abbrev Addr := List Quadrant

/-- Value of a `CELL*` stored in a neighbour slot. -/
inductive CellRef
  | cell (a : Addr)
  | ghost (depth : Int)
  deriving DecidableEq, Repr

/-- Data members of `class CELL` other than `children` and `parent`. -/
structure CellData where
  north : ℚ
  east : ℚ
  south : ℚ
  west : ℚ
  centerX : ℚ
  centerY : ℚ
  depth : Int
  candidate : Bool
  state : CELL_STATE
  boundary : Bool
  potential : ℚ
  b : ℚ
  residual : ℚ
  index : Int
  neighbors : Mathlib.Vector (Option CellRef) 8
  stencil : Mathlib.Vector ℚ 9
  deriving DecidableEq

/-- Normal cell constructor `CELL(north, east, south, west, parent, depth)`. -/
def CellData.new (north east south west : ℚ) (depth : Int) : CellData :=
  { north := north, east := east, south := south, west := west,
    centerX := (east + west) * (1 / 2),
    centerY := (north + south) * (1 / 2),
    depth := depth, candidate := false, state := CELL_STATE.EMPTY,
    boundary := false, potential := 0, b := 0, residual := 0, index := -1,
    neighbors := Mathlib.Vector.replicate 8 none, stencil := Mathlib.Vector.replicate 9 0 }

/-- Ghost cell constructor `CELL(depth)`. -/
def CellData.ghost (depth : Int) : CellData :=
  { north := 0, east := 0, south := 0, west := 0, centerX := 0, centerY := 0,
    depth := depth, candidate := false, state := CELL_STATE.EMPTY,
    boundary := true, potential := 0, b := 0, residual := 0, index := -1,
    neighbors := Mathlib.Vector.replicate 8 none, stencil := Mathlib.Vector.replicate 9 0 }

/-- A cell together with the subtree it owns: `children` is all null (`leaf`)
or all set (`node`), as `refine` is the only writer of `children`. -/
inductive CELL
  | leaf (d : CellData)
  | node (d : CellData) (c0 c1 c2 c3 : CELL)
  deriving DecidableEq

namespace CELL

/-- Data members of the cell at the top of the subtree. -/
def data : CELL → CellData
  | leaf d => d
  | node d _ _ _ _ => d

/-- Test `children[0] != NULL`. -/
def hasChildren : CELL → Bool
  | leaf _ => false
  | node _ _ _ _ _ => true

/-- Pointer `children[q]`. -/
def child : CELL → Quadrant → Option CELL
  | leaf _, _ => none
  | node _ c0 _ _ _, Quadrant.q0 => some c0
  | node _ _ c1 _ _, Quadrant.q1 => some c1
  | node _ _ _ c2 _, Quadrant.q2 => some c2
  | node _ _ _ _ c3, Quadrant.q3 => some c3

/-- Data of child `q` as `refine` constructs it from the data of the parent. -/
def childData (d : CellData) : Quadrant → CellData
  | Quadrant.q0 =>
    { CellData.new d.north ((d.east + d.west) * (1 / 2)) ((d.north + d.south) * (1 / 2)) d.west
        (d.depth + 1) with potential := d.potential }
  | Quadrant.q1 =>
    { CellData.new d.north d.east ((d.north + d.south) * (1 / 2)) ((d.east + d.west) * (1 / 2))
        (d.depth + 1) with potential := d.potential }
  | Quadrant.q2 =>
    { CellData.new ((d.north + d.south) * (1 / 2)) d.east d.south ((d.east + d.west) * (1 / 2))
        (d.depth + 1) with potential := d.potential }
  | Quadrant.q3 =>
    { CellData.new ((d.north + d.south) * (1 / 2)) ((d.east + d.west) * (1 / 2)) d.south d.west
        (d.depth + 1) with potential := d.potential }

/-- Subdivide the cell: `CELL::refine`. -/
def refine : CELL → CELL
  | node d c0 c1 c2 c3 => node d c0 c1 c2 c3
  | leaf d =>
    node d (leaf (childData d Quadrant.q0)) (leaf (childData d Quadrant.q1))
      (leaf (childData d Quadrant.q2)) (leaf (childData d Quadrant.q3))

/-- Overwrite the data members of the top cell, keeping its children. -/
def mapData (g : CellData → CellData) : CELL → CELL
  | leaf d => leaf (g d)
  | node d c0 c1 c2 c3 => node (g d) c0 c1 c2 c3

/-- Follow a root-first list of child slots. -/
def cellAtPath : CELL → List Quadrant → Option CELL
  | c, [] => some c
  | c, q :: r =>
    match c.child q with
    | some c1 => cellAtPath c1 r
    | none => none

/-- Dereference a cell pointer: the cell at address `a` of the tree `root`. -/
def cellAt (root : CELL) (a : Addr) : Option CELL :=
  cellAtPath root a.reverse

/-- Apply `f` to the cell reached by a root-first list of child slots. -/
def modifyPath (f : CELL → CELL) : CELL → List Quadrant → CELL
  | c, [] => f c
  | leaf d, _ :: _ => leaf d
  | node d c0 c1 c2 c3, Quadrant.q0 :: r => node d (modifyPath f c0 r) c1 c2 c3
  | node d c0 c1 c2 c3, Quadrant.q1 :: r => node d c0 (modifyPath f c1 r) c2 c3
  | node d c0 c1 c2 c3, Quadrant.q2 :: r => node d c0 c1 (modifyPath f c2 r) c3
  | node d c0 c1 c2 c3, Quadrant.q3 :: r => node d c0 c1 c2 (modifyPath f c3 r)

/-- Apply `f` to the cell at address `a`. -/
def modifyAt (f : CELL → CELL) (root : CELL) (a : Addr) : CELL :=
  modifyPath f root a.reverse

/-- Call `refine()` through a pointer: refine the cell at address `a`. -/
def refineAt (root : CELL) (a : Addr) : CELL :=
  modifyAt refine root a

/-- Write data members through a pointer. -/
def setData (g : CellData → CellData) (root : CELL) (a : Addr) : CELL :=
  modifyAt (mapData g) root a

/-- Data members of the cell at address `a`. -/
def dataAt (root : CELL) (a : Addr) : Option CellData :=
  (cellAt root a).map data

/-- Test `c->children[0] != NULL` for the cell at address `a`. -/
def kidsAt (root : CELL) (a : Addr) : Bool :=
  match cellAt root a with
  | some c => c.hasChildren
  | none => false

/-- Field `c->depth` for the cell at address `a` (0 for a dangling pointer). -/
def depthAt (root : CELL) (a : Addr) : Int :=
  match cellAt root a with
  | some c => c.data.depth
  | none => 0

/-- Look up the northern neighbour: `CELL::northNeighbor`. -/
def northNeighbor (root : CELL) : Addr → Option Addr
  | [] => none
  | Quadrant.q3 :: p => some (Quadrant.q0 :: p)
  | Quadrant.q2 :: p => some (Quadrant.q1 :: p)
  | Quadrant.q0 :: p =>
    match northNeighbor root p with
    | none => none
    | some mu => if kidsAt root mu = false then some mu else some (Quadrant.q3 :: mu)
  | Quadrant.q1 :: p =>
    match northNeighbor root p with
    | none => none
    | some mu => if kidsAt root mu = false then some mu else some (Quadrant.q2 :: mu)

/-- Look up the southern neighbour: `CELL::southNeighbor`. -/
def southNeighbor (root : CELL) : Addr → Option Addr
  | [] => none
  | Quadrant.q0 :: p => some (Quadrant.q3 :: p)
  | Quadrant.q1 :: p => some (Quadrant.q2 :: p)
  | Quadrant.q3 :: p =>
    match southNeighbor root p with
    | none => none
    | some mu => if kidsAt root mu = false then some mu else some (Quadrant.q0 :: mu)
  | Quadrant.q2 :: p =>
    match southNeighbor root p with
    | none => none
    | some mu => if kidsAt root mu = false then some mu else some (Quadrant.q1 :: mu)

/-- Look up the western neighbour: `CELL::westNeighbor`. -/
def westNeighbor (root : CELL) : Addr → Option Addr
  | [] => none
  | Quadrant.q1 :: p => some (Quadrant.q0 :: p)
  | Quadrant.q2 :: p => some (Quadrant.q3 :: p)
  | Quadrant.q0 :: p =>
    match westNeighbor root p with
    | none => none
    | some mu => if kidsAt root mu = false then some mu else some (Quadrant.q1 :: mu)
  | Quadrant.q3 :: p =>
    match westNeighbor root p with
    | none => none
    | some mu => if kidsAt root mu = false then some mu else some (Quadrant.q2 :: mu)

/-- Look up the eastern neighbour: `CELL::eastNeighbor`. -/
def eastNeighbor (root : CELL) : Addr → Option Addr
  | [] => none
  | Quadrant.q0 :: p => some (Quadrant.q1 :: p)
  | Quadrant.q3 :: p => some (Quadrant.q2 :: p)
  | Quadrant.q1 :: p =>
    match eastNeighbor root p with
    | none => none
    | some mu => if kidsAt root mu = false then some mu else some (Quadrant.q0 :: mu)
  | Quadrant.q2 :: p =>
    match eastNeighbor root p with
    | none => none
    | some mu => if kidsAt root mu = false then some mu else some (Quadrant.q3 :: mu)

end CELL

/-- The four lookup directions. -/
inductive Dir
  | north | east | south | west
  deriving DecidableEq, Repr

namespace Dir

/-- Slot reached from slot `q` by one step in direction `d` (with wrap-around). -/
def flip : Dir → Quadrant → Quadrant
  | north, Quadrant.q0 => Quadrant.q3
  | north, Quadrant.q1 => Quadrant.q2
  | north, Quadrant.q2 => Quadrant.q1
  | north, Quadrant.q3 => Quadrant.q0
  | south, Quadrant.q0 => Quadrant.q3
  | south, Quadrant.q1 => Quadrant.q2
  | south, Quadrant.q2 => Quadrant.q1
  | south, Quadrant.q3 => Quadrant.q0
  | east, Quadrant.q0 => Quadrant.q1
  | east, Quadrant.q1 => Quadrant.q0
  | east, Quadrant.q2 => Quadrant.q3
  | east, Quadrant.q3 => Quadrant.q2
  | west, Quadrant.q0 => Quadrant.q1
  | west, Quadrant.q1 => Quadrant.q0
  | west, Quadrant.q2 => Quadrant.q3
  | west, Quadrant.q3 => Quadrant.q2

/-- Whether slot `q` lies on the `d` side of its parent. -/
def onSide : Dir → Quadrant → Bool
  | north, Quadrant.q0 => true
  | north, Quadrant.q1 => true
  | south, Quadrant.q2 => true
  | south, Quadrant.q3 => true
  | east, Quadrant.q1 => true
  | east, Quadrant.q2 => true
  | west, Quadrant.q0 => true
  | west, Quadrant.q3 => true
  | _, _ => false

/-- The opposite direction. -/
def opp : Dir → Dir
  | north => south
  | south => north
  | east => west
  | west => east

end Dir

namespace CELL

/-- The four neighbour lookups as one function of the direction. -/
def neighbor (root : CELL) : Dir → Addr → Option Addr
  | Dir.north => northNeighbor root
  | Dir.east => eastNeighbor root
  | Dir.south => southNeighbor root
  | Dir.west => westNeighbor root

end CELL

namespace CELL

/-- Child `c` in slot `q` of a cell with data `d` has the depth and the bounds
that `refine` gives it. -/
def IsChildOf (d : CellData) (q : Quadrant) (c : CellData) : Prop :=
  c.depth = d.depth + 1 ∧ c.north = (childData d q).north ∧ c.east = (childData d q).east ∧
    c.south = (childData d q).south ∧ c.west = (childData d q).west

/-- Every cell with children has them at depth + 1 on the four quadrants of its bounds. -/
def Partitioned : CELL → Prop
  | leaf _ => True
  | node d c0 c1 c2 c3 =>
    IsChildOf d Quadrant.q0 c0.data ∧ IsChildOf d Quadrant.q1 c1.data ∧
    IsChildOf d Quadrant.q2 c2.data ∧ IsChildOf d Quadrant.q3 c3.data ∧
    Partitioned c0 ∧ Partitioned c1 ∧ Partitioned c2 ∧ Partitioned c3

/-- A well-formed quadtree: the root is a proper rectangle and the children of
every cell partition its bounds into the four quadrants. -/
def WellFormed (root : CELL) : Prop :=
  root.data.south < root.data.north ∧ root.data.west < root.data.east ∧ Partitioned root

/-- The centre stored in every cell is the midpoint of its bounds. -/
def Centered : CELL → Prop
  | leaf d => d.centerX = (d.east + d.west) * (1 / 2) ∧ d.centerY = (d.north + d.south) * (1 / 2)
  | node d c0 c1 c2 c3 =>
    d.centerX = (d.east + d.west) * (1 / 2) ∧ d.centerY = (d.north + d.south) * (1 / 2) ∧
    Centered c0 ∧ Centered c1 ∧ Centered c2 ∧ Centered c3

/-- Addresses of the leaves below a cell with address `a`, children in slot order. -/
def leavesFrom : CELL → Addr → List Addr
  | leaf _, a => [a]
  | node _ c0 c1 c2 c3, a =>
    leavesFrom c0 (Quadrant.q0 :: a) ++ leavesFrom c1 (Quadrant.q1 :: a) ++
    leavesFrom c2 (Quadrant.q2 :: a) ++ leavesFrom c3 (Quadrant.q3 :: a)

/-- Addresses of the leaves below a cell that are not flagged `boundary`. -/
def emptyLeavesFrom : CELL → Addr → List Addr
  | leaf d, a => if d.boundary then [] else [a]
  | node _ c0 c1 c2 c3, a =>
    emptyLeavesFrom c0 (Quadrant.q0 :: a) ++ emptyLeavesFrom c1 (Quadrant.q1 :: a) ++
    emptyLeavesFrom c2 (Quadrant.q2 :: a) ++ emptyLeavesFrom c3 (Quadrant.q3 :: a)

/-- Largest number of levels below the cell. -/
def height : CELL → Nat
  | leaf _ => 0
  | node _ c0 c1 c2 c3 => 1 + max (max (height c0) (height c1)) (max (height c2) (height c3))

/-- Number of cells that have children. -/
def innerCount : CELL → Nat
  | leaf _ => 0
  | node _ c0 c1 c2 c3 => 1 + innerCount c0 + innerCount c1 + innerCount c2 + innerCount c3

/-- The cell with data `n` lies directly across the face in direction `d` of the
cell with data `c`: it touches that face and covers it. -/
def Across : Dir → CellData → CellData → Prop
  | Dir.north, c, n => n.south = c.north ∧ n.west ≤ c.west ∧ c.east ≤ n.east
  | Dir.south, c, n => n.north = c.south ∧ n.west ≤ c.west ∧ c.east ≤ n.east
  | Dir.east, c, n => n.west = c.east ∧ n.south ≤ c.south ∧ c.north ≤ n.north
  | Dir.west, c, n => n.east = c.west ∧ n.south ≤ c.south ∧ c.north ≤ n.north

/-- The cell with data `c2` lies on the `d` side of the cell with data `c1` and
the two have a piece of positive length of that face in common. -/
def FaceTowards : Dir → CellData → CellData → Prop
  | Dir.north, c1, c2 => c2.south = c1.north ∧ max c1.west c2.west < min c1.east c2.east
  | Dir.south, c1, c2 => c2.north = c1.south ∧ max c1.west c2.west < min c1.east c2.east
  | Dir.east, c1, c2 => c2.west = c1.east ∧ max c1.south c2.south < min c1.north c2.north
  | Dir.west, c1, c2 => c2.east = c1.west ∧ max c1.south c2.south < min c1.north c2.north

/-- Two cells share a face: a common edge of positive length. -/
def SharesFace (c1 c2 : CellData) : Prop :=
  ∃ d, FaceTowards d c1 c2

/-- The open rectangles of two cells intersect. -/
def Overlap (c1 c2 : CellData) : Prop :=
  max c1.west c2.west < min c1.east c2.east ∧ max c1.south c2.south < min c1.north c2.north

/-- Dereference a pointer stored in a neighbour slot. -/
def deref (root : CELL) : CellRef → Option CellData
  | CellRef.cell a => dataAt root a
  | CellRef.ghost depth => some (CellData.ghost depth)

end CELL

/-! ## QUAD_POISSON -/

/-- State of `class QUAD_POISSON` (the solver and the noise generator apart). -/
structure QUAD_POISSON where
  root : CELL
  maxRes : Int
  maxDepth : Int
  noise : List Bool
  smallestLeaves : List Addr
  emptyLeaves : List Addr
  deriving DecidableEq

namespace QUAD_POISSON

open CELL

/-- The four children of the cell at address `n`, in slot order. -/
def childrenOf (n : Addr) : List Addr :=
  [Quadrant.q0 :: n, Quadrant.q1 :: n, Quadrant.q2 :: n, Quadrant.q3 :: n]

/-- Collect all leaves: `getAllLeaves`. -/
def getAllLeaves (root : CELL) : List Addr :=
  leavesFrom root []

/-- Collect all leaves that are not on the boundary: `getEmptyLeaves`. -/
def getEmptyLeaves (root : CELL) : List Addr :=
  emptyLeavesFrom root []

/-- The loop `while (north->depth < currentCell->depth - 1)` of `balance`, for the
direction `d`; `n` is the current value of the neighbour pointer and `leaves` the
part of the list behind the iterator. -/
def balanceWhile (d : Dir) : Nat → CELL → Addr → Addr → List Addr → Option (CELL × List Addr)
  | 0, _, _, _, _ => none
  | fuel + 1, root, cur, n, leaves =>
    if depthAt root n < depthAt root cur - 1 then
      match neighbor (refineAt root n) d cur with
      | none => none
      | some n1 => balanceWhile d fuel (refineAt root n) cur n1 (leaves ++ childrenOf n)
    else some (root, leaves)

/-- One of the four blocks of the body of the loop of `balance`. -/
def balanceDir (d : Dir) (fuel : Nat) (root : CELL) (cur : Addr) (leaves : List Addr) :
    Option (CELL × List Addr) :=
  match neighbor root d cur with
  | none => some (root, leaves)
  | some n => balanceWhile d fuel root cur n leaves

/-- The loop of `balance` over the list of leaves, which grows while it is walked. -/
def balanceLoop : Nat → CELL → List Addr → Option CELL
  | 0, _, _ => none
  | _ + 1, root, [] => some root
  | fuel + 1, root, cur :: rest =>
    match balanceDir Dir.north fuel root cur rest with
    | none => none
    | some (r1, l1) =>
      match balanceDir Dir.south fuel r1 cur l1 with
      | none => none
      | some (r2, l2) =>
        match balanceDir Dir.west fuel r2 cur l2 with
        | none => none
        | some (r3, l3) =>
          match balanceDir Dir.east fuel r3 cur l3 with
          | none => none
          | some (r4, l4) => balanceLoop fuel r4 l4

/-- Number of loop steps that `balance` is given. -/
def balanceFuel (root : CELL) : Nat :=
  (getAllLeaves root).length + 4 * 4 ^ height root + height root + 2

/-- Balance the tree: `QUAD_POISSON::balance` (`none`: the run does not end). -/
def balance (root : CELL) : Option CELL :=
  balanceLoop (balanceFuel root) root (getAllLeaves root)

/-- Store `v` in `neighbors[i]`. -/
def setSlot (i : Fin 8) (v : Option CellRef) (c : CellData) : CellData :=
  { c with neighbors := c.neighbors.set i v }

/-- One of the four blocks of the body of the loop of `buildNeighbors`: the slots
`i` and `i1 = i + 1` of the leaf `cur` for the direction `d`; `k0` and `k1` are the
children of the neighbour that go to the two slots. -/
def buildFace (d : Dir) (i i1 : Fin 8) (k0 k1 : Quadrant) (root : CELL) (cur : Addr) : CELL :=
  match neighbor root d cur with
  | some n =>
    if kidsAt root n = false then
      setData (fun c => setSlot i1 none (setSlot i (some (CellRef.cell n)) c)) root cur
    else
      setData (fun c => setSlot i1 (some (CellRef.cell (k1 :: n)))
        (setSlot i (some (CellRef.cell (k0 :: n))) c)) root cur
  | none => setData (setSlot i (some (CellRef.ghost (depthAt root cur)))) root cur

/-- Body of the loop of `buildNeighbors` for the leaf `cur`. -/
def buildCell (root : CELL) (cur : Addr) : CELL :=
  buildFace Dir.west 6 7 Quadrant.q2 Quadrant.q1
    (buildFace Dir.south 4 5 Quadrant.q1 Quadrant.q0
      (buildFace Dir.east 2 3 Quadrant.q0 Quadrant.q3
        (buildFace Dir.north 0 1 Quadrant.q3 Quadrant.q2 root cur) cur) cur) cur

/-- Build the neighbour lists: `QUAD_POISSON::buildNeighbors`. -/
def buildNeighbors (root : CELL) : Option CELL :=
  match balance root with
  | none => none
  | some r => some ((getAllLeaves r).foldl buildCell r)

/-- Conversion `(int)` of a float: truncation towards zero. -/
def truncate (q : ℚ) : Int :=
  if 0 ≤ q then Int.floor q else -Int.floor (-q)

/-- Read `_noise[i]` (an index outside the array reads `false`). -/
def noiseAt (m : QUAD_POISSON) (i : Int) : Bool :=
  if 0 ≤ i then m.noise.getD i.toNat false else false

/-- What `setNoise` writes to a cell that hits a noise node. -/
def noiseData (c : CellData) : CellData :=
  { c with boundary := true, state := CELL_STATE.ATTRACTOR, potential := 1 / 2, candidate := true }

/-- Check if a cell hits a noise node: `QUAD_POISSON::setNoise`. -/
def setNoise (m : QUAD_POISSON) (a : Addr) : QUAD_POISSON :=
  match dataAt m.root a with
  | none => m
  | some c =>
    if c.state ≠ CELL_STATE.EMPTY then m
    else if noiseAt m (truncate (c.centerX * m.maxRes) + truncate (c.centerY * m.maxRes) * m.maxRes)
    then { m with root := setData noiseData m.root a }
    else m

/-- One step of `for (i...) { _smallestLeaves.push_back(c); setNoise(c); }`. -/
def noteLeaf (m : QUAD_POISSON) (a : Addr) : QUAD_POISSON :=
  setNoise { m with smallestLeaves := m.smallestLeaves ++ [a] } a

/-- The loop `for (i...) { _smallestLeaves.push_back(x->parent->children[i]); setNoise(...); }`
for a cell `x` whose parent has address `parent`. -/
def noteLeaves (m : QUAD_POISSON) (parent : Addr) : QUAD_POISSON :=
  (childrenOf parent).foldl noteLeaf m

/-- The same loop, given `x` itself (`none`: `x` has no parent). -/
def noteSiblings (m : QUAD_POISSON) : Addr → Option QUAD_POISSON
  | [] => none
  | _ :: parent => some (noteLeaves m parent)

/-- Quadrant of the point `(xPos, yPos)` in a cell, as `insert` chooses it. -/
def quadrantOf (c : CellData) (xPos yPos : ℚ) : Quadrant :=
  if xPos - c.centerX > 0 then
    if yPos - c.centerY < 0 then Quadrant.q2 else Quadrant.q1
  else if yPos - c.centerY < 0 then Quadrant.q3
  else Quadrant.q0

/-- The loop `while (currentDepth < _maxDepth)` of `insert`, with the number of
steps left; the state is the tree, `currentCell` and `existed`. -/
def descend (xPos yPos : ℚ) : Nat → CELL → Addr → Bool → Option (CELL × Addr × Bool)
  | 0, root, cur, existed => some (root, cur, existed)
  | steps + 1, root, cur, existed =>
    match cellAt root cur with
    | none => none
    | some c =>
      if (c.child (quadrantOf c.data xPos yPos)).isNone then
        descend xPos yPos steps (refineAt root cur) (quadrantOf c.data xPos yPos :: cur) false
      else descend xPos yPos steps root (quadrantOf c.data xPos yPos :: cur) existed

/-- The loop `while (north->depth != _maxDepth) { north->refine(); north = currentCell->northNeighbor(); }`
of `insert`, for the direction `d`. -/
def forceWhile (d : Dir) (cur : Addr) : Nat → QUAD_POISSON → Addr → Option (QUAD_POISSON × Addr)
  | 0, _, _ => none
  | fuel + 1, m, n =>
    if depthAt m.root n ≠ m.maxDepth then
      match neighbor (refineAt m.root n) d cur with
      | none => none
      | some n1 => forceWhile d cur fuel { m with root := refineAt m.root n } n1
    else some (m, n)

/-- One of the four blocks of `insert` that force an orthogonal neighbour to the
maximum depth; the second component is the final value of the neighbour pointer. -/
def forceOrtho (d : Dir) (fuel : Nat) (m : QUAD_POISSON) (cur : Addr) :
    Option (QUAD_POISSON × Option Addr) :=
  match neighbor m.root d cur with
  | none => some (m, none)
  | some n =>
    if depthAt m.root n ≠ m.maxDepth then
      match forceWhile d cur fuel m n with
      | none => none
      | some (m1, n1) =>
        match noteSiblings m1 n1 with
        | none => none
        | some m2 => some (m2, some n1)
    else some (m, some n)

/-- The loop `while (northwest->depth != _maxDepth) { northwest->refine(); northwest = northwest->children[k]; }`. -/
def forceDiagWhile (k : Quadrant) : Nat → QUAD_POISSON → Addr → Option (QUAD_POISSON × Addr)
  | 0, _, _ => none
  | fuel + 1, m, n =>
    if depthAt m.root n ≠ m.maxDepth then
      if kidsAt (refineAt m.root n) n = true then
        forceDiagWhile k fuel { m with root := refineAt m.root n } (k :: n)
      else none
    else some (m, n)

/-- One of the four blocks of `insert` that force a diagonal neighbour to the
maximum depth: the neighbour in direction `d` of the cell `base`. -/
def forceDiag (d : Dir) (k : Quadrant) (fuel : Nat) (m : QUAD_POISSON) (base : Addr) :
    Option QUAD_POISSON :=
  match neighbor m.root d base with
  | none => some m
  | some n =>
    if depthAt m.root n ≠ m.maxDepth then
      match forceDiagWhile k fuel m n with
      | none => none
      | some (m1, n1) => noteSiblings m1 n1
    else some m

/-- The two diagonal blocks behind `if (north)` (or `if (south)`). -/
def forceDiagPair (kw ke : Quadrant) (fuel : Nat) (m : QUAD_POISSON) : Option Addr → Option QUAD_POISSON
  | none => some m
  | some base =>
    match forceDiag Dir.west kw fuel m base with
    | none => none
    | some m1 => forceDiag Dir.east ke fuel m1 base

/-- Subdivide the quadtree to the maximum level at `(xPos, yPos)` and return the
cell there: `QUAD_POISSON::insert` (`none`: the run fails or does not end). -/
def insert (m : QUAD_POISSON) (xPos yPos : ℚ) : Option (QUAD_POISSON × Addr) :=
  match descend xPos yPos m.maxDepth.toNat m.root [] true with
  | none => none
  | some (root1, cur, existed) =>
    match (if existed then some { m with root := root1 }
           else noteSiblings { m with root := root1 } cur) with
    | none => none
    | some m2 =>
      match forceOrtho Dir.north (m.maxDepth.toNat + 1) m2 cur with
      | none => none
      | some (m3, north) =>
        match forceOrtho Dir.south (m.maxDepth.toNat + 1) m3 cur with
        | none => none
        | some (m4, south) =>
          match forceOrtho Dir.west (m.maxDepth.toNat + 1) m4 cur with
          | none => none
          | some (m5, _) =>
            match forceOrtho Dir.east (m.maxDepth.toNat + 1) m5 cur with
            | none => none
            | some (m6, _) =>
              match forceDiagPair Quadrant.q2 Quadrant.q3 (m.maxDepth.toNat + 1) m6 north with
              | none => none
              | some m7 =>
                match forceDiagPair Quadrant.q1 Quadrant.q0 (m.maxDepth.toNat + 1) m7 south with
                | none => none
                | some m8 => some (m8, cur)

end QUAD_POISSON

end Lumo

namespace Lumo

/-! ## CG_SOLVER -/

/-- State of `class CG_SOLVER` that `calcStencils` reads: the iteration cap, the digits
of precision and the table `_dx` of the cell sizes of the levels. -/
structure CG_SOLVER where
  iterations : Int
  digits : Int
  dx : List ℚ
  deriving DecidableEq

namespace CG_SOLVER

open CELL

/-- The loop `for (x = 1; x <= maxDepth; x++) _dx[x] = _dx[x - 1] * 0.5f` of the
constructor: the entries still to be written, given the entry written last. -/
def dxFill : Nat → ℚ → List ℚ
  | 0, _ => []
  | n + 1, prev => prev * (1 / 2) :: dxFill n (prev * (1 / 2))

/-- Constructor `CG_SOLVER(maxDepth, iterations, digits)`. -/
def new (maxDepth iterations digits : Int) : CG_SOLVER :=
  { iterations := iterations, digits := digits, dx := 1 :: dxFill maxDepth.toNat 1 }

/-- Read `_dx[depth]` (`none`: outside the array). -/
def readDx (s : CG_SOLVER) (depth : Int) : Option ℚ :=
  if 0 ≤ depth then s.dx.get? depth.toNat else none

/-- The locals of the loop over the cells in `calcStencils`: the stencil of the cell,
`deltaSum` and `bSum`. -/
structure FaceAcc where
  stencil : Mathlib.Vector ℚ 9
  deltaSum : ℚ
  bSum : ℚ

/-- Body of the loop `for (int x = 0; x < 4; x++)` of `calcStencils` for the face with
the slots `i = 2 x` and `i1 = i + 1` (`none`: a null pointer is dereferenced). -/
def calcFace (root : CELL) (c : CellData) (invDx : ℚ) (i i1 : Fin 8) (acc : FaceAcc) :
    Option FaceAcc :=
  let st := (acc.stencil.set i.castSucc 0).set i1.castSucc 0
  match c.neighbors.get i1 with
  | none =>
    match (c.neighbors.get i).bind (deref root) with
    | none => none
    | some n0 =>
      if c.depth = n0.depth then
        if n0.boundary = false then
          some { stencil := st.set i.castSucc invDx, deltaSum := acc.deltaSum + invDx,
                 bSum := acc.bSum }
        else
          some { stencil := st, deltaSum := acc.deltaSum + invDx,
                 bSum := acc.bSum + n0.potential * invDx }
      else
        if n0.boundary = false then
          some { stencil := st.set i.castSucc (1 / 2 * invDx),
                 deltaSum := acc.deltaSum + 1 / 2 * invDx, bSum := acc.bSum }
        else
          some { stencil := st, deltaSum := acc.deltaSum + 1 / 2 * invDx,
                 bSum := acc.bSum + n0.potential * (1 / 2) * invDx }
  | some p1 =>
    match (c.neighbors.get i).bind (deref root), deref root p1 with
    | some n0, some n1 =>
      let st0 := if n0.boundary = false then st.set i.castSucc invDx else st
      let b0 := if n0.boundary = false then acc.bSum else acc.bSum + n0.potential * invDx
      some { stencil := if n1.boundary = false then st0.set i1.castSucc invDx else st0,
             deltaSum := acc.deltaSum + 2 * invDx,
             bSum := if n1.boundary = false then b0 else b0 + n1.potential * invDx }
    | _, _ => none

/-- The four faces of a cell, one after the other. -/
def calcFaces (root : CELL) (c : CellData) (invDx : ℚ) (acc : FaceAcc) : Option FaceAcc :=
  match calcFace root c invDx 0 1 acc with
  | none => none
  | some a1 =>
    match calcFace root c invDx 2 3 a1 with
    | none => none
    | some a2 =>
      match calcFace root c invDx 4 5 a2 with
      | none => none
      | some a3 => calcFace root c invDx 6 7 a3

/-- What `calcStencils` writes to a cell at the end of the body of its loop. -/
def storeStencil (acc : FaceAcc) (c : CellData) : CellData :=
  { c with stencil := acc.stencil.set 8 acc.deltaSum, b := acc.bSum }

/-- Body of the loop of `calcStencils` for the cell at address `a`. -/
def calcCell (s : CG_SOLVER) (root : CELL) (a : Addr) : Option CELL :=
  match dataAt root a with
  | none => none
  | some c =>
    match readDx s c.depth with
    | none => none
    | some dx =>
      match calcFaces root c (1 / dx) { stencil := c.stencil, deltaSum := 0, bSum := 0 } with
      | none => none
      | some acc => some (setData (storeStencil acc) root a)

/-- Compute the stencils once and store them: `CG_SOLVER::calcStencils`. -/
def calcStencils (s : CG_SOLVER) : CELL → List Addr → Option CELL
  | root, [] => some root
  | root, a :: rest =>
    match calcCell s root a with
    | none => none
    | some r => calcStencils s r rest

/-- Kinds of face that the stencil distinguishes. -/
inductive FaceKind
  | same | coarser | finer
  deriving DecidableEq, Repr

/-- Weight of a face of each kind: `invDx` for a single neighbour of the same depth,
`0.5 * invDx` for a single coarser neighbour, `2 * invDx` for two finer neighbours. -/
def FaceKind.weight (invDx : ℚ) : FaceKind → ℚ
  | FaceKind.same => invDx
  | FaceKind.coarser => 1 / 2 * invDx
  | FaceKind.finer => 2 * invDx

/-- Kind of the face of a cell with data `c` whose slots hold the cell `n0` and, if
there is a second one, the cell `n1` (`none`: none of the three kinds). -/
def faceKind (c n0 : CellData) : Option CellData → Option FaceKind
  | none =>
    if n0.depth = c.depth then some FaceKind.same
    else if n0.depth < c.depth then some FaceKind.coarser
    else none
  | some n1 => if c.depth < n0.depth ∧ c.depth < n1.depth then some FaceKind.finer else none

/-- Kind of the face with the slots `i` and `i1` of the cell with data `c`. -/
def faceKindAt (root : CELL) (c : CellData) (i i1 : Fin 8) : Option FaceKind :=
  match (c.neighbors.get i).bind (deref root) with
  | none => none
  | some n0 =>
    match c.neighbors.get i1 with
    | none => faceKind c n0 none
    | some p1 =>
      match deref root p1 with
      | none => none
      | some n1 => faceKind c n0 (some n1)

/-- Share of the slot `j` of a cell with data `c` in its right-hand side `b`: the
potential of a boundary cell in the slot times the weight the slot would carry. -/
def boundaryShare (root : CELL) (c : CellData) (invDx : ℚ) (j : Fin 8) : ℚ :=
  match (c.neighbors.get j).bind (deref root) with
  | none => 0
  | some n =>
    if n.boundary = true then
      n.potential * (if n.depth < c.depth then 1 / 2 * invDx else invDx)
    else 0

end CG_SOLVER

end Lumo

namespace Lumo

/-! ## QUAD_DBM_2D: choice of the cell to add -/

/-- The arithmetic of the program: sum, product and quotient of two floats, the
conversion of a `double` to `float` (as in `float random = _twister.getDoubleLR()`), and
the product of two doubles (as in `_candidates.size() * _twister.getDoubleLR()`). -/
structure FloatOps where
  add : ℚ → ℚ → ℚ
  mul : ℚ → ℚ → ℚ
  div : ℚ → ℚ → ℚ
  ofDouble : ℚ → ℚ
  mulDouble : ℚ → ℚ → ℚ

/-- Arithmetic without rounding. -/
def exactOps : FloatOps :=
  { add := fun a b => a + b, mul := fun a b => a * b, div := fun a b => a / b,
    ofDouble := fun a => a, mulDouble := fun a b => a * b }

/-- Exponent `e` with `2 ^ e ≤ q < 2 ^ (e + 1)` of a positive number, found in at most
`fuel` steps. -/
def floorLog2 : Nat → ℚ → Int
  | 0, _ => 0
  | fuel + 1, q =>
    if 2 ≤ q then floorLog2 fuel (q / 2) + 1
    else if q < 1 then floorLog2 fuel (q * 2) - 1
    else 0

/-- Round a non-negative number to the nearest integer, ties to even. -/
def roundEven (t : ℚ) : Int :=
  if t - Int.floor t < 1 / 2 then Int.floor t
  else if 1 / 2 < t - Int.floor t then Int.floor t + 1
  else if Int.floor t % 2 = 0 then Int.floor t
  else Int.floor t + 1

/-- Round to the nearest number with a 24-bit significand, ties to even: the value
of a `float` operation with the exact result `q` (overflow and subnormal numbers apart). -/
def roundF32 (q : ℚ) : ℚ :=
  if q = 0 then 0
  else
    (if q < 0 then -1 else 1) *
      (roundEven (|q| / (2 : ℚ) ^ (floorLog2 300 |q| - 23)) * (2 : ℚ) ^ (floorLog2 300 |q| - 23))

/-- Round to the nearest number with a 53-bit significand, ties to even: the value
of a `double` operation with the exact result `q` (overflow and subnormal numbers apart). -/
def roundF64 (q : ℚ) : ℚ :=
  if q = 0 then 0
  else
    (if q < 0 then -1 else 1) *
      (roundEven (|q| / (2 : ℚ) ^ (floorLog2 1100 |q| - 52)) * (2 : ℚ) ^ (floorLog2 1100 |q| - 52))

/-- Arithmetic of IEEE single precision, with the products of doubles in double
precision. -/
def f32Ops : FloatOps :=
  { add := fun a b => roundF32 (a + b), mul := fun a b => roundF32 (a * b),
    div := fun a b => roundF32 (a / b),
    ofDouble := roundF32, mulDouble := fun a b => roundF64 (a * b) }

namespace QUAD_DBM_2D

/-- The vector `probabilities` that `addParticle` builds from the candidate list; a
candidate is given by its `candidate` flag and its potential. -/
def probabilitiesOf (cands : List (Bool × ℚ)) : List ℚ :=
  cands.map (fun c => if c.1 = true then c.2 else 0)

/-- The sum `totalPotential` that `addParticle` accumulates over the candidate list. -/
def totalPotentialOf (ops : FloatOps) (cands : List (Bool × ℚ)) : ℚ :=
  cands.foldl (fun t c => if c.1 = true then ops.add t c.2 else t) 0

/-- The loop `while ((potentialSeen < random) && (toAddIndex < _candidates.size()))` of
`addParticle`; the state is `toAddIndex` and `potentialSeen`, the result the final
`toAddIndex` (`none`: `probabilities` is read outside its bounds). -/
def walkLoop (ops : FloatOps) (probabilities : List ℚ) (invTotalPotential random : ℚ) :
    Nat → Nat → ℚ → Option Nat
  | 0, _, _ => none
  | fuel + 1, toAddIndex, potentialSeen =>
    if potentialSeen < random ∧ toAddIndex < probabilities.length then
      match probabilities.get? (toAddIndex + 1) with
      | none => none
      | some p =>
        walkLoop ops probabilities invTotalPotential random fuel (toAddIndex + 1)
          (ops.add potentialSeen (ops.mul p invTotalPotential))
    else some toAddIndex

/-- The branch "follow the DBM algorithm" of `addParticle`: the index chosen by the
walk over the cumulative weights (`none`: `probabilities` is read outside its bounds). -/
def dbmIndex (ops : FloatOps) (probabilities : List ℚ) (totalPotential random : ℚ) :
    Option Nat :=
  match probabilities.get? 0 with
  | none => none
  | some p0 =>
    walkLoop ops probabilities (ops.div 1 totalPotential) random (probabilities.length + 2) 0
      (ops.mul p0 (ops.div 1 totalPotential))

end QUAD_DBM_2D

end Lumo

namespace Lumo

/-! ## DAG -/

/-- A pointer to a node of the graph: the positions in the `neighbors` vectors on the
way from the root down to the node (`[]` = the root). -/
abbrev NodePath := List Nat

/-- A node of the graph with the subtree it owns (`struct NODE`).  The `parent`
pointer is not stored: the parent of a node is the node whose `neighbors` hold it.
`maxDepthNode` points into the subtree of the node, `none` is the null pointer;
`intensity` is `none` until it is assigned.  `F` is the type of the intensities. -/
inductive NODE (F : Type) where
  | mk (index : Int) (neighbors : List (NODE F)) (leader secondary : Bool) (depth : Int)
      (maxDepthNode : Option NodePath) (intensity : Option F)

namespace NODE

variable {F : Type}

/-- Constructor `NODE(indexIn)`.  It assigns neither `intensity` nor `secondary`:
`intensity` is `none` here, which stands for a value that was never assigned, and
`secondary` is left as it is found, here `false`. -/
def new (indexIn : Int) : NODE F :=
  mk indexIn [] false false 0 none none

/-- Member `index`. -/
def index : NODE F → Int
  | mk i _ _ _ _ _ _ => i

/-- Member `neighbors`. -/
def neighbors : NODE F → List (NODE F)
  | mk _ ns _ _ _ _ _ => ns

/-- Member `leader`. -/
def leader : NODE F → Bool
  | mk _ _ l _ _ _ _ => l

/-- Member `secondary`. -/
def secondary : NODE F → Bool
  | mk _ _ _ s _ _ _ => s

/-- Member `depth`. -/
def depth : NODE F → Int
  | mk _ _ _ _ d _ _ => d

/-- Member `maxDepthNode`. -/
def maxDepthNode : NODE F → Option NodePath
  | mk _ _ _ _ _ m _ => m

/-- Member `intensity`. -/
def intensity : NODE F → Option F
  | mk _ _ _ _ _ _ it => it

mutual
/-- Dereference a pointer into the subtree of a node. -/
def nodeAt : NODE F → NodePath → Option (NODE F)
  | n, [] => some n
  | mk _ ns _ _ _ _ _, k :: rest => nodeAtList ns k rest
/-- Dereference a pointer that starts at position `k` of a vector of nodes. -/
def nodeAtList : List (NODE F) → Nat → NodePath → Option (NODE F)
  | [], _, _ => none
  | c :: _, 0, rest => nodeAt c rest
  | _ :: cs, k + 1, rest => nodeAtList cs k rest
end

mutual
/-- Apply `f` to the node a pointer points to. -/
def modifyAt (f : NODE F → NODE F) : NODE F → NodePath → NODE F
  | n, [] => f n
  | mk i ns l s d m it, k :: rest => mk i (modifyAtList f ns k rest) l s d m it
/-- Apply `f` to the node a pointer points to that starts at position `k` of a vector. -/
def modifyAtList (f : NODE F → NODE F) : List (NODE F) → Nat → NodePath → List (NODE F)
  | [], _, _ => []
  | c :: cs, 0, rest => modifyAt f c rest :: cs
  | c :: cs, k + 1, rest => c :: modifyAtList f cs k rest
end

/-- The call `node->neighbors.push_back(newNode)`. -/
def pushNeighbor (newNode : NODE F) : NODE F → NODE F
  | mk i ns l s d m it => mk i (ns ++ [newNode]) l s d m it

mutual
/-- Build the side branch: `DAG::buildBranch`. -/
def buildBranch : NODE F → Int → NODE F
  | mk i ns _ s _ m it, depth => mk i (buildBranchList ns (depth + 1)) false s depth m it
/-- The loop of `buildBranch` and of `buildLeader` over the neighbours:
`if (!(neighbors[x]->leader)) buildBranch(neighbors[x], depth)`. -/
def buildBranchList : List (NODE F) → Int → List (NODE F)
  | [], _ => []
  | mk i ns l s d m it :: rest, depth =>
    (if l = true then mk i ns l s d m it else buildBranch (mk i ns l s d m it) depth) ::
      buildBranchList rest depth
end

/-- Body of the loop `while (child != NULL)` of `buildLeader` for the node `child`:
tag it and build the side branches that start at it. -/
def tagLeader : NODE F → NODE F
  | mk i ns _ _ d m it => mk i (buildBranchList ns 1) true false d m it

mutual
/-- Find the deepest node below a node: `DAG::findDeepest`; the result is the pointer
`deepest` and the depth of the node it points to. -/
def findDeepest : NODE F → NodePath × Int
  | mk _ ns _ _ d _ _ => findDeepestList ns 0 ([], d)
/-- The loop of `findDeepest` over the neighbours from position `k` on; `best` is
the value of `deepest` so far. -/
def findDeepestList : List (NODE F) → Nat → NodePath × Int → NodePath × Int
  | [], _, best => best
  | c :: rest, k, best =>
    findDeepestList rest (k + 1)
      (if (findDeepest c).2 > best.2 then (k :: (findDeepest c).1, (findDeepest c).2) else best)
end

end NODE

/-- The constants of the shading: the intensity of the leader and the intensity of a
node of a side branch as a function of the depth of the deepest node of its channel
and of its own depth (computed with `log` and `exp` in the program). -/
structure Shading (F : Type) where
  leaderIntensity : F
  falloff : Int → Int → F

namespace NODE

variable {F : Type}

/-- The value of `maxDepthNode` after the test `if (endNode->maxDepthNode == NULL)`. -/
def deepestOf (endNode : NODE F) : NodePath :=
  match endNode.maxDepthNode with
  | some p => p
  | none => (findDeepest endNode).1

/-- The value `endNode->maxDepthNode->depth` (0 if the pointer is dangling). -/
def maxDepthOf (endNode : NODE F) : Int :=
  match nodeAt endNode (deepestOf endNode) with
  | some n => n.depth
  | none => 0

mutual
/-- Set the intensity of the nodes below a node: `DAG::buildIntensity`. -/
def buildIntensity (sh : Shading F) : NODE F → NODE F
  | mk i ns l s d m it => mk i (buildIntensityList sh ns) l s d m it
/-- The loop of `buildIntensity` over the neighbours of a node. -/
def buildIntensityList (sh : Shading F) : List (NODE F) → List (NODE F)
  | [] => []
  | mk i ns l s d m it :: rest =>
    (if l = true then mk i (buildIntensityList sh ns) l s d m (some sh.leaderIntensity)
     else mk i (buildIntensityList sh ns) l s d (some (deepestOf (mk i ns l s d m it)))
       (some (sh.falloff (maxDepthOf (mk i ns l s d m it)) d))) ::
      buildIntensityList sh rest
end

end NODE

/-- State of `class DAG` (the offscreen buffer apart); `hash` is the map `_hash`
from the index of a node to the pointer to it. -/
structure DAG (F : Type) where
  xRes : Int
  yRes : Int
  dx : ℚ
  dy : ℚ
  root : Option (NODE F)
  hash : List (Int × NodePath)
  totalNodes : Int
  bottomHit : Int
  inputWidth : Int
  inputHeight : Int

/-- A record of the file written by `writeNode`. -/
structure NodeRecord where
  index : Int
  parent : Int
  leader : Bool
  secondary : Bool
  depth : Int
  neighbors : List Int
  deriving DecidableEq, Repr

/-- The file written by `write`: the header and the records of the nodes. -/
structure DagFile where
  totalNodes : Int
  xRes : Int
  yRes : Int
  dx : ℚ
  dy : ℚ
  bottomHit : Int
  inputWidth : Int
  inputHeight : Int
  records : List NodeRecord
  deriving DecidableEq, Repr

namespace DAG

variable {F : Type}

/-- Constructor `DAG(xRes, yRes)`; the input size is left as it is found, here 0. -/
def new (xRes yRes : Int) : DAG F :=
  { xRes := xRes, yRes := yRes,
    dx := 1 / xRes,
    dy := if (1 : ℚ) / xRes < 1 / yRes then 1 / xRes else 1 / xRes,
    root := none, hash := [], totalNodes := 0, bottomHit := -1, inputWidth := 0, inputHeight := 0 }

/-- The call `_hash.find(key)` (`none`: the key is not in the map). -/
def find (hash : List (Int × α)) (key : Int) : Option α :=
  match hash with
  | [] => none
  | (k, v) :: rest => if k = key then some v else find rest key

/-- The call `_hash.insert(value_type(key, v))`: a key that is in the map keeps its value. -/
def hashInsert (hash : List (Int × α)) (key : Int) (v : α) : List (Int × α) :=
  match find hash key with
  | some _ => hash
  | none => hash ++ [(key, v)]

/-- Add a segment to the graph: `DAG::addSegment` (`none`: the parent is not in the
map, and the end iterator is dereferenced). -/
def addSegment (g : DAG F) (index neighbor : Int) : Option (DAG F) :=
  match g.root with
  | some r =>
    match find g.hash neighbor with
    | none => none
    | some p =>
      match NODE.nodeAt r p with
      | none => none
      | some parent =>
        some { g with
          root := some (NODE.modifyAt (NODE.pushNeighbor (NODE.new index)) r p),
          hash := hashInsert g.hash index (p ++ [parent.neighbors.length]),
          totalNodes := g.totalNodes + 1 }
  | none =>
    some { g with
      root := some (NODE.pushNeighbor (NODE.new index) (NODE.new neighbor)),
      hash := hashInsert (hashInsert g.hash neighbor []) index [0],
      totalNodes := g.totalNodes + 1 }

/-- The pointers that the loop `while (child != NULL)` of `buildLeader` visits from the
node `p` on: the node and its ancestors up to the root, the node first. -/
def ancestors : NodePath → List NodePath
  | [] => [[]]
  | k :: rest => (ancestors rest).map (fun q => k :: q) ++ [[]]

/-- The loop `while (child != NULL)` of `buildLeader`. -/
def crawl (r : NODE F) (p : NodePath) : NODE F :=
  (ancestors p).foldl (fun t q => NODE.modifyAt NODE.tagLeader t q) r

/-- Build the leader chain: `DAG::buildLeader` (`none`: the index is not in the map). -/
def buildLeader (sh : Shading F) (g : DAG F) (bottomHit : Int) : Option (DAG F) :=
  match find g.hash bottomHit with
  | none => none
  | some p =>
    match g.root with
    | none => none
    | some r =>
      some { g with bottomHit := bottomHit, root := some (NODE.buildIntensity sh (crawl r p)) }

mutual
/-- Write out a node after the nodes below it: `DAG::writeNode`; `parent` is the
value written for the parent, its index or -1. -/
def writeNode : NODE F → Int → List NodeRecord
  | NODE.mk i ns l s d _ _, parent =>
    writeNodeList ns i ++
      [{ index := i, parent := parent, leader := l, secondary := s, depth := d,
         neighbors := ns.map NODE.index }]
/-- The loop of `writeNode` over the neighbours. -/
def writeNodeList : List (NODE F) → Int → List NodeRecord
  | [], _ => []
  | c :: rest, parent => writeNode c parent ++ writeNodeList rest parent
end

/-- Dump the graph: `DAG::write` (`none`: there is no root). -/
def write (g : DAG F) : Option DagFile :=
  match g.root with
  | none => none
  | some r =>
    some { totalNodes := g.totalNodes, xRes := g.xRes, yRes := g.yRes, dx := g.dx, dy := g.dy,
           bottomHit := g.bottomHit, inputWidth := g.inputWidth, inputHeight := g.inputHeight,
           records := writeNode r (-1) }

/-- State of the loop of `read`: the map from the index to the node read for it, and `_root`. -/
structure ReadState (F : Type) where
  hash : List (Int × NODE F)
  root : Option (NODE F)

/-- The loop of `readNode` over the child indices of a record: look each one up. -/
def lookupAll (hash : List (Int × NODE F)) : List Int → Option (List (NODE F))
  | [] => some []
  | k :: rest =>
    match find hash k, lookupAll hash rest with
    | some n, some ns => some (n :: ns)
    | _, _ => none

/-- Read in a node: `DAG::readNode` (`none`: a child index is not in the map). -/
def readNode (st : ReadState F) (rec : NodeRecord) : Option (ReadState F) :=
  match lookupAll st.hash rec.neighbors with
  | none => none
  | some ns =>
    some { hash := hashInsert st.hash rec.index
             (NODE.mk rec.index ns rec.leader rec.secondary rec.depth none none),
           root := if rec.parent = -1 then
               some (NODE.mk rec.index ns rec.leader rec.secondary rec.depth none none)
             else st.root }

/-- The loop `for (x = 0; x <= _totalNodes; x++) readNode(file)`. -/
def readNodes : ReadState F → List NodeRecord → Option (ReadState F)
  | st, [] => some st
  | st, rec :: rest =>
    match readNode st rec with
    | none => none
    | some st1 => readNodes st1 rest

mutual
/-- The pointers to the nodes below a node and to the node, keyed by index, in the
order in which `writeNode` writes the nodes; `p` is the pointer to the node. -/
def pathsOf : NODE F → NodePath → List (Int × NodePath)
  | NODE.mk i ns _ _ _ _ _, p => pathsOfList ns p 0 ++ [(i, p)]
/-- The pointers to the nodes at and below the neighbours from position `k` on. -/
def pathsOfList : List (NODE F) → NodePath → Nat → List (Int × NodePath)
  | [], _, _ => []
  | c :: rest, p, k => pathsOf c (p ++ [k]) ++ pathsOfList rest p (k + 1)
end

/-- The map `_hash` after `read`: every node read is inserted under its index, in the
order of the records. -/
def hashOfTree (r : NODE F) : List (Int × NodePath) :=
  (pathsOf r []).foldl (fun h kv => hashInsert h kv.1 kv.2) []

/-- Read in a graph: `DAG::read` on the object `g` (`none`: the file is too short, a
child index is unknown, no record is a root, or the terminal index is unknown).  It
is assumed that every node read ends up below the root, as in a file that `write` wrote. -/
def read (sh : Shading F) (g : DAG F) (f : DagFile) : Option (DAG F) :=
  if f.records.length < (f.totalNodes + 1).toNat then none
  else
    match readNodes { hash := [], root := none } (f.records.take (f.totalNodes + 1).toNat) with
    | none => none
    | some st =>
      match st.root with
      | none => none
      | some r =>
        if f.bottomHit ≠ -1 then
          buildLeader sh
            { g with totalNodes := f.totalNodes, xRes := f.xRes, yRes := f.yRes, dx := f.dx,
                     dy := f.dy, bottomHit := f.bottomHit, inputWidth := f.inputWidth,
                     inputHeight := f.inputHeight, root := some r, hash := hashOfTree r }
            f.bottomHit
        else
          some { g with totalNodes := f.totalNodes, xRes := f.xRes, yRes := f.yRes, dx := f.dx,
                        dy := f.dy, bottomHit := f.bottomHit, inputWidth := f.inputWidth,
                        inputHeight := f.inputHeight, root := some r, hash := hashOfTree r }

end DAG

end Lumo

namespace Lumo

namespace CG_SOLVER

open CELL

/-! ## CG_SOLVER: the conjugate gradient iteration -/

/-- The loop `for (x = 0; x < _listSize; x++, cellIterator++) (*cellIterator)->index = x`
of `solve`, from the index `x` on. -/
def setIndices : CELL → List Addr → Int → CELL
  | root, [], _ => root
  | root, a :: rest, x =>
    setIndices (setData (fun c => { c with index := x }) root a) rest (x + 1)

/-- One round of the loop `for (int x = 0; x < 4; x++)` that sums over the neighbours, for
the face with the slots `i` and `i1 = i + 1`; `val` is what is read of a neighbour and
`sum` the value of `neighborSum` so far (`none`: a null pointer is dereferenced). -/
def faceSum (root : CELL) (c : CellData) (val : CellData → ℚ) (i i1 : Fin 8) (sum : ℚ) :
    Option ℚ :=
  match (c.neighbors.get i).bind (deref root) with
  | none => none
  | some n0 =>
    match c.neighbors.get i1 with
    | none => some (sum + val n0 * c.stencil.get i.castSucc)
    | some p1 =>
      match deref root p1 with
      | none => none
      | some n1 =>
        some (sum + val n0 * c.stencil.get i.castSucc + val n1 * c.stencil.get i1.castSucc)

/-- The value of `neighborSum` after the loop over the four faces. -/
def neighborSum (root : CELL) (c : CellData) (val : CellData → ℚ) : Option ℚ :=
  match faceSum root c val 0 1 0 with
  | none => none
  | some s1 =>
    match faceSum root c val 2 3 s1 with
    | none => none
    | some s2 =>
      match faceSum root c val 4 5 s2 with
      | none => none
      | some s3 => faceSum root c val 6 7 s3

/-- Calculate the residuals: `CG_SOLVER::calcResidual`; the result is the part of the
array `_residual` that is written (the largest absolute value, which the function
returns, is not used by `solve`). -/
def calcResidual (s : CG_SOLVER) (root : CELL) : List Addr → Option (List ℚ)
  | [] => some []
  | a :: rest =>
    match dataAt root a with
    | none => none
    | some c =>
      match readDx s c.depth, neighborSum root c (fun n => n.potential),
        calcResidual s root rest with
      | some _, some sum, some rs =>
        some ((c.b - (-sum + c.potential * c.stencil.get 8)) :: rs)
      | _, _, _ => none

/-- Read `_direction[idx]`: inside the part of the array in use the entry, outside of it
whatever value `junk idx` is found there. -/
def dirRead (junk : Int → ℚ) (direction : List ℚ) (idx : Int) : ℚ :=
  if 0 ≤ idx ∧ idx < direction.length then direction.getD idx.toNat 0 else junk idx

/-- The loop `q = Ad` of `solve` from the cell number `y` on: the entries of `_q`. -/
def calcQ (junk : Int → ℚ) (root : CELL) (direction : List ℚ) : List Addr → Nat → Option (List ℚ)
  | [], _ => some []
  | a :: rest, y =>
    match dataAt root a with
    | none => none
    | some c =>
      match neighborSum root c (fun n => dirRead junk direction n.index),
        calcQ junk root direction rest (y + 1) with
      | some sum, some qs => some ((-sum + direction.getD y 0 * c.stencil.get 8) :: qs)
      | _, _ => none

/-- The sum `a[0] * b[0] + a[1] * b[1] + ...`, accumulated from 0. -/
def dot (a b : List ℚ) : ℚ :=
  (List.zipWith (fun x y => x * y) a b).foldl (fun t z => t + z) 0

/-- The loop `(*cellIterator)->potential += alpha * _direction[x]` from the cell number
`x` on. -/
def addPotentials (alpha : ℚ) (direction : List ℚ) : CELL → List Addr → Nat → CELL
  | root, [], _ => root
  | root, a :: rest, x =>
    addPotentials alpha direction
      (setData (fun c => { c with potential := c.potential + alpha * direction.getD x 0 }) root a)
      rest (x + 1)

/-- The value of `maxR` after the loop `maxR = (_residual[x] > maxR) ? _residual[x] : maxR`. -/
def maxResidual (residual : List ℚ) : ℚ :=
  residual.foldl (fun m r => if r > m then r else m) 0

/-- The variables of `solve` that live across the iterations: the tree with the
potentials, the parts in use of `_direction` and `_residual`, `deltaNew`, `maxR` and `i`. -/
structure SolveState where
  root : CELL
  direction : List ℚ
  residual : List ℚ
  deltaNew : ℚ
  maxR : ℚ
  i : Int

/-- The value of `eps`: `pow(10.0f, (float)-_digits)`. -/
def eps (s : CG_SOLVER) : ℚ :=
  (10 : ℚ) ^ (-s.digits)

/-- The condition of the loop of `solve`. -/
@[reducible] def solveGuard (s : CG_SOLVER) (st : SolveState) : Prop :=
  st.i < s.iterations ∧ st.maxR > eps s

/-- The value of `alpha` from the pivot `transpose(d) * q`:
`if (fabs(alpha) > 0.0f) alpha = deltaNew / alpha`. -/
def alphaOf (deltaNew pivot : ℚ) : ℚ :=
  if |pivot| > 0 then deltaNew / pivot else pivot

/-- The loop `_residual[x] -= _q[x] * alpha`. -/
def newResidual (alpha : ℚ) (residual q : List ℚ) : List ℚ :=
  List.zipWith (fun r z => r - z * alpha) residual q

/-- The loop `_direction[x] = _residual[x] + beta * _direction[x]`. -/
def newDirection (beta : ℚ) (residual direction : List ℚ) : List ℚ :=
  List.zipWith (fun r d => r + beta * d) residual direction

/-- Body of the loop of `solve` behind `q = Ad`: `alpha`, the new potentials, the new
residual with `maxR`, `deltaNew`, `beta`, the new direction and `i`.  The division
`beta = deltaNew / deltaOld` has no test in the program: at `deltaOld = 0` the quotient
is 0 here, where the program gets a NaN or an infinity and stores it in `_direction`, so
that the field `direction` is the array of the program only behind a round with
`deltaOld` other than 0. -/
def advance (cells : List Addr) (st : SolveState) (q : List ℚ) : SolveState :=
  let alpha := alphaOf st.deltaNew (dot st.direction q)
  let res := newResidual alpha st.residual q
  { root := addPotentials alpha st.direction st.root cells 0,
    direction := newDirection (dot res res / st.deltaNew) res st.direction,
    residual := res,
    deltaNew := dot res res,
    maxR := maxResidual res,
    i := st.i + 1 }

/-- Body of the loop of `solve` (`none`: a null pointer is dereferenced). -/
def solveBody (junk : Int → ℚ) (cells : List Addr) (st : SolveState) : Option SolveState :=
  match calcQ junk st.root st.direction cells 0 with
  | none => none
  | some q => some (advance cells st q)

/-- The loop `while ((i < _iterations) && (maxR > eps))` of `solve`, with the number of
rounds left. -/
def solveLoop (s : CG_SOLVER) (junk : Int → ℚ) (cells : List Addr) :
    Nat → SolveState → Option SolveState
  | 0, st => if solveGuard s st then none else some st
  | fuel + 1, st =>
    if solveGuard s st then
      match solveBody junk cells st with
      | none => none
      | some st1 => solveLoop s junk cells fuel st1
    else some st

/-- The state of `solve` when the loop is entered: stencils, indices, `r = b - Ax`,
`d = r`, `deltaNew`, `maxR = 2 eps`, `i = 0`. -/
def solveInit (s : CG_SOLVER) (root : CELL) (cells : List Addr) : Option SolveState :=
  match calcStencils s root cells with
  | none => none
  | some r1 =>
    match calcResidual s (setIndices r1 cells 0) cells with
    | none => none
    | some res =>
      some { root := setIndices r1 cells 0, direction := res, residual := res,
             deltaNew := dot res res, maxR := 2 * eps s, i := 0 }

/-- Conjugate gradient solver: `CG_SOLVER::solve`; the result is the number of
iterations and the tree with the new potentials. -/
def solve (s : CG_SOLVER) (junk : Int → ℚ) (root : CELL) (cells : List Addr) :
    Option (Int × CELL) :=
  match solveInit s root cells with
  | none => none
  | some st0 =>
    match solveLoop s junk cells s.iterations.toNat st0 with
    | none => none
    | some st => some (st.i, st.root)

end CG_SOLVER

end Lumo

namespace Lumo

/-! ## QUAD_DBM_2D -/

/-- State of `class QUAD_DBM_2D` that `addParticle`, `hitGround`, `checkForCandidates`
and `readImage` use: the members `_xRes`, `_yRes`, `_bottomHit`, `_quadPoisson` (the tree
with `_maxRes` and `_maxDepth`, and its solver), `_dag`, `_candidates` and `_skips`, and
the static variables `totalParticles` and `skipSolve` of `addParticle` and `firstSolve`
and `iterations` of `QUAD_POISSON::solve`.  The draws of `_twister` are arguments of the
functions. -/
structure QUAD_DBM_2D (F : Type) where
  xRes : Int
  yRes : Int
  bottomHit : Int
  mesh : QUAD_POISSON
  solver : CG_SOLVER
  dag : DAG F
  candidates : List Addr
  skips : Int
  totalParticles : Int
  skipSolve : Int
  firstSolve : Bool
  savedIterations : Int

namespace QUAD_DBM_2D

open CELL QUAD_POISSON

variable {F : Type}

/-- Field `c->state` for the cell at address `a` (`EMPTY` for a dangling pointer). -/
def stateAt (root : CELL) (a : Addr) : CELL_STATE :=
  match dataAt root a with
  | some d => d.state
  | none => CELL_STATE.EMPTY

/-- The flattened grid index of a cell:
`(int)(cell->center[0] * _xRes) + (int)(cell->center[1] * _yRes) * _xRes`. -/
def flatIndex (xRes yRes : Int) (d : CellData) : Int :=
  truncate (d.centerX * xRes) + truncate (d.centerY * yRes) * xRes

/-! ### checkForCandidates -/

/-- The block `if (p && !p->candidate) { _candidates.push_back(p); p->candidate = true; }`
for the pointer `p`. -/
def noteCandidate (st : QUAD_DBM_2D F) (p : Option Addr) : QUAD_DBM_2D F :=
  match p with
  | none => st
  | some a =>
    match dataAt st.mesh.root a with
    | none => st
    | some d =>
      if d.candidate = false then
        { st with
          candidates := st.candidates ++ [a],
          mesh := { st.mesh with
            root := setData (fun c => { c with candidate := true }) st.mesh.root a } }
      else st

/-- The cell `side` north or south of the cell and the cells east and west of `side`; the
lookups do not read the flags that are written in between. -/
def noteSide (st : QUAD_DBM_2D F) (side : Addr) : QUAD_DBM_2D F :=
  noteCandidate
    (noteCandidate (noteCandidate st (some side)) (eastNeighbor st.mesh.root side))
    (westNeighbor st.mesh.root side)

/-- Check the neighbours of a cell for candidates: `QUAD_DBM_2D::checkForCandidates`.  The
lookups are written for the tree before the call: they read the children of the cells,
which the writes of the `candidate` flags leave alone. -/
def checkForCandidates (st : QUAD_DBM_2D F) (cell : Addr) : QUAD_DBM_2D F :=
  let s1 :=
    match northNeighbor st.mesh.root cell with
    | some north =>
      if depthAt st.mesh.root north = st.mesh.maxDepth then noteSide st north else st
    | none => st
  let s2 := noteCandidate s1 (eastNeighbor st.mesh.root cell)
  let s3 :=
    match southNeighbor st.mesh.root cell with
    | some south => noteSide s2 south
    | none => s2
  noteCandidate s3 (westNeighbor st.mesh.root cell)

/-! ### hitGround -/

/-- The test `if (p->state == POSITIVE) hit = true` for a pointer `p` that is tested
before (`if (cell->eastNeighbor())`): the value of `hit` afterwards. -/
def hitOrtho (root : CELL) (p : Option Addr) (hit : Bool) : Bool :=
  match p with
  | none => hit
  | some a => if stateAt root a = CELL_STATE.POSITIVE then true else hit

/-- The block `if (cell->northNeighbor()) { ... }` of `hitGround`, and the one for the
south, with `side` the neighbour: the value of `hit` afterwards (`none`: `side` has no
eastern or no western neighbour, and a null pointer is dereferenced). -/
def hitSide (root : CELL) (side : Option Addr) (hit : Bool) : Option Bool :=
  match side with
  | none => some hit
  | some n =>
    match eastNeighbor root n with
    | none => none
    | some e =>
      match westNeighbor root n with
      | none => none
      | some w =>
        some (hitOrtho root (some w) (hitOrtho root (some e) (hitOrtho root (some n) hit)))

/-- The value of `hit` after the four blocks of `hitGround`. -/
def hitScan (root : CELL) (cell : Addr) : Option Bool :=
  match hitSide root (northNeighbor root cell) false with
  | none => none
  | some h1 =>
    match hitSide root (southNeighbor root cell) (hitOrtho root (eastNeighbor root cell) h1) with
    | none => none
    | some h3 => some (hitOrtho root (westNeighbor root cell) h3)

/-- Hit ground yet: `QUAD_DBM_2D::hitGround`; the result is the value returned and the
state afterwards (`none`: a null pointer is dereferenced, here or in `buildLeader`). -/
def hitGround (sh : Shading F) (st : QUAD_DBM_2D F) (cell : Option Addr) :
    Option (Bool × QUAD_DBM_2D F) :=
  if st.bottomHit ≠ 0 then some (true, st)
  else
    match cell with
    | none => some (false, st)
    | some c =>
      match hitScan st.mesh.root c with
      | none => none
      | some false => some (false, st)
      | some true =>
        match dataAt st.mesh.root c with
        | none => none
        | some d =>
          match DAG.buildLeader sh st.dag (flatIndex st.xRes st.yRes d) with
          | none => none
          | some g => some (true, { st with bottomHit := flatIndex st.xRes st.yRes d, dag := g })

/-! ### QUAD_POISSON::solve -/

/-- Solve the Poisson problem: `QUAD_POISSON::solve` on the tree and the solver of the
state; the result is the number of iterations and the state afterwards. -/
def solvePoisson (junk : Int → ℚ) (st : QUAD_DBM_2D F) : Option (Int × QUAD_DBM_2D F) :=
  match balance st.mesh.root with
  | none => none
  | some r0 =>
    match buildNeighbors r0 with
    | none => none
    | some r1 =>
      match CG_SOLVER.solve
        { st.solver with iterations := if st.firstSolve then 10000 else st.savedIterations }
        junk r1 (getEmptyLeaves r1) with
      | none => none
      | some (n, r2) =>
        some (n, { st with
          mesh := { st.mesh with root := r2, emptyLeaves := getEmptyLeaves r1 },
          solver :=
            { st.solver with iterations := if st.firstSolve then 10000 else st.savedIterations },
          firstSolve := false,
          savedIterations := if st.firstSolve then st.solver.iterations else st.savedIterations })

/-! ### addParticle -/

/-- The `candidate` flag and the potential of the cells of the candidate list. -/
def candidateData (root : CELL) (cands : List Addr) : List (Bool × ℚ) :=
  cands.map (fun a =>
    match dataAt root a with
    | some d => (d.candidate, d.potential)
    | none => (false, 0))

/-- The value of `toAddIndex` that `addParticle` chooses, with the draw `random` of the
twister, a `double`: below the total potential `1e-8` the Brownian choice, the product
`_candidates.size() * random` of two doubles converted to `int`, else the walk over the
cumulative weights with the draw stored in a `float`. -/
def chooseIndex (ops : FloatOps) (cands : List (Bool × ℚ)) (random : ℚ) : Option Nat :=
  if totalPotentialOf ops cands < 1 / 100000000 then
    some (truncate (ops.mulDouble (cands.length : ℚ) random)).toNat
  else
    dbmIndex ops (probabilitiesOf cands) (totalPotentialOf ops cands) (ops.ofDouble random)

/-- What `addParticle` writes to the cell it adds. -/
def markFilled (c : CellData) : CellData :=
  { c with boundary := true, potential := 0, state := CELL_STATE.NEGATIVE }

/-- The statement `if (p && p->state == NEGATIVE) neighbor = p`: the value of `neighbor`
afterwards. -/
def pickFilled (root : CELL) (p : Option Addr) (neighbor : Option Addr) : Option Addr :=
  match p with
  | none => neighbor
  | some a => if stateAt root a = CELL_STATE.NEGATIVE then some a else neighbor

/-- The block `if (north) { ... }` of the search for the parent, and the one for the south,
with `side` the neighbour: the value of `neighbor` afterwards. -/
def pickSide (root : CELL) (side : Option Addr) (neighbor : Option Addr) : Option Addr :=
  match side with
  | none => neighbor
  | some n =>
    pickFilled root (westNeighbor root n)
      (pickFilled root (eastNeighbor root n) (pickFilled root (some n) neighbor))

/-- The value of `neighbor` in `addParticle` after the neighbours of the cell `added` have
been examined. -/
def growthParent (root : CELL) (added : Addr) : Option Addr :=
  pickFilled root (westNeighbor root added)
    (pickSide root (southNeighbor root added)
      (pickFilled root (eastNeighbor root added)
        (pickSide root (northNeighbor root added) none)))

/-- The first lines of `addParticle`: the solve unless `skipSolve` says to skip it, and
the new value of `skipSolve`. -/
def solveStep (junk : Int → ℚ) (st : QUAD_DBM_2D F) : Option (QUAD_DBM_2D F) :=
  match (if st.skipSolve = 0 then (solvePoisson junk st).map Prod.snd else some st) with
  | none => none
  | some s1 =>
    some { s1 with skipSolve := if s1.skipSolve + 1 = s1.skips then 0 else s1.skipSolve + 1 }

/-- The lines of `addParticle` from the marking of the chosen cell `added` on. -/
def accept (sh : Shading F) (st : QUAD_DBM_2D F) (added : Addr) :
    Option (Bool × QUAD_DBM_2D F) :=
  match dataAt (setData markFilled st.mesh.root added) added with
  | none => none
  | some da =>
    match QUAD_POISSON.insert { st.mesh with root := setData markFilled st.mesh.root added }
      da.centerX da.centerY with
    | none => none
    | some (m4, _) =>
      match dataAt (checkForCandidates { st with mesh := m4 } added).mesh.root added,
        (growthParent (setData markFilled st.mesh.root added) added).bind
          (dataAt (checkForCandidates { st with mesh := m4 } added).mesh.root) with
      | some d1, some d2 =>
        match DAG.addSegment st.dag (flatIndex st.xRes st.yRes d1)
          (flatIndex st.xRes st.yRes d2) with
        | none => none
        | some g =>
          match hitGround sh
            { checkForCandidates { st with mesh := m4 } added with
              dag := g, totalParticles := st.totalParticles + 1 } (some added) with
          | none => none
          | some (_, s6) => some (true, s6)
      | _, _ => none

/-- Add a particle to the aggregate: `QUAD_DBM_2D::addParticle`, with the draw `random` of
the twister; the result is the value returned and the state afterwards. -/
def addParticle (ops : FloatOps) (sh : Shading F) (junk : Int → ℚ) (st : QUAD_DBM_2D F)
    (random : ℚ) : Option (Bool × QUAD_DBM_2D F) :=
  match solveStep junk st with
  | none => none
  | some s2 =>
    if s2.candidates.length = 0 then some (false, s2)
    else
      match chooseIndex ops (candidateData s2.mesh.root s2.candidates) random with
      | none => none
      | some k =>
        match s2.candidates.get? k with
        | none => none
        | some added => accept sh s2 added

/-! ### readImage -/

/-- Read `mask[i]`: inside the array the pixel, outside of it whatever `junk i` is found
there. -/
def maskAt (junk : Int → Bool) (mask : List Bool) (i : Int) : Bool :=
  if 0 ≤ i ∧ i < mask.length then mask.getD i.toNat false else junk i

/-- What `readImage` writes to the cell of a start pixel. -/
def markInitial (c : CellData) : CellData :=
  { c with boundary := true, potential := 0, state := CELL_STATE.NEGATIVE, candidate := true }

/-- What `readImage` writes to the cell of an attractor pixel. -/
def markAttractor (c : CellData) : CellData :=
  { c with boundary := true, potential := 1, state := CELL_STATE.ATTRACTOR, candidate := true }

/-- What `readImage` writes to the cell of a repulsor pixel. -/
def markRepulsor (c : CellData) : CellData :=
  { c with boundary := true, potential := 0, state := CELL_STATE.REPULSOR, candidate := true }

/-- What `readImage` writes to the cell of a terminator pixel. -/
def markTerminator (c : CellData) : CellData :=
  { c with boundary := true, potential := 1, state := CELL_STATE.POSITIVE, candidate := true }

/-- The call `_quadPoisson->insert(x, y)` with the grid indices `x` and `y`, that is
`insert((float)x / _maxRes, (float)y / _maxRes)`, and the writes `mark` to the cell it
returns. -/
def insertMarked (mark : CellData → CellData) (st : QUAD_DBM_2D F) (x y : Int) :
    Option (QUAD_DBM_2D F × Addr) :=
  match QUAD_POISSON.insert st.mesh ((x : ℚ) / st.mesh.maxRes) ((y : ℚ) / st.mesh.maxRes) with
  | none => none
  | some (m1, c) => some ({ st with mesh := { m1 with root := setData mark m1.root c } }, c)

/-- The value of `edge` for the repulsor pixel `(x, y)` with the number `index`: a pixel
next to it is not set; `xResMesh` is the member `_xRes`, `w` and `h` are the arguments
`xRes` and `yRes`. -/
def repulsorEdge (junk : Int → Bool) (repulsors : List Bool) (xResMesh w h x y index : Int) :
    Bool :=
  (decide (x ≠ 0) &&
    (!maskAt junk repulsors (index - 1) ||
      (decide (y ≠ 0) && !maskAt junk repulsors (index - w - 1)) ||
      (decide (y ≠ h - 1) && !maskAt junk repulsors (index + w - 1)))) ||
  (decide (x ≠ xResMesh - 1) &&
    (!maskAt junk repulsors (index + 1) ||
      (decide (y ≠ 0) && !maskAt junk repulsors (index - w + 1)) ||
      (decide (y ≠ h - 1) && !maskAt junk repulsors (index + w + 1)))) ||
  (decide (y ≠ 0) && !maskAt junk repulsors (index - w)) ||
  (decide (y ≠ h - 1) && !maskAt junk repulsors (index + w))

/-- The variables of the loops of `readImage`: the state of the object, `initialFound`
and `terminateFound`. -/
structure Scan (F : Type) where
  st : QUAD_DBM_2D F
  initialFound : Bool
  terminateFound : Bool

/-- The block `if (initial[index]) { ... }`. -/
def initialStep (junk : Int → Bool) (initial : List Bool) (x y index : Int) (s : Scan F) :
    Option (Scan F) :=
  if maskAt junk initial index = true then
    match insertMarked markInitial s.st x y with
    | none => none
    | some (st1, c) => some { s with st := checkForCandidates st1 c, initialFound := true }
  else some s

/-- The block `if (attractors[index]) { ... }`. -/
def attractorStep (junk : Int → Bool) (attractors : List Bool) (x y index : Int) (s : Scan F) :
    Option (Scan F) :=
  if maskAt junk attractors index = true then
    match insertMarked markAttractor s.st x y with
    | none => none
    | some (st1, _) => some { s with st := st1 }
  else some s

/-- The block `if (repulsors[index]) { ... }`. -/
def repulsorStep (junk : Int → Bool) (repulsors : List Bool) (w h x y index : Int)
    (s : Scan F) : Option (Scan F) :=
  if maskAt junk repulsors index = true ∧
      repulsorEdge junk repulsors s.st.xRes w h x y index = true then
    match insertMarked markRepulsor s.st x y with
    | none => none
    | some (st1, _) => some { s with st := st1 }
  else some s

/-- The block `if (terminators[index]) { ... }`. -/
def terminatorStep (junk : Int → Bool) (terminators : List Bool) (x y index : Int)
    (s : Scan F) : Option (Scan F) :=
  if maskAt junk terminators index = true then
    match insertMarked markTerminator s.st x y with
    | none => none
    | some (st1, _) => some { s with st := st1, terminateFound := true }
  else some s

/-- Body of the inner loop of `readImage` for the pixel `(x, y)` with the number `index`. -/
def pixelStep (junk : Int → Bool) (initial attractors repulsors terminators : List Bool)
    (w h x y index : Int) (s : Scan F) : Option (Scan F) :=
  match initialStep junk initial x y index s with
  | none => none
  | some s1 =>
    match attractorStep junk attractors x y index s1 with
    | none => none
    | some s2 =>
      match repulsorStep junk repulsors w h x y index s2 with
      | none => none
      | some s3 => terminatorStep junk terminators x y index s3

/-- The loop `for (int x = 0; x < xRes; x++, index++)` of `readImage` over the values of
`x` still to come; the result carries the value of `index` afterwards. -/
def rowLoop (junk : Int → Bool) (initial attractors repulsors terminators : List Bool)
    (w h y : Int) : List Nat → Int → Scan F → Option (Int × Scan F)
  | [], index, s => some (index, s)
  | x :: xs, index, s =>
    match pixelStep junk initial attractors repulsors terminators w h x y index s with
    | none => none
    | some s1 => rowLoop junk initial attractors repulsors terminators w h y xs (index + 1) s1

/-- The loop `for (int y = 0; y < yRes; y++)` of `readImage` over the values of `y` still
to come. -/
def imageLoop (junk : Int → Bool) (initial attractors repulsors terminators : List Bool)
    (w h : Int) : List Nat → Int → Scan F → Option (Int × Scan F)
  | [], index, s => some (index, s)
  | y :: ys, index, s =>
    match rowLoop junk initial attractors repulsors terminators w h y
      (List.range w.toNat) index s with
    | none => none
    | some (index1, s1) =>
      imageLoop junk initial attractors repulsors terminators w h ys index1 s1

/-- Read the boundary conditions from the four masks: `QUAD_DBM_2D::readImage`; a mask is
the list of its pixels, `true` for a pixel that is not 0; the result is the value
returned and the state afterwards. -/
def readImage (junk : Int → Bool) (st : QUAD_DBM_2D F)
    (initial attractors repulsors terminators : List Bool) (xRes yRes : Int) :
    Option (Bool × QUAD_DBM_2D F) :=
  match imageLoop junk initial attractors repulsors terminators xRes yRes
    (List.range yRes.toNat) 0
    { st := { st with dag := { st.dag with inputWidth := xRes, inputHeight := yRes } },
      initialFound := false, terminateFound := false } with
  | none => none
  | some (_, s) =>
    if s.initialFound = false then some (false, s.st)
    else if s.terminateFound = false then some (false, s.st)
    else some (true, s.st)

end QUAD_DBM_2D

end Lumo

namespace Lumo

/-! ## The constructors of the mesh and of the simulation -/

namespace QUAD_POISSON

open CELL

/-- The maximum depth that the constructor computes for a resolution, in exact arithmetic:
`log(res) / log(2)` rounded up, the smallest `k` with `res <= 2 ^ k`. -/
def depthFor (res : Nat) : Nat :=
  ((List.range (res + 1)).find? (fun k => decide (res ≤ 2 ^ k))).getD 0

/-- Constructor `QUAD_POISSON(xRes, yRes, iterations)`, the solver apart: the unit square
refined once, the maximum depth for the larger one of the two resolutions, and the noise
array as the blue noise generator fills it. -/
def new (xRes yRes : Int) (noise : List Bool) : QUAD_POISSON :=
  { root := refineAt (CELL.leaf (CellData.new 1 1 0 0 0)) [],
    maxRes := 2 ^ depthFor (max xRes yRes).toNat,
    maxDepth := depthFor (max xRes yRes).toNat,
    noise := noise, smallestLeaves := [], emptyLeaves := [] }

end QUAD_POISSON

namespace QUAD_DBM_2D

/-- Constructor `QUAD_DBM_2D(xRes, yRes, iterations)`.  The static variables
`totalParticles` and `skipSolve` of `addParticle` and `firstSolve` and `iterations` of
`QUAD_POISSON::solve` belong to the process and not to the object: the constructor finds
them as the process has left them, and they are arguments here. -/
def new (F : Type) (xRes yRes iterations : Int) (noise : List Bool)
    (totalParticles skipSolve : Int) (firstSolve : Bool) (savedIterations : Int) :
    QUAD_DBM_2D F :=
  { xRes := (QUAD_POISSON.new xRes yRes noise).maxRes,
    yRes := (QUAD_POISSON.new xRes yRes noise).maxRes,
    bottomHit := 0,
    mesh := QUAD_POISSON.new xRes yRes noise,
    solver := CG_SOLVER.new (QUAD_POISSON.new xRes yRes noise).maxDepth iterations 8,
    dag := DAG.new (QUAD_POISSON.new xRes yRes noise).maxRes
      (QUAD_POISSON.new xRes yRes noise).maxRes,
    candidates := [], skips := 10,
    totalParticles := totalParticles, skipSolve := skipSolve, firstSolve := firstSolve,
    savedIterations := savedIterations }

/-- The object that the constructor makes in a process in which no particle has been added
and nothing has been solved yet. -/
def fresh (F : Type) (xRes yRes iterations : Int) (noise : List Bool) : QUAD_DBM_2D F :=
  new F xRes yRes iterations noise 0 0 true iterations

end QUAD_DBM_2D

end Lumo

namespace Lumo

namespace CELL

/-! ## Cells of a tree and writes through a pointer -/

theorem child_isSome (c : CELL) (q : Quadrant) : (c.child q).isSome = c.hasChildren := by
  cases c <;> cases q <;> rfl

theorem child_eq_none (c : CELL) (q : Quadrant) (h : c.hasChildren = false) : c.child q = none := by
  cases c <;> cases q <;> simp_all [hasChildren, child]

theorem cellAtPath_append (t : CELL) (r s : List Quadrant) :
    cellAtPath t (r ++ s) = (cellAtPath t r).bind (fun c => cellAtPath c s) := by
  induction r generalizing t with
  | nil => simp [cellAtPath]
  | cons q r ih =>
    simp only [List.cons_append, cellAtPath]
    cases h : t.child q with
    | none => simp
    | some c => simp [ih]

theorem cellAt_nil (root : CELL) : cellAt root [] = some root := rfl

theorem cellAt_cons (root : CELL) (q : Quadrant) (p : Addr) :
    cellAt root (q :: p) = (cellAt root p).bind (fun c => c.child q) := by
  unfold cellAt
  rw [List.reverse_cons, cellAtPath_append]
  congr 1
  funext c
  simp only [cellAtPath]
  cases c.child q <;> rfl

theorem cellAt_cons_isSome (root : CELL) (q : Quadrant) (p : Addr) :
    (cellAt root (q :: p)).isSome = kidsAt root p := by
  rw [cellAt_cons, kidsAt]
  cases h : cellAt root p with
  | none => rfl
  | some c => simp [child_isSome]

theorem kidsAt_isSome (root : CELL) (a : Addr) (h : kidsAt root a = true) :
    (cellAt root a).isSome = true := by
  unfold kidsAt at h
  cases h1 : cellAt root a with
  | none => simp [h1] at h
  | some c => rfl

/-- Shape and data after a write through a root-first path, for a function that
keeps the children of the cell it is applied to. -/
theorem cellAtPath_modifyPath_mapData (g : CellData → CellData) (t : CELL) (r s : List Quadrant) :
    (cellAtPath (modifyPath (mapData g) t r) s).map hasChildren = (cellAtPath t s).map hasChildren ∧
    (cellAtPath (modifyPath (mapData g) t r) s).map data =
      if s = r then (cellAtPath t s).map (fun c => g c.data) else (cellAtPath t s).map data := by
  induction r generalizing t s with
  | nil =>
    cases s with
    | nil => cases t <;> simp [modifyPath, cellAtPath, mapData, hasChildren, data]
    | cons q s => cases t <;> cases q <;> simp [modifyPath, cellAtPath, mapData, child]
  | cons q r ih =>
    cases t with
    | leaf d =>
      cases s with
      | nil => simp [modifyPath, cellAtPath]
      | cons k s => simp [modifyPath, cellAtPath, child]
    | node d c0 c1 c2 c3 =>
      cases s with
      | nil => cases q <;> simp [modifyPath, cellAtPath, hasChildren, data]
      | cons k s =>
        cases q <;> cases k <;> simp [modifyPath, cellAtPath, child, ih]

theorem cellAtPath_modifyPath_refine_kids (t : CELL) (r s : List Quadrant) :
    ((cellAtPath (modifyPath refine t r) s).map hasChildren).getD false =
      (((cellAtPath t s).map hasChildren).getD false ||
        (decide (s = r) && (cellAtPath t r).isSome)) := by
  induction r generalizing t s with
  | nil =>
    cases s with
    | nil => cases t <;> simp [modifyPath, cellAtPath, refine, hasChildren]
    | cons k s =>
      cases t with
      | leaf d => cases k <;> cases s <;> simp [modifyPath, cellAtPath, refine, child, hasChildren]
      | node d c0 c1 c2 c3 => simp [modifyPath, cellAtPath, refine]
  | cons q r ih =>
    cases t with
    | leaf d =>
      cases s with
      | nil => simp [modifyPath, cellAtPath, child]
      | cons k s => simp [modifyPath, cellAtPath, child]
    | node d c0 c1 c2 c3 =>
      cases s with
      | nil => cases q <;> simp [modifyPath, cellAtPath, hasChildren]
      | cons k s =>
        cases q <;> cases k <;> simp [modifyPath, cellAtPath, child, ih]

theorem cellAtPath_modifyPath_refine_data (t : CELL) (r s : List Quadrant) (c : CELL)
    (h : cellAtPath t s = some c) :
    (cellAtPath (modifyPath refine t r) s).map data = some c.data := by
  induction r generalizing t s with
  | nil =>
    cases s with
    | nil =>
      simp only [cellAtPath, Option.some.injEq] at h
      subst h
      cases t <;> simp [modifyPath, cellAtPath, refine, data]
    | cons k s =>
      cases t with
      | leaf d => simp [cellAtPath, child] at h
      | node d c0 c1 c2 c3 => simp [modifyPath, refine, h]
  | cons q r ih =>
    cases t with
    | leaf d => simp [modifyPath, h]
    | node d c0 c1 c2 c3 =>
      cases s with
      | nil =>
        simp only [cellAtPath, Option.some.injEq] at h
        subst h
        cases q <;> simp [modifyPath, cellAtPath, data]
      | cons k s =>
        cases q <;> cases k <;> simp_all [modifyPath, cellAtPath, child]

theorem cellAtPath_modifyPath_refine_child (t : CELL) (r : List Quadrant) (d : CellData)
    (q : Quadrant) (h : cellAtPath t r = some (leaf d)) :
    cellAtPath (modifyPath refine t r) (r ++ [q]) = some (leaf (childData d q)) := by
  induction r generalizing t with
  | nil =>
    simp only [cellAtPath, Option.some.injEq] at h
    subst h
    cases q <;> simp [modifyPath, cellAtPath, refine, child]
  | cons k r ih =>
    cases t with
    | leaf d1 => simp [cellAtPath, child] at h
    | node d1 c0 c1 c2 c3 =>
      cases k <;> simp_all [modifyPath, cellAtPath, child]

/-! ### The same facts for addresses -/

theorem kidsAt_eq (root : CELL) (a : Addr) :
    kidsAt root a = ((cellAt root a).map hasChildren).getD false := by
  unfold kidsAt
  cases cellAt root a <;> rfl

theorem kidsAt_refineAt (root : CELL) (a b : Addr) :
    kidsAt (refineAt root a) b =
      (kidsAt root b || (decide (b = a) && (cellAt root a).isSome)) := by
  rw [kidsAt_eq, kidsAt_eq]
  unfold refineAt modifyAt cellAt
  rw [cellAtPath_modifyPath_refine_kids]
  simp [List.reverse_inj]

theorem dataAt_refineAt (root : CELL) (a b : Addr) (d : CellData) (h : dataAt root b = some d) :
    dataAt (refineAt root a) b = some d := by
  unfold dataAt at h
  cases hc : cellAt root b with
  | none => simp [hc] at h
  | some c =>
    simp only [hc, Option.map_some', Option.some.injEq] at h
    subst h
    exact cellAtPath_modifyPath_refine_data root a.reverse b.reverse c hc

theorem dataAt_refineAt_child (root : CELL) (a : Addr) (d : CellData) (q : Quadrant)
    (h : cellAt root a = some (leaf d)) :
    dataAt (refineAt root a) (q :: a) = some (childData d q) := by
  unfold dataAt refineAt modifyAt cellAt
  rw [List.reverse_cons, cellAtPath_modifyPath_refine_child root a.reverse d q h]
  rfl

theorem kidsAt_setData (g : CellData → CellData) (root : CELL) (a b : Addr) :
    kidsAt (setData g root a) b = kidsAt root b := by
  rw [kidsAt_eq, kidsAt_eq]
  unfold setData modifyAt cellAt
  rw [(cellAtPath_modifyPath_mapData g root a.reverse b.reverse).1]

theorem dataAt_setData (g : CellData → CellData) (root : CELL) (a b : Addr) :
    dataAt (setData g root a) b = if b = a then (dataAt root b).map g else dataAt root b := by
  unfold dataAt setData modifyAt cellAt
  rw [(cellAtPath_modifyPath_mapData g root a.reverse b.reverse).2]
  simp only [List.reverse_inj]
  split
  · cases cellAtPath root b.reverse <;> rfl
  · rfl

theorem dataAt_isSome (root : CELL) (a : Addr) : (dataAt root a).isSome = (cellAt root a).isSome := by
  unfold dataAt
  cases cellAt root a <;> rfl

theorem depthAt_eq (root : CELL) (a : Addr) (d : CellData) (h : dataAt root a = some d) :
    depthAt root a = d.depth := by
  unfold dataAt at h
  unfold depthAt
  cases hc : cellAt root a with
  | none => simp [hc] at h
  | some c =>
    simp only [hc, Option.map_some', Option.some.injEq] at h
    simp [h]

end CELL

end Lumo

namespace Lumo

namespace CELL

/-! ## Well-formed trees -/

theorem Partitioned.child_part {t c : CELL} {q : Quadrant} (h : Partitioned t) (hc : t.child q = some c) :
    Partitioned c ∧ IsChildOf t.data q c.data := by
  cases t with
  | leaf d => simp [CELL.child] at hc
  | node d c0 c1 c2 c3 =>
    obtain ⟨h0, h1, h2, h3, p0, p1, p2, p3⟩ := h
    cases q <;> simp only [CELL.child, Option.some.injEq] at hc <;> subst hc
    · exact ⟨p0, h0⟩
    · exact ⟨p1, h1⟩
    · exact ⟨p2, h2⟩
    · exact ⟨p3, h3⟩

theorem Partitioned.cellAt_part {root : CELL} (h : Partitioned root) :
    ∀ (a : Addr) (c : CELL), cellAt root a = some c → Partitioned c := by
  intro a
  induction a with
  | nil =>
    intro c hc
    simp only [cellAt_nil, Option.some.injEq] at hc
    exact hc ▸ h
  | cons q p ih =>
    intro c hc
    rw [cellAt_cons] at hc
    cases hp : CELL.cellAt root p with
    | none => simp [hp] at hc
    | some cp =>
      simp only [hp, Option.some_bind] at hc
      exact ((ih cp hp).child_part hc).1

/-- In a partitioned tree the cell in slot `q` of a cell has the data `refine` gave it. -/
theorem Partitioned.isChildOf {root : CELL} (h : Partitioned root) {p : Addr} {q : Quadrant}
    {dp dc : CellData} (hp : dataAt root p = some dp) (hc : dataAt root (q :: p) = some dc) :
    IsChildOf dp q dc := by
  unfold dataAt at hp hc
  rw [cellAt_cons] at hc
  cases hcp : CELL.cellAt root p with
  | none => simp [hcp] at hp
  | some cp =>
    simp only [hcp, Option.map_some', Option.some.injEq, Option.some_bind] at hp hc
    cases hcc : cp.child q with
    | none => simp [hcc] at hc
    | some cc =>
      simp only [hcc, Option.map_some', Option.some.injEq] at hc
      subst hp hc
      exact ((h.cellAt_part p cp hcp).child_part hcc).2

theorem dataAt_parent {root : CELL} {p : Addr} {q : Quadrant} {dc : CellData}
    (hc : dataAt root (q :: p) = some dc) : ∃ dp, dataAt root p = some dp ∧ kidsAt root p = true := by
  have h1 : (CELL.cellAt root (q :: p)).isSome = true := by
    rw [← dataAt_isSome, hc]; rfl
  rw [cellAt_cons_isSome] at h1
  have h2 := kidsAt_isSome root p h1
  rw [← dataAt_isSome] at h2
  obtain ⟨dp, hdp⟩ := Option.isSome_iff_exists.mp h2
  exact ⟨dp, hdp, h1⟩

theorem dataAt_child {root : CELL} {p : Addr} (q : Quadrant) (hk : kidsAt root p = true) :
    ∃ dc, dataAt root (q :: p) = some dc := by
  have h1 : (CELL.cellAt root (q :: p)).isSome = true := by
    rw [cellAt_cons_isSome]; exact hk
  rw [← dataAt_isSome] at h1
  exact Option.isSome_iff_exists.mp h1

theorem kidsAt_false_of_not_cell {root : CELL} {a : Addr} (h : dataAt root a = none) :
    kidsAt root a = false := by
  unfold dataAt at h
  unfold kidsAt
  cases hc : CELL.cellAt root a with
  | none => rfl
  | some c => simp [hc] at h

/-- The depth stored in a cell is the depth of the root plus the length of its address. -/
theorem Partitioned.depth_eq {root : CELL} (h : Partitioned root) :
    ∀ (a : Addr) (d : CellData), dataAt root a = some d → d.depth = root.data.depth + a.length := by
  intro a
  induction a with
  | nil =>
    intro d hd
    simp only [dataAt, cellAt_nil, Option.map_some', Option.some.injEq] at hd
    simp [← hd]
  | cons q p ih =>
    intro d hd
    obtain ⟨dp, hdp, -⟩ := dataAt_parent hd
    have hc := h.isChildOf hdp hd
    rw [hc.1, ih dp hdp]
    simp only [List.length_cons, Nat.cast_add, Nat.cast_one]
    ring

/-- Every cell of a well-formed tree is a proper rectangle. -/
theorem WellFormed.proper {root : CELL} (h : WellFormed root) :
    ∀ (a : Addr) (d : CellData), dataAt root a = some d → d.south < d.north ∧ d.west < d.east := by
  intro a
  induction a with
  | nil =>
    intro d hd
    simp only [dataAt, cellAt_nil, Option.map_some', Option.some.injEq] at hd
    subst hd
    exact ⟨h.1, h.2.1⟩
  | cons q p ih =>
    intro d hd
    obtain ⟨dp, hdp, -⟩ := dataAt_parent hd
    obtain ⟨-, hn, he, hs, hw⟩ := h.2.2.isChildOf hdp hd
    obtain ⟨h1, h2⟩ := ih dp hdp
    cases q <;> simp only [childData, CellData.new] at hn he hs hw <;>
      rw [hn, he, hs, hw] <;> constructor <;> linarith

/-- Every cell of a well-formed tree lies inside the bounds of the root. -/
theorem WellFormed.inside_root {root : CELL} (h : WellFormed root) :
    ∀ (a : Addr) (d : CellData), dataAt root a = some d →
      root.data.south ≤ d.south ∧ d.north ≤ root.data.north ∧
      root.data.west ≤ d.west ∧ d.east ≤ root.data.east := by
  intro a
  induction a with
  | nil =>
    intro d hd
    simp only [dataAt, cellAt_nil, Option.map_some', Option.some.injEq] at hd
    subst hd
    exact ⟨le_refl _, le_refl _, le_refl _, le_refl _⟩
  | cons q p ih =>
    intro d hd
    obtain ⟨dp, hdp, -⟩ := dataAt_parent hd
    obtain ⟨-, hn, he, hs, hw⟩ := h.2.2.isChildOf hdp hd
    obtain ⟨h1, h2⟩ := h.proper p dp hdp
    obtain ⟨i1, i2, i3, i4⟩ := ih dp hdp
    cases q <;> simp only [childData, CellData.new] at hn he hs hw <;>
      rw [hn, he, hs, hw] <;> refine ⟨?_, ?_, ?_, ?_⟩ <;> linarith

end CELL

end Lumo

namespace Lumo

namespace CELL

/-! ## Neighbour lookups -/

theorem neighbor_nil (root : CELL) (d : Dir) : neighbor root d [] = none := by
  cases d <;> rfl

theorem neighbor_cons (root : CELL) (d : Dir) (q : Quadrant) (p : Addr) :
    neighbor root d (q :: p) =
      if d.onSide q = true then
        match neighbor root d p with
        | none => none
        | some mu => if kidsAt root mu = false then some mu else some (d.flip q :: mu)
      else some (d.flip q :: p) := by
  cases d <;> cases q <;> rfl

/-- The cell with data `n` spans the same interval along the face as the cell with data `c`. -/
def Aligned : Dir → CellData → CellData → Prop
  | Dir.north, c, n => n.west = c.west ∧ n.east = c.east
  | Dir.south, c, n => n.west = c.west ∧ n.east = c.east
  | Dir.east, c, n => n.south = c.south ∧ n.north = c.north
  | Dir.west, c, n => n.south = c.south ∧ n.north = c.north

theorem across_sibling {dp dc dn : CellData} {d : Dir} {q : Quadrant}
    (hc : IsChildOf dp q dc) (hn : IsChildOf dp (d.flip q) dn) (hs : d.onSide q = false) :
    Across d dc dn ∧ Aligned d dc dn := by
  obtain ⟨-, hn1, he1, hs1, hw1⟩ := hc
  obtain ⟨-, hn2, he2, hs2, hw2⟩ := hn
  cases d <;> cases q <;> simp [Dir.onSide] at hs <;>
    simp only [Dir.flip, childData, CellData.new] at hn1 he1 hs1 hw1 hn2 he2 hs2 hw2 <;>
    simp only [Across, Aligned] <;>
    refine ⟨⟨?_, ?_, ?_⟩, ?_, ?_⟩ <;> linarith

theorem across_coarse {dp dc dmu : CellData} {d : Dir} {q : Quadrant}
    (hc : IsChildOf dp q dc) (hs : d.onSide q = true) (hacr : Across d dp dmu)
    (p1 : dp.south < dp.north) (p2 : dp.west < dp.east) :
    Across d dc dmu := by
  obtain ⟨-, hn1, he1, hs1, hw1⟩ := hc
  cases d <;> cases q <;> simp [Dir.onSide] at hs <;>
    simp only [childData, CellData.new] at hn1 he1 hs1 hw1 <;>
    simp only [Across] at hacr ⊢ <;>
    obtain ⟨a1, a2, a3⟩ := hacr <;>
    refine ⟨?_, ?_, ?_⟩ <;> linarith

theorem across_fine {dp dc dmu dn : CellData} {d : Dir} {q : Quadrant}
    (hc : IsChildOf dp q dc) (hn : IsChildOf dmu (d.flip q) dn) (hs : d.onSide q = true)
    (hacr : Across d dp dmu) (hal : Aligned d dp dmu) :
    Across d dc dn ∧ Aligned d dc dn := by
  obtain ⟨-, hn1, he1, hs1, hw1⟩ := hc
  obtain ⟨-, hn2, he2, hs2, hw2⟩ := hn
  cases d <;> cases q <;> simp [Dir.onSide] at hs <;>
    simp only [Dir.flip, childData, CellData.new] at hn1 he1 hs1 hw1 hn2 he2 hs2 hw2 <;>
    simp only [Across, Aligned] at hacr hal ⊢ <;>
    obtain ⟨a1, a2, a3⟩ := hacr <;>
    obtain ⟨b1, b2⟩ := hal <;>
    refine ⟨⟨?_, ?_, ?_⟩, ?_, ?_⟩ <;> linarith

/-- What a lookup returns: the invariant of the recursion of the four lookups. -/
theorem neighbor_spec {root : CELL} (hwf : WellFormed root) (d : Dir) :
    ∀ (c n : Addr) (dc : CellData), dataAt root c = some dc → neighbor root d c = some n →
      ∃ dn, dataAt root n = some dn ∧ Across d dc dn ∧ dn.depth ≤ dc.depth ∧
        (dn.depth < dc.depth → kidsAt root n = false) ∧
        (dn.depth = dc.depth → Aligned d dc dn) := by
  intro c
  induction c with
  | nil =>
    intro n dc _ hn
    simp [neighbor_nil] at hn
  | cons q p ih =>
    intro n dc hdc hn
    obtain ⟨dp, hdp, hkp⟩ := dataAt_parent hdc
    have hcq := hwf.2.2.isChildOf hdp hdc
    obtain ⟨pp1, pp2⟩ := hwf.proper p dp hdp
    rw [neighbor_cons] at hn
    by_cases hside : d.onSide q = true
    · rw [if_pos hside] at hn
      cases hmu : neighbor root d p with
      | none => simp [hmu] at hn
      | some mu =>
        simp only [hmu] at hn
        obtain ⟨dmu, hdmu, hacr, hle, hlt, heq⟩ := ih mu dp hdp hmu
        by_cases hk : kidsAt root mu = false
        · rw [if_pos hk] at hn
          simp only [Option.some.injEq] at hn
          subst hn
          have h1 := hcq.1
          refine ⟨dmu, hdmu, across_coarse hcq hside hacr pp1 pp2, by omega, fun _ => hk, ?_⟩
          intro h
          omega
        · rw [if_neg hk] at hn
          simp only [Option.some.injEq] at hn
          subst hn
          have hk1 : kidsAt root mu = true := by
            cases h : kidsAt root mu
            · exact absurd h hk
            · rfl
          obtain ⟨dn, hdn⟩ := dataAt_child (d.flip q) hk1
          have hnq := hwf.2.2.isChildOf hdmu hdn
          have hdeq : dmu.depth = dp.depth := by
            by_contra hne
            have : dmu.depth < dp.depth := lt_of_le_of_ne hle hne
            rw [hlt this] at hk1
            exact absurd hk1 (by decide)
          have hal := heq hdeq
          have h1 := hcq.1
          have h2 := hnq.1
          obtain ⟨g1, g2⟩ := across_fine hcq hnq hside hacr hal
          refine ⟨dn, hdn, g1, by omega, ?_, fun _ => g2⟩
          intro h
          omega
    · rw [if_neg hside] at hn
      simp only [Option.some.injEq] at hn
      subst hn
      obtain ⟨dn, hdn⟩ := dataAt_child (d.flip q) hkp
      have hnq := hwf.2.2.isChildOf hdp hdn
      have hs : d.onSide q = false := by
        cases h : d.onSide q
        · rfl
        · exact absurd h hside
      have h1 := hcq.1
      have h2 := hnq.1
      obtain ⟨g1, g2⟩ := across_sibling hcq hnq hs
      refine ⟨dn, hdn, g1, by omega, ?_, fun _ => g2⟩
      intro h
      omega

end CELL

end Lumo

namespace Lumo

namespace CELL

/-! ## Refinement keeps a tree well formed -/

theorem data_refine (c : CELL) : (refine c).data = c.data := by
  cases c <;> rfl

theorem modifyPath_nil (f : CELL → CELL) (t : CELL) : modifyPath f t [] = f t := by
  cases t <;> rfl

theorem data_modifyPath_refine (t : CELL) (r : List Quadrant) :
    (modifyPath refine t r).data = t.data := by
  cases r with
  | nil => rw [modifyPath_nil]; exact data_refine t
  | cons q r => cases t <;> cases q <;> rfl

theorem Partitioned.refine_part {c : CELL} (h : Partitioned c) : Partitioned (refine c) := by
  cases c with
  | leaf d =>
    simp only [CELL.refine, Partitioned, IsChildOf, data, childData, CellData.new, and_self]
  | node d c0 c1 c2 c3 => exact h

theorem Partitioned.modifyPath_refine {t : CELL} (h : Partitioned t) (r : List Quadrant) :
    Partitioned (modifyPath CELL.refine t r) := by
  induction r generalizing t with
  | nil => rw [modifyPath_nil]; exact h.refine_part
  | cons q r ih =>
    cases t with
    | leaf d => exact h
    | node d c0 c1 c2 c3 =>
      obtain ⟨h0, h1, h2, h3, p0, p1, p2, p3⟩ := h
      cases q
      · exact ⟨by rw [data_modifyPath_refine]; exact h0, h1, h2, h3, ih p0, p1, p2, p3⟩
      · exact ⟨h0, by rw [data_modifyPath_refine]; exact h1, h2, h3, p0, ih p1, p2, p3⟩
      · exact ⟨h0, h1, by rw [data_modifyPath_refine]; exact h2, h3, p0, p1, ih p2, p3⟩
      · exact ⟨h0, h1, h2, by rw [data_modifyPath_refine]; exact h3, p0, p1, p2, ih p3⟩

theorem WellFormed.refineAt_wf {root : CELL} (h : WellFormed root) (a : Addr) :
    WellFormed (refineAt root a) := by
  unfold CELL.refineAt modifyAt
  refine ⟨?_, ?_, h.2.2.modifyPath_refine _⟩
  · rw [data_modifyPath_refine]; exact h.1
  · rw [data_modifyPath_refine]; exact h.2.1

theorem WellFormed.of_leaf {d : CellData} (h1 : d.south < d.north) (h2 : d.west < d.east) :
    WellFormed (leaf d) :=
  ⟨h1, h2, trivial⟩

end CELL

/-- A small tree: the unit square refined once, and its north-west child refined again. -/
def sampleTree : CELL :=
  CELL.refineAt (CELL.refineAt (CELL.leaf (CellData.new 1 1 0 0 0)) []) [Quadrant.q0]

theorem sampleTree_wellFormed : CELL.WellFormed sampleTree :=
  ((CELL.WellFormed.of_leaf (by norm_num [CellData.new]) (by norm_num [CellData.new])).refineAt_wf _).refineAt_wf _

/-- C2: the cell a directional lookup returns lies directly across the face of
the cell it was asked for, is not deeper than it, and is coarser only when it
has no children. -/
theorem neighbor_lookup_across (root : CELL) (hwf : CELL.WellFormed root) (d : Dir)
    (c n : Addr) (dc : CellData)
    (hc : CELL.dataAt root c = some dc) (hn : CELL.neighbor root d c = some n) :
    ∃ dn, CELL.dataAt root n = some dn ∧ CELL.Across d dc dn ∧ dn.depth ≤ dc.depth ∧
      (dn.depth < dc.depth → CELL.kidsAt root n = false) := by
  obtain ⟨dn, h1, h2, h3, h4, -⟩ := CELL.neighbor_spec hwf d c n dc hc hn
  exact ⟨dn, h1, h2, h3, h4⟩

theorem neighbor_lookup_across_witness :
    ∃ dn, CELL.dataAt sampleTree [Quadrant.q1] = some dn ∧
      CELL.Across Dir.east (CELL.childData (CELL.childData (CellData.new 1 1 0 0 0) Quadrant.q0) Quadrant.q1) dn ∧
      dn.depth ≤ (CELL.childData (CELL.childData (CellData.new 1 1 0 0 0) Quadrant.q0) Quadrant.q1).depth ∧
      (dn.depth < (CELL.childData (CELL.childData (CellData.new 1 1 0 0 0) Quadrant.q0) Quadrant.q1).depth →
        CELL.kidsAt sampleTree [Quadrant.q1] = false) :=
  neighbor_lookup_across sampleTree sampleTree_wellFormed Dir.east
    [Quadrant.q1, Quadrant.q0] [Quadrant.q1] _ rfl rfl

end Lumo

namespace Lumo

namespace CELL

/-! ## Leaves -/

/-- The address points to a cell of the tree that has no children. -/
def IsLeafAt (root : CELL) (a : Addr) : Prop :=
  (cellAt root a).isSome = true ∧ kidsAt root a = false

theorem cellAt_leaf_cons (d : CellData) (q : Quadrant) (p : Addr) :
    cellAt (leaf d) (q :: p) = none := by
  induction p generalizing q with
  | nil => simp [cellAt_cons, cellAt_nil, child]
  | cons k p ih => rw [cellAt_cons, ih]; rfl

theorem cellAt_node_append (d : CellData) (c0 c1 c2 c3 : CELL) (q : Quadrant) (s : Addr) :
    cellAt (node d c0 c1 c2 c3) (s ++ [q]) =
      cellAt (match q with
        | Quadrant.q0 => c0
        | Quadrant.q1 => c1
        | Quadrant.q2 => c2
        | Quadrant.q3 => c3) s := by
  unfold cellAt
  rw [List.reverse_append]
  cases q <;> simp [cellAtPath, child]

theorem kidsAt_node_append (d : CellData) (c0 c1 c2 c3 : CELL) (q : Quadrant) (s : Addr) :
    kidsAt (node d c0 c1 c2 c3) (s ++ [q]) =
      kidsAt (match q with
        | Quadrant.q0 => c0
        | Quadrant.q1 => c1
        | Quadrant.q2 => c2
        | Quadrant.q3 => c3) s := by
  unfold kidsAt
  rw [cellAt_node_append]

theorem mem_leavesFrom (t : CELL) :
    ∀ (base a : Addr), a ∈ leavesFrom t base ↔ ∃ s, a = s ++ base ∧ IsLeafAt t s := by
  induction t with
  | leaf d =>
    intro base a
    simp only [leavesFrom, List.mem_singleton]
    constructor
    · intro h
      exact ⟨[], by simp [h], rfl, rfl⟩
    · rintro ⟨s, hs, h1, -⟩
      cases s with
      | nil => simpa using hs
      | cons q p => simp [cellAt_leaf_cons] at h1
  | node d c0 c1 c2 c3 ih0 ih1 ih2 ih3 =>
    intro base a
    simp only [leavesFrom, List.mem_append, ih0, ih1, ih2, ih3]
    constructor
    · rintro (((⟨s, hs, h1, h2⟩ | ⟨s, hs, h1, h2⟩) | ⟨s, hs, h1, h2⟩) | ⟨s, hs, h1, h2⟩)
      · exact ⟨s ++ [Quadrant.q0], by simp [hs], by rw [cellAt_node_append]; exact h1,
          by rw [kidsAt_node_append]; exact h2⟩
      · exact ⟨s ++ [Quadrant.q1], by simp [hs], by rw [cellAt_node_append]; exact h1,
          by rw [kidsAt_node_append]; exact h2⟩
      · exact ⟨s ++ [Quadrant.q2], by simp [hs], by rw [cellAt_node_append]; exact h1,
          by rw [kidsAt_node_append]; exact h2⟩
      · exact ⟨s ++ [Quadrant.q3], by simp [hs], by rw [cellAt_node_append]; exact h1,
          by rw [kidsAt_node_append]; exact h2⟩
    · rintro ⟨s, hs, h1, h2⟩
      rcases List.eq_nil_or_concat s with rfl | ⟨s1, q, rfl⟩
      · simp [kidsAt, cellAt_nil, hasChildren] at h2
      · rw [List.concat_eq_append] at hs h1 h2
        rw [cellAt_node_append] at h1
        rw [kidsAt_node_append] at h2
        cases q
        · exact Or.inl (Or.inl (Or.inl ⟨s1, by simp [hs], h1, h2⟩))
        · exact Or.inl (Or.inl (Or.inr ⟨s1, by simp [hs], h1, h2⟩))
        · exact Or.inl (Or.inr ⟨s1, by simp [hs], h1, h2⟩)
        · exact Or.inr ⟨s1, by simp [hs], h1, h2⟩

end CELL

theorem QUAD_POISSON.mem_getAllLeaves (root : CELL) (a : Addr) :
    a ∈ QUAD_POISSON.getAllLeaves root ↔ CELL.IsLeafAt root a := by
  unfold QUAD_POISSON.getAllLeaves
  rw [CELL.mem_leavesFrom]
  constructor
  · rintro ⟨s, hs, h⟩
    simp only [List.append_nil] at hs
    exact hs ▸ h
  · intro h
    exact ⟨a, by simp, h⟩

namespace CELL

/-! ## Lookups and refinement -/

/-- A lookup never returns a deeper cell, and a coarser cell only if it has no children. -/
theorem neighbor_length (root : CELL) (d : Dir) :
    ∀ (c n : Addr), neighbor root d c = some n →
      n.length ≤ c.length ∧ (n.length < c.length → kidsAt root n = false) := by
  intro c
  induction c with
  | nil =>
    intro n hn
    simp [neighbor_nil] at hn
  | cons q p ih =>
    intro n hn
    rw [neighbor_cons] at hn
    split at hn
    · cases hmu : neighbor root d p with
      | none => simp [hmu] at hn
      | some mu =>
        simp only [hmu] at hn
        obtain ⟨h1, h2⟩ := ih mu hmu
        split at hn
        · simp only [Option.some.injEq] at hn
          subst hn
          rename_i hk
          exact ⟨by simp only [List.length_cons]; omega, fun _ => hk⟩
        · simp only [Option.some.injEq] at hn
          subst hn
          rename_i hk
          have : ¬ mu.length < p.length := fun h => hk (h2 h)
          simp only [List.length_cons]
          exact ⟨by omega, fun h => by omega⟩
    · simp only [Option.some.injEq] at hn
      subst hn
      simp

/-- A lookup on a cell of the tree returns a cell of the tree. -/
theorem neighbor_isCell (root : CELL) (d : Dir) :
    ∀ (c n : Addr), (cellAt root c).isSome = true → neighbor root d c = some n →
      (cellAt root n).isSome = true := by
  intro c
  induction c with
  | nil =>
    intro n _ hn
    simp [neighbor_nil] at hn
  | cons q p ih =>
    intro n hc hn
    rw [cellAt_cons_isSome] at hc
    rw [neighbor_cons] at hn
    split at hn
    · cases hmu : neighbor root d p with
      | none => simp [hmu] at hn
      | some mu =>
        simp only [hmu] at hn
        have h1 := ih mu (kidsAt_isSome root p hc) hmu
        split at hn
        · simp only [Option.some.injEq] at hn
          exact hn ▸ h1
        · simp only [Option.some.injEq] at hn
          subst hn
          rename_i hk
          rw [cellAt_cons_isSome]
          cases h : kidsAt root mu
          · exact absurd h hk
          · rfl
    · simp only [Option.some.injEq] at hn
      subst hn
      rw [cellAt_cons_isSome]
      exact hc

theorem kidsAt_child_of_leaf {root : CELL} {n : Addr} (k : Quadrant) (h : kidsAt root n = false) :
    kidsAt root (k :: n) = false := by
  apply kidsAt_false_of_not_cell
  have h1 := cellAt_cons_isSome root k n
  rw [h] at h1
  unfold dataAt
  cases hc : cellAt root (k :: n) with
  | none => rfl
  | some c => simp [hc] at h1

/-- Effect of refining the leaf `n` on a lookup: the result is unchanged, unless
it was `n` and `n` is coarser than the cell asked for, in which case it becomes a
child of `n`. -/
theorem neighbor_refineAt (root : CELL) (d : Dir) (n : Addr)
    (hcell : (cellAt root n).isSome = true) (hleaf : kidsAt root n = false) :
    ∀ (c : Addr),
      match neighbor root d c with
      | none => neighbor (refineAt root n) d c = none
      | some m =>
        if m = n ∧ n.length < c.length then ∃ k, neighbor (refineAt root n) d c = some (k :: n)
        else neighbor (refineAt root n) d c = some m := by
  intro c
  induction c with
  | nil => simp [neighbor_nil]
  | cons q p ih =>
    rw [neighbor_cons root, neighbor_cons (refineAt root n)]
    by_cases hside : d.onSide q = true
    · simp only [hside, if_true]
      cases hmu : neighbor root d p with
      | none =>
        simp only [hmu] at ih
        simp [ih]
      | some mu =>
        simp only [hmu] at ih
        obtain ⟨hl1, hl2⟩ := neighbor_length root d p mu hmu
        simp only []
        by_cases hmn : mu = n
        · subst hmn
          simp only [hleaf, if_true, true_and, List.length_cons]
          rw [if_pos (by omega)]
          by_cases hlt : mu.length < p.length
          · rw [if_pos ⟨rfl, hlt⟩] at ih
            obtain ⟨k, hk⟩ := ih
            refine ⟨k, ?_⟩
            simp only [hk]
            rw [if_pos]
            rw [kidsAt_refineAt]
            simp [kidsAt_child_of_leaf k hleaf]
          · rw [if_neg (by tauto)] at ih
            refine ⟨d.flip q, ?_⟩
            simp only [ih]
            rw [if_neg]
            rw [kidsAt_refineAt]
            simp [hcell]
        · rw [if_neg (by tauto)] at ih
          simp only [ih]
          have hkeq : kidsAt (refineAt root n) mu = kidsAt root mu := by
            rw [kidsAt_refineAt]
            simp [hmn]
          rw [hkeq]
          by_cases hk : kidsAt root mu = false
          · simp [hk, hmn]
          · have hnl : ¬ mu.length < p.length := fun h => hk (hl2 h)
            have hne : ¬ (d.flip q :: mu = n ∧ n.length < p.length + 1) := by
              rintro ⟨h1, h2⟩
              rw [← h1] at h2
              simp only [List.length_cons] at h2
              omega
            simp [hk]
            intro h1 h2
            exact absurd ⟨h1, h2⟩ hne
    · have hne : ¬ (d.flip q :: p = n ∧ n.length < p.length + 1) := by
        rintro ⟨h1, h2⟩
        rw [← h1] at h2
        simp at h2
      simp [hside]
      intro h1 h2
      exact absurd ⟨h1, h2⟩ hne

end CELL

end Lumo

namespace Lumo

namespace CELL

/-! ## Size of a tree -/

theorem cellAtPath_height (t : CELL) :
    ∀ (r : List Quadrant) (c : CELL), cellAtPath t r = some c → r.length + height c ≤ height t := by
  induction t with
  | leaf d =>
    intro r c h
    cases r with
    | nil =>
      simp only [cellAtPath, Option.some.injEq] at h
      subst h
      simp
    | cons q r => simp [cellAtPath, child] at h
  | node d c0 c1 c2 c3 ih0 ih1 ih2 ih3 =>
    intro r c h
    cases r with
    | nil =>
      simp only [cellAtPath, Option.some.injEq] at h
      subst h
      simp
    | cons q r =>
      cases q <;> simp only [cellAtPath, child] at h
      · have := ih0 r c h
        simp only [height, List.length_cons]
        omega
      · have := ih1 r c h
        simp only [height, List.length_cons]
        omega
      · have := ih2 r c h
        simp only [height, List.length_cons]
        omega
      · have := ih3 r c h
        simp only [height, List.length_cons]
        omega

theorem length_le_height (root : CELL) (a : Addr) (h : (cellAt root a).isSome = true) :
    a.length ≤ height root := by
  obtain ⟨c, hc⟩ := Option.isSome_iff_exists.mp h
  have := cellAtPath_height root a.reverse c hc
  simp only [List.length_reverse] at this
  omega

theorem height_modifyPath_refine (t : CELL) :
    ∀ (r : List Quadrant) (H : Nat), height t ≤ H → r.length + 1 ≤ H →
      height (modifyPath refine t r) ≤ H := by
  induction t with
  | leaf d =>
    intro r H h1 h2
    cases r with
    | nil =>
      simp only [modifyPath, refine, height]
      simp only [List.length_nil] at h2
      omega
    | cons q r => simpa [modifyPath] using h1
  | node d c0 c1 c2 c3 ih0 ih1 ih2 ih3 =>
    intro r H h1 h2
    cases r with
    | nil => simpa [modifyPath, refine] using h1
    | cons q r =>
      simp only [height, List.length_cons] at h1 h2
      cases q <;> simp only [modifyPath, height]
      · have := ih0 r (H - 1) (by omega) (by omega)
        omega
      · have := ih1 r (H - 1) (by omega) (by omega)
        omega
      · have := ih2 r (H - 1) (by omega) (by omega)
        omega
      · have := ih3 r (H - 1) (by omega) (by omega)
        omega

theorem height_refineAt (root : CELL) (n : Addr) (H : Nat) (h1 : height root ≤ H)
    (h2 : n.length + 1 ≤ H) : height (refineAt root n) ≤ H := by
  unfold refineAt modifyAt
  exact height_modifyPath_refine root n.reverse H h1 (by simpa using h2)

theorem innerCount_modifyPath_refine (t : CELL) :
    ∀ (r : List Quadrant) (c : CELL), cellAtPath t r = some c → c.hasChildren = false →
      innerCount (modifyPath refine t r) = innerCount t + 1 := by
  induction t with
  | leaf d =>
    intro r c h hk
    cases r with
    | nil => simp [modifyPath, refine, innerCount]
    | cons q r => simp [cellAtPath, child] at h
  | node d c0 c1 c2 c3 ih0 ih1 ih2 ih3 =>
    intro r c h hk
    cases r with
    | nil =>
      simp only [cellAtPath, Option.some.injEq] at h
      subst h
      simp [hasChildren] at hk
    | cons q r =>
      cases q <;> simp only [cellAtPath, child] at h <;> simp only [modifyPath, innerCount]
      · rw [ih0 r c h hk]; omega
      · rw [ih1 r c h hk]; omega
      · rw [ih2 r c h hk]; omega
      · rw [ih3 r c h hk]; omega

theorem innerCount_refineAt (root : CELL) (n : Addr) (h : IsLeafAt root n) :
    innerCount (refineAt root n) = innerCount root + 1 := by
  obtain ⟨h1, h2⟩ := h
  obtain ⟨c, hc⟩ := Option.isSome_iff_exists.mp h1
  unfold refineAt modifyAt
  apply innerCount_modifyPath_refine root n.reverse c hc
  simpa [kidsAt, hc] using h2

theorem innerCount_le (t : CELL) : 3 * innerCount t + 1 ≤ 4 ^ height t := by
  induction t with
  | leaf d => simp [innerCount, height]
  | node d c0 c1 c2 c3 ih0 ih1 ih2 ih3 =>
    simp only [innerCount, height]
    have m0 : 4 ^ height c0 ≤ 4 ^ max (max (height c0) (height c1)) (max (height c2) (height c3)) :=
      Nat.pow_le_pow_right (by norm_num) (by omega)
    have m1 : 4 ^ height c1 ≤ 4 ^ max (max (height c0) (height c1)) (max (height c2) (height c3)) :=
      Nat.pow_le_pow_right (by norm_num) (by omega)
    have m2 : 4 ^ height c2 ≤ 4 ^ max (max (height c0) (height c1)) (max (height c2) (height c3)) :=
      Nat.pow_le_pow_right (by norm_num) (by omega)
    have m3 : 4 ^ height c3 ≤ 4 ^ max (max (height c0) (height c1)) (max (height c2) (height c3)) :=
      Nat.pow_le_pow_right (by norm_num) (by omega)
    have e : 4 ^ (1 + max (max (height c0) (height c1)) (max (height c2) (height c3))) =
        4 * 4 ^ max (max (height c0) (height c1)) (max (height c2) (height c3)) := by
      rw [Nat.pow_add]
    rw [e]
    omega

theorem innerCount_le_of_height (t : CELL) (H : Nat) (h : height t ≤ H) : innerCount t ≤ 4 ^ H := by
  have h1 := innerCount_le t
  have h2 : 4 ^ height t ≤ 4 ^ H := Nat.pow_le_pow_right (by norm_num) h
  omega

theorem data_refineAt (root : CELL) (n : Addr) : (refineAt root n).data = root.data :=
  data_modifyPath_refine root n.reverse

theorem cellAt_refineAt_isSome {root : CELL} {a : Addr} (n : Addr)
    (h : (cellAt root a).isSome = true) : (cellAt (refineAt root n) a).isSome = true := by
  rw [← dataAt_isSome] at h ⊢
  obtain ⟨d, hd⟩ := Option.isSome_iff_exists.mp h
  rw [dataAt_refineAt root n a d hd]
  rfl

theorem depthAt_of_cell {root : CELL} (hwf : WellFormed root) {a : Addr}
    (h : (cellAt root a).isSome = true) : depthAt root a = root.data.depth + a.length := by
  rw [← dataAt_isSome] at h
  obtain ⟨d, hd⟩ := Option.isSome_iff_exists.mp h
  rw [depthAt_eq root a d hd, hwf.2.2.depth_eq a d hd]

/-! ## Growth of a tree by refinement of leaves -/

/-- `Grows H root r new`: `r` results from `root` by refining, one after the other,
leaves whose children are at most at level `H - 1`; `new` lists the children made. -/
inductive Grows (H : Nat) : CELL → CELL → List Addr → Prop
  | refl (root : CELL) : Grows H root root []
  | step (root r : CELL) (n : Addr) (new : List Addr) :
      IsLeafAt root n → n.length + 2 ≤ H → Grows H (refineAt root n) r new →
      Grows H root r (QUAD_POISSON.childrenOf n ++ new)

theorem Grows.trans_grows {H : Nat} {r1 r2 r3 : CELL} {n1 n2 : List Addr}
    (h1 : Grows H r1 r2 n1) (h2 : Grows H r2 r3 n2) : Grows H r1 r3 (n1 ++ n2) := by
  induction h1 with
  | refl root => simpa using h2
  | step root r n new hl hn _ ih =>
    rw [List.append_assoc]
    exact Grows.step root r3 n (new ++ n2) hl hn (ih h2)

theorem Grows.single {H : Nat} {root : CELL} {n : Addr} (hl : IsLeafAt root n)
    (hn : n.length + 2 ≤ H) : Grows H root (refineAt root n) (QUAD_POISSON.childrenOf n) := by
  have := Grows.step root (refineAt root n) n [] hl hn (Grows.refl _)
  simpa using this

theorem Grows.wellFormed {H : Nat} {r1 r2 : CELL} {new : List Addr} (h : Grows H r1 r2 new)
    (hwf : WellFormed r1) : WellFormed r2 := by
  induction h with
  | refl root => exact hwf
  | step root r n new _ _ _ ih => exact ih (hwf.refineAt_wf n)

theorem Grows.data_eq {H : Nat} {r1 r2 : CELL} {new : List Addr} (h : Grows H r1 r2 new) :
    r2.data = r1.data := by
  induction h with
  | refl root => rfl
  | step root r n new _ _ _ ih => rw [ih, data_refineAt]

theorem Grows.isCell_mono {H : Nat} {r1 r2 : CELL} {new : List Addr} (h : Grows H r1 r2 new)
    {a : Addr} (ha : (cellAt r1 a).isSome = true) : (cellAt r2 a).isSome = true := by
  induction h with
  | refl root => exact ha
  | step root r n new _ _ _ ih => exact ih (cellAt_refineAt_isSome n ha)

theorem Grows.height_le {H : Nat} {r1 r2 : CELL} {new : List Addr} (h : Grows H r1 r2 new)
    (hh : CELL.height r1 ≤ H) : CELL.height r2 ≤ H := by
  induction h with
  | refl root => exact hh
  | step root r n new _ hn _ ih => exact ih (height_refineAt root n H hh (by omega))

theorem Grows.innerCount_eq {H : Nat} {r1 r2 : CELL} {new : List Addr} (h : Grows H r1 r2 new) :
    4 * CELL.innerCount r2 = 4 * CELL.innerCount r1 + new.length := by
  induction h with
  | refl root => simp
  | step root r n new hl _ _ ih =>
    rw [ih, innerCount_refineAt root n hl]
    simp [QUAD_POISSON.childrenOf]
    omega

theorem Grows.new_isCell {H : Nat} {r1 r2 : CELL} {new : List Addr} (h : Grows H r1 r2 new) :
    ∀ a ∈ new, (cellAt r2 a).isSome = true := by
  induction h with
  | refl root => simp
  | step root r n new hl _ hg ih =>
    intro a ha
    rw [List.mem_append] at ha
    rcases ha with ha | ha
    · apply hg.isCell_mono
      have hk : kidsAt (refineAt root n) n = true := by
        rw [kidsAt_refineAt]
        simp [hl.1]
      simp only [QUAD_POISSON.childrenOf, List.mem_cons, List.mem_singleton, List.not_mem_nil,
        or_false] at ha
      rcases ha with rfl | rfl | rfl | rfl <;> rw [cellAt_cons_isSome] <;> exact hk
    · exact ih a ha

theorem isLeafAt_refineAt {root : CELL} {n a : Addr} (hl : IsLeafAt root n)
    (ha : IsLeafAt (refineAt root n) a) : IsLeafAt root a ∨ a ∈ QUAD_POISSON.childrenOf n := by
  obtain ⟨h1, h2⟩ := ha
  rw [kidsAt_refineAt] at h2
  simp only [Bool.or_eq_false_iff, Bool.and_eq_false_imp, decide_eq_true_eq] at h2
  cases a with
  | nil => exact Or.inl ⟨rfl, h2.1⟩
  | cons q p =>
    rw [cellAt_cons_isSome, kidsAt_refineAt] at h1
    simp only [Bool.or_eq_true, Bool.and_eq_true, decide_eq_true_eq] at h1
    rcases h1 with h1 | ⟨rfl, -⟩
    · left
      exact ⟨by rw [cellAt_cons_isSome]; exact h1, h2.1⟩
    · right
      cases q <;> simp [QUAD_POISSON.childrenOf]

theorem Grows.leaf_cases {H : Nat} {r1 r2 : CELL} {new : List Addr} (h : Grows H r1 r2 new) :
    ∀ a, IsLeafAt r2 a → IsLeafAt r1 a ∨ a ∈ new := by
  induction h with
  | refl root => exact fun a ha => Or.inl ha
  | step root r n new hl _ _ ih =>
    intro a ha
    rcases ih a ha with h1 | h1
    · rcases isLeafAt_refineAt hl h1 with h2 | h2
      · exact Or.inl h2
      · exact Or.inr (List.mem_append_left _ h2)
    · exact Or.inr (List.mem_append_right _ h1)

/-- The lookup in direction `d` from `a` finds nothing more than one level coarser than `a`. -/
def DirSat (root : CELL) (d : Dir) (a : Addr) : Prop :=
  ∀ n, neighbor root d a = some n → a.length ≤ n.length + 1

theorem DirSat.refineAt_sat {root : CELL} {d : Dir} {a : Addr} (h : DirSat root d a) {n : Addr}
    (hl : IsLeafAt root n) : DirSat (refineAt root n) d a := by
  intro m hm
  have key := neighbor_refineAt root d n hl.1 hl.2 a
  cases hold : neighbor root d a with
  | none =>
    simp only [hold] at key
    rw [key] at hm
    exact absurd hm (by simp)
  | some m0 =>
    simp only [hold] at key
    have h0 := h m0 hold
    split at key
    · rename_i hc
      obtain ⟨k, hk⟩ := key
      rw [hk] at hm
      simp only [Option.some.injEq] at hm
      subst hm
      rw [hc.1] at h0
      simp only [List.length_cons]
      omega
    · rw [key] at hm
      simp only [Option.some.injEq] at hm
      exact hm ▸ h0

theorem Grows.dirSat {H : Nat} {r1 r2 : CELL} {new : List Addr} (h : Grows H r1 r2 new)
    {d : Dir} {a : Addr} (hs : DirSat r1 d a) : DirSat r2 d a := by
  induction h with
  | refl root => exact hs
  | step root r n new hl _ _ ih => exact ih (hs.refineAt_sat hl)

end CELL

end Lumo

namespace Lumo

namespace QUAD_POISSON

open CELL

/-! ## The loops of `balance` -/

theorem balanceWhile_spec (H : Nat) (d : Dir) :
    ∀ (fuel : Nat) (root : CELL) (cur n leaves), WellFormed root →
      (cellAt root cur).isSome = true → neighbor root d cur = some n → cur.length ≤ H →
      cur.length < n.length + fuel →
      ∃ r new, balanceWhile d fuel root cur n leaves = some (r, leaves ++ new) ∧
        Grows H root r new ∧ DirSat r d cur := by
  intro fuel
  induction fuel with
  | zero =>
    intro root cur n leaves _ _ hn _ hf
    have := (neighbor_length root d cur n hn).1
    omega
  | succ fuel ih =>
    intro root cur n leaves hwf hcur hn hH hf
    obtain ⟨hl1, hl2⟩ := neighbor_length root d cur n hn
    have hncell := neighbor_isCell root d cur n hcur hn
    have e1 := depthAt_of_cell hwf hcur
    have e2 := depthAt_of_cell hwf hncell
    unfold balanceWhile
    by_cases hc : depthAt root n < depthAt root cur - 1
    · rw [if_pos hc]
      rw [e1, e2] at hc
      have hlt : n.length + 1 < cur.length := by omega
      have hleaf : IsLeafAt root n := ⟨hncell, hl2 (by omega)⟩
      have key := neighbor_refineAt root d n hleaf.1 hleaf.2 cur
      simp only [hn] at key
      rw [if_pos (by refine ⟨?_, ?_⟩ <;> first | rfl | trivial | omega)] at key
      obtain ⟨k, hk⟩ := key
      simp only [hk]
      obtain ⟨r, new, h1, h2, h3⟩ := ih (refineAt root n) cur (k :: n) (leaves ++ childrenOf n)
        (hwf.refineAt_wf n) (cellAt_refineAt_isSome n hcur) hk hH
        (by simp only [List.length_cons]; omega)
      refine ⟨r, childrenOf n ++ new, ?_, Grows.step root r n new hleaf (by omega) h2, h3⟩
      rw [h1, List.append_assoc]
    · rw [if_neg hc]
      rw [e1, e2] at hc
      refine ⟨root, [], by simp, Grows.refl root, ?_⟩
      intro m hm
      rw [hn] at hm
      simp only [Option.some.injEq] at hm
      subst hm
      omega

theorem balanceDir_spec (H : Nat) (d : Dir) (fuel : Nat) (root : CELL) (cur leaves)
    (hwf : WellFormed root) (hcur : (cellAt root cur).isSome = true) (hH : cur.length ≤ H)
    (hf : cur.length < fuel) :
    ∃ r new, balanceDir d fuel root cur leaves = some (r, leaves ++ new) ∧
      Grows H root r new ∧ DirSat r d cur := by
  unfold balanceDir
  cases hn : neighbor root d cur with
  | none =>
    refine ⟨root, [], by simp, Grows.refl root, ?_⟩
    intro m hm
    rw [hn] at hm
    exact absurd hm (by simp)
  | some n =>
    exact balanceWhile_spec H d fuel root cur n leaves hwf hcur hn hH (by omega)

/-- Every lookup from `a` finds nothing more than one level coarser than `a`. -/
def Sat (root : CELL) (a : Addr) : Prop :=
  ∀ d, DirSat root d a

theorem Grows.sat_mono {H : Nat} {r1 r2 : CELL} {new : List Addr} (h : Grows H r1 r2 new)
    {a : Addr} (hs : Sat r1 a) : Sat r2 a :=
  fun d => h.dirSat (hs d)

/-- One pass of the body of the loop of `balance`. -/
theorem balanceBody_spec (H : Nat) (fuel : Nat) (root : CELL) (cur rest)
    (hwf : WellFormed root) (hcur : (cellAt root cur).isSome = true) (hH : cur.length ≤ H)
    (hf : cur.length < fuel) :
    ∃ r4 new,
      (match balanceDir Dir.north fuel root cur rest with
        | none => none
        | some (r1, l1) =>
          match balanceDir Dir.south fuel r1 cur l1 with
          | none => none
          | some (r2, l2) =>
            match balanceDir Dir.west fuel r2 cur l2 with
            | none => none
            | some (r3, l3) => balanceDir Dir.east fuel r3 cur l3) = some (r4, rest ++ new) ∧
      Grows H root r4 new ∧ Sat r4 cur := by
  obtain ⟨r1, n1, e1, g1, s1⟩ := balanceDir_spec H Dir.north fuel root cur rest hwf hcur hH hf
  obtain ⟨r2, n2, e2, g2, s2⟩ := balanceDir_spec H Dir.south fuel r1 cur (rest ++ n1)
    (g1.wellFormed hwf) (g1.isCell_mono hcur) hH hf
  obtain ⟨r3, n3, e3, g3, s3⟩ := balanceDir_spec H Dir.west fuel r2 cur (rest ++ n1 ++ n2)
    (g2.wellFormed (g1.wellFormed hwf)) (g2.isCell_mono (g1.isCell_mono hcur)) hH hf
  obtain ⟨r4, n4, e4, g4, s4⟩ := balanceDir_spec H Dir.east fuel r3 cur (rest ++ n1 ++ n2 ++ n3)
    (g3.wellFormed (g2.wellFormed (g1.wellFormed hwf))) (g3.isCell_mono (g2.isCell_mono (g1.isCell_mono hcur)))
    hH hf
  refine ⟨r4, n1 ++ n2 ++ n3 ++ n4, ?_, ((g1.trans_grows g2).trans_grows g3).trans_grows g4, ?_⟩
  · rw [e1]
    dsimp only
    rw [e2]
    dsimp only
    rw [e3]
    dsimp only
    rw [e4]
    simp only [List.append_assoc]
  · intro d
    cases d
    · exact g4.dirSat (g3.dirSat (g2.dirSat s1))
    · exact s4
    · exact g4.dirSat (g3.dirSat s2)
    · exact g4.dirSat s3

theorem balanceLoop_spec (H : Nat) :
    ∀ (fuel : Nat) (root : CELL) (wl : List Addr), WellFormed root → height root ≤ H →
      (∀ a ∈ wl, (cellAt root a).isSome = true) →
      wl.length + 4 * (4 ^ H - innerCount root) + H + 2 ≤ fuel →
      ∃ r new, balanceLoop fuel root wl = some r ∧ Grows H root r new ∧
        ∀ a, IsLeafAt r a → Sat r a ∨ (IsLeafAt root a ∧ a ∉ wl) := by
  intro fuel
  induction fuel with
  | zero =>
    intro root wl _ _ _ hf
    omega
  | succ fuel ih =>
    intro root wl hwf hh hwl hf
    cases wl with
    | nil =>
      exact ⟨root, [], rfl, Grows.refl root, fun a ha => Or.inr ⟨ha, by simp⟩⟩
    | cons cur rest =>
      have hcur := hwl cur (by simp)
      have hlen := length_le_height root cur hcur
      simp only [List.length_cons] at hf
      obtain ⟨r4, new, e, g, s⟩ := balanceBody_spec H fuel root cur rest hwf hcur (by omega)
        (by omega)
      have hic := g.innerCount_eq
      have hcap := innerCount_le_of_height r4 H (g.height_le hh)
      have hcap0 := innerCount_le_of_height root H hh
      obtain ⟨r, new2, e2, g2, post⟩ := ih r4 (rest ++ new) (g.wellFormed hwf) (g.height_le hh)
        (by
          intro a ha
          rw [List.mem_append] at ha
          rcases ha with ha | ha
          · exact g.isCell_mono (hwl a (by simp [ha]))
          · exact g.new_isCell a ha)
        (by
          simp only [List.length_append]
          omega)
      refine ⟨r, new ++ new2, ?_, g.trans_grows g2, ?_⟩
      · unfold balanceLoop
        cases h1 : balanceDir Dir.north fuel root cur rest with
        | none => simp [h1] at e
        | some p1 =>
          obtain ⟨r1, l1⟩ := p1
          simp only [h1] at e ⊢
          cases h2 : balanceDir Dir.south fuel r1 cur l1 with
          | none => simp [h2] at e
          | some p2 =>
            obtain ⟨r2, l2⟩ := p2
            simp only [h2] at e ⊢
            cases h3 : balanceDir Dir.west fuel r2 cur l2 with
            | none => simp [h3] at e
            | some p3 =>
              obtain ⟨r3, l3⟩ := p3
              simp only [h3] at e ⊢
              rw [e]
              exact e2
      · intro a ha
        rcases post a ha with h | ⟨h1, h2⟩
        · exact Or.inl h
        · rw [List.mem_append, not_or] at h2
          rcases g.leaf_cases a h1 with h3 | h3
          · by_cases hac : a = cur
            · left
              subst hac
              exact Grows.sat_mono g2 s
            · right
              refine ⟨h3, ?_⟩
              simp only [List.mem_cons, not_or]
              exact ⟨hac, h2.1⟩
          · exact absurd h3 h2.2

/-- `balance` ends, by refining leaves only, and afterwards no lookup from a leaf
finds a cell more than one level coarser than the leaf. -/
theorem balance_spec (root : CELL) (hwf : WellFormed root) :
    ∃ r new, balance root = some r ∧ Grows (height root) root r new ∧
      ∀ a, IsLeafAt r a → Sat r a := by
  obtain ⟨r, new, e, g, post⟩ := balanceLoop_spec (height root) (balanceFuel root) root
    (getAllLeaves root) hwf (le_refl _)
    (fun a ha => ((mem_getAllLeaves root a).mp ha).1)
    (by
      unfold balanceFuel
      have : 4 ^ height root - innerCount root ≤ 4 ^ height root := Nat.sub_le _ _
      omega)
  refine ⟨r, new, e, g, ?_⟩
  intro a ha
  rcases post a ha with h | ⟨h1, h2⟩
  · exact h
  · exact absurd ((mem_getAllLeaves root a).mpr h1) h2

end QUAD_POISSON

end Lumo

namespace Lumo

namespace CELL

/-! ## Geometry of the cells of a well-formed tree -/

/-- The rectangle of `c` lies in the rectangle of `p`. -/
def Inside (c p : CellData) : Prop :=
  p.south ≤ c.south ∧ c.north ≤ p.north ∧ p.west ≤ c.west ∧ c.east ≤ p.east

theorem Inside.refl (c : CellData) : Inside c c :=
  ⟨le_refl _, le_refl _, le_refl _, le_refl _⟩

theorem Inside.trans_inside {a b c : CellData} (h1 : Inside a b) (h2 : Inside b c) : Inside a c :=
  ⟨le_trans h2.1 h1.1, le_trans h1.2.1 h2.2.1, le_trans h2.2.2.1 h1.2.2.1,
    le_trans h1.2.2.2 h2.2.2.2⟩

theorem Overlap.mono {a b a1 b1 : CellData} (h : Overlap a b) (ha : Inside a a1)
    (hb : Inside b b1) : Overlap a1 b1 := by
  obtain ⟨h1, h2⟩ := h
  obtain ⟨a2, a3, a4, a5⟩ := ha
  obtain ⟨b2, b3, b4, b5⟩ := hb
  simp only [max_lt_iff, lt_min_iff] at h1 h2
  simp only [Overlap, max_lt_iff, lt_min_iff]
  refine ⟨⟨⟨?_, ?_⟩, ?_, ?_⟩, ⟨?_, ?_⟩, ?_, ?_⟩ <;> linarith [h1.1.1, h1.1.2, h1.2.1, h1.2.2,
    h2.1.1, h2.1.2, h2.2.1, h2.2.2]

theorem IsChildOf.inside_parent {dp dc : CellData} {q : Quadrant} (h : IsChildOf dp q dc)
    (p1 : dp.south < dp.north) (p2 : dp.west < dp.east) : Inside dc dp := by
  obtain ⟨-, hn, he, hs, hw⟩ := h
  cases q <;> simp only [childData, CellData.new] at hn he hs hw <;>
    refine ⟨?_, ?_, ?_, ?_⟩ <;> linarith

theorem IsChildOf.siblings_disjoint {dp d1 d2 : CellData} {k1 k2 : Quadrant}
    (h1 : IsChildOf dp k1 d1) (h2 : IsChildOf dp k2 d2) (ho : Overlap d1 d2) : k1 = k2 := by
  obtain ⟨-, hn1, he1, hs1, hw1⟩ := h1
  obtain ⟨-, hn2, he2, hs2, hw2⟩ := h2
  obtain ⟨o1, o2⟩ := ho
  simp only [max_lt_iff, lt_min_iff] at o1 o2
  obtain ⟨⟨x1, x2⟩, x3, x4⟩ := o1
  obtain ⟨⟨y1, y2⟩, y3, y4⟩ := o2
  cases k1 <;> cases k2 <;> first
    | rfl
    | (exfalso
       simp only [childData, CellData.new] at hn1 he1 hs1 hw1 hn2 he2 hs2 hw2
       linarith)

/-- Two cells of the same level whose open rectangles intersect are the same cell. -/
theorem eq_of_overlap {root : CELL} (hwf : WellFormed root) :
    ∀ (a b : Addr) (da db : CellData), a.length = b.length → dataAt root a = some da →
      dataAt root b = some db → Overlap da db → a = b := by
  intro a
  induction a with
  | nil =>
    intro b da db hl _ _ _
    cases b with
    | nil => rfl
    | cons q p => simp at hl
  | cons q p ih =>
    intro b da db hl ha hb ho
    cases b with
    | nil => simp at hl
    | cons k p1 =>
      obtain ⟨dp, hdp, -⟩ := dataAt_parent ha
      obtain ⟨dp1, hdp1, -⟩ := dataAt_parent hb
      have c1 := hwf.2.2.isChildOf hdp ha
      have c2 := hwf.2.2.isChildOf hdp1 hb
      obtain ⟨pa, pb⟩ := hwf.proper p dp hdp
      obtain ⟨pa1, pb1⟩ := hwf.proper p1 dp1 hdp1
      have hpp : p = p1 := ih p1 dp dp1 (by simpa using hl) hdp hdp1
        (ho.mono (c1.inside_parent pa pb) (c2.inside_parent pa1 pb1))
      subst hpp
      rw [hdp] at hdp1
      simp only [Option.some.injEq] at hdp1
      subst hdp1
      rw [c1.siblings_disjoint c2 ho]

theorem isCell_of_append {root : CELL} :
    ∀ (s a : Addr), (cellAt root (s ++ a)).isSome = true → (cellAt root a).isSome = true := by
  intro s
  induction s with
  | nil => exact fun a h => h
  | cons q s ih =>
    intro a h
    rw [List.cons_append, cellAt_cons_isSome] at h
    exact ih a (kidsAt_isSome root _ h)

theorem kidsAt_of_append {root : CELL} :
    ∀ (s a : Addr), s ≠ [] → (cellAt root (s ++ a)).isSome = true → kidsAt root a = true := by
  intro s
  induction s with
  | nil => exact fun a h => absurd rfl h
  | cons q s ih =>
    intro a _ h
    rw [List.cons_append, cellAt_cons_isSome] at h
    cases s with
    | nil => exact h
    | cons k s => exact ih a (by simp) (kidsAt_isSome root _ h)

/-- A cell lies in the rectangle of each of its ancestors. -/
theorem inside_ancestor {root : CELL} (hwf : WellFormed root) :
    ∀ (s a : Addr) (d da : CellData), dataAt root (s ++ a) = some d → dataAt root a = some da →
      Inside d da := by
  intro s
  induction s with
  | nil =>
    intro a d da h1 h2
    rw [List.nil_append, h2] at h1
    simp only [Option.some.injEq] at h1
    exact h1 ▸ Inside.refl _
  | cons q s ih =>
    intro a d da h1 h2
    rw [List.cons_append] at h1
    obtain ⟨dp, hdp, -⟩ := dataAt_parent h1
    obtain ⟨pa, pb⟩ := hwf.proper _ dp hdp
    exact ((hwf.2.2.isChildOf hdp h1).inside_parent pa pb).trans_inside (ih a dp da hdp h2)

/-- Of two cells whose open rectangles intersect, the coarser is an ancestor of the other. -/
theorem suffix_of_overlap {root : CELL} (hwf : WellFormed root) (a b : Addr) (da db : CellData)
    (hl : a.length ≤ b.length) (ha : dataAt root a = some da) (hb : dataAt root b = some db)
    (ho : Overlap da db) : ∃ s, b = s ++ a := by
  obtain ⟨s, t, hst, htl⟩ : ∃ s t, b = s ++ t ∧ t.length = a.length :=
    ⟨b.take (b.length - a.length), b.drop (b.length - a.length),
      (List.take_append_drop _ b).symm, by simp; omega⟩
  subst hst
  have hcell : (cellAt root (s ++ t)).isSome = true := by
    rw [← dataAt_isSome, hb]; rfl
  have hc2 := isCell_of_append _ _ hcell
  rw [← dataAt_isSome] at hc2
  obtain ⟨dt, hdt⟩ := Option.isSome_iff_exists.mp hc2
  have hin : Inside db dt := inside_ancestor hwf _ _ db dt hb hdt
  have heq := eq_of_overlap hwf a t da dt htl.symm ha hdt (ho.mono (Inside.refl _) hin)
  exact ⟨s, by rw [heq]⟩

/-- Coordinate of the face of a cell in direction `d`. -/
def front : Dir → CellData → ℚ
  | Dir.north, c => c.north
  | Dir.east, c => c.east
  | Dir.south, c => c.south
  | Dir.west, c => c.west

theorem IsChildOf.front_eq {dp dc : CellData} {d : Dir} {q : Quadrant} (h : IsChildOf dp q dc)
    (hs : d.onSide q = true) : front d dc = front d dp := by
  obtain ⟨-, hn, he, hs1, hw⟩ := h
  cases d <;> cases q <;> simp [Dir.onSide] at hs <;>
    simp only [childData, CellData.new] at hn he hs1 hw <;> simp only [front] <;> assumption

/-- A lookup returns null only for a cell whose face lies on the boundary of the root. -/
theorem neighbor_none_front {root : CELL} (hwf : WellFormed root) (d : Dir) :
    ∀ (c : Addr) (dc : CellData), dataAt root c = some dc → neighbor root d c = none →
      front d dc = front d root.data := by
  intro c
  induction c with
  | nil =>
    intro dc hdc _
    simp only [dataAt, cellAt_nil, Option.map_some', Option.some.injEq] at hdc
    rw [hdc]
  | cons q p ih =>
    intro dc hdc hn
    obtain ⟨dp, hdp, -⟩ := dataAt_parent hdc
    rw [neighbor_cons] at hn
    split at hn
    · rename_i hside
      cases hmu : neighbor root d p with
      | none => rw [(hwf.2.2.isChildOf hdp hdc).front_eq hside, ih dp hdp hmu]
      | some mu =>
        simp only [hmu] at hn
        split at hn <;> simp at hn
    · simp at hn

/-- A leaf that shares the face in direction `d` of a satisfied leaf is at most one
level coarser than it. -/
theorem length_le_of_faceTowards {root : CELL} (hwf : WellFormed root) (d : Dir) (a1 a2 : Addr)
    (d1 d2 : CellData) (h1 : dataAt root a1 = some d1) (h2 : dataAt root a2 = some d2)
    (hleaf : kidsAt root a2 = false) (hsat : DirSat root d a1) (hf : FaceTowards d d1 d2) :
    a1.length ≤ a2.length + 1 := by
  obtain ⟨p1, p2⟩ := hwf.proper a1 d1 h1
  obtain ⟨p3, p4⟩ := hwf.proper a2 d2 h2
  cases hn : neighbor root d a1 with
  | none =>
    exfalso
    have hfront := neighbor_none_front hwf d a1 d1 h1 hn
    obtain ⟨i1, i2, i3, i4⟩ := hwf.inside_root a2 d2 h2
    cases d <;> simp only [front] at hfront <;> simp only [FaceTowards] at hf <;>
      obtain ⟨f1, _⟩ := hf <;> linarith
  | some n =>
    have hs := hsat n hn
    obtain ⟨dn, hdn, hacr, -, -, -⟩ := neighbor_spec hwf d a1 n d1 h1 hn
    obtain ⟨p5, p6⟩ := hwf.proper n dn hdn
    have hov : Overlap dn d2 := by
      cases d <;> simp only [Across] at hacr <;> simp only [FaceTowards] at hf <;>
        obtain ⟨f1, f2⟩ := hf <;> obtain ⟨c1, c2, c3⟩ := hacr <;>
        simp only [max_lt_iff, lt_min_iff] at f2 <;>
        obtain ⟨⟨x1, x2⟩, x3, x4⟩ := f2 <;>
        simp only [Overlap, max_lt_iff, lt_min_iff] <;>
        refine ⟨⟨⟨?_, ?_⟩, ?_, ?_⟩, ⟨?_, ?_⟩, ?_, ?_⟩ <;> linarith
    by_cases hle : n.length ≤ a2.length
    · omega
    · exfalso
      obtain ⟨s, hs2⟩ := suffix_of_overlap hwf a2 n d2 dn (by omega) h2 hdn
        ⟨by rw [max_comm, min_comm]; exact hov.1, by rw [max_comm, min_comm]; exact hov.2⟩
      have hne : s ≠ [] := by
        rintro rfl
        simp only [List.nil_append] at hs2
        rw [hs2] at hle
        exact hle (le_refl _)
      have hcn : (cellAt root (s ++ a2)).isSome = true := by
        rw [← hs2, ← dataAt_isSome, hdn]; rfl
      have := kidsAt_of_append s a2 hne hcn
      rw [hleaf] at this
      exact absurd this (by decide)

theorem FaceTowards.opp_face {d : Dir} {c1 c2 : CellData} (h : FaceTowards d c1 c2) :
    FaceTowards d.opp c2 c1 := by
  cases d <;> simp only [FaceTowards, Dir.opp] at h ⊢ <;>
    exact ⟨h.1.symm, by rw [max_comm, min_comm]; exact h.2⟩

end CELL

end Lumo

namespace Lumo

open CELL QUAD_POISSON

/-- A tree that is not balanced: the unit square refined down to level 3 in its
north-west corner only, so that leaves of level 3 touch a leaf of level 1. -/
def unbalancedTree : CELL :=
  refineAt (refineAt (refineAt (CELL.leaf (CellData.new 1 1 0 0 0)) []) [Quadrant.q0])
    [Quadrant.q1, Quadrant.q0]

theorem unbalancedTree_wellFormed : WellFormed unbalancedTree :=
  (((WellFormed.of_leaf (by norm_num [CellData.new]) (by norm_num [CellData.new])).refineAt_wf _).refineAt_wf
    _).refineAt_wf _

/-- C1: on every well-formed quadtree `balance` returns, and in the tree it leaves
any two leaves that share a face (a common edge of positive length) have depths
that differ by at most 1. -/
theorem balance_two_to_one (root : CELL) (hwf : WellFormed root) :
    ∃ r, balance root = some r ∧
      ∀ a1 a2 d1 d2, a1 ∈ getAllLeaves r → a2 ∈ getAllLeaves r →
        dataAt r a1 = some d1 → dataAt r a2 = some d2 → SharesFace d1 d2 →
        |d1.depth - d2.depth| ≤ 1 := by
  obtain ⟨r, new, e, g, hsat⟩ := balance_spec root hwf
  refine ⟨r, e, ?_⟩
  intro a1 a2 d1 d2 h1 h2 e1 e2 hf
  have hwf2 := g.wellFormed hwf
  have l1 := (mem_getAllLeaves r a1).mp h1
  have l2 := (mem_getAllLeaves r a2).mp h2
  obtain ⟨d, hd⟩ := hf
  have k1 := length_le_of_faceTowards hwf2 d a1 a2 d1 d2 e1 e2 l2.2 (hsat a1 l1 d) hd
  have k2 := length_le_of_faceTowards hwf2 d.opp a2 a1 d2 d1 e2 e1 l1.2 (hsat a2 l2 d.opp) hd.opp_face
  rw [hwf2.2.2.depth_eq a1 d1 e1, hwf2.2.2.depth_eq a2 d2 e2, abs_le]
  constructor <;> omega

theorem balance_two_to_one_witness :
    WellFormed unbalancedTree ∧
    ∃ r, balance unbalancedTree = some r ∧
      ∀ a1 a2 d1 d2, a1 ∈ getAllLeaves r → a2 ∈ getAllLeaves r →
        dataAt r a1 = some d1 → dataAt r a2 = some d2 → SharesFace d1 d2 →
        |d1.depth - d2.depth| ≤ 1 :=
  ⟨unbalancedTree_wellFormed, balance_two_to_one unbalancedTree unbalancedTree_wellFormed⟩

/-- C8: `refine` gives a cell without children exactly four children, each one
level deeper and with the potential of the cell, on the four equal quadrants of
its bounds in the winding order 0 = north-west, 1 = north-east, 2 = south-east,
3 = south-west; the quadrants leave no gap and do not overlap. -/
theorem refine_children (d : CellData) :
    ∃ c0 c1 c2 c3 : CellData,
      refine (CELL.leaf d) = CELL.node d (CELL.leaf c0) (CELL.leaf c1) (CELL.leaf c2) (CELL.leaf c3) ∧
      (c0.depth = d.depth + 1 ∧ c1.depth = d.depth + 1 ∧ c2.depth = d.depth + 1 ∧
        c3.depth = d.depth + 1) ∧
      (c0.potential = d.potential ∧ c1.potential = d.potential ∧ c2.potential = d.potential ∧
        c3.potential = d.potential) ∧
      (c0.north = d.north ∧ c0.east = (d.west + d.east) / 2 ∧
        c0.south = (d.north + d.south) / 2 ∧ c0.west = d.west) ∧
      (c1.north = d.north ∧ c1.east = d.east ∧
        c1.south = (d.north + d.south) / 2 ∧ c1.west = (d.west + d.east) / 2) ∧
      (c2.north = (d.north + d.south) / 2 ∧ c2.east = d.east ∧
        c2.south = d.south ∧ c2.west = (d.west + d.east) / 2) ∧
      (c3.north = (d.north + d.south) / 2 ∧ c3.east = (d.west + d.east) / 2 ∧
        c3.south = d.south ∧ c3.west = d.west) ∧
      (∀ x y : ℚ, d.west ≤ x → x ≤ d.east → d.south ≤ y → y ≤ d.north →
        (c0.west ≤ x ∧ x ≤ c0.east ∧ c0.south ≤ y ∧ y ≤ c0.north) ∨
        (c1.west ≤ x ∧ x ≤ c1.east ∧ c1.south ≤ y ∧ y ≤ c1.north) ∨
        (c2.west ≤ x ∧ x ≤ c2.east ∧ c2.south ≤ y ∧ y ≤ c2.north) ∨
        (c3.west ≤ x ∧ x ≤ c3.east ∧ c3.south ≤ y ∧ y ≤ c3.north)) ∧
      (¬ Overlap c0 c1 ∧ ¬ Overlap c0 c2 ∧ ¬ Overlap c0 c3 ∧ ¬ Overlap c1 c2 ∧
        ¬ Overlap c1 c3 ∧ ¬ Overlap c2 c3) := by
  refine ⟨childData d Quadrant.q0, childData d Quadrant.q1, childData d Quadrant.q2,
    childData d Quadrant.q3, rfl, ⟨rfl, rfl, rfl, rfl⟩, ⟨rfl, rfl, rfl, rfl⟩, ?_, ?_, ?_, ?_, ?_, ?_⟩
  · simp only [childData, CellData.new]
    refine ⟨trivial, ?_, ?_, trivial⟩ <;> ring
  · simp only [childData, CellData.new]
    refine ⟨trivial, trivial, ?_, ?_⟩ <;> ring
  · simp only [childData, CellData.new]
    refine ⟨?_, trivial, trivial, ?_⟩ <;> ring
  · simp only [childData, CellData.new]
    refine ⟨?_, ?_, trivial, trivial⟩ <;> ring
  · intro x y h1 h2 h3 h4
    simp only [childData, CellData.new]
    rcases le_total x ((d.east + d.west) * (1 / 2)) with hx | hx <;>
      rcases le_total y ((d.north + d.south) * (1 / 2)) with hy | hy
    · exact Or.inr (Or.inr (Or.inr ⟨h1, hx, h3, hy⟩))
    · exact Or.inl ⟨h1, hx, hy, h4⟩
    · exact Or.inr (Or.inr (Or.inl ⟨hx, h2, h3, hy⟩))
    · exact Or.inr (Or.inl ⟨hx, h2, hy, h4⟩)
  · simp only [Overlap, childData, CellData.new, max_lt_iff, lt_min_iff]
    refine ⟨?_, ?_, ?_, ?_, ?_, ?_⟩ <;> intro h <;>
      obtain ⟨⟨⟨x1, x2⟩, x3, x4⟩, ⟨y1, y2⟩, y3, y4⟩ := h <;> linarith

end Lumo

namespace Lumo

namespace CELL

/-! ## Writes that keep the shape of the tree -/

theorem neighbor_congr {r1 r2 : CELL} (h : ∀ b, kidsAt r1 b = kidsAt r2 b) (d : Dir) :
    ∀ c, neighbor r1 d c = neighbor r2 d c := by
  intro c
  induction c with
  | nil => rw [neighbor_nil, neighbor_nil]
  | cons q p ih => rw [neighbor_cons, neighbor_cons, ih]; simp only [h]

theorem data_mapData (g : CellData → CellData) (c : CELL) : (mapData g c).data = g c.data := by
  cases c <;> rfl

theorem data_modifyPath_cons (f : CELL → CELL) (t : CELL) (q : Quadrant) (r : List Quadrant) :
    (modifyPath f t (q :: r)).data = t.data := by
  cases t <;> cases q <;> rfl

theorem Partitioned.mapData_part {c : CELL} (h : Partitioned c) {g : CellData → CellData}
    (hg : ∀ x, (g x).depth = x.depth ∧ (g x).north = x.north ∧ (g x).east = x.east ∧
      (g x).south = x.south ∧ (g x).west = x.west) : Partitioned (mapData g c) := by
  cases c with
  | leaf d => trivial
  | node d c0 c1 c2 c3 =>
    obtain ⟨h0, h1, h2, h3, p0, p1, p2, p3⟩ := h
    obtain ⟨g1, g2, g3, g4, g5⟩ := hg d
    refine ⟨?_, ?_, ?_, ?_, p0, p1, p2, p3⟩
    · cases h0 with
      | intro a b =>
        simp only [IsChildOf, childData, CellData.new, g1, g2, g3, g4, g5] at a b ⊢
        exact ⟨a, b⟩
    · cases h1 with
      | intro a b =>
        simp only [IsChildOf, childData, CellData.new, g1, g2, g3, g4, g5] at a b ⊢
        exact ⟨a, b⟩
    · cases h2 with
      | intro a b =>
        simp only [IsChildOf, childData, CellData.new, g1, g2, g3, g4, g5] at a b ⊢
        exact ⟨a, b⟩
    · cases h3 with
      | intro a b =>
        simp only [IsChildOf, childData, CellData.new, g1, g2, g3, g4, g5] at a b ⊢
        exact ⟨a, b⟩

theorem IsChildOf.of_data_eq {dp dc dc1 : CellData} {q : Quadrant} (h : IsChildOf dp q dc)
    (hg : dc1.depth = dc.depth ∧ dc1.north = dc.north ∧ dc1.east = dc.east ∧
      dc1.south = dc.south ∧ dc1.west = dc.west) : IsChildOf dp q dc1 := by
  obtain ⟨g1, g2, g3, g4, g5⟩ := hg
  obtain ⟨a1, a2, a3, a4, a5⟩ := h
  exact ⟨g1.trans a1, g2.trans a2, g3.trans a3, g4.trans a4, g5.trans a5⟩

theorem data_modifyPath_mapData (g : CellData → CellData) (t : CELL) (r : List Quadrant)
    (hg : ∀ x, (g x).depth = x.depth ∧ (g x).north = x.north ∧ (g x).east = x.east ∧
      (g x).south = x.south ∧ (g x).west = x.west) :
    (modifyPath (mapData g) t r).data.depth = t.data.depth ∧
    (modifyPath (mapData g) t r).data.north = t.data.north ∧
    (modifyPath (mapData g) t r).data.east = t.data.east ∧
    (modifyPath (mapData g) t r).data.south = t.data.south ∧
    (modifyPath (mapData g) t r).data.west = t.data.west := by
  cases r with
  | nil => rw [modifyPath_nil, data_mapData]; exact hg _
  | cons q r => rw [data_modifyPath_cons]; exact ⟨rfl, rfl, rfl, rfl, rfl⟩

theorem Partitioned.modifyPath_mapData {t : CELL} (h : Partitioned t) {g : CellData → CellData}
    (hg : ∀ x, (g x).depth = x.depth ∧ (g x).north = x.north ∧ (g x).east = x.east ∧
      (g x).south = x.south ∧ (g x).west = x.west) (r : List Quadrant) :
    Partitioned (modifyPath (mapData g) t r) := by
  induction r generalizing t with
  | nil => rw [modifyPath_nil]; exact h.mapData_part hg
  | cons q r ih =>
    cases t with
    | leaf d => exact h
    | node d c0 c1 c2 c3 =>
      obtain ⟨h0, h1, h2, h3, p0, p1, p2, p3⟩ := h
      cases q
      · exact ⟨h0.of_data_eq (data_modifyPath_mapData g c0 r hg), h1, h2, h3, ih p0, p1, p2, p3⟩
      · exact ⟨h0, h1.of_data_eq (data_modifyPath_mapData g c1 r hg), h2, h3, p0, ih p1, p2, p3⟩
      · exact ⟨h0, h1, h2.of_data_eq (data_modifyPath_mapData g c2 r hg), h3, p0, p1, ih p2, p3⟩
      · exact ⟨h0, h1, h2, h3.of_data_eq (data_modifyPath_mapData g c3 r hg), p0, p1, p2, ih p3⟩

/-- A write that leaves depth and bounds alone keeps the tree well formed. -/
theorem WellFormed.setData_wf {root : CELL} (h : WellFormed root) {g : CellData → CellData}
    (hg : ∀ x, (g x).depth = x.depth ∧ (g x).north = x.north ∧ (g x).east = x.east ∧
      (g x).south = x.south ∧ (g x).west = x.west) (a : Addr) :
    WellFormed (setData g root a) := by
  unfold setData modifyAt
  obtain ⟨-, e2, e3, e4, e5⟩ := data_modifyPath_mapData g root a.reverse hg
  refine ⟨?_, ?_, h.2.2.modifyPath_mapData hg _⟩
  · rw [e2, e4]; exact h.1
  · rw [e3, e5]; exact h.2.1

theorem cellAt_setData_isSome (g : CellData → CellData) (root : CELL) (a b : Addr) :
    (cellAt (setData g root a) b).isSome = (cellAt root b).isSome := by
  rw [← dataAt_isSome, ← dataAt_isSome, dataAt_setData]
  split
  · cases dataAt root b <;> rfl
  · rfl

theorem depthAt_setData (g : CellData → CellData) (hg : ∀ x, (g x).depth = x.depth)
    (root : CELL) (a b : Addr) : depthAt (setData g root a) b = depthAt root b := by
  have key := dataAt_setData g root a b
  unfold dataAt at key
  unfold depthAt
  cases h1 : cellAt root b with
  | none =>
    simp only [h1, Option.map_none', ite_self, Option.map_eq_none'] at key
    rw [key]
  | some c =>
    simp only [h1, Option.map_some'] at key
    cases h2 : cellAt (setData g root a) b with
    | none => simp [h2] at key; split at key <;> simp at key
    | some c2 =>
      simp only [h2, Option.map_some'] at key
      split at key
      · simp only [Option.some.injEq] at key
        show c2.data.depth = c.data.depth
        rw [key, hg]
      · simp only [Option.some.injEq] at key
        show c2.data.depth = c.data.depth
        rw [key]

end CELL

end Lumo

namespace Lumo

namespace QUAD_POISSON

open CELL

/-! ## The neighbour slots that `buildNeighbors` fills -/

/-- What one block of `buildNeighbors` writes to the leaf `a`, read off the tree `r`. -/
def faceFn (r : CELL) (a : Addr) (d : Dir) (i i1 : Fin 8) (k0 k1 : Quadrant) :
    CellData → CellData :=
  match neighbor r d a with
  | some n =>
    if kidsAt r n = false then
      fun c => setSlot i1 none (setSlot i (some (CellRef.cell n)) c)
    else
      fun c => setSlot i1 (some (CellRef.cell (k1 :: n))) (setSlot i (some (CellRef.cell (k0 :: n))) c)
  | none => setSlot i (some (CellRef.ghost (depthAt r a)))

/-- The slots `i`, `i1` of a leaf `a` hold what `buildNeighbors` puts there for the direction `d`. -/
def FaceOK (r : CELL) (a : Addr) (dat : CellData) (d : Dir) (i i1 : Fin 8) (k0 k1 : Quadrant) :
    Prop :=
  match neighbor r d a with
  | none => dat.neighbors.get i = some (CellRef.ghost (depthAt r a))
  | some n =>
    if kidsAt r n = false then
      dat.neighbors.get i = some (CellRef.cell n) ∧ dat.neighbors.get i1 = none
    else
      dat.neighbors.get i = some (CellRef.cell (k0 :: n)) ∧
        dat.neighbors.get i1 = some (CellRef.cell (k1 :: n))

/-- All eight slots of a leaf hold what `buildNeighbors` puts there. -/
def SlotsOK (r : CELL) (a : Addr) (dat : CellData) : Prop :=
  FaceOK r a dat Dir.north 0 1 Quadrant.q3 Quadrant.q2 ∧
  FaceOK r a dat Dir.east 2 3 Quadrant.q0 Quadrant.q3 ∧
  FaceOK r a dat Dir.south 4 5 Quadrant.q1 Quadrant.q0 ∧
  FaceOK r a dat Dir.west 6 7 Quadrant.q2 Quadrant.q1

/-- The tree `r1` has the cells, the shape and the depths of the tree `r`. -/
def SameView (r1 r : CELL) : Prop :=
  (∀ b, kidsAt r1 b = kidsAt r b) ∧ (∀ b, depthAt r1 b = depthAt r b) ∧
    (∀ b, (cellAt r1 b).isSome = (cellAt r b).isSome)

/-- Wipe the neighbour slots. -/
def eraseSlots (c : CellData) : CellData :=
  { c with neighbors := Mathlib.Vector.replicate 8 none }

theorem buildFace_eq (d : Dir) (i i1 : Fin 8) (k0 k1 : Quadrant) (root : CELL) (cur : Addr) :
    buildFace d i i1 k0 k1 root cur = setData (faceFn root cur d i i1 k0 k1) root cur := by
  unfold buildFace faceFn
  cases neighbor root d cur with
  | none => rfl
  | some n =>
    simp only []
    split <;> rfl

theorem faceFn_congr {r1 r : CELL} (h : SameView r1 r) (a : Addr) (d : Dir) (i i1 : Fin 8)
    (k0 k1 : Quadrant) : faceFn r1 a d i i1 k0 k1 = faceFn r a d i i1 k0 k1 := by
  unfold faceFn
  rw [neighbor_congr h.1 d a, h.2.1 a]
  cases neighbor r d a with
  | none => rfl
  | some n => simp only [h.1 n]

theorem faceFn_keeps (r : CELL) (a : Addr) (d : Dir) (i i1 : Fin 8) (k0 k1 : Quadrant)
    (x : CellData) :
    (faceFn r a d i i1 k0 k1 x).depth = x.depth ∧ (faceFn r a d i i1 k0 k1 x).north = x.north ∧
    (faceFn r a d i i1 k0 k1 x).east = x.east ∧ (faceFn r a d i i1 k0 k1 x).south = x.south ∧
    (faceFn r a d i i1 k0 k1 x).west = x.west ∧
    eraseSlots (faceFn r a d i i1 k0 k1 x) = eraseSlots x := by
  unfold faceFn
  cases neighbor r d a with
  | none => exact ⟨rfl, rfl, rfl, rfl, rfl, rfl⟩
  | some n =>
    simp only []
    split <;> exact ⟨rfl, rfl, rfl, rfl, rfl, rfl⟩

theorem faceFn_get_other (r : CELL) (a : Addr) (d : Dir) (i i1 : Fin 8) (k0 k1 : Quadrant)
    (x : CellData) (j : Fin 8) (h1 : i ≠ j) (h2 : i1 ≠ j) :
    (faceFn r a d i i1 k0 k1 x).neighbors.get j = x.neighbors.get j := by
  unfold faceFn
  cases neighbor r d a with
  | none => simp only [setSlot, Mathlib.Vector.get_set_of_ne h1]
  | some n =>
    simp only []
    split <;> simp only [setSlot, Mathlib.Vector.get_set_of_ne h1, Mathlib.Vector.get_set_of_ne h2]

theorem faceFn_faceOK (r : CELL) (a : Addr) (d : Dir) (i i1 : Fin 8) (k0 k1 : Quadrant)
    (x : CellData) (h : i ≠ i1) : FaceOK r a (faceFn r a d i i1 k0 k1 x) d i i1 k0 k1 := by
  unfold faceFn FaceOK
  cases neighbor r d a with
  | none => simp only [setSlot, Mathlib.Vector.get_set_same]
  | some n =>
    simp only []
    split <;>
      simp only [setSlot, Mathlib.Vector.get_set_same, Mathlib.Vector.get_set_of_ne h.symm,
        and_self]

theorem FaceOK.of_get_eq {r : CELL} {a : Addr} {x y : CellData} {d : Dir} {i i1 : Fin 8}
    {k0 k1 : Quadrant} (h : FaceOK r a x d i i1 k0 k1)
    (e0 : y.neighbors.get i = x.neighbors.get i) (e1 : y.neighbors.get i1 = x.neighbors.get i1) :
    FaceOK r a y d i i1 k0 k1 := by
  unfold FaceOK at h ⊢
  rw [e0, e1]
  exact h

/-- Everything that the body of the loop of `buildNeighbors` writes to the leaf `a`. -/
def cellFn (r : CELL) (a : Addr) (x : CellData) : CellData :=
  faceFn r a Dir.west 6 7 Quadrant.q2 Quadrant.q1
    (faceFn r a Dir.south 4 5 Quadrant.q1 Quadrant.q0
      (faceFn r a Dir.east 2 3 Quadrant.q0 Quadrant.q3
        (faceFn r a Dir.north 0 1 Quadrant.q3 Quadrant.q2 x)))

theorem cellFn_slotsOK (r : CELL) (a : Addr) (x : CellData) : SlotsOK r a (cellFn r a x) := by
  unfold cellFn
  refine ⟨?_, ?_, ?_, ?_⟩
  · refine FaceOK.of_get_eq (faceFn_faceOK r a Dir.north 0 1 Quadrant.q3 Quadrant.q2 x
      (by decide)) ?_ ?_ <;>
      rw [faceFn_get_other _ _ _ _ _ _ _ _ _ (by decide) (by decide),
        faceFn_get_other _ _ _ _ _ _ _ _ _ (by decide) (by decide),
        faceFn_get_other _ _ _ _ _ _ _ _ _ (by decide) (by decide)]
  · refine FaceOK.of_get_eq (faceFn_faceOK r a Dir.east 2 3 Quadrant.q0 Quadrant.q3
      (faceFn r a Dir.north 0 1 Quadrant.q3 Quadrant.q2 x) (by decide)) ?_ ?_ <;>
      rw [faceFn_get_other _ _ _ _ _ _ _ _ _ (by decide) (by decide),
        faceFn_get_other _ _ _ _ _ _ _ _ _ (by decide) (by decide)]
  · refine FaceOK.of_get_eq (faceFn_faceOK r a Dir.south 4 5 Quadrant.q1 Quadrant.q0
      (faceFn r a Dir.east 2 3 Quadrant.q0 Quadrant.q3
        (faceFn r a Dir.north 0 1 Quadrant.q3 Quadrant.q2 x)) (by decide)) ?_ ?_ <;>
      rw [faceFn_get_other _ _ _ _ _ _ _ _ _ (by decide) (by decide)]
  · exact faceFn_faceOK r a Dir.west 6 7 Quadrant.q2 Quadrant.q1 _ (by decide)

theorem cellFn_keeps (r : CELL) (a : Addr) (x : CellData) :
    (cellFn r a x).depth = x.depth ∧ eraseSlots (cellFn r a x) = eraseSlots x := by
  unfold cellFn
  obtain ⟨a1, -, -, -, -, a2⟩ := faceFn_keeps r a Dir.north 0 1 Quadrant.q3 Quadrant.q2 x
  obtain ⟨b1, -, -, -, -, b2⟩ := faceFn_keeps r a Dir.east 2 3 Quadrant.q0 Quadrant.q3
    (faceFn r a Dir.north 0 1 Quadrant.q3 Quadrant.q2 x)
  obtain ⟨c1, -, -, -, -, c2⟩ := faceFn_keeps r a Dir.south 4 5 Quadrant.q1 Quadrant.q0
    (faceFn r a Dir.east 2 3 Quadrant.q0 Quadrant.q3
      (faceFn r a Dir.north 0 1 Quadrant.q3 Quadrant.q2 x))
  obtain ⟨d1, -, -, -, -, d2⟩ := faceFn_keeps r a Dir.west 6 7 Quadrant.q2 Quadrant.q1
    (faceFn r a Dir.south 4 5 Quadrant.q1 Quadrant.q0
      (faceFn r a Dir.east 2 3 Quadrant.q0 Quadrant.q3
        (faceFn r a Dir.north 0 1 Quadrant.q3 Quadrant.q2 x)))
  exact ⟨by rw [d1, c1, b1, a1], by rw [d2, c2, b2, a2]⟩

theorem SameView.setData_view {r1 r : CELL} (h : SameView r1 r) (g : CellData → CellData)
    (hg : ∀ x, (g x).depth = x.depth) (a : Addr) : SameView (setData g r1 a) r :=
  ⟨fun b => by rw [kidsAt_setData, h.1], fun b => by rw [depthAt_setData g hg, h.2.1],
    fun b => by rw [cellAt_setData_isSome, h.2.2]⟩

theorem SameView.refl_view (r : CELL) : SameView r r :=
  ⟨fun _ => rfl, fun _ => rfl, fun _ => rfl⟩

/-- Effect of the body of the loop of `buildNeighbors` on the data of the cells. -/
theorem buildCell_data {r1 r : CELL} (h : SameView r1 r) (a : Addr) :
    SameView (buildCell r1 a) r ∧
    ∀ b, dataAt (buildCell r1 a) b =
      if b = a then (dataAt r1 b).map (cellFn r a) else dataAt r1 b := by
  unfold buildCell
  have k1 := fun x => (faceFn_keeps r a Dir.north 0 1 Quadrant.q3 Quadrant.q2 x).1
  have k2 := fun x => (faceFn_keeps r a Dir.east 2 3 Quadrant.q0 Quadrant.q3 x).1
  have k3 := fun x => (faceFn_keeps r a Dir.south 4 5 Quadrant.q1 Quadrant.q0 x).1
  have k4 := fun x => (faceFn_keeps r a Dir.west 6 7 Quadrant.q2 Quadrant.q1 x).1
  rw [buildFace_eq Dir.north, faceFn_congr h]
  have v1 := h.setData_view _ k1 a
  rw [buildFace_eq Dir.east, faceFn_congr v1]
  have v2 := v1.setData_view _ k2 a
  rw [buildFace_eq Dir.south, faceFn_congr v2]
  have v3 := v2.setData_view _ k3 a
  rw [buildFace_eq Dir.west, faceFn_congr v3]
  have v4 := v3.setData_view _ k4 a
  refine ⟨v4, ?_⟩
  intro b
  rw [dataAt_setData, dataAt_setData, dataAt_setData, dataAt_setData]
  split
  · cases dataAt r1 b <;> rfl
  · rfl

theorem buildLoop_spec (r : CELL) :
    ∀ (ls : List Addr) (r1 : CELL), SameView r1 r →
      SameView (ls.foldl buildCell r1) r ∧
      (∀ b, (dataAt (ls.foldl buildCell r1) b).map eraseSlots = (dataAt r1 b).map eraseSlots) ∧
      ∀ b dat, dataAt (ls.foldl buildCell r1) b = some dat →
        (b ∈ ls ∨ ∃ dat0, dataAt r1 b = some dat0 ∧ SlotsOK r b dat0) → SlotsOK r b dat := by
  intro ls
  induction ls with
  | nil =>
    intro r1 h
    refine ⟨h, fun _ => rfl, ?_⟩
    intro b dat hd hb
    rcases hb with hb | ⟨dat0, h0, h1⟩
    · simp at hb
    · simp only [List.foldl_nil] at hd
      rw [hd] at h0
      simp only [Option.some.injEq] at h0
      exact h0 ▸ h1
  | cons a rest ih =>
    intro r1 h
    obtain ⟨v, hdata⟩ := buildCell_data h a
    obtain ⟨v2, he, hs⟩ := ih (buildCell r1 a) v
    simp only [List.foldl_cons]
    refine ⟨v2, ?_, ?_⟩
    · intro b
      rw [he b, hdata b]
      split
      · cases hb : dataAt r1 b with
        | none => rfl
        | some x => simp [(cellFn_keeps r a x).2]
      · rfl
    · intro b dat hd hb
      apply hs b dat hd
      by_cases hba : b = a
      · right
        have hcell : (dataAt (buildCell r1 a) b).isSome = true := by
          rw [dataAt_isSome, v.2.2, ← v2.2.2, ← dataAt_isSome, hd]; rfl
        obtain ⟨y, hy⟩ := Option.isSome_iff_exists.mp hcell
        refine ⟨y, hy, ?_⟩
        rw [hdata b, if_pos hba] at hy
        cases hx : dataAt r1 b with
        | none => simp [hx] at hy
        | some x =>
          simp only [hx, Option.map_some', Option.some.injEq] at hy
          rw [← hy, hba]
          exact cellFn_slotsOK r a x
      · rcases hb with hb | ⟨dat0, h0, h1⟩
        · left
          simpa [hba] using hb
        · right
          exact ⟨dat0, by rw [hdata b, if_neg hba]; exact h0, h1⟩

/-- `buildNeighbors` returns; it balances the tree and then fills the slots of every leaf
from the lookups in the balanced tree, leaving everything else alone. -/
theorem buildNeighbors_spec (root : CELL) (hwf : WellFormed root) :
    ∃ r r1 new, balance root = some r ∧ buildNeighbors root = some r1 ∧
      Grows (height root) root r new ∧ (∀ a, IsLeafAt r a → Sat r a) ∧ SameView r1 r ∧
      (∀ b, (dataAt r1 b).map eraseSlots = (dataAt r b).map eraseSlots) ∧
      ∀ a dat, a ∈ getAllLeaves r → dataAt r1 a = some dat → SlotsOK r a dat := by
  obtain ⟨r, new, e, g, hsat⟩ := balance_spec root hwf
  obtain ⟨v, he, hs⟩ := buildLoop_spec r (getAllLeaves r) r (SameView.refl_view r)
  refine ⟨r, (getAllLeaves r).foldl buildCell r, new, e, ?_, g, hsat, v, he, ?_⟩
  · unfold buildNeighbors
    rw [e]
  · intro a dat ha hd
    exact hs a dat hd (Or.inl ha)

end QUAD_POISSON

end Lumo

namespace Lumo

namespace CELL

/-! ## Looking back from the neighbour -/

theorem Dir.flip_opp (d : Dir) (q : Quadrant) : d.opp.flip (d.flip q) = q := by
  cases d <;> cases q <;> rfl

theorem Dir.onSide_opp_flip (d : Dir) (q : Quadrant) : d.opp.onSide (d.flip q) = d.onSide q := by
  cases d <;> cases q <;> rfl

/-- If a lookup from the cell `a` returns a cell `n` of the same level, the lookup in
the opposite direction from `n` returns `a`. -/
theorem neighbor_opp (r : CELL) (d : Dir) :
    ∀ (a n : Addr), (cellAt r a).isSome = true → neighbor r d a = some n →
      n.length = a.length → neighbor r d.opp n = some a := by
  intro a
  induction a with
  | nil =>
    intro n _ hn
    simp [neighbor_nil] at hn
  | cons q p ih =>
    intro n ha hn hl
    rw [cellAt_cons_isSome] at ha
    rw [neighbor_cons] at hn
    by_cases hside : d.onSide q = true
    · rw [if_pos hside] at hn
      cases hmu : neighbor r d p with
      | none => simp [hmu] at hn
      | some mu =>
        simp only [hmu] at hn
        have hlen := (neighbor_length r d p mu hmu).1
        by_cases hk : kidsAt r mu = false
        · rw [if_pos hk] at hn
          simp only [Option.some.injEq] at hn
          subst hn
          simp only [List.length_cons] at hl
          omega
        · rw [if_neg hk] at hn
          simp only [Option.some.injEq] at hn
          subst hn
          simp only [List.length_cons, add_left_inj] at hl
          rw [neighbor_cons, Dir.onSide_opp_flip, if_pos hside,
            ih mu (kidsAt_isSome r p ha) hmu hl]
          simp only [ha, Bool.true_eq_false, if_false, Dir.flip_opp]
    · rw [if_neg hside] at hn
      simp only [Option.some.injEq] at hn
      subst hn
      rw [neighbor_cons, Dir.onSide_opp_flip, if_neg hside, Dir.flip_opp]

end CELL

open CELL QUAD_POISSON

theorem QUAD_POISSON.SameView.isLeafAt {r1 r : CELL} (h : SameView r1 r) (a : Addr) :
    IsLeafAt r1 a ↔ IsLeafAt r a := by
  unfold IsLeafAt
  rw [h.1 a, h.2.2 a]

theorem QUAD_POISSON.depth_of_erase {r1 r : CELL}
    (he : ∀ b, (dataAt r1 b).map eraseSlots = (dataAt r b).map eraseSlots) {a : Addr}
    {dat : CellData} (h : dataAt r1 a = some dat) :
    ∃ dat0, dataAt r a = some dat0 ∧ dat0.depth = dat.depth := by
  have key := he a
  rw [h] at key
  cases h0 : dataAt r a with
  | none => simp [h0] at key
  | some dat0 =>
    refine ⟨dat0, rfl, ?_⟩
    simp only [h0, Option.map_some', Option.some.injEq] at key
    have : (eraseSlots dat).depth = (eraseSlots dat0).depth := by rw [key]
    exact this.symm

/-- C7: after `buildNeighbors`, if the north slot `neighbors[0]` of a leaf `L` holds a
leaf `B` of the same depth, then one of the south slots `neighbors[4]`,
`neighbors[5]` of `B` holds `L`. -/
theorem buildNeighbors_north_south (root : CELL) (hwf : WellFormed root) :
    ∃ r1, buildNeighbors root = some r1 ∧
      ∀ (L B : Addr) (dL dB : CellData), L ∈ getAllLeaves r1 → B ∈ getAllLeaves r1 →
        dataAt r1 L = some dL → dataAt r1 B = some dB →
        dL.neighbors.get 0 = some (CellRef.cell B) → dB.depth = dL.depth →
        dB.neighbors.get 4 = some (CellRef.cell L) ∨ dB.neighbors.get 5 = some (CellRef.cell L) := by
  obtain ⟨r, r1, new, -, e, g, -, v, he, hs⟩ := buildNeighbors_spec root hwf
  refine ⟨r1, e, ?_⟩
  intro L B dL dB hL hB hdL hdB hslot hdepth
  have hwf2 := g.wellFormed hwf
  have lL := (v.isLeafAt L).mp ((mem_getAllLeaves r1 L).mp hL)
  have lB := (v.isLeafAt B).mp ((mem_getAllLeaves r1 B).mp hB)
  obtain ⟨xL, hxL, exL⟩ := depth_of_erase he hdL
  obtain ⟨xB, hxB, exB⟩ := depth_of_erase he hdB
  have hlen : B.length = L.length := by
    have h1 := hwf2.2.2.depth_eq L xL hxL
    have h2 := hwf2.2.2.depth_eq B xB hxB
    omega
  have sL := (hs L dL ((mem_getAllLeaves r L).mpr lL) hdL).1
  have sB := (hs B dB ((mem_getAllLeaves r B).mpr lB) hdB).2.2.1
  unfold FaceOK at sL
  cases hn : neighbor r Dir.north L with
  | none =>
    simp only [hn] at sL
    rw [sL] at hslot
    simp at hslot
  | some n =>
    simp only [hn] at sL
    obtain ⟨n1, n2⟩ := neighbor_length r Dir.north L n hn
    by_cases hk : kidsAt r n = false
    · rw [if_pos hk] at sL
      rw [sL.1] at hslot
      simp only [Option.some.injEq, CellRef.cell.injEq] at hslot
      subst hslot
      have hback := neighbor_opp r Dir.north L n lL.1 hn hlen
      unfold FaceOK at sB
      simp only [Dir.opp] at hback
      simp only [hback, lL.2, if_true] at sB
      exact Or.inl sB.1
    · rw [if_neg hk] at sL
      rw [sL.1] at hslot
      simp only [Option.some.injEq, CellRef.cell.injEq] at hslot
      subst hslot
      simp only [List.length_cons] at hlen
      exact absurd (n2 (by omega)) hk

theorem buildNeighbors_north_south_witness :
    WellFormed unbalancedTree ∧
    ∃ r1, buildNeighbors unbalancedTree = some r1 ∧
      ∀ (L B : Addr) (dL dB : CellData), L ∈ getAllLeaves r1 → B ∈ getAllLeaves r1 →
        dataAt r1 L = some dL → dataAt r1 B = some dB →
        dL.neighbors.get 0 = some (CellRef.cell B) → dB.depth = dL.depth →
        dB.neighbors.get 4 = some (CellRef.cell L) ∨ dB.neighbors.get 5 = some (CellRef.cell L) :=
  ⟨unbalancedTree_wellFormed, buildNeighbors_north_south unbalancedTree unbalancedTree_wellFormed⟩

end Lumo

namespace Lumo

namespace CELL

/-! ## Centres and the descent of `insert` -/

theorem Centered.child_cen {t c : CELL} {q : Quadrant} (h : Centered t) (hc : t.child q = some c) :
    Centered c := by
  cases t with
  | leaf d => simp [CELL.child] at hc
  | node d c0 c1 c2 c3 =>
    obtain ⟨-, -, p0, p1, p2, p3⟩ := h
    cases q <;> simp only [CELL.child, Option.some.injEq] at hc <;> subst hc <;> assumption

theorem Centered.top {t : CELL} (h : Centered t) :
    t.data.centerX = (t.data.east + t.data.west) * (1 / 2) ∧
      t.data.centerY = (t.data.north + t.data.south) * (1 / 2) := by
  cases t with
  | leaf d => exact h
  | node d c0 c1 c2 c3 => exact ⟨h.1, h.2.1⟩

theorem Centered.cellAt_cen {root : CELL} (h : Centered root) :
    ∀ (a : Addr) (c : CELL), cellAt root a = some c → Centered c := by
  intro a
  induction a with
  | nil =>
    intro c hc
    simp only [cellAt_nil, Option.some.injEq] at hc
    exact hc ▸ h
  | cons q p ih =>
    intro c hc
    rw [cellAt_cons] at hc
    cases hp : CELL.cellAt root p with
    | none => simp [hp] at hc
    | some cp =>
      simp only [hp, Option.some_bind] at hc
      exact (ih cp hp).child_cen hc

theorem Centered.refine_cen {c : CELL} (h : Centered c) : Centered (refine c) := by
  cases c with
  | leaf d =>
    obtain ⟨h1, h2⟩ := h
    simp only [CELL.refine, Centered, childData, CellData.new, and_self, and_true]
    exact ⟨h1, h2⟩
  | node d c0 c1 c2 c3 => exact h

theorem Centered.modifyPath_refine_cen {t : CELL} (h : Centered t) (r : List Quadrant) :
    Centered (modifyPath CELL.refine t r) := by
  induction r generalizing t with
  | nil => rw [modifyPath_nil]; exact h.refine_cen
  | cons q r ih =>
    cases t with
    | leaf d => exact h
    | node d c0 c1 c2 c3 =>
      obtain ⟨h0, h1, p0, p1, p2, p3⟩ := h
      cases q
      · exact ⟨h0, h1, ih p0, p1, p2, p3⟩
      · exact ⟨h0, h1, p0, ih p1, p2, p3⟩
      · exact ⟨h0, h1, p0, p1, ih p2, p3⟩
      · exact ⟨h0, h1, p0, p1, p2, ih p3⟩

theorem Centered.refineAt_cen {root : CELL} (h : Centered root) (a : Addr) :
    Centered (refineAt root a) :=
  h.modifyPath_refine_cen a.reverse

/-- The point `(x, y)` lies in the closed rectangle of the cell. -/
def Holds (c : CellData) (x y : ℚ) : Prop :=
  c.west ≤ x ∧ x ≤ c.east ∧ c.south ≤ y ∧ y ≤ c.north

/-- The quadrant `insert` descends into contains the point. -/
theorem holds_quadrantOf {dp dc : CellData} {x y : ℚ}
    (hcx : dp.centerX = (dp.east + dp.west) * (1 / 2))
    (hcy : dp.centerY = (dp.north + dp.south) * (1 / 2))
    (hc : IsChildOf dp (QUAD_POISSON.quadrantOf dp x y) dc) (h : Holds dp x y) : Holds dc x y := by
  obtain ⟨-, hn, he, hs, hw⟩ := hc
  obtain ⟨h1, h2, h3, h4⟩ := h
  unfold QUAD_POISSON.quadrantOf at hn he hs hw
  unfold Holds
  by_cases c1 : x - dp.centerX > 0
  · by_cases c2 : y - dp.centerY < 0
    · simp only [c1, c2, if_true, childData, CellData.new] at hn he hs hw
      rw [hn, he, hs, hw]
      refine ⟨?_, ?_, ?_, ?_⟩ <;> linarith
    · simp only [c1, c2, if_true, if_false, childData, CellData.new] at hn he hs hw
      rw [hn, he, hs, hw]
      refine ⟨?_, ?_, ?_, ?_⟩ <;> linarith
  · by_cases c2 : y - dp.centerY < 0
    · simp only [c1, c2, if_true, if_false, childData, CellData.new] at hn he hs hw
      rw [hn, he, hs, hw]
      refine ⟨?_, ?_, ?_, ?_⟩ <;> linarith
    · simp only [c1, c2, if_false, childData, CellData.new] at hn he hs hw
      rw [hn, he, hs, hw]
      refine ⟨?_, ?_, ?_, ?_⟩ <;> linarith

theorem kidsAt_length_lt {root : CELL} {a : Addr} (h : kidsAt root a = true) :
    a.length + 1 ≤ height root := by
  have h1 : (cellAt root (Quadrant.q0 :: a)).isSome = true := by
    rw [cellAt_cons_isSome]; exact h
  simpa using length_le_height root _ h1

end CELL

namespace QUAD_POISSON

open CELL

/-- The loop of `insert` that walks down to the maximum level: it ends, on a cell of
the tree that contains the point and lies `steps` levels below the cell it started from. -/
theorem descend_spec (x y : ℚ) (H : Nat) :
    ∀ (steps : Nat) (root : CELL) (cur : Addr) (existed : Bool) (dc : CellData),
      WellFormed root → Centered root → height root ≤ H → cur.length + steps ≤ H →
      dataAt root cur = some dc → Holds dc x y →
      ∃ root1 cur1 ex1 dc1, descend x y steps root cur existed = some (root1, cur1, ex1) ∧
        WellFormed root1 ∧ Centered root1 ∧ height root1 ≤ H ∧ root1.data = root.data ∧
        cur1.length = cur.length + steps ∧ dataAt root1 cur1 = some dc1 ∧ Holds dc1 x y := by
  intro steps
  induction steps with
  | zero =>
    intro root cur existed dc hwf hcen hh _ hd hp
    exact ⟨root, cur, existed, dc, rfl, hwf, hcen, hh, rfl, rfl, hd, hp⟩
  | succ steps ih =>
    intro root cur existed dc hwf hcen hh hlen hd hp
    unfold descend
    have hd0 := hd
    unfold dataAt at hd
    cases hc : cellAt root cur with
    | none => simp [hc] at hd
    | some c =>
      simp only [hc, Option.map_some', Option.some.injEq] at hd
      subst hd
      simp only []
      obtain ⟨cx, cy⟩ := (hcen.cellAt_cen cur c hc).top
      by_cases hk : (c.child (quadrantOf c.data x y)).isNone = true
      · rw [if_pos hk]
        have hleafc : c.hasChildren = false := by
          rw [← child_isSome c (quadrantOf c.data x y)]
          cases h : c.child (quadrantOf c.data x y) with
          | none => rfl
          | some _ => simp [h] at hk
        have hcell : (cellAt root cur).isSome = true := by rw [hc]; rfl
        have hkids : kidsAt (refineAt root cur) cur = true := by
          rw [kidsAt_refineAt]
          simp [hcell]
        have hwf1 := hwf.refineAt_wf cur
        obtain ⟨dq, hdq⟩ := dataAt_child (quadrantOf c.data x y) hkids
        have hd1 := dataAt_refineAt root cur cur c.data hd0
        have hchild := hwf1.2.2.isChildOf hd1 hdq
        obtain ⟨root1, cur1, ex1, dc1, e, w1, w2, w3, w4, w5, w6, w7⟩ :=
          ih (refineAt root cur) (quadrantOf c.data x y :: cur) false dq hwf1
            (hcen.refineAt_cen cur) (height_refineAt root cur H hh (by omega))
            (by simp only [List.length_cons]; omega) hdq (holds_quadrantOf cx cy hchild hp)
        refine ⟨root1, cur1, ex1, dc1, e, w1, w2, w3, by rw [w4, data_refineAt], ?_, w6, w7⟩
        rw [w5]
        simp only [List.length_cons]
        omega
      · rw [if_neg hk]
        have hkids : kidsAt root cur = true := by
          unfold kidsAt
          rw [hc]
          simp only []
          rw [← child_isSome c (quadrantOf c.data x y)]
          cases h : c.child (quadrantOf c.data x y) with
          | none => simp [h] at hk
          | some _ => rfl
        obtain ⟨dq, hdq⟩ := dataAt_child (quadrantOf c.data x y) hkids
        have hchild := hwf.2.2.isChildOf hd0 hdq
        obtain ⟨root1, cur1, ex1, dc1, e, w1, w2, w3, w4, w5, w6, w7⟩ :=
          ih root (quadrantOf c.data x y :: cur) existed dq hwf hcen hh
            (by simp only [List.length_cons]; omega) hdq (holds_quadrantOf cx cy hchild hp)
        refine ⟨root1, cur1, ex1, dc1, e, w1, w2, w3, w4, ?_, w6, w7⟩
        rw [w5]
        simp only [List.length_cons]
        omega

end QUAD_POISSON

end Lumo

namespace Lumo

namespace CELL

/-! ## Changes of the tree during `insert` -/

/-- The write `g` leaves depth and bounds of a cell alone. -/
def KeepsGeo (g : CellData → CellData) : Prop :=
  ∀ x, (g x).depth = x.depth ∧ (g x).north = x.north ∧ (g x).east = x.east ∧
    (g x).south = x.south ∧ (g x).west = x.west

/-- `Evolve M root r`: `r` results from `root` by refining cells above level `M` and by
writes that leave depth and bounds alone. -/
inductive Evolve (M : Nat) : CELL → CELL → Prop
  | refl (r : CELL) : Evolve M r r
  | refine_then (root r : CELL) (n : Addr) :
      n.length + 1 ≤ M → Evolve M (refineAt root n) r → Evolve M root r
  | set_then (root r : CELL) (g : CellData → CellData) (a : Addr) :
      KeepsGeo g → Evolve M (setData g root a) r → Evolve M root r

theorem Evolve.trans_evolve {M : Nat} {r1 r2 r3 : CELL} (h1 : Evolve M r1 r2)
    (h2 : Evolve M r2 r3) : Evolve M r1 r3 := by
  induction h1 with
  | refl r => exact h2
  | refine_then root r n hn _ ih => exact Evolve.refine_then root r3 n hn (ih h2)
  | set_then root r g a hg _ ih => exact Evolve.set_then root r3 g a hg (ih h2)

theorem Evolve.of_refine {M : Nat} (root : CELL) (n : Addr) (h : n.length + 1 ≤ M) :
    Evolve M root (refineAt root n) :=
  Evolve.refine_then root _ n h (Evolve.refl _)

theorem Evolve.of_set {M : Nat} (root : CELL) (g : CellData → CellData) (a : Addr)
    (h : KeepsGeo g) : Evolve M root (setData g root a) :=
  Evolve.set_then root _ g a h (Evolve.refl _)

theorem height_modifyPath_mapData (g : CellData → CellData) (t : CELL) :
    ∀ r : List Quadrant, height (modifyPath (mapData g) t r) = height t := by
  induction t with
  | leaf d =>
    intro r
    cases r <;> rfl
  | node d c0 c1 c2 c3 ih0 ih1 ih2 ih3 =>
    intro r
    cases r with
    | nil => rfl
    | cons q r =>
      cases q <;> simp only [modifyPath, height]
      · rw [ih0]
      · rw [ih1]
      · rw [ih2]
      · rw [ih3]

theorem height_setData (g : CellData → CellData) (root : CELL) (a : Addr) :
    height (setData g root a) = height root :=
  height_modifyPath_mapData g root a.reverse

theorem Evolve.wf_evolve {M : Nat} {r1 r2 : CELL} (h : Evolve M r1 r2) (hwf : WellFormed r1) :
    WellFormed r2 := by
  induction h with
  | refl r => exact hwf
  | refine_then root r n _ _ ih => exact ih (hwf.refineAt_wf n)
  | set_then root r g a hg _ ih => exact ih (hwf.setData_wf hg a)

theorem Evolve.height_evolve {M : Nat} {r1 r2 : CELL} (h : Evolve M r1 r2)
    (hh : height r1 ≤ M) : height r2 ≤ M := by
  induction h with
  | refl r => exact hh
  | refine_then root r n hn _ ih => exact ih (height_refineAt root n M hh hn)
  | set_then root r g a _ _ ih => exact ih (by rw [height_setData]; exact hh)

/-- Depth and bounds of the cells that exist stay what they are. -/
theorem Evolve.geo_evolve {M : Nat} {r1 r2 : CELL} (h : Evolve M r1 r2) :
    ∀ (a : Addr) (d : CellData), dataAt r1 a = some d →
      ∃ d2, dataAt r2 a = some d2 ∧ d2.depth = d.depth ∧ d2.north = d.north ∧
        d2.east = d.east ∧ d2.south = d.south ∧ d2.west = d.west := by
  induction h with
  | refl r => exact fun a d hd => ⟨d, hd, rfl, rfl, rfl, rfl, rfl⟩
  | refine_then root r n _ _ ih =>
    intro a d hd
    exact ih a d (dataAt_refineAt root n a d hd)
  | set_then root r g a0 hg _ ih =>
    intro a d hd
    by_cases ha : a = a0
    · obtain ⟨d2, e, e1, e2, e3, e4, e5⟩ := ih a (g d) (by rw [dataAt_setData, if_pos ha, hd]; rfl)
      obtain ⟨g1, g2, g3, g4, g5⟩ := hg d
      exact ⟨d2, e, e1.trans g1, e2.trans g2, e3.trans g3, e4.trans g4, e5.trans g5⟩
    · exact ih a d (by rw [dataAt_setData, if_neg ha]; exact hd)

theorem Evolve.isCell_evolve {M : Nat} {r1 r2 : CELL} (h : Evolve M r1 r2) {a : Addr}
    (ha : (cellAt r1 a).isSome = true) : (cellAt r2 a).isSome = true := by
  rw [← dataAt_isSome] at ha ⊢
  obtain ⟨d, hd⟩ := Option.isSome_iff_exists.mp ha
  obtain ⟨d2, e, -⟩ := h.geo_evolve a d hd
  rw [e]
  rfl

theorem Evolve.root_depth {M : Nat} {r1 r2 : CELL} (h : Evolve M r1 r2) :
    r2.data.depth = r1.data.depth := by
  obtain ⟨d2, e, e1, -⟩ := h.geo_evolve [] r1.data rfl
  simp only [dataAt, cellAt_nil, Option.map_some', Option.some.injEq] at e
  rw [e, e1]

end CELL

namespace QUAD_POISSON

open CELL

/-! ## The blocks of `insert` that refine the neighbours -/

theorem noiseData_keepsGeo : KeepsGeo noiseData :=
  fun _ => ⟨rfl, rfl, rfl, rfl, rfl⟩

theorem setNoise_spec (M : Nat) (m : QUAD_POISSON) (a : Addr) :
    Evolve M m.root (setNoise m a).root ∧ (setNoise m a).maxDepth = m.maxDepth := by
  unfold setNoise
  cases dataAt m.root a with
  | none => exact ⟨Evolve.refl _, rfl⟩
  | some c =>
    simp only []
    split
    · exact ⟨Evolve.refl _, rfl⟩
    · split
      · exact ⟨Evolve.of_set _ _ _ noiseData_keepsGeo, rfl⟩
      · exact ⟨Evolve.refl _, rfl⟩

theorem noteLeaf_spec (M : Nat) (m : QUAD_POISSON) (a : Addr) :
    Evolve M m.root (noteLeaf m a).root ∧ (noteLeaf m a).maxDepth = m.maxDepth := by
  unfold noteLeaf
  exact setNoise_spec M { m with smallestLeaves := m.smallestLeaves ++ [a] } a

theorem noteLeaves_spec (M : Nat) (m : QUAD_POISSON) (parent : Addr) :
    Evolve M m.root (noteLeaves m parent).root ∧ (noteLeaves m parent).maxDepth = m.maxDepth := by
  unfold noteLeaves childrenOf
  simp only [List.foldl_cons, List.foldl_nil]
  obtain ⟨a1, b1⟩ := noteLeaf_spec M m (Quadrant.q0 :: parent)
  obtain ⟨a2, b2⟩ := noteLeaf_spec M (noteLeaf m (Quadrant.q0 :: parent)) (Quadrant.q1 :: parent)
  obtain ⟨a3, b3⟩ := noteLeaf_spec M
    (noteLeaf (noteLeaf m (Quadrant.q0 :: parent)) (Quadrant.q1 :: parent)) (Quadrant.q2 :: parent)
  obtain ⟨a4, b4⟩ := noteLeaf_spec M
    (noteLeaf (noteLeaf (noteLeaf m (Quadrant.q0 :: parent)) (Quadrant.q1 :: parent))
      (Quadrant.q2 :: parent)) (Quadrant.q3 :: parent)
  exact ⟨((a1.trans_evolve a2).trans_evolve a3).trans_evolve a4, by rw [b4, b3, b2, b1]⟩

theorem noteSiblings_spec (M : Nat) (m : QUAD_POISSON) (a : Addr) (h : a ≠ []) :
    ∃ m1, noteSiblings m a = some m1 ∧ Evolve M m.root m1.root ∧ m1.maxDepth = m.maxDepth := by
  cases a with
  | nil => exact absurd rfl h
  | cons q p => exact ⟨noteLeaves m p, rfl, noteLeaves_spec M m p⟩

/-- What the blocks of `insert` rely on: a well-formed tree of depth 0 at the root whose
cells are at most at level `M`, the maximum depth. -/
def MeshOK (M : Nat) (m : QUAD_POISSON) : Prop :=
  WellFormed m.root ∧ m.root.data.depth = 0 ∧ height m.root ≤ M ∧ m.maxDepth = (M : Int)

theorem MeshOK.evolve {M : Nat} {m m1 : QUAD_POISSON} (h : MeshOK M m)
    (he : Evolve M m.root m1.root) (hm : m1.maxDepth = m.maxDepth) : MeshOK M m1 :=
  ⟨he.wf_evolve h.1, by rw [he.root_depth]; exact h.2.1, he.height_evolve h.2.2.1,
    by rw [hm]; exact h.2.2.2⟩

theorem MeshOK.depthAt_eq_length {M : Nat} {m : QUAD_POISSON} (h : MeshOK M m) {a : Addr}
    (ha : (cellAt m.root a).isSome = true) : depthAt m.root a = (a.length : Int) := by
  rw [depthAt_of_cell h.1 ha, h.2.1]
  simp

theorem forceWhile_spec (M : Nat) (d : Dir) (cur : Addr) (hcur : cur.length = M) :
    ∀ (fuel : Nat) (m : QUAD_POISSON) (n : Addr), MeshOK M m →
      (cellAt m.root cur).isSome = true → neighbor m.root d cur = some n → M < n.length + fuel →
      ∃ m1 n1, forceWhile d cur fuel m n = some (m1, n1) ∧ Evolve M m.root m1.root ∧
        m1.maxDepth = m.maxDepth ∧ neighbor m1.root d cur = some n1 ∧ n1.length = M := by
  intro fuel
  induction fuel with
  | zero =>
    intro m n _ _ hn hf
    have := (neighbor_length m.root d cur n hn).1
    omega
  | succ fuel ih =>
    intro m n hok hc hn hf
    obtain ⟨l1, l2⟩ := neighbor_length m.root d cur n hn
    have hncell := neighbor_isCell m.root d cur n hc hn
    have hdep := hok.depthAt_eq_length hncell
    unfold forceWhile
    by_cases hcond : depthAt m.root n ≠ m.maxDepth
    · rw [if_pos hcond]
      rw [hdep, hok.2.2.2] at hcond
      have hlt : n.length < M := by
        have : n.length ≠ M := fun h => hcond (by rw [h])
        omega
      have key := neighbor_refineAt m.root d n hncell (l2 (by omega)) cur
      simp only [hn] at key
      rw [if_pos (by refine ⟨?_, ?_⟩ <;> first | rfl | trivial | omega)] at key
      obtain ⟨k, hk⟩ := key
      simp only [hk]
      have hev : Evolve M m.root (refineAt m.root n) := Evolve.of_refine m.root n (by omega)
      obtain ⟨m1, n1, e, ev, hm, h1, h2⟩ := ih { m with root := refineAt m.root n } (k :: n)
        (hok.evolve hev rfl) (cellAt_refineAt_isSome n hc) hk
        (by simp only [List.length_cons]; omega)
      exact ⟨m1, n1, e, hev.trans_evolve ev, hm, h1, h2⟩
    · rw [if_neg hcond]
      rw [hdep, hok.2.2.2] at hcond
      refine ⟨m, n, rfl, Evolve.refl _, rfl, hn, ?_⟩
      by_contra h
      exact hcond (fun e => h (by exact_mod_cast e))

theorem forceOrtho_spec (M : Nat) (d : Dir) (cur : Addr) (hcur : cur.length = M)
    (m : QUAD_POISSON) (hok : MeshOK M m) (hc : (cellAt m.root cur).isSome = true) :
    ∃ m1 res, forceOrtho d (M + 1) m cur = some (m1, res) ∧ Evolve M m.root m1.root ∧
      m1.maxDepth = m.maxDepth ∧
      ∀ n1, res = some n1 → (cellAt m1.root n1).isSome = true ∧ n1.length = M := by
  unfold forceOrtho
  cases hn : neighbor m.root d cur with
  | none => exact ⟨m, none, rfl, Evolve.refl _, rfl, fun n1 h => by simp at h⟩
  | some n =>
    simp only []
    have hncell := neighbor_isCell m.root d cur n hc hn
    by_cases hcond : depthAt m.root n ≠ m.maxDepth
    · rw [if_pos hcond]
      obtain ⟨m1, n1, e, ev, hm, h1, h2⟩ := forceWhile_spec M d cur hcur (M + 1) m n hok hc hn
        (by omega)
      rw [e]
      simp only []
      have hne : n1 ≠ [] := by
        rintro rfl
        cases cur with
        | nil => simp [neighbor_nil] at hn
        | cons q p =>
          simp only [List.length_cons, List.length_nil] at hcur h2
          omega
      obtain ⟨m2, e2, ev2, hm2⟩ := noteSiblings_spec M m1 n1 hne
      rw [e2]
      refine ⟨m2, some n1, rfl, ev.trans_evolve ev2, by rw [hm2, hm], ?_⟩
      intro n2 h
      simp only [Option.some.injEq] at h
      subst h
      exact ⟨ev2.isCell_evolve (neighbor_isCell m1.root d cur n1 (ev.isCell_evolve hc) h1), h2⟩
    · rw [if_neg hcond]
      refine ⟨m, some n, rfl, Evolve.refl _, rfl, ?_⟩
      intro n1 h
      simp only [Option.some.injEq] at h
      subst h
      refine ⟨hncell, ?_⟩
      rw [hok.depthAt_eq_length hncell, hok.2.2.2] at hcond
      by_contra h
      exact hcond (fun e => h (by exact_mod_cast e))

theorem forceDiagWhile_spec (M : Nat) (k : Quadrant) :
    ∀ (fuel : Nat) (m : QUAD_POISSON) (n : Addr), MeshOK M m →
      (cellAt m.root n).isSome = true → M < n.length + fuel →
      ∃ m1 n1, forceDiagWhile k fuel m n = some (m1, n1) ∧ Evolve M m.root m1.root ∧
        m1.maxDepth = m.maxDepth ∧ n1.length = M := by
  intro fuel
  induction fuel with
  | zero =>
    intro m n hok hn hf
    have h1 := length_le_height m.root n hn
    have h2 := hok.2.2.1
    omega
  | succ fuel ih =>
    intro m n hok hn hf
    have hle : n.length ≤ M := le_trans (length_le_height m.root n hn) hok.2.2.1
    have hdep := hok.depthAt_eq_length hn
    unfold forceDiagWhile
    by_cases hcond : depthAt m.root n ≠ m.maxDepth
    · rw [if_pos hcond]
      rw [hdep, hok.2.2.2] at hcond
      have hlt : n.length < M := by
        have : n.length ≠ M := fun h => hcond (by rw [h])
        omega
      have hkids : kidsAt (refineAt m.root n) n = true := by
        rw [kidsAt_refineAt]
        simp [hn]
      rw [if_pos hkids]
      have hev : Evolve M m.root (refineAt m.root n) := Evolve.of_refine m.root n (by omega)
      obtain ⟨m1, n1, e, ev, hm, h2⟩ := ih { m with root := refineAt m.root n } (k :: n)
        (hok.evolve hev rfl) (by rw [cellAt_cons_isSome]; exact hkids)
        (by simp only [List.length_cons]; omega)
      exact ⟨m1, n1, e, hev.trans_evolve ev, hm, h2⟩
    · rw [if_neg hcond]
      rw [hdep, hok.2.2.2] at hcond
      refine ⟨m, n, rfl, Evolve.refl _, rfl, ?_⟩
      by_contra h
      exact hcond (fun e => h (by exact_mod_cast e))

theorem forceDiag_spec (M : Nat) (d : Dir) (k : Quadrant) (m : QUAD_POISSON) (base : Addr)
    (hok : MeshOK M m) (hb : (cellAt m.root base).isSome = true) :
    ∃ m1, forceDiag d k (M + 1) m base = some m1 ∧ Evolve M m.root m1.root ∧
      m1.maxDepth = m.maxDepth := by
  unfold forceDiag
  cases hn : neighbor m.root d base with
  | none => exact ⟨m, rfl, Evolve.refl _, rfl⟩
  | some n =>
    simp only []
    have hncell := neighbor_isCell m.root d base n hb hn
    by_cases hcond : depthAt m.root n ≠ m.maxDepth
    · rw [if_pos hcond]
      obtain ⟨m1, n1, e, ev, hm, h2⟩ := forceDiagWhile_spec M k (M + 1) m n hok hncell (by omega)
      rw [e]
      simp only []
      have hne : n1 ≠ [] := by
        rintro rfl
        rw [hok.depthAt_eq_length hncell, hok.2.2.2] at hcond
        simp only [List.length_nil] at h2
        have h3 := length_le_height m.root n hncell
        have h4 := hok.2.2.1
        have : n.length = 0 := by omega
        exact hcond (by rw [this, ← h2])
      obtain ⟨m2, e2, ev2, hm2⟩ := noteSiblings_spec M m1 n1 hne
      exact ⟨m2, e2, ev.trans_evolve ev2, by rw [hm2, hm]⟩
    · rw [if_neg hcond]
      exact ⟨m, rfl, Evolve.refl _, rfl⟩

theorem forceDiagPair_spec (M : Nat) (kw ke : Quadrant) (m : QUAD_POISSON) (base : Option Addr)
    (hok : MeshOK M m) (hb : ∀ b, base = some b → (cellAt m.root b).isSome = true) :
    ∃ m1, forceDiagPair kw ke (M + 1) m base = some m1 ∧ Evolve M m.root m1.root ∧
      m1.maxDepth = m.maxDepth := by
  cases base with
  | none => exact ⟨m, rfl, Evolve.refl _, rfl⟩
  | some b =>
    unfold forceDiagPair
    obtain ⟨m1, e1, ev1, hm1⟩ := forceDiag_spec M Dir.west kw m b hok (hb b rfl)
    simp only [e1]
    obtain ⟨m2, e2, ev2, hm2⟩ := forceDiag_spec M Dir.east ke m1 b (hok.evolve ev1 hm1)
      (ev1.isCell_evolve (hb b rfl))
    exact ⟨m2, e2, ev1.trans_evolve ev2, by rw [hm2, hm1]⟩

end QUAD_POISSON

end Lumo

namespace Lumo

open CELL QUAD_POISSON

/-- The mesh right after construction: the unit square refined once, maximum depth 2,
no noise. -/
def sampleMesh : QUAD_POISSON :=
  { root := refineAt (CELL.leaf (CellData.new 1 1 0 0 0)) [], maxRes := 4, maxDepth := 2,
    noise := List.replicate 16 false, smallestLeaves := [], emptyLeaves := [] }

/-- C6: `insert` returns; the cell it returns has no children, lies at the maximum
depth, and its closed bounds contain the position. -/
theorem insert_returns_leaf (m : QUAD_POISSON) (x y : ℚ) (hwf : WellFormed m.root)
    (hcen : Centered m.root) (hd0 : m.root.data.depth = 0)
    (hh : (height m.root : Int) ≤ m.maxDepth) (hp : Holds m.root.data x y) :
    ∃ m1 c dc, QUAD_POISSON.insert m x y = some (m1, c) ∧ kidsAt m1.root c = false ∧
      dataAt m1.root c = some dc ∧ dc.depth = m.maxDepth ∧ Holds dc x y := by
  have hM : ((m.maxDepth.toNat : Nat) : Int) = m.maxDepth := Int.toNat_of_nonneg (by omega)
  have hhM : height m.root ≤ m.maxDepth.toNat := by omega
  obtain ⟨root1, cur, ex, dc1, e, w1, -, w3, w4, w5, w6, w7⟩ :=
    descend_spec x y m.maxDepth.toNat m.maxDepth.toNat m.root [] true m.root.data hwf hcen hhM
      (by simp) rfl hp
  have hex : ex = false → cur ≠ [] := by
    intro h1 h2
    subst h2
    simp only [List.length_nil, zero_add] at w5
    rw [← w5] at e
    simp only [descend, Option.some.injEq, Prod.mk.injEq] at e
    rw [← e.2.2] at h1
    exact absurd h1 (by decide)
  simp only [List.length_nil, zero_add] at w5
  have hcell1 : (cellAt root1 cur).isSome = true := by
    rw [← dataAt_isSome, w6]; rfl
  have hok1 : MeshOK m.maxDepth.toNat { m with root := root1 } :=
    ⟨w1, by show root1.data.depth = 0; rw [w4]; exact hd0, w3, hM.symm⟩
  obtain ⟨m2, e2, ev2, hm2⟩ : ∃ m2,
      (if ex = true then some { m with root := root1 }
        else noteSiblings { m with root := root1 } cur) = some m2 ∧
      Evolve m.maxDepth.toNat root1 m2.root ∧ m2.maxDepth = m.maxDepth := by
    cases ex with
    | true => exact ⟨{ m with root := root1 }, rfl, Evolve.refl _, rfl⟩
    | false =>
      obtain ⟨m2, e2, ev2, hm2⟩ := noteSiblings_spec m.maxDepth.toNat { m with root := root1 } cur
        (hex rfl)
      exact ⟨m2, by simpa using e2, ev2, hm2⟩
  have hok2 := hok1.evolve ev2 hm2
  have hc2 := ev2.isCell_evolve hcell1
  obtain ⟨m3, north, e3, ev3, hm3, hn3⟩ := forceOrtho_spec m.maxDepth.toNat Dir.north cur w5 m2
    hok2 hc2
  have hok3 := hok2.evolve ev3 hm3
  have hc3 := ev3.isCell_evolve hc2
  obtain ⟨m4, south, e4, ev4, hm4, hn4⟩ := forceOrtho_spec m.maxDepth.toNat Dir.south cur w5 m3
    hok3 hc3
  have hok4 := hok3.evolve ev4 hm4
  have hc4 := ev4.isCell_evolve hc3
  obtain ⟨m5, west, e5, ev5, hm5, -⟩ := forceOrtho_spec m.maxDepth.toNat Dir.west cur w5 m4
    hok4 hc4
  have hok5 := hok4.evolve ev5 hm5
  have hc5 := ev5.isCell_evolve hc4
  obtain ⟨m6, east, e6, ev6, hm6, -⟩ := forceOrtho_spec m.maxDepth.toNat Dir.east cur w5 m5
    hok5 hc5
  have hok6 := hok5.evolve ev6 hm6
  obtain ⟨m7, e7, ev7, hm7⟩ := forceDiagPair_spec m.maxDepth.toNat Quadrant.q2 Quadrant.q3 m6
    north hok6
    (fun b hb => ev6.isCell_evolve (ev5.isCell_evolve (ev4.isCell_evolve (hn3 b hb).1)))
  have hok7 := hok6.evolve ev7 hm7
  obtain ⟨m8, e8, ev8, hm8⟩ := forceDiagPair_spec m.maxDepth.toNat Quadrant.q1 Quadrant.q0 m7
    south hok7
    (fun b hb => ev7.isCell_evolve (ev6.isCell_evolve (ev5.isCell_evolve (hn4 b hb).1)))
  have hok8 := hok7.evolve ev8 hm8
  have evAll : Evolve m.maxDepth.toNat root1 m8.root :=
    (((((ev2.trans_evolve ev3).trans_evolve ev4).trans_evolve ev5).trans_evolve
      ev6).trans_evolve ev7).trans_evolve ev8
  obtain ⟨dc, hdc, g1, g2, g3, g4, g5⟩ := evAll.geo_evolve cur dc1 w6
  refine ⟨m8, cur, dc, ?_, ?_, hdc, ?_, ?_⟩
  · unfold QUAD_POISSON.insert
    simp only [e, e2, e3, e4, e5, e6, e7, e8]
  · cases hk : kidsAt m8.root cur with
    | false => rfl
    | true =>
      have h1 := kidsAt_length_lt hk
      have h2 := hok8.2.2.1
      omega
  · rw [g1, w1.2.2.depth_eq cur dc1 w6, w4, hd0, w5, hM]
    simp
  · obtain ⟨p1, p2, p3, p4⟩ := w7
    exact ⟨by rw [g5]; exact p1, by rw [g3]; exact p2, by rw [g4]; exact p3, by rw [g2]; exact p4⟩

theorem insert_returns_leaf_witness :
    (WellFormed sampleMesh.root ∧ Centered sampleMesh.root ∧ sampleMesh.root.data.depth = 0 ∧
      (height sampleMesh.root : Int) ≤ sampleMesh.maxDepth ∧
      Holds sampleMesh.root.data (3 / 10) (9 / 10)) ∧
    ∃ m1 c dc, QUAD_POISSON.insert sampleMesh (3 / 10) (9 / 10) = some (m1, c) ∧ kidsAt m1.root c = false ∧
      dataAt m1.root c = some dc ∧ dc.depth = sampleMesh.maxDepth ∧ Holds dc (3 / 10) (9 / 10) :=
  have hwf : WellFormed sampleMesh.root :=
    (WellFormed.of_leaf (by norm_num [CellData.new]) (by norm_num [CellData.new])).refineAt_wf _
  have hcen0 : Centered (CELL.leaf (CellData.new 1 1 0 0 0)) := ⟨rfl, rfl⟩
  have hcen : Centered sampleMesh.root := hcen0.refineAt_cen []
  have hh : (height sampleMesh.root : Int) ≤ sampleMesh.maxDepth := by decide
  have hp : Holds sampleMesh.root.data (3 / 10) (9 / 10) := by
    refine ⟨?_, ?_, ?_, ?_⟩ <;> norm_num [sampleMesh, refineAt, modifyAt, modifyPath, CELL.refine,
      CELL.data, CellData.new]
  ⟨⟨hwf, hcen, rfl, hh, hp⟩, insert_returns_leaf sampleMesh (3 / 10) (9 / 10) hwf hcen rfl hh hp⟩

end Lumo

namespace Lumo

/-! ## Single-precision arithmetic on the failing input of the candidate walk -/

theorem floorLog2_eq : ∀ (fuel : Nat) (q : ℚ) (e : Int), (2 : ℚ) ^ e ≤ q → q < (2 : ℚ) ^ (e + 1) →
    -(fuel : Int) < e → e < fuel → floorLog2 fuel q = e := by
  intro fuel
  induction fuel with
  | zero =>
    intro q e _ _ h1 h2
    simp at h1 h2
    omega
  | succ fuel ih =>
    intro q e hlo hhi h1 h2
    unfold floorLog2
    by_cases c1 : 2 ≤ q
    · rw [if_pos c1]
      have he : 1 ≤ e := by
        by_contra hne
        have h3 : (2 : ℚ) ^ (e + 1) ≤ (2 : ℚ) ^ (1 : Int) :=
          zpow_le_zpow_right₀ (by norm_num) (by omega)
        rw [zpow_one] at h3
        linarith
      rw [ih (q / 2) (e - 1) ?_ ?_ (by push_cast at h1 ⊢; omega) (by push_cast at h2 ⊢; omega)]
      · ring
      · rw [zpow_sub_one₀ (by norm_num)]
        linarith
      · rw [sub_add_cancel]
        rw [zpow_add_one₀ (by norm_num)] at hhi
        linarith
    · rw [if_neg c1]
      by_cases c2 : q < 1
      · rw [if_pos c2]
        have he : e ≤ -1 := by
          by_contra hne
          have h3 : (1 : ℚ) ≤ (2 : ℚ) ^ e := one_le_zpow₀ (by norm_num) (by omega)
          linarith
        rw [ih (q * 2) (e + 1) ?_ ?_ (by push_cast at h1 ⊢; omega) (by push_cast at h2 ⊢; omega)]
        · ring
        · rw [zpow_add_one₀ (by norm_num)]
          linarith
        · rw [zpow_add_one₀ (by norm_num)]
          linarith
      · rw [if_neg c2]
        have h3 : 0 ≤ e := by
          by_contra hne
          have h4 : (2 : ℚ) ^ (e + 1) ≤ (2 : ℚ) ^ (0 : Int) :=
            zpow_le_zpow_right₀ (by norm_num) (by omega)
          rw [zpow_zero] at h4
          linarith
        have h5 : e ≤ 0 := by
          by_contra hne
          have h4 : (2 : ℚ) ^ (1 : Int) ≤ (2 : ℚ) ^ e :=
            zpow_le_zpow_right₀ (by norm_num) (by omega)
          rw [zpow_one] at h4
          linarith
        omega

theorem f32_add_1 : f32Ops.add (0) (13421773 / 134217728) = 13421773 / 134217728 := by
  show roundF32 ((0) + (13421773 / 134217728)) = 13421773 / 134217728
  rw [show (((0) + (13421773 / 134217728) : ℚ)) = 13421773 / 134217728 from by norm_num]
  have h : floorLog2 300 |(13421773 / 134217728 : ℚ)| = -4 :=
    floorLog2_eq 300 _ (-4) (by norm_num [abs_of_pos]) (by norm_num [abs_of_pos]) (by norm_num)
      (by norm_num)
  unfold roundF32
  rw [h]
  norm_num [roundEven, abs_of_pos]

theorem f32_add_2 : f32Ops.add (13421773 / 134217728) (3 / 4) = 7130317 / 8388608 := by
  show roundF32 ((13421773 / 134217728) + (3 / 4)) = 7130317 / 8388608
  rw [show (((13421773 / 134217728) + (3 / 4) : ℚ)) = 114085069 / 134217728 from by norm_num]
  have h : floorLog2 300 |(114085069 / 134217728 : ℚ)| = -1 :=
    floorLog2_eq 300 _ (-1) (by norm_num [abs_of_pos]) (by norm_num [abs_of_pos]) (by norm_num)
      (by norm_num)
  unfold roundF32
  rw [h]
  norm_num [roundEven, abs_of_pos]

theorem f32_add_3 : f32Ops.add (7130317 / 8388608) (1 / 4) = 9227469 / 8388608 := by
  show roundF32 ((7130317 / 8388608) + (1 / 4)) = 9227469 / 8388608
  rw [show (((7130317 / 8388608) + (1 / 4) : ℚ)) = 9227469 / 8388608 from by norm_num]
  have h : floorLog2 300 |(9227469 / 8388608 : ℚ)| = 0 :=
    floorLog2_eq 300 _ (0) (by norm_num [abs_of_pos]) (by norm_num [abs_of_pos]) (by norm_num)
      (by norm_num)
  unfold roundF32
  rw [h]
  norm_num [roundEven, abs_of_pos]

theorem f32_div_1 : f32Ops.div (1) (9227469 / 8388608) = 7626007 / 8388608 := by
  show roundF32 ((1) / (9227469 / 8388608)) = 7626007 / 8388608
  rw [show (((1) / (9227469 / 8388608) : ℚ)) = 8388608 / 9227469 from by norm_num]
  have h : floorLog2 300 |(8388608 / 9227469 : ℚ)| = -1 :=
    floorLog2_eq 300 _ (-1) (by norm_num [abs_of_pos]) (by norm_num [abs_of_pos]) (by norm_num)
      (by norm_num)
  unfold roundF32
  rw [h]
  norm_num [roundEven, abs_of_pos]

theorem f32_mul_1 : f32Ops.mul (13421773 / 134217728) (7626007 / 8388608) = 12201611 / 134217728 := by
  show roundF32 ((13421773 / 134217728) * (7626007 / 8388608)) = 12201611 / 134217728
  rw [show (((13421773 / 134217728) * (7626007 / 8388608) : ℚ)) = 102354534850411 / 1125899906842624 from by norm_num]
  have h : floorLog2 300 |(102354534850411 / 1125899906842624 : ℚ)| = -4 :=
    floorLog2_eq 300 _ (-4) (by norm_num [abs_of_pos]) (by norm_num [abs_of_pos]) (by norm_num)
      (by norm_num)
  unfold roundF32
  rw [h]
  norm_num [roundEven, abs_of_pos]

theorem f32_mul_2 : f32Ops.mul (3 / 4) (7626007 / 8388608) = 5719505 / 8388608 := by
  show roundF32 ((3 / 4) * (7626007 / 8388608)) = 5719505 / 8388608
  rw [show (((3 / 4) * (7626007 / 8388608) : ℚ)) = 22878021 / 33554432 from by norm_num]
  have h : floorLog2 300 |(22878021 / 33554432 : ℚ)| = -1 :=
    floorLog2_eq 300 _ (-1) (by norm_num [abs_of_pos]) (by norm_num [abs_of_pos]) (by norm_num)
      (by norm_num)
  unfold roundF32
  rw [h]
  norm_num [roundEven, abs_of_pos]

theorem f32_add_4 : f32Ops.add (12201611 / 134217728) (5719505 / 8388608) = 12964211 / 16777216 := by
  show roundF32 ((12201611 / 134217728) + (5719505 / 8388608)) = 12964211 / 16777216
  rw [show (((12201611 / 134217728) + (5719505 / 8388608) : ℚ)) = 103713691 / 134217728 from by norm_num]
  have h : floorLog2 300 |(103713691 / 134217728 : ℚ)| = -1 :=
    floorLog2_eq 300 _ (-1) (by norm_num [abs_of_pos]) (by norm_num [abs_of_pos]) (by norm_num)
      (by norm_num)
  unfold roundF32
  rw [h]
  norm_num [roundEven, abs_of_pos]

theorem f32_mul_3 : f32Ops.mul (1 / 4) (7626007 / 8388608) = 7626007 / 33554432 := by
  show roundF32 ((1 / 4) * (7626007 / 8388608)) = 7626007 / 33554432
  rw [show (((1 / 4) * (7626007 / 8388608) : ℚ)) = 7626007 / 33554432 from by norm_num]
  have h : floorLog2 300 |(7626007 / 33554432 : ℚ)| = -3 :=
    floorLog2_eq 300 _ (-3) (by norm_num [abs_of_pos]) (by norm_num [abs_of_pos]) (by norm_num)
      (by norm_num)
  unfold roundF32
  rw [h]
  norm_num [roundEven, abs_of_pos]

theorem f32_add_5 : f32Ops.add (12964211 / 16777216) (7626007 / 33554432) = 8388607 / 8388608 := by
  show roundF32 ((12964211 / 16777216) + (7626007 / 33554432)) = 8388607 / 8388608
  rw [show (((12964211 / 16777216) + (7626007 / 33554432) : ℚ)) = 33554429 / 33554432 from by norm_num]
  have h : floorLog2 300 |(33554429 / 33554432 : ℚ)| = -1 :=
    floorLog2_eq 300 _ (-1) (by norm_num [abs_of_pos]) (by norm_num [abs_of_pos]) (by norm_num)
      (by norm_num)
  unfold roundF32
  rw [h]
  norm_num [roundEven, abs_of_pos]

namespace QUAD_DBM_2D

/-- Three candidates with the potentials 0.1f, 0.75 and 0.25. -/
def overrunCandidates : List (Bool × ℚ) :=
  [(true, 13421773 / 134217728), (true, 3 / 4), (true, 1 / 4)]

theorem totalPotentialOf_overrun :
    totalPotentialOf f32Ops overrunCandidates = 9227469 / 8388608 := by
  simp only [totalPotentialOf, overrunCandidates, List.foldl, if_true, f32_add_1, f32_add_2,
    f32_add_3]

/-- C3 (the code fails the claim): with the candidate potentials 0.1f, 0.75, 0.25 and the
draw `1 - 2^-24`, in single precision the cumulative sum is `1 - 2^-23` after the last
candidate, still below the draw, and the walk goes on to read `probabilities[3]`,
outside the list of three candidates. -/
theorem dbmIndex_overrun :
    (1 / 100000000 : ℚ) ≤ totalPotentialOf f32Ops overrunCandidates ∧
    (0 : ℚ) ≤ 16777215 / 16777216 ∧ (16777215 / 16777216 : ℚ) < 1 ∧
    dbmIndex f32Ops (probabilitiesOf overrunCandidates)
      (totalPotentialOf f32Ops overrunCandidates) (16777215 / 16777216) = none := by
  rw [totalPotentialOf_overrun]
  refine ⟨by norm_num, by norm_num, by norm_num, ?_⟩
  simp only [dbmIndex, probabilitiesOf, overrunCandidates, List.map, if_true, List.get?,
    f32_div_1, f32_mul_1, List.length]
  unfold walkLoop
  rw [if_pos (by norm_num)]
  simp only [List.get?, f32_mul_2, f32_add_4]
  unfold walkLoop
  rw [if_pos (by norm_num)]
  simp only [List.get?, f32_mul_3, f32_add_5]
  unfold walkLoop
  rw [if_pos (by norm_num)]
  simp only [List.get?]

end QUAD_DBM_2D

end Lumo

namespace Lumo

theorem set_eq_self {α : Type} (ns : List α) (k : Nat) (c : α) (hc : ns[k]? = some c) :
    ns.set k c = ns := by
  induction ns generalizing k with
  | nil => rfl
  | cons a as ih =>
    cases k with
    | zero => simp at hc; simp [hc]
    | succ k => simp at hc; simp [ih k hc]

theorem mem_of_getElem? {α : Type} (ns : List α) (k : Nat) (c : α) (hc : ns[k]? = some c) :
    c ∈ ns := by
  induction ns generalizing k with
  | nil => simp at hc
  | cons a as ih =>
    cases k with
    | zero => simp at hc; simp [hc]
    | succ k => simp at hc; exact List.mem_cons_of_mem _ (ih k hc)

theorem lt_of_getElem? {α : Type} (ns : List α) (k : Nat) (c : α) (hc : ns[k]? = some c) :
    k < ns.length := by
  rcases Nat.lt_or_ge k ns.length with h | h
  · exact h
  · rw [List.getElem?_eq_none h] at hc; cases hc

namespace NODE

variable {F : Type}

/-- Induction over a node and the nodes below it. -/
theorem induct (P : NODE F → Prop)
    (h : ∀ i ns l s d m it, (∀ c ∈ ns, P c) → P (mk i ns l s d m it)) : ∀ n, P n := by
  intro n
  refine @NODE.rec F P (fun l => ∀ c ∈ l, P c) ?_ ?_ ?_ n
  · intro i ns l s d m it ih
    exact h i ns l s d m it ih
  · intro c hc
    cases hc
  · intro head tail ih1 ih2 c hc
    rcases List.mem_cons.mp hc with rfl | hc
    · exact ih1
    · exact ih2 c hc

theorem nodeAt_nil (n : NODE F) : nodeAt n [] = some n := by
  cases n; rfl

theorem nodeAtList_eq (ns : List (NODE F)) (k : Nat) (rest : NodePath) :
    nodeAtList ns k rest = (ns[k]?).bind (fun c => nodeAt c rest) := by
  induction ns generalizing k with
  | nil => simp [nodeAtList]
  | cons c cs ih =>
    cases k with
    | zero => simp [nodeAtList]
    | succ k => simp [nodeAtList, ih]

theorem nodeAt_cons (i : Int) (ns : List (NODE F)) (l s : Bool) (d : Int) (m : Option NodePath)
    (it : Option F) (k : Nat) (rest : NodePath) :
    nodeAt (mk i ns l s d m it) (k :: rest) = (ns[k]?).bind (fun c => nodeAt c rest) := by
  rw [nodeAt, nodeAtList_eq]

theorem nodeAt_cons_eq (n : NODE F) (k : Nat) (rest : NodePath) :
    nodeAt n (k :: rest) = (n.neighbors[k]?).bind (fun c => nodeAt c rest) := by
  cases n; exact nodeAt_cons _ _ _ _ _ _ _ _ _

theorem modifyAt_nil (f : NODE F → NODE F) (n : NODE F) : modifyAt f n [] = f n := by
  cases n; rfl

theorem modifyAtList_eq (f : NODE F → NODE F) (ns : List (NODE F)) (k : Nat) (rest : NodePath) :
    modifyAtList f ns k rest =
      match ns[k]? with
      | some c => ns.set k (modifyAt f c rest)
      | none => ns := by
  induction ns generalizing k with
  | nil => simp [modifyAtList]
  | cons c cs ih =>
    cases k with
    | zero => simp [modifyAtList]
    | succ k =>
      simp only [modifyAtList, ih, List.getElem?_cons_succ, List.set_cons_succ]
      cases cs[k]? <;> rfl

theorem modifyAt_cons (f : NODE F → NODE F) (i : Int) (ns : List (NODE F)) (l s : Bool) (d : Int)
    (m : Option NodePath) (it : Option F) (k : Nat) (rest : NodePath) (c : NODE F)
    (hc : ns[k]? = some c) :
    modifyAt f (mk i ns l s d m it) (k :: rest) =
      mk i (ns.set k (modifyAt f c rest)) l s d m it := by
  rw [modifyAt, modifyAtList_eq, hc]

theorem modifyAt_cons_none (f : NODE F → NODE F) (i : Int) (ns : List (NODE F)) (l s : Bool)
    (d : Int) (m : Option NodePath) (it : Option F) (k : Nat) (rest : NodePath)
    (hc : ns[k]? = none) :
    modifyAt f (mk i ns l s d m it) (k :: rest) = mk i ns l s d m it := by
  rw [modifyAt, modifyAtList_eq, hc]

/-- The action of the loops of `buildBranch` and `buildLeader` on one neighbour. -/
def branchStep (depth : Int) (c : NODE F) : NODE F :=
  if c.leader = true then c else buildBranch c depth

theorem buildBranchList_eq (ns : List (NODE F)) (depth : Int) :
    buildBranchList ns depth = ns.map (branchStep depth) := by
  induction ns with
  | nil => simp [buildBranchList]
  | cons c cs ih =>
    cases c with
    | mk i ns l s d m it =>
      simp only [buildBranchList, ih, List.map_cons, branchStep, leader]

theorem buildBranch_eq (i : Int) (ns : List (NODE F)) (l s : Bool) (d : Int)
    (m : Option NodePath) (it : Option F) (depth : Int) :
    buildBranch (mk i ns l s d m it) depth =
      mk i (ns.map (branchStep (depth + 1))) false s depth m it := by
  rw [buildBranch, buildBranchList_eq]

theorem tagLeader_eq (i : Int) (ns : List (NODE F)) (l s : Bool) (d : Int)
    (m : Option NodePath) (it : Option F) :
    tagLeader (mk i ns l s d m it) = mk i (ns.map (branchStep 1)) true false d m it := by
  rw [tagLeader, buildBranchList_eq]

theorem buildBranch_leader (c : NODE F) (depth : Int) : (buildBranch c depth).leader = false := by
  cases c; rw [buildBranch_eq]; rfl

theorem tagLeader_leader (c : NODE F) : (tagLeader c).leader = true := by
  cases c; rw [tagLeader_eq]; rfl

theorem buildBranch_index (c : NODE F) (depth : Int) : (buildBranch c depth).index = c.index := by
  cases c; rw [buildBranch_eq]; rfl

theorem branchStep_index (c : NODE F) (depth : Int) : (branchStep depth c).index = c.index := by
  unfold branchStep
  split
  · rfl
  · exact buildBranch_index c depth

/-- Running `buildBranch` a second time changes nothing. -/
theorem buildBranch_idem (c : NODE F) : ∀ depth, buildBranch (buildBranch c depth) depth =
    buildBranch c depth := by
  refine induct (fun c => ∀ depth, buildBranch (buildBranch c depth) depth =
    buildBranch c depth) ?_ c
  intro i ns l s d m it ih depth
  rw [buildBranch_eq, buildBranch_eq, List.map_map]
  congr 1
  apply List.map_congr_left
  intro c hc
  simp only [Function.comp, branchStep]
  by_cases hl : c.leader = true
  · simp [hl]
  · simp [hl, buildBranch_leader, ih c hc]

theorem branchStep_idem (depth : Int) (c : NODE F) :
    branchStep depth (branchStep depth c) = branchStep depth c := by
  unfold branchStep
  by_cases hl : c.leader = true
  · simp [hl]
  · simp [hl, buildBranch_leader, buildBranch_idem]

theorem branchStep_of_leader (depth : Int) (c : NODE F) (h : c.leader = true) :
    branchStep depth c = c := by
  simp [branchStep, h]

end NODE

namespace DAG

variable {F : Type}

open NODE

/-- The value of `child` after the loop of `buildLeader` has run over the nodes from the
node `rest` below the neighbour `k` up to that neighbour. -/
theorem foldl_modifyAt_cons (f : NODE F → NODE F) (i : Int) (l s : Bool) (d : Int)
    (m : Option NodePath) (it : Option F) (k : Nat) (qs : List NodePath) :
    ∀ (ns : List (NODE F)) (c : NODE F), ns[k]? = some c →
      (qs.map (fun q => k :: q)).foldl (fun t q => modifyAt f t q) (NODE.mk i ns l s d m it) =
        NODE.mk i (ns.set k (qs.foldl (fun t q => modifyAt f t q) c)) l s d m it := by
  induction qs with
  | nil =>
    intro ns c hc
    simp only [List.map_nil, List.foldl_nil]
    rw [set_eq_self ns k c hc]
  | cons q qs ih =>
    intro ns c hc
    simp only [List.map_cons, List.foldl_cons]
    rw [modifyAt_cons f i ns l s d m it k q c hc, ih (ns.set k (modifyAt f c q)) (modifyAt f c q)]
    · rw [List.set_set]
    · rw [List.getElem?_set]
      have hk : k < ns.length := by
        rcases Nat.lt_or_ge k ns.length with h | h
        · exact h
        · rw [List.getElem?_eq_none h] at hc; cases hc
      simp [hk]

theorem crawl_nil (n : NODE F) : crawl n [] = tagLeader n := by
  simp [crawl, ancestors, modifyAt_nil]

theorem crawl_cons (i : Int) (ns : List (NODE F)) (l s : Bool) (d : Int)
    (m : Option NodePath) (it : Option F) (k : Nat) (rest : NodePath) (c : NODE F)
    (hc : ns[k]? = some c) :
    crawl (NODE.mk i ns l s d m it) (k :: rest) =
      NODE.mk i ((ns.set k (crawl c rest)).map (branchStep 1)) true false d m it := by
  unfold crawl
  rw [ancestors, List.foldl_append, foldl_modifyAt_cons _ _ _ _ _ _ _ _ _ _ _ hc]
  simp only [List.foldl_cons, List.foldl_nil, modifyAt_nil, tagLeader_eq]

theorem crawl_leader (n : NODE F) (p : NodePath) (h : (nodeAt n p).isSome) :
    (crawl n p).leader = true := by
  cases n with
  | mk i ns l s d m it =>
    cases p with
    | nil => rw [crawl_nil]; exact tagLeader_leader _
    | cons k rest =>
      rw [nodeAt_cons] at h
      cases hc : ns[k]? with
      | none => rw [hc] at h; cases h
      | some c => rw [crawl_cons _ _ _ _ _ _ _ _ _ c hc]; rfl

end DAG

end Lumo

namespace Lumo

namespace NODE

variable {F : Type}

mutual
/-- The node with `maxDepthNode` and `intensity` reset in it and in the nodes below it:
what the file keeps of a node. -/
def strip : NODE F → NODE F
  | mk i ns l s d _ _ => mk i (stripList ns) l s d none none
/-- The nodes of a vector, each one stripped. -/
def stripList : List (NODE F) → List (NODE F)
  | [] => []
  | c :: cs => strip c :: stripList cs
end

theorem stripList_eq (ns : List (NODE F)) : stripList ns = ns.map strip := by
  induction ns with
  | nil => rfl
  | cons c cs ih => rw [stripList, ih]; rfl

theorem strip_eq (i : Int) (ns : List (NODE F)) (l s : Bool) (d : Int) (m : Option NodePath)
    (it : Option F) : strip (mk i ns l s d m it) = mk i (ns.map strip) l s d none none := by
  rw [strip, stripList_eq]

theorem strip_index (n : NODE F) : (strip n).index = n.index := by
  cases n; rw [strip_eq]; rfl

theorem strip_leader (n : NODE F) : (strip n).leader = n.leader := by
  cases n; rw [strip_eq]; rfl

theorem strip_depth (n : NODE F) : (strip n).depth = n.depth := by
  cases n; rw [strip_eq]; rfl

theorem strip_secondary (n : NODE F) : (strip n).secondary = n.secondary := by
  cases n; rw [strip_eq]; rfl

theorem strip_neighbors (n : NODE F) : (strip n).neighbors = n.neighbors.map strip := by
  cases n; rw [strip_eq]; rfl

theorem strip_strip (n : NODE F) : strip (strip n) = strip n := by
  refine induct (fun n => strip (strip n) = strip n) ?_ n
  intro i ns l s d m it ih
  rw [strip_eq, strip_eq, List.map_map]
  congr 1
  apply List.map_congr_left
  intro c hc
  exact ih c hc

theorem nodeAt_strip (q : NodePath) : ∀ t : NODE F, nodeAt (strip t) q = (nodeAt t q).map strip := by
  induction q with
  | nil => intro t; rw [nodeAt_nil, nodeAt_nil]; rfl
  | cons k rest ih =>
    intro t
    cases t with
    | mk i ns l s d m it =>
      rw [strip_eq, nodeAt_cons, nodeAt_cons, List.getElem?_map]
      cases ns[k]? with
      | none => rfl
      | some c => exact ih c

/-- The action of the loop of `buildIntensity` on one neighbour. -/
def intensityStep (sh : Shading F) : NODE F → NODE F
  | mk i ns l s d m it =>
    if l = true then mk i (buildIntensityList sh ns) l s d m (some sh.leaderIntensity)
    else mk i (buildIntensityList sh ns) l s d (some (deepestOf (mk i ns l s d m it)))
      (some (sh.falloff (maxDepthOf (mk i ns l s d m it)) d))

theorem buildIntensityList_eq (sh : Shading F) (ns : List (NODE F)) :
    buildIntensityList sh ns = ns.map (intensityStep sh) := by
  induction ns with
  | nil => simp [buildIntensityList]
  | cons c cs ih =>
    cases c with
    | mk i ns l s d m it =>
      simp only [buildIntensityList, ih, List.map_cons, intensityStep]

theorem buildIntensity_eq (sh : Shading F) (i : Int) (ns : List (NODE F)) (l s : Bool) (d : Int)
    (m : Option NodePath) (it : Option F) :
    buildIntensity sh (mk i ns l s d m it) = mk i (ns.map (intensityStep sh)) l s d m it := by
  rw [buildIntensity, buildIntensityList_eq]

theorem strip_intensityStep (sh : Shading F) (n : NODE F) : strip (intensityStep sh n) = strip n := by
  refine induct (fun n => strip (intensityStep sh n) = strip n) ?_ n
  intro i ns l s d m it ih
  have h : (ns.map (intensityStep sh)).map strip = ns.map strip := by
    rw [List.map_map]
    apply List.map_congr_left
    intro c hc
    exact ih c hc
  simp only [intensityStep, buildIntensityList_eq]
  split <;> rw [strip_eq, strip_eq, h]

/-- The file does not see what `buildIntensity` does. -/
theorem strip_buildIntensity (sh : Shading F) (n : NODE F) :
    strip (buildIntensity sh n) = strip n := by
  cases n with
  | mk i ns l s d m it =>
    rw [buildIntensity_eq, strip_eq, strip_eq, List.map_map]
    congr 1
    apply List.map_congr_left
    intro c _
    exact strip_intensityStep sh c

theorem strip_buildBranch (n : NODE F) : ∀ depth, strip (buildBranch n depth) =
    buildBranch (strip n) depth := by
  refine induct (fun n => ∀ depth, strip (buildBranch n depth) = buildBranch (strip n) depth) ?_ n
  intro i ns l s d m it ih depth
  rw [buildBranch_eq, strip_eq, strip_eq, buildBranch_eq, List.map_map, List.map_map]
  congr 1
  apply List.map_congr_left
  intro c hc
  simp only [Function.comp, branchStep, strip_leader]
  split
  · rfl
  · exact ih c hc _

theorem strip_branchStep (depth : Int) (n : NODE F) :
    strip (branchStep depth n) = branchStep depth (strip n) := by
  simp only [branchStep, strip_leader]
  split
  · rfl
  · exact strip_buildBranch n depth

/-- A node as `addSegment` leaves it: no leader flag, no deepest node and no intensity
in it or below it. -/
inductive Plain : NODE F → Prop
  | mk (i : Int) (ns : List (NODE F)) (s : Bool) (d : Int) :
    (∀ c ∈ ns, Plain c) → Plain (NODE.mk i ns false s d none none)

theorem Plain.new_plain (i : Int) : Plain (NODE.new i : NODE F) :=
  Plain.mk i [] false 0 (by intro c hc; cases hc)

theorem Plain.leader_eq {n : NODE F} (h : Plain n) : n.leader = false := by
  cases h; rfl

theorem Plain.child_plain {n c : NODE F} (h : Plain n) (k : Nat) (hc : n.neighbors[k]? = some c) :
    Plain c := by
  cases h with
  | mk i ns s d hs => exact hs c (mem_of_getElem? _ _ _ hc)

theorem Plain.strip_eq_self {n : NODE F} (h : Plain n) : strip n = n := by
  induction h with
  | mk i ns s d _ ih =>
    rw [strip_eq]
    congr 1
    conv_rhs => rw [← List.map_id ns]
    apply List.map_congr_left
    intro c hc
    exact ih c hc

theorem Plain.nodeAt_plain {q : NodePath} : ∀ {n c : NODE F}, Plain n → nodeAt n q = some c →
    Plain c := by
  induction q with
  | nil => intro n c h hc; rw [nodeAt_nil] at hc; cases hc; exact h
  | cons k rest ih =>
    intro n c h hc
    rw [nodeAt_cons_eq] at hc
    cases hk : n.neighbors[k]? with
    | none => rw [hk] at hc; cases hc
    | some c1 =>
      rw [hk] at hc
      exact ih (h.child_plain k hk) hc

/-- The call `buildBranch` leaves no leader flag in a plain subtree. -/
theorem Plain.buildBranch_noLeader {q : NodePath} : ∀ {c n : NODE F} (depth : Int), Plain c →
    nodeAt (buildBranch c depth) q = some n → n.leader = false := by
  induction q with
  | nil =>
    intro c n depth _ hn
    rw [nodeAt_nil] at hn
    cases hn
    exact NODE.buildBranch_leader c depth
  | cons k rest ih =>
    intro c n depth hc hn
    cases hc with
    | mk i ns s d hs =>
      rw [buildBranch_eq, nodeAt_cons, List.getElem?_map] at hn
      cases hk : ns[k]? with
      | none => rw [hk] at hn; cases hn
      | some c1 =>
        rw [hk] at hn
        have hp : Plain c1 := hs c1 (mem_of_getElem? _ _ _ hk)
        simp only [Option.map_some', Option.some_bind, branchStep, hp.leader_eq] at hn
        exact ih (depth + 1) hp hn

theorem Plain.branchStep_noLeader {q : NodePath} {c n : NODE F} (depth : Int) (hc : Plain c)
    (hn : nodeAt (branchStep depth c) q = some n) : n.leader = false := by
  simp only [branchStep, hc.leader_eq] at hn
  exact Plain.buildBranch_noLeader depth hc hn

/-- The index found at a pointer. -/
def indexAt (t : NODE F) (q : NodePath) : Option Int :=
  (nodeAt t q).map index

theorem indexAt_buildBranch (q : NodePath) : ∀ (c : NODE F) (depth : Int),
    indexAt (buildBranch c depth) q = indexAt c q := by
  induction q with
  | nil => intro c depth; simp [indexAt, nodeAt_nil, buildBranch_index]
  | cons k rest ih =>
    intro c depth
    cases c with
    | mk i ns l s d m it =>
      simp only [indexAt] at ih ⊢
      rw [buildBranch_eq, nodeAt_cons, nodeAt_cons, List.getElem?_map]
      cases ns[k]? with
      | none => rfl
      | some c1 =>
        simp only [Option.map_some', Option.some_bind, branchStep]
        split
        · rfl
        · exact ih c1 _

theorem indexAt_branchStep (q : NodePath) (c : NODE F) (depth : Int) :
    indexAt (branchStep depth c) q = indexAt c q := by
  unfold branchStep
  split
  · rfl
  · exact indexAt_buildBranch q c depth

theorem indexAt_strip (t : NODE F) (q : NodePath) : indexAt (strip t) q = indexAt t q := by
  simp only [indexAt, nodeAt_strip, Option.map_map]
  cases nodeAt t q with
  | none => rfl
  | some n => simp [strip_index]

end NODE

namespace DAG

variable {F : Type}

open NODE

theorem indexAt_crawl (p : NodePath) : ∀ (r : NODE F) (q : NodePath), (nodeAt r p).isSome →
    indexAt (crawl r p) q = indexAt r q := by
  induction p with
  | nil =>
    intro r q _
    cases r with
    | mk i ns l s d m it =>
      rw [crawl_nil, tagLeader_eq]
      cases q with
      | nil => rfl
      | cons j q1 =>
        simp only [indexAt]
        rw [nodeAt_cons, nodeAt_cons, List.getElem?_map]
        cases ns[j]? with
        | none => rfl
        | some c => exact indexAt_branchStep q1 c 1
  | cons k rest ih =>
    intro r q hp
    cases r with
    | mk i ns l s d m it =>
      rw [nodeAt_cons] at hp
      cases hk : ns[k]? with
      | none => rw [hk] at hp; cases hp
      | some c =>
        rw [hk] at hp
        rw [crawl_cons _ _ _ _ _ _ _ _ _ c hk]
        cases q with
        | nil => rfl
        | cons j q1 =>
          simp only [indexAt]
          rw [nodeAt_cons, nodeAt_cons, List.getElem?_map, List.getElem?_set]
          by_cases hj : k = j
          · subst hj
            simp only [if_true, lt_of_getElem? ns k c hk, hk, Option.map_some', Option.some_bind]
            exact (indexAt_branchStep q1 _ 1).trans (ih c q1 hp)
          · simp only [hj, if_false]
            cases ns[j]? with
            | none => rfl
            | some c1 => exact indexAt_branchStep q1 c1 1

/-- After the loop of `buildLeader` over a plain tree, the nodes with the leader flag
are the nodes on the way from the root to the node where the loop started. -/
theorem leader_crawl (p : NodePath) : ∀ (r : NODE F) (q : NodePath) (n : NODE F), Plain r →
    (nodeAt r p).isSome → nodeAt (crawl r p) q = some n → (n.leader = true ↔ q <+: p) := by
  induction p with
  | nil =>
    intro r q n hr _ hn
    cases hr with
    | mk i ns s d hs =>
      rw [crawl_nil, tagLeader_eq] at hn
      cases q with
      | nil =>
        rw [nodeAt_nil] at hn
        cases hn
        simp [leader]
      | cons j q1 =>
        rw [nodeAt_cons, List.getElem?_map] at hn
        cases hj : ns[j]? with
        | none => rw [hj] at hn; cases hn
        | some c =>
          rw [hj] at hn
          have := Plain.branchStep_noLeader 1 (hs c (mem_of_getElem? _ _ _ hj)) hn
          simp [this]
  | cons k rest ih =>
    intro r q n hr hp hn
    cases hr with
    | mk i ns s d hs =>
      rw [nodeAt_cons] at hp
      cases hk : ns[k]? with
      | none => rw [hk] at hp; cases hp
      | some c =>
        rw [hk] at hp
        rw [crawl_cons _ _ _ _ _ _ _ _ _ c hk] at hn
        cases q with
        | nil =>
          rw [nodeAt_nil] at hn
          cases hn
          simp [leader]
        | cons j q1 =>
          rw [nodeAt_cons, List.getElem?_map, List.getElem?_set] at hn
          by_cases hj : k = j
          · subst hj
            simp only [if_true, lt_of_getElem? ns k c hk, Option.map_some', Option.some_bind] at hn
            rw [branchStep_of_leader 1 _ (crawl_leader c rest hp)] at hn
            rw [List.prefix_cons_inj]
            exact ih c q1 n (hs c (mem_of_getElem? _ _ _ hk)) hp hn
          · simp only [hj, if_false] at hn
            cases hj1 : ns[j]? with
            | none => rw [hj1] at hn; cases hn
            | some c1 =>
              rw [hj1] at hn
              have := Plain.branchStep_noLeader 1 (hs c1 (mem_of_getElem? _ _ _ hj1)) hn
              rw [List.cons_prefix_cons]
              simp [this, Ne.symm hj]

end DAG

end Lumo

namespace Lumo

namespace NODE

variable {F : Type}

mutual
/-- The indices of the nodes at and below a node, in the order of `writeNode`. -/
def indices : NODE F → List Int
  | mk i ns _ _ _ _ _ => indicesList ns ++ [i]
/-- The indices of the nodes at and below the nodes of a vector. -/
def indicesList : List (NODE F) → List Int
  | [] => []
  | c :: cs => indices c ++ indicesList cs
end

theorem indices_eq (i : Int) (ns : List (NODE F)) (l s : Bool) (d : Int) (m : Option NodePath)
    (it : Option F) : indices (mk i ns l s d m it) = indicesList ns ++ [i] := by
  rw [indices]

theorem indicesList_append (a b : List (NODE F)) :
    indicesList (a ++ b) = indicesList a ++ indicesList b := by
  induction a with
  | nil => simp [indicesList]
  | cons c cs ih => simp [indicesList, ih]

theorem indicesList_set (ns : List (NODE F)) (k : Nat) (c : NODE F) (hc : ns[k]? = some c) :
    ∃ A B, indicesList ns = A ++ indices c ++ B ∧
      ∀ c1, indicesList (ns.set k c1) = A ++ indices c1 ++ B := by
  induction ns generalizing k with
  | nil => simp at hc
  | cons a as ih =>
    cases k with
    | zero =>
      simp at hc
      subst hc
      exact ⟨[], indicesList as, by simp [indicesList], fun c1 => by simp [indicesList]⟩
    | succ k =>
      simp at hc
      obtain ⟨A, B, h1, h2⟩ := ih k hc
      refine ⟨indices a ++ A, B, ?_, ?_⟩
      · simp [indicesList, h1]
      · intro c1
        simp [indicesList, h2 c1]

theorem mem_indicesList (ns : List (NODE F)) (k : Int) :
    k ∈ indicesList ns ↔ ∃ c ∈ ns, k ∈ indices c := by
  induction ns with
  | nil => simp [indicesList]
  | cons c cs ih => simp [indicesList, ih]

theorem nodeAt_append (p : NodePath) : ∀ (r : NODE F) (q : NodePath),
    nodeAt r (p ++ q) = (nodeAt r p).bind (fun n => nodeAt n q) := by
  induction p with
  | nil => intro r q; simp [nodeAt_nil]
  | cons k rest ih =>
    intro r q
    rw [List.cons_append, nodeAt_cons_eq, nodeAt_cons_eq]
    cases r.neighbors[k]? with
    | none => rfl
    | some c => exact ih c q

/-- Every index in the list of indices is the index of the node at some pointer. -/
theorem exists_indexAt (r : NODE F) : ∀ k, k ∈ indices r → ∃ q, indexAt r q = some k := by
  refine induct (fun r => ∀ k, k ∈ indices r → ∃ q, indexAt r q = some k) ?_ r
  intro i ns l s d m it ih k hk
  rw [indices_eq, List.mem_append, mem_indicesList] at hk
  rcases hk with ⟨c, hc, hkc⟩ | hk
  · obtain ⟨q, hq⟩ := ih c hc k hkc
    obtain ⟨j, hj⟩ := List.getElem?_of_mem hc
    refine ⟨j :: q, ?_⟩
    simp only [indexAt] at hq ⊢
    rw [nodeAt_cons, hj]
    exact hq
  · simp at hk
    subst hk
    exact ⟨[], by simp [indexAt, nodeAt_nil, index]⟩

theorem nodeAt_new (i : Int) (q : NodePath) :
    nodeAt (NODE.new i : NODE F) q = if q = [] then some (NODE.new i) else none := by
  cases q with
  | nil => rfl
  | cons k rest => simp [NODE.new, nodeAt_cons]

theorem pushNeighbor_eq (c : NODE F) (i : Int) (ns : List (NODE F)) (l s : Bool) (d : Int)
    (m : Option NodePath) (it : Option F) :
    pushNeighbor c (mk i ns l s d m it) = mk i (ns ++ [c]) l s d m it := rfl

/-- The indices found in the tree after `push_back` of a new node at the node `p`. -/
theorem indexAt_push (idx : Int) (p : NodePath) : ∀ (r parent : NODE F) (q : NodePath),
    nodeAt r p = some parent →
    indexAt (modifyAt (pushNeighbor (NODE.new idx)) r p) q =
      if q = p ++ [parent.neighbors.length] then some idx else indexAt r q := by
  induction p with
  | nil =>
    intro r parent q hp
    rw [nodeAt_nil] at hp
    cases hp
    cases r with
    | mk i ns l s d m it =>
      rw [modifyAt_nil, pushNeighbor_eq]
      cases q with
      | nil => simp [indexAt, nodeAt_nil, index]
      | cons j q1 =>
        simp only [indexAt, nodeAt_cons, List.nil_append, neighbors, List.cons.injEq]
        rw [List.getElem?_append]
        by_cases hj : j < ns.length
        · simp [hj, Nat.ne_of_lt hj]
        · simp only [hj, if_false]
          by_cases hj2 : j = ns.length
          · subst hj2
            simp [nodeAt_new]
            by_cases hq : q1 = []
            · simp [hq, NODE.new, index]
            · simp [hq]
          · have h3 : ns.length < j := by omega
            have h4 : ns[j]? = none := List.getElem?_eq_none (by omega)
            have h5 : [NODE.new idx][j - ns.length]? = (none : Option (NODE F)) :=
              List.getElem?_eq_none (by simp; omega)
            simp [hj2, h4, h5]
  | cons k rest ih =>
    intro r parent q hp
    cases r with
    | mk i ns l s d m it =>
      rw [nodeAt_cons] at hp
      cases hk : ns[k]? with
      | none => rw [hk] at hp; cases hp
      | some c =>
        rw [hk] at hp
        rw [modifyAt_cons _ _ _ _ _ _ _ _ _ _ c hk]
        cases q with
        | nil => simp [indexAt, nodeAt_nil, index]
        | cons j q1 =>
          simp only [indexAt, nodeAt_cons, List.cons_append, List.cons.injEq]
          rw [List.getElem?_set]
          by_cases hj : k = j
          · subst hj
            have := ih c parent q1 hp
            simp only [indexAt] at this
            simp only [if_true, lt_of_getElem? ns k c hk, hk, Option.some_bind, true_and]
            exact this
          · simp [hj, Ne.symm hj]

theorem indices_new (idx : Int) : indices (NODE.new idx : NODE F) = [idx] := by
  simp [NODE.new, indices_eq, indicesList]

/-- The indices in the tree after `push_back` of a new node at the node `p`. -/
theorem indices_push (idx : Int) (p : NodePath) : ∀ (r parent : NODE F),
    nodeAt r p = some parent →
    (indices (modifyAt (pushNeighbor (NODE.new idx)) r p)).Perm (idx :: indices r) := by
  induction p with
  | nil =>
    intro r parent _
    cases r with
    | mk i ns l s d m it =>
      rw [modifyAt_nil, pushNeighbor_eq, indices_eq, indices_eq, indicesList_append]
      simp only [indicesList, indices_new, List.append_nil, List.append_assoc]
      rw [← List.singleton_append, ← List.append_assoc]
      exact (List.perm_append_comm).append_right _
  | cons k rest ih =>
    intro r parent hp
    cases r with
    | mk i ns l s d m it =>
      rw [nodeAt_cons] at hp
      cases hk : ns[k]? with
      | none => rw [hk] at hp; cases hp
      | some c =>
        rw [hk] at hp
        rw [modifyAt_cons _ _ _ _ _ _ _ _ _ _ c hk, indices_eq, indices_eq]
        obtain ⟨A, B, h1, h2⟩ := indicesList_set ns k c hk
        rw [h1, h2]
        have h3 := ih c parent hp
        have h4 : (A ++ indices (modifyAt (pushNeighbor (NODE.new idx)) c rest) ++ B ++ [i]).Perm
            (A ++ (idx :: indices c) ++ B ++ [i]) :=
          (((List.Perm.refl A).append h3).append_right B).append_right [i]
        refine h4.trans ?_
        simp only [List.append_assoc, List.cons_append]
        exact List.perm_middle

theorem Plain.push_plain (idx : Int) (p : NodePath) : ∀ (r parent : NODE F), Plain r →
    nodeAt r p = some parent → Plain (modifyAt (pushNeighbor (NODE.new idx)) r p) := by
  induction p with
  | nil =>
    intro r parent hr _
    cases hr with
    | mk i ns s d hs =>
      rw [modifyAt_nil, pushNeighbor_eq]
      refine Plain.mk i _ s d ?_
      intro c hc
      rcases List.mem_append.mp hc with h | h
      · exact hs c h
      · simp at h; subst h; exact Plain.new_plain idx
  | cons k rest ih =>
    intro r parent hr hp
    cases hr with
    | mk i ns s d hs =>
      rw [nodeAt_cons] at hp
      cases hk : ns[k]? with
      | none => rw [hk] at hp; cases hp
      | some c =>
        rw [hk] at hp
        rw [modifyAt_cons _ _ _ _ _ _ _ _ _ _ c hk]
        refine Plain.mk i _ s d ?_
        intro c1 hc1
        rcases List.mem_or_eq_of_mem_set hc1 with h | h
        · exact hs c1 h
        · subst h
          exact ih c parent (hs c (mem_of_getElem? _ _ _ hk)) hp

end NODE

namespace DAG

variable {F : Type}

open NODE

theorem find_append {α : Type} (h l : List (Int × α)) (k : Int) :
    find (h ++ l) k = match find h k with
      | some v => some v
      | none => find l k := by
  induction h with
  | nil => simp [find]
  | cons a as ih =>
    obtain ⟨k1, v1⟩ := a
    simp only [List.cons_append, find]
    split
    · rfl
    · exact ih

theorem hashInsert_fresh {α : Type} (h : List (Int × α)) (k : Int) (v : α)
    (hk : find h k = none) : hashInsert h k v = h ++ [(k, v)] := by
  simp [hashInsert, hk]

/-- A graph built by calls of `addSegment` on a new object, each call with an index that
no node has yet. -/
inductive Built : DAG F → Prop
  | first (xRes yRes index neighbor : Int) (g : DAG F) :
    index ≠ neighbor → addSegment (DAG.new xRes yRes) index neighbor = some g → Built g
  | next (g0 : DAG F) (r0 : NODE F) (index neighbor : Int) (g : DAG F) :
    Built g0 → g0.root = some r0 → (∀ q, indexAt r0 q ≠ some index) →
    addSegment g0 index neighbor = some g → Built g

/-- What holds of a graph that was built. -/
structure Inv (g : DAG F) (r : NODE F) : Prop where
  root : g.root = some r
  plain : Plain r
  hash : ∀ k q, find g.hash k = some q ↔ indexAt r q = some k
  nodup : (indices r).Nodup
  count : ((indices r).length : Int) = g.totalNodes + 1
  bottom : g.bottomHit = -1

theorem Inv.first_inv (xRes yRes index neighbor : Int) (g : DAG F) (hne : index ≠ neighbor)
    (hg : addSegment (DAG.new xRes yRes) index neighbor = some g) :
    Inv g (NODE.mk neighbor [NODE.new index] false false 0 none none) := by
  simp only [addSegment, DAG.new, Option.some.injEq] at hg
  subst hg
  have h1 : hashInsert (hashInsert ([] : List (Int × NodePath)) neighbor []) index [0] =
      [(neighbor, []), (index, [0])] := by
    simp [hashInsert, find, Ne.symm hne]
  refine ⟨rfl, Plain.mk _ _ _ _ ?_, ?_, ?_, ?_, rfl⟩
  · intro c hc
    simp at hc
    subst hc
    exact Plain.new_plain index
  · intro k q
    simp only [h1, find, indexAt]
    cases q with
    | nil =>
      simp only [nodeAt_nil, Option.map_some', NODE.index, Option.some.injEq]
      by_cases h : neighbor = k
      · simp [h]
      · simp [h]
    | cons j q1 =>
      rw [nodeAt_cons]
      cases j with
      | zero =>
        simp only [List.getElem?_cons_zero, Option.some_bind, nodeAt_new]
        by_cases h : neighbor = k
        · subst h
          by_cases hq : q1 = []
          · simp [hq, NODE.new, NODE.index, hne]
          · simp [hq]
        · by_cases hq : q1 = []
          · simp [hq, NODE.new, NODE.index, h]
          · simp [hq, h]
      | succ j =>
        by_cases h : neighbor = k
        · simp [h]
        · simp [h]
  · simp [indices_eq, indicesList, indices_new, hne]
  · simp [indices_eq, indicesList, indices_new]

theorem Inv.fresh {g : DAG F} {r : NODE F} (h : Inv g r) (index : Int)
    (hf : ∀ q, indexAt r q ≠ some index) : find g.hash index = none ∧ index ∉ indices r := by
  constructor
  · cases hq : find g.hash index with
    | none => rfl
    | some q => exact absurd ((h.hash index q).mp hq) (hf q)
  · intro hm
    obtain ⟨q, hq⟩ := exists_indexAt r index hm
    exact hf q hq

theorem Inv.next_inv {g0 : DAG F} {r0 : NODE F} (h : Inv g0 r0) (index neighbor : Int) (g : DAG F)
    (hf : ∀ q, indexAt r0 q ≠ some index) (hg : addSegment g0 index neighbor = some g) :
    ∃ p parent, find g0.hash neighbor = some p ∧ nodeAt r0 p = some parent ∧
      Inv g (modifyAt (pushNeighbor (NODE.new index)) r0 p) := by
  obtain ⟨hf1, hf2⟩ := h.fresh index hf
  unfold addSegment at hg
  rw [h.root] at hg
  simp only at hg
  cases hp : find g0.hash neighbor with
  | none => rw [hp] at hg; cases hg
  | some p =>
    rw [hp] at hg
    simp only at hg
    cases hn : nodeAt r0 p with
    | none => rw [hn] at hg; cases hg
    | some parent =>
      rw [hn] at hg
      simp only [Option.some.injEq] at hg
      subst hg
      refine ⟨p, parent, rfl, hn, rfl, h.plain.push_plain index p r0 parent hn, ?_, ?_, ?_, h.bottom⟩
      · intro k q
        simp only
        rw [hashInsert_fresh _ _ _ hf1, find_append, indexAt_push index p r0 parent q hn]
        have hq0 : indexAt r0 (p ++ [parent.neighbors.length]) = none := by
          simp only [indexAt]
          rw [nodeAt_append, hn]
          simp only [Option.some_bind, nodeAt_cons_eq]
          rw [List.getElem?_eq_none (Nat.le_refl _)]
          rfl
        by_cases hq : q = p ++ [parent.neighbors.length]
        · subst hq
          simp only [if_true, Option.some.injEq]
          cases hk : find g0.hash k with
          | none =>
            simp only [find]
            constructor
            · intro h1
              by_contra h2
              simp [h2] at h1
            · intro h1
              simp [h1]
          | some q1 =>
            simp only [Option.some.injEq]
            constructor
            · intro h1
              subst h1
              rw [(h.hash k _).mp hk] at hq0
              cases hq0
            · intro h1
              subst h1
              rw [hf1] at hk
              cases hk
        · simp only [hq, if_false]
          rw [← h.hash k q]
          cases hk : find g0.hash k with
          | none =>
            simp only [find]
            split
            · simp [Ne.symm hq]
            · simp
          | some q1 => rfl
      · exact ((indices_push index p r0 parent hn).nodup_iff).mpr
          (List.nodup_cons.mpr ⟨hf2, h.nodup⟩)
      · simp only
        rw [(indices_push index p r0 parent hn).length_eq, List.length_cons]
        have := h.count
        push_cast
        omega

theorem Built.inv {g : DAG F} (hb : Built g) : ∃ r, Inv g r := by
  induction hb with
  | first xRes yRes index neighbor g hne hg => exact ⟨_, Inv.first_inv xRes yRes index neighbor g hne hg⟩
  | next g0 r0 index neighbor g _ hr hf hg ih =>
    obtain ⟨r, hi⟩ := ih
    have : r = r0 := by
      have := hi.root
      rw [hr] at this
      cases this
      rfl
    subst this
    obtain ⟨p, parent, _, _, h3⟩ := hi.next_inv index neighbor g hf hg
    exact ⟨_, h3⟩

end DAG

end Lumo

namespace Lumo

namespace DAG

variable {F : Type}

open NODE

/-- The leader flag found at a pointer is not changed by `buildIntensity`. -/
theorem leader_buildIntensity (sh : Shading F) (t : NODE F) (q : NodePath) (n : NODE F)
    (hn : nodeAt (buildIntensity sh t) q = some n) :
    ∃ n0, nodeAt t q = some n0 ∧ n0.leader = n.leader := by
  have h1 : nodeAt (strip (buildIntensity sh t)) q = some (strip n) := by
    rw [nodeAt_strip, hn]; rfl
  rw [strip_buildIntensity, nodeAt_strip] at h1
  cases h0 : nodeAt t q with
  | none => rw [h0] at h1; cases h1
  | some n0 =>
    rw [h0] at h1
    simp only [Option.map_some', Option.some.injEq] at h1
    refine ⟨n0, rfl, ?_⟩
    rw [← strip_leader n0, h1, strip_leader]

theorem indexAt_buildIntensity (sh : Shading F) (t : NODE F) (q : NodePath) :
    indexAt (buildIntensity sh t) q = indexAt t q := by
  rw [← indexAt_strip, strip_buildIntensity, indexAt_strip]

/-- A shading for the examples. -/
def sampleShading : Shading ℚ :=
  { leaderIntensity := 3 / 4, falloff := fun maxDepth depth => (maxDepth - depth) / (2 * maxDepth) }

/-- The graph after `addSegment(5, 1)` on a new 4 by 4 object. -/
def sampleDag1 : DAG ℚ :=
  { (DAG.new 4 4 : DAG ℚ) with
    root := some (NODE.mk 1 [NODE.new 5] false false 0 none none),
    hash := [(1, []), (5, [0])], totalNodes := 1 }

/-- The graph after `addSegment(9, 5)` on `sampleDag1`. -/
def sampleDag2 : DAG ℚ :=
  { (DAG.new 4 4 : DAG ℚ) with
    root := some (NODE.mk 1 [NODE.mk 5 [NODE.new 9] false false 0 none none] false false 0 none none),
    hash := [(1, []), (5, [0]), (9, [0, 0])], totalNodes := 2 }

/-- The tree of `sampleDag`: the root 1 with the neighbours 5 and 6, and 9 below 5. -/
def sampleRoot : NODE ℚ :=
  NODE.mk 1 [NODE.mk 5 [NODE.new 9] false false 0 none none, NODE.new 6] false false 0 none none

/-- The graph after `addSegment(6, 1)` on `sampleDag2`. -/
def sampleDag : DAG ℚ :=
  { (DAG.new 4 4 : DAG ℚ) with
    root := some sampleRoot,
    hash := [(1, []), (5, [0]), (9, [0, 0]), (6, [1])], totalNodes := 3 }

theorem mem_indices_of_indexAt (q : NodePath) : ∀ (r : NODE F) (k : Int),
    indexAt r q = some k → k ∈ indices r := by
  induction q with
  | nil =>
    intro r k h
    cases r with
    | mk i ns l s d m it =>
      simp only [indexAt, nodeAt_nil, Option.map_some', NODE.index, Option.some.injEq] at h
      rw [indices_eq]
      simp [h]
  | cons j q1 ih =>
    intro r k h
    cases r with
    | mk i ns l s d m it =>
      simp only [indexAt] at h ih
      rw [nodeAt_cons] at h
      cases hj : ns[j]? with
      | none => rw [hj] at h; cases h
      | some c =>
        rw [hj] at h
        rw [indices_eq, List.mem_append, mem_indicesList]
        exact Or.inl ⟨c, mem_of_getElem? _ _ _ hj, ih c k h⟩

theorem fresh_of_not_mem (r : NODE F) (k : Int) (hk : k ∉ indices r) :
    ∀ q, indexAt r q ≠ some k :=
  fun q h => hk (mem_indices_of_indexAt q r k h)

theorem sampleDag_built : Built sampleDag := by
  have h1 : Built sampleDag1 := Built.first 4 4 5 1 _ (by decide) rfl
  have h2 : Built sampleDag2 := Built.next sampleDag1 _ 9 5 _ h1 rfl
    (fresh_of_not_mem _ 9 (by decide)) rfl
  exact Built.next sampleDag2 _ 6 1 _ h2 rfl (fresh_of_not_mem _ 6 (by decide)) rfl

/-- C5: on a graph built by `addSegment` calls with pairwise distinct indices (no node is
flagged leader then), for the index `t` of the node at the pointer `p`, `buildLeader(t)`
returns, the tree keeps its nodes, and a node has the leader flag afterwards exactly
when its pointer is an initial part of `p`, that is when it is on the parent-link path
from the node of `t` up to the root, both ends included. -/
theorem buildLeader_leader_path (sh : Shading F) (g : DAG F) (r : NODE F) (t : Int)
    (p : NodePath) (hb : Built g) (hr : g.root = some r) (ht : indexAt r p = some t) :
    ∃ g2 r2, buildLeader sh g t = some g2 ∧ g2.root = some r2 ∧
      (∀ q, indexAt r2 q = indexAt r q) ∧
      ∀ q n, nodeAt r2 q = some n → (n.leader = true ↔ q <+: p) := by
  obtain ⟨r1, hi⟩ := hb.inv
  have e : r1 = r := by
    have := hi.root
    rw [hr] at this
    cases this
    rfl
  subst e
  have hf : find g.hash t = some p := (hi.hash t p).mpr ht
  have hp : (nodeAt r1 p).isSome := by
    simp only [indexAt] at ht
    cases h : nodeAt r1 p with
    | none => rw [h] at ht; cases ht
    | some n => rfl
  refine ⟨{ g with bottomHit := t, root := some (buildIntensity sh (crawl r1 p)) },
    buildIntensity sh (crawl r1 p), ?_, rfl, ?_, ?_⟩
  · simp only [buildLeader, hf, hr]
  · intro q
    rw [indexAt_buildIntensity, indexAt_crawl p r1 q hp]
  · intro q n hn
    obtain ⟨n0, h0, hl⟩ := leader_buildIntensity sh _ q n hn
    rw [← hl]
    exact leader_crawl p r1 q n0 hi.plain hp h0

theorem buildLeader_leader_path_witness :
    ∃ g2 r2, buildLeader sampleShading sampleDag 9 = some g2 ∧ g2.root = some r2 ∧
      (∀ q, indexAt r2 q = indexAt sampleRoot q) ∧
      ∀ q n, nodeAt r2 q = some n → (n.leader = true ↔ q <+: [0, 0]) :=
  buildLeader_leader_path sampleShading sampleDag sampleRoot 9 [0, 0] sampleDag_built rfl rfl

end DAG

end Lumo

namespace Lumo

namespace NODE

variable {F : Type}

theorem indicesList_map_congr (g : NODE F → NODE F) (ns : List (NODE F))
    (h : ∀ c ∈ ns, indices (g c) = indices c) : indicesList (ns.map g) = indicesList ns := by
  induction ns with
  | nil => rfl
  | cons c cs ih =>
    simp only [List.map_cons, indicesList]
    rw [h c (List.mem_cons_self _ _), ih (fun c1 hc1 => h c1 (List.mem_cons_of_mem _ hc1))]

theorem indices_strip (n : NODE F) : indices (strip n) = indices n := by
  refine induct (fun n => indices (strip n) = indices n) ?_ n
  intro i ns l s d m it ih
  rw [strip_eq, indices_eq, indices_eq, indicesList_map_congr strip ns ih]

theorem indices_buildBranch (n : NODE F) : ∀ depth, indices (buildBranch n depth) = indices n := by
  refine induct (fun n => ∀ depth, indices (buildBranch n depth) = indices n) ?_ n
  intro i ns l s d m it ih depth
  rw [buildBranch_eq, indices_eq, indices_eq, indicesList_map_congr]
  intro c hc
  unfold branchStep
  split
  · rfl
  · exact ih c hc _

theorem indices_branchStep (depth : Int) (n : NODE F) :
    indices (branchStep depth n) = indices n := by
  unfold branchStep
  split
  · rfl
  · exact indices_buildBranch n depth

theorem indices_buildIntensity (sh : Shading F) (n : NODE F) :
    indices (buildIntensity sh n) = indices n := by
  rw [← indices_strip, strip_buildIntensity, indices_strip]

theorem indices_tagLeader (n : NODE F) : indices (tagLeader n) = indices n := by
  cases n with
  | mk i ns l s d m it =>
    rw [tagLeader_eq, indices_eq, indices_eq, indicesList_map_congr]
    intro c _
    exact indices_branchStep 1 c

end NODE

namespace DAG

variable {F : Type}

open NODE

theorem indices_crawl (p : NodePath) : ∀ (r : NODE F), (nodeAt r p).isSome →
    indices (crawl r p) = indices r := by
  induction p with
  | nil => intro r _; rw [crawl_nil, indices_tagLeader]
  | cons k rest ih =>
    intro r hp
    cases r with
    | mk i ns l s d m it =>
      rw [nodeAt_cons] at hp
      cases hk : ns[k]? with
      | none => rw [hk] at hp; cases hp
      | some c =>
        rw [hk] at hp
        rw [crawl_cons _ _ _ _ _ _ _ _ _ c hk, indices_eq, indices_eq,
          indicesList_map_congr _ _ (fun c1 _ => indices_branchStep 1 c1)]
        obtain ⟨A, B, h1, h2⟩ := indicesList_set ns k c hk
        rw [h1, h2, ih c hp]

/-- The loop of `buildLeader` does not look at what `strip` resets. -/
theorem strip_crawl (p : NodePath) : ∀ (r : NODE F), (nodeAt r p).isSome →
    strip (crawl r p) = crawl (strip r) p := by
  induction p with
  | nil =>
    intro r _
    cases r with
    | mk i ns l s d m it =>
      rw [crawl_nil, crawl_nil, tagLeader_eq, strip_eq, strip_eq, tagLeader_eq, List.map_map,
        List.map_map]
      congr 1
      apply List.map_congr_left
      intro c _
      exact strip_branchStep 1 c
  | cons k rest ih =>
    intro r hp
    cases r with
    | mk i ns l s d m it =>
      rw [nodeAt_cons] at hp
      cases hk : ns[k]? with
      | none => rw [hk] at hp; cases hp
      | some c =>
        rw [hk] at hp
        have hk2 : (ns.map strip)[k]? = some (strip c) := by
          rw [List.getElem?_map, hk]; rfl
        rw [crawl_cons _ _ _ _ _ _ _ _ _ c hk, strip_eq, strip_eq,
          crawl_cons _ _ _ _ _ _ _ _ _ (strip c) hk2, ← ih c hp, List.map_map, ← List.map_set,
          List.map_map]
        congr 1
        apply List.map_congr_left
        intro c1 _
        exact strip_branchStep 1 c1

/-- Running the loop of `buildLeader` a second time from the same node changes nothing. -/
theorem crawl_idem (p : NodePath) : ∀ (r : NODE F), (nodeAt r p).isSome →
    crawl (crawl r p) p = crawl r p := by
  induction p with
  | nil =>
    intro r _
    cases r with
    | mk i ns l s d m it =>
      rw [crawl_nil, crawl_nil, tagLeader_eq, tagLeader_eq, List.map_map]
      congr 1
      apply List.map_congr_left
      intro c _
      exact branchStep_idem 1 c
  | cons k rest ih =>
    intro r hp
    cases r with
    | mk i ns l s d m it =>
      rw [nodeAt_cons] at hp
      cases hk : ns[k]? with
      | none => rw [hk] at hp; cases hp
      | some c =>
        rw [hk] at hp
        simp only [Option.some_bind] at hp
        have hlt := lt_of_getElem? ns k c hk
        have hk2 : ((ns.set k (crawl c rest)).map (branchStep 1))[k]? = some (crawl c rest) := by
          rw [List.getElem?_map, List.getElem?_set]
          simp only [if_true, hlt, Option.map_some']
          rw [branchStep_of_leader 1 _ (crawl_leader c rest hp)]
        have hp2 : (nodeAt (crawl c rest) rest).isSome := by
          have h1 := indexAt_crawl rest c rest hp
          simp only [indexAt] at h1
          cases h2 : nodeAt c rest with
          | none => rw [h2] at hp; cases hp
          | some n =>
            rw [h2] at h1
            cases h3 : nodeAt (crawl c rest) rest with
            | none => rw [h3] at h1; cases h1
            | some n1 => rfl
        rw [crawl_cons _ _ _ _ _ _ _ _ _ c hk, crawl_cons _ _ _ _ _ _ _ _ _ (crawl c rest) hk2,
          ih c hp, set_eq_self _ _ _ hk2, List.map_map]
        congr 1
        apply List.map_congr_left
        intro c1 _
        exact branchStep_idem 1 c1

end DAG

end Lumo

namespace Lumo

namespace DAG

variable {F : Type}

open NODE

mutual
/-- The entries that `read` puts into its map for the records of a node and of the
nodes below it: the index and what was read for it. -/
def nodesOf : NODE F → List (Int × NODE F)
  | NODE.mk i ns l s d m it => nodesOfList ns ++ [(i, strip (NODE.mk i ns l s d m it))]
/-- The entries for the nodes at and below the nodes of a vector. -/
def nodesOfList : List (NODE F) → List (Int × NODE F)
  | [] => []
  | c :: cs => nodesOf c ++ nodesOfList cs
end

theorem nodesOf_eq (i : Int) (ns : List (NODE F)) (l s : Bool) (d : Int) (m : Option NodePath)
    (it : Option F) :
    nodesOf (NODE.mk i ns l s d m it) = nodesOfList ns ++ [(i, strip (NODE.mk i ns l s d m it))] := by
  rw [nodesOf]

theorem nodesOf_keys (n : NODE F) : (nodesOf n).map Prod.fst = indices n := by
  refine induct (fun n => (nodesOf n).map Prod.fst = indices n) ?_ n
  intro i ns l s d m it ih
  rw [nodesOf_eq, indices_eq, List.map_append]
  congr 1
  induction ns with
  | nil => rfl
  | cons c cs ih2 =>
    simp only [nodesOfList, indicesList, List.map_append]
    rw [ih c (List.mem_cons_self _ _), ih2 (fun c1 hc1 => ih c1 (List.mem_cons_of_mem _ hc1))]

theorem nodesOfList_keys (ns : List (NODE F)) :
    (nodesOfList ns).map Prod.fst = indicesList ns := by
  induction ns with
  | nil => rfl
  | cons c cs ih => simp only [nodesOfList, indicesList, List.map_append, nodesOf_keys, ih]

theorem mem_nodesOf (n : NODE F) : (n.index, strip n) ∈ nodesOf n := by
  cases n with
  | mk i ns l s d m it => rw [nodesOf_eq]; simp [NODE.index]

theorem mem_nodesOfList (ns : List (NODE F)) (c : NODE F) (hc : c ∈ ns) :
    (c.index, strip c) ∈ nodesOfList ns := by
  induction ns with
  | nil => cases hc
  | cons a as ih =>
    simp only [nodesOfList, List.mem_append]
    rcases List.mem_cons.mp hc with rfl | h
    · exact Or.inl (mem_nodesOf c)
    · exact Or.inr (ih h)

theorem find_of_mem {α : Type} (l : List (Int × α)) (k : Int) (v : α)
    (hn : (l.map Prod.fst).Nodup) (hm : (k, v) ∈ l) : find l k = some v := by
  induction l with
  | nil => cases hm
  | cons a as ih =>
    obtain ⟨k1, v1⟩ := a
    simp only [List.map_cons, List.nodup_cons] at hn
    simp only [find]
    rcases List.mem_cons.mp hm with h | h
    · cases h; simp
    · have : k1 ≠ k := by
        intro e
        subst e
        exact hn.1 (List.mem_map.mpr ⟨(k1, v), h, rfl⟩)
      simp [this, ih hn.2 h]

theorem find_none_of_not_mem {α : Type} (l : List (Int × α)) (k : Int)
    (hk : k ∉ l.map Prod.fst) : find l k = none := by
  induction l with
  | nil => rfl
  | cons a as ih =>
    obtain ⟨k1, v1⟩ := a
    simp only [List.map_cons, List.mem_cons, not_or] at hk
    simp only [find]
    rw [if_neg (Ne.symm hk.1)]
    exact ih hk.2

theorem mem_of_find {α : Type} (l : List (Int × α)) (k : Int) (v : α)
    (h : find l k = some v) : (k, v) ∈ l := by
  induction l with
  | nil => cases h
  | cons a as ih =>
    obtain ⟨k1, v1⟩ := a
    simp only [find] at h
    split at h
    · cases h; subst_vars; exact List.mem_cons_self _ _
    · exact List.mem_cons_of_mem _ (ih h)

theorem lookupAll_eq (H : List (Int × NODE F)) (ns : List (NODE F))
    (h : ∀ c ∈ ns, find H c.index = some (strip c)) :
    lookupAll H (ns.map NODE.index) = some (ns.map strip) := by
  induction ns with
  | nil => rfl
  | cons c cs ih =>
    simp only [List.map_cons, lookupAll]
    rw [h c (List.mem_cons_self _ _), ih (fun c1 hc1 => h c1 (List.mem_cons_of_mem _ hc1))]

theorem readNodes_append (a b : List NodeRecord) : ∀ (st : ReadState F),
    readNodes st (a ++ b) = (readNodes st a).bind (fun st1 => readNodes st1 b) := by
  induction a with
  | nil => intro st; rfl
  | cons r rs ih =>
    intro st
    simp only [List.cons_append, readNodes]
    cases readNode st r with
    | none => rfl
    | some st1 => exact ih st1

theorem writeNode_eq (i : Int) (ns : List (NODE F)) (l s : Bool) (d : Int) (m : Option NodePath)
    (it : Option F) (parent : Int) :
    writeNode (NODE.mk i ns l s d m it) parent = writeNodeList ns i ++
      [{ index := i, parent := parent, leader := l, secondary := s, depth := d,
         neighbors := ns.map NODE.index }] := by
  rw [writeNode]

/-- Reading the records that `writeNode` wrote for a node puts the node and the nodes
below it into the map, and makes the node the root if its parent was written as -1. -/
theorem readNodes_writeNode (n : NODE F) : ∀ (h : List (Int × NODE F)) (root : Option (NODE F))
    (par : Int), (h.map Prod.fst ++ indices n).Nodup →
    ∃ root1, readNodes { hash := h, root := root } (writeNode n par) =
        some { hash := h ++ nodesOf n, root := root1 } ∧
      (par = -1 → root1 = some (strip n)) := by
  refine induct (fun n => ∀ (h : List (Int × NODE F)) (root : Option (NODE F))
    (par : Int), (h.map Prod.fst ++ indices n).Nodup →
    ∃ root1, readNodes { hash := h, root := root } (writeNode n par) =
        some { hash := h ++ nodesOf n, root := root1 } ∧
      (par = -1 → root1 = some (strip n))) ?_ n
  intro i ns l s d m it ih h root par hn
  have hl : ∀ (cs : List (NODE F)), (∀ c ∈ cs, c ∈ ns) → ∀ (h1 : List (Int × NODE F))
      (root0 : Option (NODE F)), (h1.map Prod.fst ++ indicesList cs).Nodup →
      ∃ root1, readNodes { hash := h1, root := root0 } (writeNodeList cs i) =
        some { hash := h1 ++ nodesOfList cs, root := root1 } := by
    intro cs
    induction cs with
    | nil => intro _ h1 root0 _; exact ⟨root0, by simp [writeNodeList, readNodes, nodesOfList]⟩
    | cons c cs ih2 =>
      intro hsub h1 root0 hnd
      simp only [indicesList, ← List.append_assoc] at hnd
      obtain ⟨r1, e1, _⟩ := ih c (hsub c (List.mem_cons_self _ _)) h1 root0 i
        (List.Nodup.of_append_left hnd)
      obtain ⟨r2, e2⟩ := ih2 (fun c1 hc1 => hsub c1 (List.mem_cons_of_mem _ hc1))
        (h1 ++ nodesOf c) r1 (by rw [List.map_append, nodesOf_keys]; exact hnd)
      refine ⟨r2, ?_⟩
      simp only [writeNodeList, nodesOfList]
      rw [readNodes_append, e1]
      simp only [Option.some_bind]
      rw [e2, List.append_assoc]
  rw [indices_eq, ← List.append_assoc] at hn
  obtain ⟨r1, e1⟩ := hl ns (fun c hc => hc) h root (List.Nodup.of_append_left hn)
  have hkeys : ((h ++ nodesOfList ns).map Prod.fst).Nodup := by
    rw [List.map_append, nodesOfList_keys]
    exact List.Nodup.of_append_left hn
  have hfresh : find (h ++ nodesOfList ns) i = none := by
    apply find_none_of_not_mem
    rw [List.map_append, nodesOfList_keys]
    intro hi
    have := List.disjoint_of_nodup_append hn
    exact this hi (List.mem_singleton_self i)
  have hlook : lookupAll (h ++ nodesOfList ns) (ns.map NODE.index) = some (ns.map strip) := by
    apply lookupAll_eq
    intro c hc
    exact find_of_mem _ _ _ hkeys (List.mem_append_right _ (mem_nodesOfList ns c hc))
  refine ⟨if par = -1 then some (strip (NODE.mk i ns l s d m it)) else r1, ?_, ?_⟩
  · rw [writeNode_eq, readNodes_append, e1]
    simp only [Option.some_bind, readNodes, readNode, hlook, hashInsert_fresh _ _ _ hfresh,
      nodesOf_eq, strip_eq, List.append_assoc]
  · intro hp
    simp [hp]

theorem writeNode_indices (n : NODE F) : ∀ par, (writeNode n par).map (fun r => r.index) =
    indices n := by
  refine induct (fun n => ∀ par, (writeNode n par).map (fun r => r.index) = indices n) ?_ n
  intro i ns l s d m it ih par
  rw [writeNode_eq, indices_eq, List.map_append]
  congr 1
  induction ns with
  | nil => rfl
  | cons c cs ih2 =>
    simp only [writeNodeList, indicesList, List.map_append]
    rw [ih c (List.mem_cons_self _ _), ih2 (fun c1 hc1 => ih c1 (List.mem_cons_of_mem _ hc1))]

theorem writeNode_length (n : NODE F) (par : Int) :
    (writeNode n par).length = (indices n).length := by
  rw [← writeNode_indices n par, List.length_map]

/-- The records of a node do not hold what `strip` resets. -/
theorem writeNode_strip (n : NODE F) : ∀ par, writeNode (strip n) par = writeNode n par := by
  refine induct (fun n => ∀ par, writeNode (strip n) par = writeNode n par) ?_ n
  intro i ns l s d m it ih par
  rw [strip_eq, writeNode_eq, writeNode_eq, List.map_map]
  have h1 : ns.map (NODE.index ∘ strip) = ns.map NODE.index := by
    apply List.map_congr_left
    intro c _
    exact strip_index c
  rw [h1]
  congr 1
  clear h1
  induction ns with
  | nil => rfl
  | cons c cs ih2 =>
    simp only [List.map_cons, writeNodeList]
    rw [ih c (List.mem_cons_self _ _), ih2 (fun c1 hc1 => ih c1 (List.mem_cons_of_mem _ hc1))]

end DAG

end Lumo

namespace Lumo

namespace DAG

variable {F : Type}

open NODE

theorem pathsOf_eq (i : Int) (ns : List (NODE F)) (l s : Bool) (d : Int) (m : Option NodePath)
    (it : Option F) (p : NodePath) :
    pathsOf (NODE.mk i ns l s d m it) p = pathsOfList ns p 0 ++ [(i, p)] := by
  rw [pathsOf]

/-- The entries of `pathsOf` are the pointers to the nodes with their indices. -/
theorem mem_pathsOf (n : NODE F) : ∀ (base : NodePath) (k : Int) (q : NodePath),
    (k, q) ∈ pathsOf n base ↔ ∃ q1, q = base ++ q1 ∧ indexAt n q1 = some k := by
  refine induct (fun n => ∀ (base : NodePath) (k : Int) (q : NodePath),
    (k, q) ∈ pathsOf n base ↔ ∃ q1, q = base ++ q1 ∧ indexAt n q1 = some k) ?_ n
  intro i ns l s d m it ih base k q
  have hl : ∀ (cs : List (NODE F)), (∀ c ∈ cs, c ∈ ns) → ∀ (j0 : Nat),
      ((k, q) ∈ pathsOfList cs base j0 ↔
        ∃ j c q1, cs[j]? = some c ∧ q = base ++ (j0 + j) :: q1 ∧ indexAt c q1 = some k) := by
    intro cs
    induction cs with
    | nil => intro _ j0; simp [pathsOfList]
    | cons c cs ih2 =>
      intro hsub j0
      simp only [pathsOfList, List.mem_append]
      rw [ih c (hsub c (List.mem_cons_self _ _)),
        ih2 (fun c1 hc1 => hsub c1 (List.mem_cons_of_mem _ hc1)) (j0 + 1)]
      constructor
      · rintro (⟨q1, h1, h2⟩ | ⟨j, c1, q1, h1, h2, h3⟩)
        · exact ⟨0, c, q1, by simp, by simpa using h1, h2⟩
        · exact ⟨j + 1, c1, q1, by simpa using h1, by rw [h2]; congr 2; omega, h3⟩
      · rintro ⟨j, c1, q1, h1, h2, h3⟩
        cases j with
        | zero =>
          simp only [List.getElem?_cons_zero, Option.some.injEq] at h1
          subst h1
          exact Or.inl ⟨q1, by simpa using h2, h3⟩
        | succ j =>
          simp only [List.getElem?_cons_succ] at h1
          exact Or.inr ⟨j, c1, q1, h1, by rw [h2]; congr 2; omega, h3⟩
  rw [pathsOf_eq, List.mem_append, hl ns (fun c hc => hc) 0]
  constructor
  · rintro (⟨j, c, q1, h1, h2, h3⟩ | h)
    · refine ⟨j :: q1, by simpa using h2, ?_⟩
      simp only [indexAt] at h3 ⊢
      rw [nodeAt_cons, h1]
      exact h3
    · simp only [List.mem_singleton, Prod.mk.injEq] at h
      exact ⟨[], by simp [h.2], by simp [indexAt, nodeAt_nil, NODE.index, h.1]⟩
  · rintro ⟨q1, h1, h2⟩
    cases q1 with
    | nil =>
      simp only [indexAt, nodeAt_nil, Option.map_some', NODE.index, Option.some.injEq] at h2
      right
      simp [h1, h2]
    | cons j q2 =>
      simp only [indexAt] at h2
      rw [nodeAt_cons] at h2
      cases hj : ns[j]? with
      | none => rw [hj] at h2; cases h2
      | some c =>
        rw [hj] at h2
        exact Or.inl ⟨j, c, q2, hj, by simpa using h1, h2⟩

theorem find_foldl_hashInsert {α : Type} (l : List (Int × α)) : ∀ (h : List (Int × α)) (k : Int),
    find (l.foldl (fun h kv => hashInsert h kv.1 kv.2) h) k = find (h ++ l) k := by
  induction l with
  | nil => intro h k; simp
  | cons a as ih =>
    intro h k
    obtain ⟨k1, v1⟩ := a
    simp only [List.foldl_cons]
    rw [ih, find_append, find_append]
    cases hk1 : find h k1 with
    | none =>
      rw [hashInsert_fresh _ _ _ hk1, find_append]
      cases find h k with
      | none =>
        simp only [find]
        by_cases e : k1 = k
        · simp [e]
        · simp [e]
      | some v => rfl
    | some v =>
      have e : hashInsert h k1 v1 = h := by simp [hashInsert, hk1]
      rw [e]
      cases hk : find h k with
      | none =>
        simp only [find]
        have : k1 ≠ k := by
          intro e2
          subst e2
          rw [hk] at hk1
          cases hk1
        simp [this]
      | some v2 => rfl

/-- The map that `read` builds sends an index to the pointer to its node, when no two
nodes of the tree have the same index. -/
theorem find_hashOfTree (r : NODE F)
    (hu : ∀ k q1 q2, indexAt r q1 = some k → indexAt r q2 = some k → q1 = q2) (k : Int)
    (q : NodePath) : find (hashOfTree r) k = some q ↔ indexAt r q = some k := by
  unfold hashOfTree
  rw [find_foldl_hashInsert, List.nil_append]
  constructor
  · intro h
    obtain ⟨q1, h1, h2⟩ := (mem_pathsOf r [] k q).mp (mem_of_find _ _ _ h)
    simp only [List.nil_append] at h1
    subst h1
    exact h2
  · intro h
    cases hf : find (pathsOf r []) k with
    | none =>
      have hm : (k, q) ∈ pathsOf r [] := (mem_pathsOf r [] k q).mpr ⟨q, rfl, h⟩
      have : k ∈ (pathsOf r []).map Prod.fst := List.mem_map.mpr ⟨(k, q), hm, rfl⟩
      exfalso
      clear hm
      revert hf this
      generalize pathsOf r [] = l
      intro hf hm
      induction l with
      | nil => cases hm
      | cons a as ih =>
        obtain ⟨k1, v1⟩ := a
        simp only [find] at hf
        split at hf
        · cases hf
        · rename_i hne
          simp only [List.map_cons, List.mem_cons] at hm
          rcases hm with e | hm
          · exact hne e.symm
          · exact ih hf hm
    | some q2 =>
      obtain ⟨q1, h1, h2⟩ := (mem_pathsOf r [] k q2).mp (mem_of_find _ _ _ hf)
      simp only [List.nil_append] at h1
      subst h1
      rw [hu k q q2 h h2]

theorem option_ext {α : Type} (a b : Option α) (h : ∀ v, a = some v ↔ b = some v) : a = b := by
  cases a with
  | none =>
    cases b with
    | none => rfl
    | some v => exact absurd ((h v).mpr rfl) (by simp)
  | some v => exact ((h v).mp rfl).symm

/-- What `read` does on the file that `write` wrote for a graph without two nodes of the
same index: the tree read is the tree written, stripped. -/
theorem read_write (sh : Shading F) (g0 gw : DAG F) (rw : NODE F) (hroot : gw.root = some rw)
    (hnd : (indices rw).Nodup) (hcount : ((indices rw).length : Int) = gw.totalNodes + 1) :
    ∃ f, write gw = some f ∧
      read sh g0 f =
        if gw.bottomHit ≠ -1 then
          buildLeader sh
            { g0 with totalNodes := gw.totalNodes, xRes := gw.xRes, yRes := gw.yRes, dx := gw.dx,
                      dy := gw.dy, bottomHit := gw.bottomHit, inputWidth := gw.inputWidth,
                      inputHeight := gw.inputHeight, root := some (strip rw),
                      hash := hashOfTree (strip rw) }
            gw.bottomHit
        else
          some { g0 with totalNodes := gw.totalNodes, xRes := gw.xRes, yRes := gw.yRes,
                         dx := gw.dx, dy := gw.dy, bottomHit := gw.bottomHit,
                         inputWidth := gw.inputWidth, inputHeight := gw.inputHeight,
                         root := some (strip rw), hash := hashOfTree (strip rw) } := by
  refine ⟨{ totalNodes := gw.totalNodes, xRes := gw.xRes, yRes := gw.yRes, dx := gw.dx,
            dy := gw.dy, bottomHit := gw.bottomHit, inputWidth := gw.inputWidth,
            inputHeight := gw.inputHeight, records := writeNode rw (-1) },
    by simp only [write, hroot], ?_⟩
  obtain ⟨root1, e1, e2⟩ := readNodes_writeNode rw [] none (-1) (by simpa using hnd)
  have hlen : (writeNode rw (-1)).length = (gw.totalNodes + 1).toNat := by
    rw [writeNode_length, ← hcount]
    simp
  have e3 := e2 rfl
  subst e3
  simp only [read]
  rw [if_neg (by rw [hlen]; exact Nat.lt_irrefl _), ← hlen, List.take_length, e1]

end DAG

end Lumo

namespace Lumo

namespace DAG

variable {F : Type}

open NODE

theorem Inv.unique {g : DAG F} {r : NODE F} (h : Inv g r) (k : Int) (q1 q2 : NodePath)
    (h1 : indexAt r q1 = some k) (h2 : indexAt r q2 = some k) : q1 = q2 := by
  have e1 := (h.hash k q1).mpr h1
  have e2 := (h.hash k q2).mpr h2
  rw [e1] at e2
  exact Option.some.inj e2

/-- The graph `sampleDag` after `buildLeader(9)`. -/
def sampleLeader : DAG ℚ :=
  { sampleDag with
    bottomHit := 9, root := some (buildIntensity sampleShading (crawl sampleRoot [0, 0])) }

/-- For a graph built by `addSegment` calls with pairwise distinct indices, as it is or
after `buildLeader(t)` with a terminal index `t` other than -1, `write` produces a file
and `read` of that file returns a graph whose tree is the tree written, as values of the
model, in which an intensity that was never assigned is `none` on both sides; the node
count, the terminal index and the node found for every index are the same too. -/
theorem read_write_tree (sh : Shading F) (g g0 gw : DAG F) (t : Int) (hb : Built g)
    (hw : gw = g ∨ (t ≠ -1 ∧ buildLeader sh g t = some gw)) :
    ∃ f g1, write gw = some f ∧ read sh g0 f = some g1 ∧ g1.root = gw.root ∧
      g1.totalNodes = gw.totalNodes ∧ g1.bottomHit = gw.bottomHit ∧
      ∀ k, find g1.hash k = find gw.hash k := by
  obtain ⟨r, hi⟩ := hb.inv
  rcases hw with e | ⟨ht, hbl⟩
  · subst e
    obtain ⟨f, hf1, hf2⟩ := read_write sh g0 gw r hi.root hi.nodup hi.count
    rw [if_neg (by rw [hi.bottom]; simp), hi.plain.strip_eq_self] at hf2
    refine ⟨f, _, hf1, hf2, hi.root.symm, rfl, rfl, ?_⟩
    intro k
    apply option_ext
    intro q
    rw [find_hashOfTree r hi.unique k q, hi.hash k q]
  · unfold buildLeader at hbl
    cases hp : find g.hash t with
    | none => rw [hp] at hbl; cases hbl
    | some p =>
      rw [hp, hi.root] at hbl
      simp only [Option.some.injEq] at hbl
      subst hbl
      have hpt : indexAt r p = some t := (hi.hash t p).mp hp
      have hv : (nodeAt r p).isSome := by
        simp only [indexAt] at hpt
        cases h : nodeAt r p with
        | none => rw [h] at hpt; cases hpt
        | some n => rfl
      have hidx : ∀ q, indexAt (crawl r p) q = indexAt r q := fun q => indexAt_crawl p r q hv
      have hv2 : (nodeAt (crawl r p) p).isSome := by
        have h1 := hidx p
        rw [hpt] at h1
        simp only [indexAt] at h1
        cases h : nodeAt (crawl r p) p with
        | none => rw [h] at h1; cases h1
        | some n => rfl
      have hu : ∀ k q1 q2, indexAt (crawl r p) q1 = some k → indexAt (crawl r p) q2 = some k →
          q1 = q2 := by
        intro k q1 q2 h1 h2
        rw [hidx] at h1 h2
        exact hi.unique k q1 q2 h1 h2
      have hs : strip (buildIntensity sh (crawl r p)) = crawl r p := by
        rw [strip_buildIntensity, strip_crawl p r hv, hi.plain.strip_eq_self]
      obtain ⟨f, hf1, hf2⟩ := read_write sh g0
        { g with bottomHit := t, root := some (buildIntensity sh (crawl r p)) }
        (buildIntensity sh (crawl r p)) rfl
        (by rw [indices_buildIntensity, indices_crawl p r hv]; exact hi.nodup)
        (by rw [indices_buildIntensity, indices_crawl p r hv]; exact hi.count)
      simp only at hf2
      rw [if_pos ht, hs] at hf2
      have hfind : find (hashOfTree (crawl r p)) t = some p :=
        (find_hashOfTree _ hu t p).mpr ((hidx p).trans hpt)
      simp only [buildLeader, hfind, crawl_idem p r hv] at hf2
      refine ⟨f, _, hf1, hf2, rfl, rfl, rfl, ?_⟩
      intro k
      apply option_ext
      intro q
      simp only
      rw [find_hashOfTree _ hu k q, hidx, hi.hash k q]

end DAG

end Lumo

namespace Lumo

namespace CG_SOLVER

open CELL

/-- Every face of the cell with data `c` is of one of the three kinds: a single neighbour
of the same depth, a single coarser neighbour, or two finer neighbours. -/
def Classified (root : CELL) (c : CellData) : Prop :=
  (faceKindAt root c 0 1).isSome = true ∧ (faceKindAt root c 2 3).isSome = true ∧
    (faceKindAt root c 4 5).isSome = true ∧ (faceKindAt root c 6 7).isSome = true

/-- The cell at address `a` is one that `calcStencils` of a solver made for the maximum
depth `maxDepth` can process: its depth is within the table `_dx` and its neighbour
slots are filled face by face as `buildNeighbors` fills them. -/
def Workable (maxDepth : Int) (root : CELL) (a : Addr) : Prop :=
  ∃ c, dataAt root a = some c ∧ 0 ≤ c.depth ∧ c.depth ≤ maxDepth ∧ Classified root c

/-- Weight that the slot `j` of the cell with data `c` is to carry: nothing for an empty
slot or a boundary cell, else `0.5 * invDx` for a coarser neighbour and `invDx` for a
neighbour of the same depth or a finer one. -/
def slotWeight (root : CELL) (c : CellData) (invDx : ℚ) (j : Fin 8) : ℚ :=
  match (c.neighbors.get j).bind (deref root) with
  | none => 0
  | some n =>
    if n.boundary = true then 0
    else if n.depth < c.depth then 1 / 2 * invDx else invDx

theorem calcFace_spec (root : CELL) (c : CellData) (invDx : ℚ) (i i1 : Fin 8) (acc : FaceAcc)
    (hne : i ≠ i1) (k : FaceKind) (hk : faceKindAt root c i i1 = some k) :
    ∃ acc1, calcFace root c invDx i i1 acc = some acc1 ∧
      acc1.deltaSum = acc.deltaSum + k.weight invDx ∧
      acc1.bSum = acc.bSum + boundaryShare root c invDx i + boundaryShare root c invDx i1 ∧
      acc1.stencil.get i.castSucc = slotWeight root c invDx i ∧
      acc1.stencil.get i1.castSucc = slotWeight root c invDx i1 ∧
      ∀ j : Fin 9, j ≠ i.castSucc → j ≠ i1.castSucc → acc1.stencil.get j = acc.stencil.get j := by
  have hc : i.castSucc ≠ i1.castSucc := fun h => hne (Fin.castSucc_injective _ h)
  unfold faceKindAt at hk
  unfold calcFace boundaryShare slotWeight
  cases h0 : (c.neighbors.get i).bind (deref root) with
  | none => rw [h0] at hk; cases hk
  | some n0 =>
    rw [h0] at hk
    simp only at hk
    cases h1 : c.neighbors.get i1 with
    | none =>
      rw [h1] at hk
      simp only [faceKind] at hk
      simp only [Option.none_bind, add_zero]
      by_cases hs : n0.depth = c.depth
      · rw [if_pos hs] at hk
        cases hk
        have hlt : ¬ n0.depth < c.depth := by omega
        by_cases hb : n0.boundary = false
        · simp only [hs, hb, if_true, Option.some.injEq, exists_eq_left', FaceKind.weight,
            Mathlib.Vector.get_set_same, Mathlib.Vector.get_set_of_ne hc,
            Mathlib.Vector.get_set_of_ne hc.symm, lt_irrefl, if_false, Bool.false_eq_true,
            add_zero, true_and]
          intro j hj hj1
          rw [Mathlib.Vector.get_set_of_ne (Ne.symm hj), Mathlib.Vector.get_set_of_ne (Ne.symm hj1),
            Mathlib.Vector.get_set_of_ne (Ne.symm hj)]
        · have hb1 : n0.boundary = true := by simpa using hb
          simp only [hs, hb1, if_true, Option.some.injEq, exists_eq_left', FaceKind.weight,
            Mathlib.Vector.get_set_same, Mathlib.Vector.get_set_of_ne hc,
            Mathlib.Vector.get_set_of_ne hc.symm, lt_irrefl, if_false, Bool.true_eq_false,
            true_and]
          intro j hj hj1
          rw [Mathlib.Vector.get_set_of_ne (Ne.symm hj1), Mathlib.Vector.get_set_of_ne (Ne.symm hj)]
      · rw [if_neg hs] at hk
        by_cases hl : n0.depth < c.depth
        · rw [if_pos hl] at hk
          cases hk
          have hs2 : ¬ c.depth = n0.depth := fun e => hs e.symm
          by_cases hb : n0.boundary = false
          · simp only [hs2, hb, hl, if_true, Option.some.injEq, exists_eq_left', FaceKind.weight,
              Mathlib.Vector.get_set_same, Mathlib.Vector.get_set_of_ne hc,
              Mathlib.Vector.get_set_of_ne hc.symm, if_false, Bool.false_eq_true,
              add_zero, true_and]
            intro j hj hj1
            rw [Mathlib.Vector.get_set_of_ne (Ne.symm hj),
              Mathlib.Vector.get_set_of_ne (Ne.symm hj1),
              Mathlib.Vector.get_set_of_ne (Ne.symm hj)]
          · have hb1 : n0.boundary = true := by simpa using hb
            simp only [hs2, hb1, hl, if_true, Option.some.injEq, exists_eq_left',
              FaceKind.weight, Mathlib.Vector.get_set_same, Mathlib.Vector.get_set_of_ne hc,
              Mathlib.Vector.get_set_of_ne hc.symm, if_false, Bool.true_eq_false, true_and]
            refine ⟨by ring, ?_⟩
            intro j hj hj1
            rw [Mathlib.Vector.get_set_of_ne (Ne.symm hj1),
              Mathlib.Vector.get_set_of_ne (Ne.symm hj)]
        · rw [if_neg hl] at hk
          cases hk
    | some p1 =>
      rw [h1] at hk
      simp only at hk
      cases h2 : deref root p1 with
      | none => rw [h2] at hk; cases hk
      | some n1 =>
        rw [h2] at hk
        simp only [faceKind] at hk
        by_cases hf : c.depth < n0.depth ∧ c.depth < n1.depth
        · rw [if_pos hf] at hk
          cases hk
          have hl0 : ¬ n0.depth < c.depth := by omega
          have hl1 : ¬ n1.depth < c.depth := by omega
          simp only [Option.some_bind, h2, Option.some.injEq, exists_eq_left', FaceKind.weight,
            hl0, hl1, if_false, true_and]
          by_cases hb0 : n0.boundary = false <;> by_cases hb1 : n1.boundary = false
          · simp only [hb0, hb1, if_true, Mathlib.Vector.get_set_same,
              Mathlib.Vector.get_set_of_ne hc, Mathlib.Vector.get_set_of_ne hc.symm,
              Bool.false_eq_true, if_false, add_zero, true_and]
            intro j hj hj1
            rw [Mathlib.Vector.get_set_of_ne (Ne.symm hj1),
              Mathlib.Vector.get_set_of_ne (Ne.symm hj),
              Mathlib.Vector.get_set_of_ne (Ne.symm hj1),
              Mathlib.Vector.get_set_of_ne (Ne.symm hj)]
          · have hb1t : n1.boundary = true := by simpa using hb1
            simp only [hb0, hb1t, if_true, Mathlib.Vector.get_set_same,
              Mathlib.Vector.get_set_of_ne hc, Mathlib.Vector.get_set_of_ne hc.symm,
              Bool.false_eq_true, Bool.true_eq_false, if_false, add_zero, true_and]
            intro j hj hj1
            rw [Mathlib.Vector.get_set_of_ne (Ne.symm hj),
              Mathlib.Vector.get_set_of_ne (Ne.symm hj1),
              Mathlib.Vector.get_set_of_ne (Ne.symm hj)]
          · have hb0t : n0.boundary = true := by simpa using hb0
            simp only [hb0t, hb1, if_true, Mathlib.Vector.get_set_same,
              Mathlib.Vector.get_set_of_ne hc, Mathlib.Vector.get_set_of_ne hc.symm,
              Bool.false_eq_true, Bool.true_eq_false, if_false, add_zero, true_and]
            intro j hj hj1
            rw [Mathlib.Vector.get_set_of_ne (Ne.symm hj1),
              Mathlib.Vector.get_set_of_ne (Ne.symm hj1),
              Mathlib.Vector.get_set_of_ne (Ne.symm hj)]
          · have hb0t : n0.boundary = true := by simpa using hb0
            have hb1t : n1.boundary = true := by simpa using hb1
            simp only [hb0t, hb1t, if_true, Mathlib.Vector.get_set_same,
              Mathlib.Vector.get_set_of_ne hc, Mathlib.Vector.get_set_of_ne hc.symm,
              Bool.true_eq_false, if_false, true_and]
            intro j hj hj1
            rw [Mathlib.Vector.get_set_of_ne (Ne.symm hj1),
              Mathlib.Vector.get_set_of_ne (Ne.symm hj)]
        · rw [if_neg hf] at hk
          cases hk

/-- The right-hand side that `calcStencils` is to store: the shares of the eight slots. -/
def bTotal (root : CELL) (c : CellData) (invDx : ℚ) : ℚ :=
  Finset.sum Finset.univ (fun j : Fin 8 => boundaryShare root c invDx j)

theorem calcFaces_spec (root : CELL) (c : CellData) (invDx : ℚ) (acc : FaceAcc)
    (hcl : Classified root c) :
    ∃ k0 k1 k2 k3 acc4, faceKindAt root c 0 1 = some k0 ∧ faceKindAt root c 2 3 = some k1 ∧
      faceKindAt root c 4 5 = some k2 ∧ faceKindAt root c 6 7 = some k3 ∧
      calcFaces root c invDx acc = some acc4 ∧
      acc4.deltaSum = acc.deltaSum + k0.weight invDx + k1.weight invDx + k2.weight invDx +
        k3.weight invDx ∧
      acc4.bSum = acc.bSum + bTotal root c invDx ∧
      ∀ j : Fin 8, acc4.stencil.get j.castSucc = slotWeight root c invDx j := by
  obtain ⟨h0, h1, h2, h3⟩ := hcl
  obtain ⟨k0, e0⟩ := Option.isSome_iff_exists.mp h0
  obtain ⟨k1, e1⟩ := Option.isSome_iff_exists.mp h1
  obtain ⟨k2, e2⟩ := Option.isSome_iff_exists.mp h2
  obtain ⟨k3, e3⟩ := Option.isSome_iff_exists.mp h3
  obtain ⟨a1, c1, d1, b1, s1, t1, f1⟩ := calcFace_spec root c invDx 0 1 acc (by decide) k0 e0
  obtain ⟨a2, c2, d2, b2, s2, t2, f2⟩ := calcFace_spec root c invDx 2 3 a1 (by decide) k1 e1
  obtain ⟨a3, c3, d3, b3, s3, t3, f3⟩ := calcFace_spec root c invDx 4 5 a2 (by decide) k2 e2
  obtain ⟨a4, c4, d4, b4, s4, t4, f4⟩ := calcFace_spec root c invDx 6 7 a3 (by decide) k3 e3
  refine ⟨k0, k1, k2, k3, a4, e0, e1, e2, e3, ?_, ?_, ?_, ?_⟩
  · simp only [calcFaces, c1, c2, c3, c4]
  · rw [d4, d3, d2, d1]
  · rw [b4, b3, b2, b1, bTotal, Fin.sum_univ_eight]
    ring
  · intro j
    fin_cases j
    · show a4.stencil.get (Fin.castSucc 0) = slotWeight root c invDx 0
      rw [f4 _ (by decide) (by decide), f3 _ (by decide) (by decide),
        f2 _ (by decide) (by decide), s1]
    · show a4.stencil.get (Fin.castSucc 1) = slotWeight root c invDx 1
      rw [f4 _ (by decide) (by decide), f3 _ (by decide) (by decide),
        f2 _ (by decide) (by decide), t1]
    · show a4.stencil.get (Fin.castSucc 2) = slotWeight root c invDx 2
      rw [f4 _ (by decide) (by decide), f3 _ (by decide) (by decide), s2]
    · show a4.stencil.get (Fin.castSucc 3) = slotWeight root c invDx 3
      rw [f4 _ (by decide) (by decide), f3 _ (by decide) (by decide), t2]
    · show a4.stencil.get (Fin.castSucc 4) = slotWeight root c invDx 4
      rw [f4 _ (by decide) (by decide), s3]
    · show a4.stencil.get (Fin.castSucc 5) = slotWeight root c invDx 5
      rw [f4 _ (by decide) (by decide), t3]
    · exact s4
    · exact t4

theorem dxFill_get (n : Nat) : ∀ (prev : ℚ) (k : Nat), k < n →
    (dxFill n prev).get? k = some (prev * (1 / 2) ^ (k + 1)) := by
  induction n with
  | zero => intro prev k hk; omega
  | succ n ih =>
    intro prev k hk
    cases k with
    | zero => simp [dxFill]
    | succ k =>
      simp only [dxFill, List.get?_cons_succ]
      rw [ih _ k (by omega)]
      congr 1
      ring

/-- The table `_dx` holds `2^-depth` at every depth up to the maximum depth. -/
theorem readDx_new (maxDepth iterations digits depth : Int) (h0 : 0 ≤ depth)
    (h1 : depth ≤ maxDepth) :
    readDx (CG_SOLVER.new maxDepth iterations digits) depth = some ((1 / 2) ^ depth.toNat) := by
  unfold readDx CG_SOLVER.new
  rw [if_pos h0]
  simp only
  cases hk : depth.toNat with
  | zero => simp
  | succ k =>
    simp only [List.get?_cons_succ]
    rw [dxFill_get _ _ _ (by omega)]
    simp

end CG_SOLVER

end Lumo

namespace Lumo

namespace CG_SOLVER

open CELL

/-- The data of a cell with what `calcStencils` writes reset. -/
def wipe (c : CellData) : CellData :=
  { c with stencil := Mathlib.Vector.replicate 9 0, b := 0 }

/-- The tree `r1` is the tree `r` up to what `calcStencils` writes. -/
def SameFields (r1 r : CELL) : Prop :=
  ∀ a, (dataAt r1 a).map wipe = (dataAt r a).map wipe

theorem wipe_fields {c1 c : CellData} (h : wipe c1 = wipe c) :
    c1.depth = c.depth ∧ c1.neighbors = c.neighbors ∧ c1.boundary = c.boundary ∧
      c1.potential = c.potential := by
  have e1 : (wipe c1).depth = (wipe c).depth := by rw [h]
  have e2 : (wipe c1).neighbors = (wipe c).neighbors := by rw [h]
  have e3 : (wipe c1).boundary = (wipe c).boundary := by rw [h]
  have e4 : (wipe c1).potential = (wipe c).potential := by rw [h]
  exact ⟨e1, e2, e3, e4⟩

theorem SameFields.refl_fields (r : CELL) : SameFields r r := fun _ => rfl

theorem SameFields.symm_fields {r1 r : CELL} (h : SameFields r1 r) : SameFields r r1 :=
  fun a => (h a).symm

theorem SameFields.trans_fields {r2 r1 r : CELL} (h2 : SameFields r2 r1) (h1 : SameFields r1 r) :
    SameFields r2 r := fun a => (h2 a).trans (h1 a)

theorem SameFields.bind_deref {r1 r : CELL} (h : SameFields r1 r) (x : Option CellRef) :
    (x.bind (deref r1)).map wipe = (x.bind (deref r)).map wipe := by
  cases x with
  | none => rfl
  | some p =>
    cases p with
    | cell a => exact h a
    | ghost d => rfl

theorem SameFields.deref_eq {r1 r : CELL} (h : SameFields r1 r) (p : CellRef) :
    (deref r1 p).map wipe = (deref r p).map wipe :=
  h.bind_deref (some p)

theorem option_map_cases {α β : Type} (f : α → β) (x y : Option α)
    (h : x.map f = y.map f) :
    (x = none ∧ y = none) ∨ ∃ a b, x = some a ∧ y = some b ∧ f a = f b := by
  cases x with
  | none =>
    cases y with
    | none => exact Or.inl ⟨rfl, rfl⟩
    | some b => cases h
  | some a =>
    cases y with
    | none => cases h
    | some b => exact Or.inr ⟨a, b, rfl, rfl, Option.some.inj h⟩

theorem faceKindAt_congr {r1 r : CELL} (h : SameFields r1 r) {c1 c : CellData}
    (hc : wipe c1 = wipe c) (i i1 : Fin 8) : faceKindAt r1 c1 i i1 = faceKindAt r c i i1 := by
  obtain ⟨hd, hn, -, -⟩ := wipe_fields hc
  unfold faceKindAt
  rw [hn]
  rcases option_map_cases wipe _ _ (h.bind_deref (c.neighbors.get i)) with ⟨e1, e2⟩ |
    ⟨n1, n, e1, e2, e3⟩
  · rw [e1, e2]
  · rw [e1, e2]
    obtain ⟨hd0, -, -, -⟩ := wipe_fields e3
    cases c.neighbors.get i1 with
    | none => simp only [faceKind, hd, hd0]
    | some p1 =>
      rcases option_map_cases wipe _ _ (h.deref_eq p1) with ⟨e4, e5⟩ | ⟨m1, m, e4, e5, e6⟩
      · simp only [e4, e5]
      · obtain ⟨hd1, -, -, -⟩ := wipe_fields e6
        simp only [e4, e5, faceKind, hd, hd0, hd1]

theorem slotWeight_congr {r1 r : CELL} (h : SameFields r1 r) {c1 c : CellData}
    (hc : wipe c1 = wipe c) (invDx : ℚ) (j : Fin 8) :
    slotWeight r1 c1 invDx j = slotWeight r c invDx j := by
  obtain ⟨hd, hn, -, -⟩ := wipe_fields hc
  unfold slotWeight
  rw [hn]
  rcases option_map_cases wipe _ _ (h.bind_deref (c.neighbors.get j)) with ⟨e1, e2⟩ |
    ⟨n1, n, e1, e2, e3⟩
  · rw [e1, e2]
  · obtain ⟨hd0, -, hb0, -⟩ := wipe_fields e3
    simp only [e1, e2, hd, hd0, hb0]

theorem boundaryShare_congr {r1 r : CELL} (h : SameFields r1 r) {c1 c : CellData}
    (hc : wipe c1 = wipe c) (invDx : ℚ) (j : Fin 8) :
    boundaryShare r1 c1 invDx j = boundaryShare r c invDx j := by
  obtain ⟨hd, hn, -, -⟩ := wipe_fields hc
  unfold boundaryShare
  rw [hn]
  rcases option_map_cases wipe _ _ (h.bind_deref (c.neighbors.get j)) with ⟨e1, e2⟩ |
    ⟨n1, n, e1, e2, e3⟩
  · rw [e1, e2]
  · obtain ⟨hd0, -, hb0, hp0⟩ := wipe_fields e3
    simp only [e1, e2, hd, hd0, hb0, hp0]

theorem bTotal_congr {r1 r : CELL} (h : SameFields r1 r) {c1 c : CellData}
    (hc : wipe c1 = wipe c) (invDx : ℚ) : bTotal r1 c1 invDx = bTotal r c invDx := by
  unfold bTotal
  apply Finset.sum_congr rfl
  intro j _
  exact boundaryShare_congr h hc invDx j

theorem Classified.congr_class {r1 r : CELL} (h : SameFields r1 r) {c1 c : CellData}
    (hc : wipe c1 = wipe c) (hcl : Classified r c) : Classified r1 c1 := by
  unfold Classified at hcl ⊢
  rw [faceKindAt_congr h hc, faceKindAt_congr h hc, faceKindAt_congr h hc, faceKindAt_congr h hc]
  exact hcl

theorem Workable.congr_work {maxDepth : Int} {r1 r : CELL} (h : SameFields r1 r) {a : Addr}
    (hw : Workable maxDepth r a) : Workable maxDepth r1 a := by
  obtain ⟨c, hc, h0, h1, hcl⟩ := hw
  have ha := h a
  rw [hc] at ha
  rcases option_map_cases wipe _ _ ha with ⟨-, e2⟩ | ⟨c1, c2, e1, e2, e3⟩
  · cases e2
  · cases e2
    obtain ⟨hd, -, -, -⟩ := wipe_fields e3
    exact ⟨c1, e1, by omega, by omega, hcl.congr_class h e3⟩

/-- The cell at address `a` of the tree `r` carries the stencil and the right-hand side
that `calcStencils` is to store. -/
def Done (r : CELL) (a : Addr) : Prop :=
  ∃ c k0 k1 k2 k3, dataAt r a = some c ∧
    faceKindAt r c 0 1 = some k0 ∧ faceKindAt r c 2 3 = some k1 ∧
    faceKindAt r c 4 5 = some k2 ∧ faceKindAt r c 6 7 = some k3 ∧
    c.stencil.get 8 = k0.weight (2 ^ c.depth.toNat) + k1.weight (2 ^ c.depth.toNat) +
      k2.weight (2 ^ c.depth.toNat) + k3.weight (2 ^ c.depth.toNat) ∧
    c.b = bTotal r c (2 ^ c.depth.toNat) ∧
    ∀ j : Fin 8, c.stencil.get j.castSucc = slotWeight r c (2 ^ c.depth.toNat) j

theorem Done.congr_done {r1 r : CELL} (h : SameFields r1 r) {a : Addr}
    (he : dataAt r1 a = dataAt r a) (hd : Done r a) : Done r1 a := by
  obtain ⟨c, k0, k1, k2, k3, hc, e0, e1, e2, e3, h8, hb, hs⟩ := hd
  refine ⟨c, k0, k1, k2, k3, he.trans hc, ?_, ?_, ?_, ?_, h8, ?_, ?_⟩
  · rw [faceKindAt_congr h rfl]; exact e0
  · rw [faceKindAt_congr h rfl]; exact e1
  · rw [faceKindAt_congr h rfl]; exact e2
  · rw [faceKindAt_congr h rfl]; exact e3
  · rw [bTotal_congr h rfl]; exact hb
  · intro j
    rw [slotWeight_congr h rfl]
    exact hs j

theorem wipe_storeStencil (acc : FaceAcc) (c : CellData) : wipe (storeStencil acc c) = wipe c :=
  rfl

/-- The body of the loop of `calcStencils` for a workable cell: it returns, it writes the
stencil and the right-hand side of that cell and nothing else. -/
theorem calcCell_spec (maxDepth iterations digits : Int) (r : CELL) (a : Addr)
    (hw : Workable maxDepth r a) :
    ∃ r1, calcCell (CG_SOLVER.new maxDepth iterations digits) r a = some r1 ∧
      SameFields r1 r ∧ Done r1 a ∧ ∀ b, b ≠ a → dataAt r1 b = dataAt r b := by
  obtain ⟨c, hc, h0, h1, hcl⟩ := hw
  have hinv : (1 : ℚ) / (1 / 2) ^ c.depth.toNat = 2 ^ c.depth.toNat := by
    rw [one_div, one_div, inv_pow, inv_inv]
  obtain ⟨k0, k1, k2, k3, acc, e0, e1, e2, e3, hcalc, hdel, hb, hs⟩ :=
    calcFaces_spec r c (2 ^ c.depth.toNat) { stencil := c.stencil, deltaSum := 0, bSum := 0 } hcl
  have hsame : SameFields (setData (storeStencil acc) r a) r := by
    intro b
    rw [dataAt_setData]
    split
    · cases dataAt r b with
      | none => rfl
      | some x => rfl
    · rfl
  have hdat : dataAt (setData (storeStencil acc) r a) a = some (storeStencil acc c) := by
    rw [dataAt_setData, if_pos rfl, hc]
    rfl
  refine ⟨setData (storeStencil acc) r a, ?_, hsame, ?_, ?_⟩
  · simp only [calcCell, hc, readDx_new maxDepth iterations digits c.depth h0 h1, hinv, hcalc]
  · have hwp : wipe (storeStencil acc c) = wipe c := rfl
    refine ⟨storeStencil acc c, k0, k1, k2, k3, hdat, ?_, ?_, ?_, ?_, ?_, ?_, ?_⟩
    · rw [faceKindAt_congr hsame hwp]; exact e0
    · rw [faceKindAt_congr hsame hwp]; exact e1
    · rw [faceKindAt_congr hsame hwp]; exact e2
    · rw [faceKindAt_congr hsame hwp]; exact e3
    · show (acc.stencil.set 8 acc.deltaSum).get 8 = _
      rw [Mathlib.Vector.get_set_same, hdel]
      simp only [zero_add]
      rfl
    · show acc.bSum = bTotal _ (storeStencil acc c) (2 ^ c.depth.toNat)
      rw [bTotal_congr hsame hwp, hb, zero_add]
    · intro j
      show (acc.stencil.set 8 acc.deltaSum).get j.castSucc =
        slotWeight _ (storeStencil acc c) (2 ^ c.depth.toNat) j
      rw [slotWeight_congr hsame hwp, ← hs j]
      apply Mathlib.Vector.get_set_of_ne
      intro e
      have := congrArg Fin.val e
      simp at this
      omega
  · intro b hb2
    rw [dataAt_setData, if_neg hb2]

/-- The loop of `calcStencils` over workable cells: it returns, and every cell of the list
carries its stencil and its right-hand side afterwards. -/
theorem calcLoop_spec (maxDepth iterations digits : Int) : ∀ (cells : List Addr) (r : CELL),
    (∀ a ∈ cells, Workable maxDepth r a) →
    ∃ r1, calcStencils (CG_SOLVER.new maxDepth iterations digits) r cells = some r1 ∧
      SameFields r1 r ∧ ∀ a, (a ∈ cells ∨ Done r a) → Done r1 a := by
  intro cells
  induction cells with
  | nil =>
    intro r _
    refine ⟨r, rfl, SameFields.refl_fields r, ?_⟩
    intro a ha
    rcases ha with ha | ha
    · cases ha
    · exact ha
  | cons a rest ih =>
    intro r hw
    obtain ⟨r1, hcalc, hsame, hdone, hframe⟩ :=
      calcCell_spec maxDepth iterations digits r a (hw a (List.mem_cons_self _ _))
    obtain ⟨r2, hcalc2, hsame2, hdone2⟩ := ih r1 (fun b hb =>
      (hw b (List.mem_cons_of_mem _ hb)).congr_work hsame)
    refine ⟨r2, ?_, hsame2.trans_fields hsame, ?_⟩
    · simp only [calcStencils, hcalc, hcalc2]
    · intro b hb
      by_cases hba : b = a
      · subst hba
        exact hdone2 b (Or.inr hdone)
      · rcases hb with hb | hb
        · rcases List.mem_cons.mp hb with e | hb
          · exact absurd e hba
          · exact hdone2 b (Or.inl hb)
        · exact hdone2 b (Or.inr (hb.congr_done hsame (hframe b hba)))

end CG_SOLVER

end Lumo

namespace Lumo

namespace CG_SOLVER

open CELL QUAD_POISSON

/-- The tree `sampleTree` with the neighbour slots that `buildNeighbors` fills. -/
def stencilMesh : CELL :=
  (getAllLeaves sampleTree).foldl buildCell sampleTree

theorem stencilMesh_built : buildNeighbors sampleTree = some stencilMesh := rfl

theorem stencilMesh_leaves : getEmptyLeaves stencilMesh =
    [[Quadrant.q0, Quadrant.q0], [Quadrant.q1, Quadrant.q0], [Quadrant.q2, Quadrant.q0],
     [Quadrant.q3, Quadrant.q0], [Quadrant.q1], [Quadrant.q2], [Quadrant.q3]] := rfl

theorem stencilMesh_workable : ∀ a ∈ getEmptyLeaves stencilMesh, Workable 2 stencilMesh a := by
  rw [stencilMesh_leaves]
  simp only [List.forall_mem_cons, List.not_mem_nil, false_implies, implies_true, and_true]
  refine ⟨?_, ?_, ?_, ?_, ?_, ?_, ?_⟩ <;>
    exact ⟨_, rfl, by decide, by decide, rfl, rfl, rfl, rfl⟩

/-- C9: on cells whose depth is within the table of the solver and whose faces are each
of one of the three kinds, `calcStencils` returns, and afterwards for every cell `L` of
the working set, with `invDx = 2^depth(L)`: the diagonal `stencil[8]` is the sum over the
four faces of the weight of the face (`invDx` for a single neighbour of the same depth,
`0.5 * invDx` for a single coarser neighbour, `2 * invDx` for two finer neighbours), and
the slot of every neighbour that is not a boundary holds `0.5 * invDx` if the neighbour
is coarser and `invDx` otherwise. -/
theorem calcStencils_diagonal (maxDepth iterations digits : Int) (root : CELL)
    (cells : List Addr) (hw : ∀ a ∈ cells, Workable maxDepth root a) :
    ∃ r, calcStencils (CG_SOLVER.new maxDepth iterations digits) root cells = some r ∧
      ∀ a ∈ cells, ∃ c k0 k1 k2 k3, dataAt r a = some c ∧
        faceKindAt r c 0 1 = some k0 ∧ faceKindAt r c 2 3 = some k1 ∧
        faceKindAt r c 4 5 = some k2 ∧ faceKindAt r c 6 7 = some k3 ∧
        c.stencil.get 8 = k0.weight (2 ^ c.depth.toNat) + k1.weight (2 ^ c.depth.toNat) +
          k2.weight (2 ^ c.depth.toNat) + k3.weight (2 ^ c.depth.toNat) ∧
        ∀ (j : Fin 8) (n : CellData), (c.neighbors.get j).bind (deref r) = some n →
          n.boundary = false →
          c.stencil.get j.castSucc =
            if n.depth < c.depth then 1 / 2 * 2 ^ c.depth.toNat else 2 ^ c.depth.toNat := by
  obtain ⟨r, hcalc, -, hdone⟩ := calcLoop_spec maxDepth iterations digits cells root hw
  refine ⟨r, hcalc, ?_⟩
  intro a ha
  obtain ⟨c, k0, k1, k2, k3, hc, e0, e1, e2, e3, h8, -, hs⟩ := hdone a (Or.inl ha)
  refine ⟨c, k0, k1, k2, k3, hc, e0, e1, e2, e3, h8, ?_⟩
  intro j n hn hb
  rw [hs j]
  simp only [slotWeight, hn, hb, Bool.false_eq_true, if_false]

theorem calcStencils_diagonal_witness :
    ∃ r, calcStencils (CG_SOLVER.new 2 100 8) stencilMesh (getEmptyLeaves stencilMesh) = some r ∧
      ∀ a ∈ getEmptyLeaves stencilMesh, ∃ c k0 k1 k2 k3, dataAt r a = some c ∧
        faceKindAt r c 0 1 = some k0 ∧ faceKindAt r c 2 3 = some k1 ∧
        faceKindAt r c 4 5 = some k2 ∧ faceKindAt r c 6 7 = some k3 ∧
        c.stencil.get 8 = k0.weight (2 ^ c.depth.toNat) + k1.weight (2 ^ c.depth.toNat) +
          k2.weight (2 ^ c.depth.toNat) + k3.weight (2 ^ c.depth.toNat) ∧
        ∀ (j : Fin 8) (n : CellData), (c.neighbors.get j).bind (deref r) = some n →
          n.boundary = false →
          c.stencil.get j.castSucc =
            if n.depth < c.depth then 1 / 2 * 2 ^ c.depth.toNat else 2 ^ c.depth.toNat :=
  calcStencils_diagonal 2 100 8 stencilMesh (getEmptyLeaves stencilMesh) stencilMesh_workable

/-- C10: on the same cells, after `calcStencils`, for every cell `L` of the working set:
the slot of every neighbour that is a boundary cell (a ghost or a cell with `boundary`
set) has the weight 0, every empty slot has the weight 0, and the right-hand side `b` of
`L` is the sum over the eight slots of the potential of the boundary cell in the slot times
the weight that the slot would carry otherwise (`0.5 * invDx` for a coarser neighbour,
else `invDx`). -/
theorem calcStencils_boundary (maxDepth iterations digits : Int) (root : CELL)
    (cells : List Addr) (hw : ∀ a ∈ cells, Workable maxDepth root a) :
    ∃ r, calcStencils (CG_SOLVER.new maxDepth iterations digits) root cells = some r ∧
      ∀ a ∈ cells, ∃ c, dataAt r a = some c ∧
        (∀ (j : Fin 8) (n : CellData), (c.neighbors.get j).bind (deref r) = some n →
          n.boundary = true → c.stencil.get j.castSucc = 0) ∧
        (∀ j : Fin 8, c.neighbors.get j = none → c.stencil.get j.castSucc = 0) ∧
        c.b = Finset.sum Finset.univ
          (fun j : Fin 8 => boundaryShare r c (2 ^ c.depth.toNat) j) := by
  obtain ⟨r, hcalc, -, hdone⟩ := calcLoop_spec maxDepth iterations digits cells root hw
  refine ⟨r, hcalc, ?_⟩
  intro a ha
  obtain ⟨c, k0, k1, k2, k3, hc, -, -, -, -, -, hb, hs⟩ := hdone a (Or.inl ha)
  refine ⟨c, hc, ?_, ?_, hb⟩
  · intro j n hn hbd
    rw [hs j]
    simp only [slotWeight, hn, hbd, if_true]
  · intro j hn
    rw [hs j]
    simp only [slotWeight, hn, Option.none_bind]

theorem calcStencils_boundary_witness :
    ∃ r, calcStencils (CG_SOLVER.new 2 100 8) stencilMesh (getEmptyLeaves stencilMesh) = some r ∧
      ∀ a ∈ getEmptyLeaves stencilMesh, ∃ c, dataAt r a = some c ∧
        (∀ (j : Fin 8) (n : CellData), (c.neighbors.get j).bind (deref r) = some n →
          n.boundary = true → c.stencil.get j.castSucc = 0) ∧
        (∀ j : Fin 8, c.neighbors.get j = none → c.stencil.get j.castSucc = 0) ∧
        c.b = Finset.sum Finset.univ
          (fun j : Fin 8 => boundaryShare r c (2 ^ c.depth.toNat) j) :=
  calcStencils_boundary 2 100 8 stencilMesh (getEmptyLeaves stencilMesh) stencilMesh_workable

end CG_SOLVER

end Lumo

namespace Lumo

namespace QUAD_POISSON

open CELL CG_SOLVER

/-! ## The slots that `buildNeighbors` leaves are the slots that `calcStencils` expects -/

/-- The face `d` of the cell at address `a` lies on the border of the root cell: the
cell sits on the `d` side of its parent, the parent on the `d` side of its own one,
and so on up to the root. -/
def OnBorder (d : Dir) (a : Addr) : Prop :=
  ∀ q ∈ a, d.onSide q = true

/-- The second slot of the face `d`. -/
def secondSlot : Dir → Fin 8
  | Dir.north => 1
  | Dir.east => 3
  | Dir.south => 5
  | Dir.west => 7

/-- The second slot of every face on the border is null, as the constructor leaves it:
neither `refine` nor `buildNeighbors` writes it. -/
def BorderNull (root : CELL) : Prop :=
  ∀ (a : Addr) (dat : CellData) (d : Dir), dataAt root a = some dat → OnBorder d a →
    dat.neighbors.get (secondSlot d) = none

/-- A lookup returns null exactly for a face on the border. -/
theorem neighbor_none_iff (root : CELL) (d : Dir) (a : Addr) :
    neighbor root d a = none ↔ OnBorder d a := by
  induction a with
  | nil => simp [neighbor_nil, OnBorder]
  | cons q p ih =>
    rw [neighbor_cons]
    unfold OnBorder at ih ⊢
    by_cases hq : d.onSide q = true
    · rw [if_pos hq]
      cases hn : neighbor root d p with
      | none =>
        rw [hn] at ih
        simp only [true_iff] at ih
        simp only [true_iff]
        intro x hx
        rcases List.mem_cons.mp hx with e | h
        · rw [e]; exact hq
        · exact ih x h
      | some mu =>
        rw [hn] at ih
        have hno : ¬ ∀ x ∈ p, d.onSide x = true := fun h => by simpa using ih.mpr h
        constructor
        · intro h
          by_cases hk : kidsAt root mu = false <;> simp [hk] at h
        · intro h
          exact absurd (fun x hx => h x (List.mem_cons_of_mem _ hx)) hno
    · rw [if_neg hq]
      constructor
      · intro h; cases h
      · intro h
        exact absurd (h q (List.mem_cons_self _ _)) hq

theorem childData_neighbors (d : CellData) (q : Quadrant) (j : Fin 8) :
    (childData d q).neighbors.get j = none := by
  cases q <;> exact Mathlib.Vector.get_replicate _ j

theorem leaf_of_isLeafAt {root : CELL} {n : Addr} (h : IsLeafAt root n) :
    ∃ d, cellAt root n = some (CELL.leaf d) := by
  obtain ⟨h1, h2⟩ := h
  unfold kidsAt at h2
  cases hc : cellAt root n with
  | none => rw [hc] at h1; cases h1
  | some c =>
    rw [hc] at h2
    cases c with
    | leaf d => exact ⟨d, rfl⟩
    | node d c0 c1 c2 c3 => simp [hasChildren] at h2

theorem BorderNull.refineAt_null {root : CELL} {n : Addr} (hl : IsLeafAt root n)
    (h : BorderNull root) : BorderNull (refineAt root n) := by
  intro a dat d hdat hbd
  cases hold : dataAt root a with
  | some d0 =>
    rw [dataAt_refineAt root n a d0 hold] at hdat
    simp only [Option.some.injEq] at hdat
    subst hdat
    exact h a d0 d hold hbd
  | none =>
    cases a with
    | nil => simp [dataAt, cellAt_nil] at hold
    | cons q p =>
      have h1 : (cellAt (refineAt root n) (q :: p)).isSome = true := by
        rw [← dataAt_isSome, hdat]; rfl
      rw [cellAt_cons_isSome, kidsAt_refineAt] at h1
      have h2 : (cellAt root (q :: p)).isSome = false := by
        rw [← dataAt_isSome, hold]; rfl
      rw [cellAt_cons_isSome] at h2
      simp only [h2, Bool.false_or, Bool.and_eq_true, decide_eq_true_eq] at h1
      obtain ⟨e, -⟩ := h1
      subst e
      obtain ⟨dl, hdl⟩ := leaf_of_isLeafAt hl
      rw [dataAt_refineAt_child root p dl q hdl] at hdat
      simp only [Option.some.injEq] at hdat
      subst hdat
      exact childData_neighbors dl q _

theorem BorderNull.grows {H : Nat} {r1 r2 : CELL} {new : List Addr} (g : Grows H r1 r2 new)
    (h : BorderNull r1) : BorderNull r2 := by
  induction g with
  | refl root => exact h
  | step root r n new hl _ _ ih => exact ih (h.refineAt_null hl)

theorem faceFn_border (r : CELL) (a : Addr) (d : Dir) (i i1 : Fin 8) (k0 k1 : Quadrant)
    (x : CellData) (j : Fin 8) (hn : neighbor r d a = none) (hj : i ≠ j) :
    (faceFn r a d i i1 k0 k1 x).neighbors.get j = x.neighbors.get j := by
  unfold faceFn
  rw [hn]
  simp only [setSlot, Mathlib.Vector.get_set_of_ne hj]

/-- The body of the loop of `buildNeighbors` leaves the second slot of a face on the
border as it is. -/
theorem cellFn_border (r : CELL) (a : Addr) (d : Dir) (x : CellData) (hb : OnBorder d a) :
    (cellFn r a x).neighbors.get (secondSlot d) = x.neighbors.get (secondSlot d) := by
  have hn := (neighbor_none_iff r d a).mpr hb
  unfold cellFn
  cases d
  · rw [faceFn_get_other _ _ _ _ _ _ _ _ _ (by decide) (by decide),
      faceFn_get_other _ _ _ _ _ _ _ _ _ (by decide) (by decide),
      faceFn_get_other _ _ _ _ _ _ _ _ _ (by decide) (by decide),
      faceFn_border _ _ _ _ _ _ _ _ _ hn (by decide)]
  · rw [faceFn_get_other _ _ _ _ _ _ _ _ _ (by decide) (by decide),
      faceFn_get_other _ _ _ _ _ _ _ _ _ (by decide) (by decide),
      faceFn_border _ _ _ _ _ _ _ _ _ hn (by decide),
      faceFn_get_other _ _ _ _ _ _ _ _ _ (by decide) (by decide)]
  · rw [faceFn_get_other _ _ _ _ _ _ _ _ _ (by decide) (by decide),
      faceFn_border _ _ _ _ _ _ _ _ _ hn (by decide),
      faceFn_get_other _ _ _ _ _ _ _ _ _ (by decide) (by decide),
      faceFn_get_other _ _ _ _ _ _ _ _ _ (by decide) (by decide)]
  · rw [faceFn_border _ _ _ _ _ _ _ _ _ hn (by decide),
      faceFn_get_other _ _ _ _ _ _ _ _ _ (by decide) (by decide),
      faceFn_get_other _ _ _ _ _ _ _ _ _ (by decide) (by decide),
      faceFn_get_other _ _ _ _ _ _ _ _ _ (by decide) (by decide)]

theorem BorderNull.buildLoop (r : CELL) : ∀ (ls : List Addr) (r1 : CELL), SameView r1 r →
    BorderNull r1 → BorderNull (ls.foldl buildCell r1) := by
  intro ls
  induction ls with
  | nil => intro r1 _ h; exact h
  | cons a rest ih =>
    intro r1 v h
    obtain ⟨v1, hdata⟩ := buildCell_data v a
    simp only [List.foldl_cons]
    apply ih (buildCell r1 a) v1
    intro b dat d hdat hbd
    rw [hdata b] at hdat
    by_cases hba : b = a
    · rw [if_pos hba] at hdat
      cases h0 : dataAt r1 b with
      | none => rw [h0] at hdat; cases hdat
      | some dat0 =>
        rw [h0] at hdat
        simp only [Option.map_some', Option.some.injEq] at hdat
        subst hdat
        subst hba
        rw [cellFn_border r b d dat0 hbd]
        exact h b dat0 d h0 hbd
    · rw [if_neg hba] at hdat
      exact h b dat d hdat hbd

/-- Data and depth of a cell of the tree `r`, read in a tree `r1` of the same shape. -/
theorem cell_depth {r1 r : CELL} (hwf : WellFormed r) (v : SameView r1 r) (b : Addr)
    (hb : (cellAt r b).isSome = true) :
    ∃ db, dataAt r1 b = some db ∧ db.depth = r.data.depth + b.length := by
  have h1 : (dataAt r1 b).isSome = true := by rw [dataAt_isSome, v.2.2 b]; exact hb
  obtain ⟨db, hdb⟩ := Option.isSome_iff_exists.mp h1
  refine ⟨db, hdb, ?_⟩
  rw [← depthAt_eq r1 b db hdb, v.2.1 b, depthAt_of_cell hwf hb]

/-- A face whose slots hold what `buildNeighbors` puts there is of one of the three
kinds that `calcStencils` distinguishes. -/
theorem face_classified {r1 r : CELL} (hwf : WellFormed r) (v : SameView r1 r) (a : Addr)
    (dat : CellData) (hdat : dataAt r1 a = some dat) (d : Dir) (i : Fin 8) (k0 k1 : Quadrant)
    (hok : FaceOK r a dat d i (secondSlot d) k0 k1)
    (hnull : OnBorder d a → dat.neighbors.get (secondSlot d) = none) :
    (faceKindAt r1 dat i (secondSlot d)).isSome = true := by
  have ha : (cellAt r a).isSome = true := by
    rw [← v.2.2 a, ← dataAt_isSome, hdat]; rfl
  obtain ⟨da, hda, hdepth⟩ := cell_depth hwf v a ha
  rw [hdat] at hda
  simp only [Option.some.injEq] at hda
  subst hda
  unfold FaceOK at hok
  unfold faceKindAt
  cases hn : neighbor r d a with
  | none =>
    rw [hn] at hok
    simp only at hok
    have h1 := hnull ((neighbor_none_iff r d a).mp hn)
    rw [hok, h1]
    simp only [Option.some_bind, deref, faceKind, CellData.ghost]
    rw [if_pos (by rw [depthAt_of_cell hwf ha, hdepth])]
    rfl
  | some n =>
    rw [hn] at hok
    simp only at hok
    obtain ⟨hlen, hkids⟩ := neighbor_length r d a n hn
    have hnc := neighbor_isCell r d a n ha hn
    by_cases hk : kidsAt r n = false
    · rw [if_pos hk] at hok
      obtain ⟨dn, hdn, hdepn⟩ := cell_depth hwf v n hnc
      rw [hok.1, hok.2]
      simp only [Option.some_bind, deref, hdn, faceKind]
      by_cases e : dn.depth = dat.depth
      · rw [if_pos e]; rfl
      · rw [if_neg e, if_pos (by omega)]; rfl
    · rw [if_neg hk] at hok
      have hk1 : kidsAt r n = true := by simpa using hk
      have hlen2 : n.length = a.length := by
        by_contra hne
        exact hk (hkids (by omega))
      obtain ⟨d0, hd0, hdep0⟩ := cell_depth hwf v (k0 :: n)
        (by rw [cellAt_cons_isSome]; exact hk1)
      obtain ⟨d1, hd1, hdep1⟩ := cell_depth hwf v (k1 :: n)
        (by rw [cellAt_cons_isSome]; exact hk1)
      rw [hok.1, hok.2]
      simp only [Option.some_bind, deref, hd0, hd1, faceKind]
      rw [if_pos (by simp only [List.length_cons] at hdep0 hdep1; constructor <;> omega)]
      rfl

/-- On a well-formed mesh with the root at depth 0, not higher than `maxDepth`, and with
null second slots on the border, `buildNeighbors` returns and leaves every leaf in the
state that `calcStencils` expects. -/
theorem buildNeighbors_workable (root : CELL) (maxDepth : Int) (hwf : WellFormed root)
    (hd0 : root.data.depth = 0) (hh : (height root : Int) ≤ maxDepth) (hnull : BorderNull root) :
    ∃ r1, buildNeighbors root = some r1 ∧ ∀ a ∈ getAllLeaves r1, Workable maxDepth r1 a := by
  obtain ⟨r, new, e, g, -⟩ := balance_spec root hwf
  obtain ⟨v, he, hs⟩ := buildLoop_spec r (getAllLeaves r) r (SameView.refl_view r)
  have hwf2 := g.wellFormed hwf
  have hb2 : BorderNull ((getAllLeaves r).foldl buildCell r) :=
    BorderNull.buildLoop r (getAllLeaves r) r (SameView.refl_view r) (hnull.grows g)
  have hroot : r.data.depth = 0 := by rw [g.data_eq, hd0]
  refine ⟨(getAllLeaves r).foldl buildCell r, by unfold buildNeighbors; rw [e], ?_⟩
  intro a ha
  have hl1 := (mem_getAllLeaves _ a).mp ha
  have hl := (v.isLeafAt a).mp hl1
  have h1 : (dataAt ((getAllLeaves r).foldl buildCell r) a).isSome = true := by
    rw [dataAt_isSome]; exact hl1.1
  obtain ⟨dat, hdat⟩ := Option.isSome_iff_exists.mp h1
  obtain ⟨s0, s1, s2, s3⟩ := hs a dat hdat (Or.inl ((mem_getAllLeaves r a).mpr hl))
  obtain ⟨da, hda, hdepth⟩ := cell_depth hwf2 v a hl.1
  rw [hdat] at hda
  simp only [Option.some.injEq] at hda
  subst hda
  have hlen := length_le_height r a hl.1
  have hhr := g.height_le (le_refl _)
  refine ⟨dat, hdat, by omega, by omega, ?_, ?_, ?_, ?_⟩
  · exact face_classified hwf2 v a dat hdat Dir.north 0 _ _ s0 (hb2 a dat Dir.north hdat)
  · exact face_classified hwf2 v a dat hdat Dir.east 2 _ _ s1 (hb2 a dat Dir.east hdat)
  · exact face_classified hwf2 v a dat hdat Dir.south 4 _ _ s2 (hb2 a dat Dir.south hdat)
  · exact face_classified hwf2 v a dat hdat Dir.west 6 _ _ s3 (hb2 a dat Dir.west hdat)

theorem mem_leavesFrom_of_empty (t : CELL) : ∀ (base a : Addr),
    a ∈ emptyLeavesFrom t base → a ∈ leavesFrom t base := by
  induction t with
  | leaf d =>
    intro base a h
    simp only [emptyLeavesFrom] at h
    split at h
    · cases h
    · exact h
  | node d c0 c1 c2 c3 ih0 ih1 ih2 ih3 =>
    intro base a h
    simp only [emptyLeavesFrom, leavesFrom, List.mem_append] at h ⊢
    rcases h with ((h | h) | h) | h
    · exact Or.inl (Or.inl (Or.inl (ih0 _ a h)))
    · exact Or.inl (Or.inl (Or.inr (ih1 _ a h)))
    · exact Or.inl (Or.inr (ih2 _ a h))
    · exact Or.inr (ih3 _ a h)

/-- The working set of the solver, the leaves that are not flagged `boundary`, after
`buildNeighbors`: every cell of it is in the state that `calcStencils` expects. -/
theorem emptyLeaves_workable (root : CELL) (maxDepth : Int) (hwf : WellFormed root)
    (hd0 : root.data.depth = 0) (hh : (height root : Int) ≤ maxDepth) (hnull : BorderNull root) :
    ∃ r1, buildNeighbors root = some r1 ∧ ∀ a ∈ getEmptyLeaves r1, Workable maxDepth r1 a := by
  obtain ⟨r1, e, h⟩ := buildNeighbors_workable root maxDepth hwf hd0 hh hnull
  exact ⟨r1, e, fun a ha => h a (mem_leavesFrom_of_empty r1 [] a ha)⟩

end QUAD_POISSON

end Lumo

namespace Lumo

namespace DAG

variable {F : Type}

open NODE

/-- What the file keeps of the node found at a pointer is not changed by `buildIntensity`. -/
theorem strip_nodeAt_buildIntensity (sh : Shading F) (t : NODE F) (q : NodePath) (n : NODE F)
    (hn : nodeAt (buildIntensity sh t) q = some n) :
    ∃ n0, nodeAt t q = some n0 ∧ strip n0 = strip n := by
  have h1 : nodeAt (strip (buildIntensity sh t)) q = some (strip n) := by
    rw [nodeAt_strip, hn]; rfl
  rw [strip_buildIntensity, nodeAt_strip] at h1
  cases h0 : nodeAt t q with
  | none => rw [h0] at h1; cases h1
  | some n0 =>
    rw [h0] at h1
    simp only [Option.map_some', Option.some.injEq] at h1
    exact ⟨n0, rfl, h1⟩

/-- The call `buildBranch(c, depth)` on a plain subtree numbers the nodes by their distance
from `c`, starting at `depth`. -/
theorem Plain.buildBranch_depth {s : NodePath} : ∀ {c n : NODE F} (depth : Int), Plain c →
    nodeAt (buildBranch c depth) s = some n → n.depth = depth + s.length := by
  induction s with
  | nil =>
    intro c n depth _ hn
    rw [nodeAt_nil] at hn
    cases hn
    cases c
    rw [buildBranch_eq]
    simp [NODE.depth]
  | cons k rest ih =>
    intro c n depth hc hn
    cases hc with
    | mk i ns s d hs =>
      rw [buildBranch_eq, nodeAt_cons, List.getElem?_map] at hn
      cases hk : ns[k]? with
      | none => rw [hk] at hn; cases hn
      | some c1 =>
        rw [hk] at hn
        have hp : Plain c1 := hs c1 (mem_of_getElem? _ _ _ hk)
        simp only [Option.map_some', Option.some_bind, branchStep, hp.leader_eq] at hn
        rw [ih (depth + 1) hp hn]
        simp only [List.length_cons]
        push_cast
        ring

theorem Plain.branchStep_depth {s : NodePath} {c n : NODE F} (depth : Int) (hc : Plain c)
    (hn : nodeAt (branchStep depth c) s = some n) : n.depth = depth + s.length := by
  simp only [branchStep, hc.leader_eq] at hn
  exact Plain.buildBranch_depth depth hc hn

/-- After the loop of `buildLeader` over a plain tree, a node below the neighbour `j` of
the node `a` of the path, where `j` does not continue the path, has as depth its
distance from `a`. -/
theorem depth_crawl (p : NodePath) : ∀ (r : NODE F) (a : NodePath) (j : Nat) (s : NodePath)
    (n : NODE F), Plain r → (nodeAt r p).isSome → a <+: p → ¬ (a ++ [j]) <+: p →
    nodeAt (crawl r p) (a ++ j :: s) = some n → n.depth = (s.length : Int) + 1 := by
  induction p with
  | nil =>
    intro r a j s n hr _ ha _ hn
    have ea : a = [] := List.prefix_nil.mp ha
    subst ea
    cases hr with
    | mk i ns sc d hs =>
      rw [crawl_nil, tagLeader_eq, List.nil_append, nodeAt_cons, List.getElem?_map] at hn
      cases hj : ns[j]? with
      | none => rw [hj] at hn; cases hn
      | some c =>
        rw [hj] at hn
        have := Plain.branchStep_depth 1 (hs c (mem_of_getElem? _ _ _ hj)) hn
        rw [this]; ring
  | cons k rest ih =>
    intro r a j s n hr hp ha hnot hn
    cases hr with
    | mk i ns sc d hs =>
      rw [nodeAt_cons] at hp
      cases hk : ns[k]? with
      | none => rw [hk] at hp; cases hp
      | some c =>
        rw [hk] at hp
        simp only [Option.some_bind] at hp
        rw [crawl_cons _ _ _ _ _ _ _ _ _ c hk] at hn
        cases a with
        | nil =>
          have hjk : k ≠ j := by
            intro e
            subst e
            apply hnot
            simp only [List.nil_append]
            exact List.prefix_cons_inj k |>.mpr (List.nil_prefix)
          rw [List.nil_append, nodeAt_cons, List.getElem?_map, List.getElem?_set] at hn
          simp only [hjk, if_false] at hn
          cases hj : ns[j]? with
          | none => rw [hj] at hn; cases hn
          | some c1 =>
            rw [hj] at hn
            have := Plain.branchStep_depth 1 (hs c1 (mem_of_getElem? _ _ _ hj)) hn
            rw [this]; ring
        | cons k1 a1 =>
          rw [List.cons_prefix_cons] at ha
          obtain ⟨e, ha1⟩ := ha
          subst e
          have hnot1 : ¬ (a1 ++ [j]) <+: rest := by
            intro h
            apply hnot
            rw [List.cons_append, List.prefix_cons_inj]
            exact h
          rw [List.cons_append, nodeAt_cons, List.getElem?_map, List.getElem?_set] at hn
          simp only [if_true, lt_of_getElem? ns k1 c hk, Option.map_some', Option.some_bind] at hn
          rw [branchStep_of_leader 1 _ (crawl_leader c rest hp)] at hn
          exact ih c a1 j s n (hs c (mem_of_getElem? _ _ _ hk)) hp ha1 hnot1 hn

/-- A pointer that is not an initial part of `p` leaves `p` at some node `a` of `p` through
a neighbour `j` that does not continue `p`. -/
theorem off_path_split : ∀ (p q : NodePath), ¬ q <+: p →
    ∃ (a : NodePath) (j : Nat) (s : NodePath), q = a ++ j :: s ∧ a <+: p ∧ ¬ (a ++ [j]) <+: p := by
  intro p
  induction p with
  | nil =>
    intro q hq
    cases q with
    | nil => exact absurd (List.prefix_refl _) hq
    | cons j s =>
      refine ⟨[], j, s, rfl, List.prefix_refl _, ?_⟩
      intro h
      have := List.prefix_nil.mp h
      cases this
  | cons k rest ih =>
    intro q hq
    cases q with
    | nil => exact absurd List.nil_prefix hq
    | cons j s =>
      by_cases e : j = k
      · subst e
        have hs : ¬ s <+: rest := by
          intro h
          exact hq ((List.prefix_cons_inj j).mpr h)
        obtain ⟨a, j1, s1, e1, h1, h2⟩ := ih s hs
        refine ⟨j :: a, j1, s1, by rw [e1]; rfl, (List.prefix_cons_inj j).mpr h1, ?_⟩
        intro h
        rw [List.cons_append, List.prefix_cons_inj] at h
        exact h2 h
      · refine ⟨[], j, s, rfl, List.nil_prefix, ?_⟩
        intro h
        rw [List.nil_append, List.cons_prefix_cons] at h
        exact e h.1

/-- C20: on a graph built by `addSegment` calls with pairwise distinct indices (no leader
flag is set then), for the index `t` of the node at the pointer `p`, `buildLeader(t)`
returns and the tree keeps its nodes: at every pointer the node found afterwards has the
index of the node found there before.  Every node that is not on the path from the node
of `t` to the root is a node below a neighbour `j` of a node `a` of the path where `j`
does not continue the path, and every such node has `leader = false` and as depth the
number of edges between it and `a`: 1 for the neighbour itself, 2 for its neighbours,
and so on. -/
theorem buildLeader_branch_depth (sh : Shading F) (g : DAG F) (r : NODE F) (t : Int)
    (p : NodePath) (hb : Built g) (hr : g.root = some r) (ht : indexAt r p = some t) :
    ∃ g2 r2, buildLeader sh g t = some g2 ∧ g2.root = some r2 ∧
      (∀ q, indexAt r2 q = indexAt r q) ∧
      (∀ q, ¬ q <+: p →
        ∃ (a : NodePath) (j : Nat) (s : NodePath),
          q = a ++ j :: s ∧ a <+: p ∧ ¬ (a ++ [j]) <+: p) ∧
      ∀ (a : NodePath) (j : Nat) (s : NodePath) (n : NODE F), a <+: p → ¬ (a ++ [j]) <+: p →
        nodeAt r2 (a ++ j :: s) = some n → n.leader = false ∧ n.depth = (s.length : Int) + 1 := by
  obtain ⟨r1, hi⟩ := hb.inv
  have e : r1 = r := by
    have := hi.root
    rw [hr] at this
    cases this
    rfl
  subst e
  have hf : find g.hash t = some p := (hi.hash t p).mpr ht
  have hp : (nodeAt r1 p).isSome := by
    simp only [indexAt] at ht
    cases h : nodeAt r1 p with
    | none => rw [h] at ht; cases ht
    | some n => rfl
  refine ⟨{ g with bottomHit := t, root := some (buildIntensity sh (crawl r1 p)) },
    buildIntensity sh (crawl r1 p), ?_, rfl, ?_, off_path_split p, ?_⟩
  · simp only [buildLeader, hf, hr]
  · intro q
    rw [indexAt_buildIntensity, indexAt_crawl p r1 q hp]
  · intro a j s n ha hnot hn
    obtain ⟨n0, h0, hs⟩ := strip_nodeAt_buildIntensity sh _ _ n hn
    have hl : n0.leader = n.leader := by rw [← strip_leader n0, hs, strip_leader]
    have hd : n0.depth = n.depth := by rw [← strip_depth n0, hs, strip_depth]
    have hoff : ¬ (a ++ j :: s) <+: p := by
      intro h
      apply hnot
      have h1 : (a ++ [j]) <+: (a ++ j :: s) := by
        refine ⟨s, ?_⟩
        simp
      exact h1.trans h
    constructor
    · rw [← hl]
      have := leader_crawl p r1 _ n0 hi.plain hp h0
      cases hx : n0.leader with
      | false => rfl
      | true => exact absurd (this.mp hx) hoff
    · rw [← hd]
      exact depth_crawl p r1 a j s n0 hi.plain hp ha hnot h0

theorem buildLeader_branch_depth_witness :
    (Built sampleDag ∧ sampleDag.root = some sampleRoot ∧ indexAt sampleRoot [0, 0] = some 9) ∧
    ∃ g2 r2, buildLeader sampleShading sampleDag 9 = some g2 ∧ g2.root = some r2 ∧
      (∀ q, indexAt r2 q = indexAt sampleRoot q) ∧
      (∀ q, ¬ q <+: [0, 0] →
        ∃ (a : NodePath) (j : Nat) (s : NodePath),
          q = a ++ j :: s ∧ a <+: [0, 0] ∧ ¬ (a ++ [j]) <+: [0, 0]) ∧
      ∀ (a : NodePath) (j : Nat) (s : NodePath) (n : NODE ℚ), a <+: [0, 0] →
        ¬ (a ++ [j]) <+: [0, 0] →
        nodeAt r2 (a ++ j :: s) = some n → n.leader = false ∧ n.depth = (s.length : Int) + 1 :=
  ⟨⟨sampleDag_built, rfl, rfl⟩,
    buildLeader_branch_depth sampleShading sampleDag sampleRoot 9 [0, 0] sampleDag_built rfl rfl⟩

end DAG

end Lumo

namespace Lumo

namespace DAG

variable {F : Type}

open NODE

/-- The lookup table of the graph finds exactly the nodes of the tree `r`, each one under
its index. -/
def Linked (g : DAG F) (r : NODE F) : Prop :=
  g.root = some r ∧ ∀ k q, find g.hash k = some q ↔ indexAt r q = some k

theorem Built.linked {g : DAG F} (hb : Built g) (r : NODE F) (hr : g.root = some r) :
    Linked g r := by
  obtain ⟨r1, hi⟩ := hb.inv
  have e : r1 = r := by
    have := hi.root
    rw [hr] at this
    cases this
    rfl
  subst e
  exact ⟨hi.root, hi.hash⟩

theorem sampleDag2_built : Built sampleDag2 :=
  Built.next sampleDag1 _ 9 5 _ (Built.first 4 4 5 1 _ (by decide) rfl) rfl
    (fresh_of_not_mem _ 9 (by decide)) rfl

/-- The node pushed by `push_back` at the node `p` is found behind the neighbours that
were there. -/
theorem nodeAt_push_new (c : NODE F) (p : NodePath) : ∀ (r parent : NODE F),
    nodeAt r p = some parent →
    nodeAt (modifyAt (pushNeighbor c) r p) (p ++ [parent.neighbors.length]) = some c := by
  induction p with
  | nil =>
    intro r parent hp
    rw [nodeAt_nil] at hp
    cases hp
    cases r with
    | mk i ns l s d m it =>
      rw [modifyAt_nil, pushNeighbor_eq, List.nil_append, nodeAt_cons]
      simp [NODE.neighbors, nodeAt_nil]
  | cons k rest ih =>
    intro r parent hp
    cases r with
    | mk i ns l s d m it =>
      rw [nodeAt_cons] at hp
      cases hk : ns[k]? with
      | none => rw [hk] at hp; cases hp
      | some c0 =>
        rw [hk] at hp
        rw [modifyAt_cons _ _ _ _ _ _ _ _ _ _ c0 hk, List.cons_append, nodeAt_cons,
          List.getElem?_set]
        simp only [if_true, lt_of_getElem? ns k c0 hk, Option.some_bind]
        exact ih c0 parent hp

/-- The neighbours of the nodes after `push_back` of a new node at the node `p`: the node
`p` has the new node behind its neighbours, every other node has the neighbours (by
index) that it had. -/
theorem neighbors_push (idx : Int) (p : NodePath) : ∀ (r parent : NODE F) (q : NodePath)
    (n : NODE F), nodeAt r p = some parent → nodeAt r q = some n →
    ∃ n1, nodeAt (modifyAt (pushNeighbor (NODE.new idx)) r p) q = some n1 ∧
      n1.index = n.index ∧
      (q = p → n1.neighbors = n.neighbors ++ [NODE.new idx]) ∧
      (q ≠ p → n1.neighbors.map NODE.index = n.neighbors.map NODE.index) := by
  induction p with
  | nil =>
    intro r parent q n hp hq
    cases r with
    | mk i ns l s d m it =>
      rw [modifyAt_nil, pushNeighbor_eq]
      cases q with
      | nil =>
        rw [nodeAt_nil] at hq
        cases hq
        exact ⟨_, nodeAt_nil _, rfl, fun _ => rfl, fun h => absurd rfl h⟩
      | cons j q1 =>
        rw [nodeAt_cons] at hq
        cases hj : ns[j]? with
        | none => rw [hj] at hq; cases hq
        | some c0 =>
          rw [hj] at hq
          refine ⟨n, ?_, rfl, (fun h => by cases h), fun _ => rfl⟩
          rw [nodeAt_cons, List.getElem?_append, if_pos (lt_of_getElem? ns j c0 hj), hj]
          exact hq
  | cons k rest ih =>
    intro r parent q n hp hq
    cases r with
    | mk i ns l s d m it =>
      rw [nodeAt_cons] at hp
      cases hk : ns[k]? with
      | none => rw [hk] at hp; cases hp
      | some c0 =>
        rw [hk] at hp
        simp only [Option.some_bind] at hp
        rw [modifyAt_cons _ _ _ _ _ _ _ _ _ _ c0 hk]
        cases q with
        | nil =>
          rw [nodeAt_nil] at hq
          cases hq
          refine ⟨_, nodeAt_nil _, rfl, (fun h => by cases h), fun _ => ?_⟩
          simp only [NODE.neighbors]
          rw [List.map_set]
          have hidx : (modifyAt (pushNeighbor (NODE.new idx)) c0 rest).index = c0.index := by
            have h1 := indexAt_push idx rest c0 parent [] hp
            simp only [indexAt, nodeAt_nil, Option.map_some'] at h1
            rw [if_neg (by simp)] at h1
            exact Option.some.inj h1
          rw [hidx]
          apply set_eq_self
          rw [List.getElem?_map, hk]
          rfl
        | cons j q1 =>
          rw [nodeAt_cons] at hq
          by_cases hj : k = j
          · subst hj
            rw [hk] at hq
            simp only [Option.some_bind] at hq
            obtain ⟨n1, h1, h2, h3, h4⟩ := ih c0 parent q1 n hp hq
            refine ⟨n1, ?_, h2, ?_, ?_⟩
            · rw [nodeAt_cons, List.getElem?_set]
              simp only [if_true, lt_of_getElem? ns k c0 hk, Option.some_bind]
              exact h1
            · intro e
              exact h3 (List.cons.inj e).2
            · intro e
              exact h4 (fun e2 => e (by rw [e2]))
          · refine ⟨n, ?_, rfl, fun e => absurd (List.cons.inj e).1.symm hj, fun _ => rfl⟩
            rw [nodeAt_cons, List.getElem?_set]
            simp only [hj, if_false]
            exact hq

/-- With `index = neighbor` on the empty graph `addSegment` makes the root and a node
below it with the same index, and the lookup table sends the index to the root, not to
the new node: the second `insert` finds the key taken. -/
theorem addSegment_same_index :
    ∃ g1 r1, addSegment (DAG.new 4 4 : DAG ℚ) 5 5 = some g1 ∧ g1.root = some r1 ∧
      nodeAt r1 [0] = some (NODE.new 5) ∧ find g1.hash 5 = some [] :=
  ⟨_, _, rfl, rfl, rfl, rfl⟩

/-- C19 (amended: `index ≠ neighbor` on the empty graph): for a graph that is empty, or
whose lookup table finds exactly its nodes and that has a node with index `neighbor` and
none with index `index`, `addSegment(index, neighbor)` returns; it makes the root with
index `neighbor` if the graph is empty, puts one new node with index `index` behind the
neighbours of the node of `neighbor`, makes the lookup table send `index` to the new
node, and adds 1 to the node counter; every other node keeps its place in the tree
(hence its parent), its neighbours and its entry of the lookup table. -/
theorem addSegment_appends (g : DAG F) (index neighbor : Int)
    (hg : (g.root = none ∧ g.hash = [] ∧ index ≠ neighbor) ∨
      ∃ r, Linked g r ∧ (∃ q, indexAt r q = some neighbor) ∧ ∀ q, indexAt r q ≠ some index) :
    ∃ g1 r1 pp old, addSegment g index neighbor = some g1 ∧ g1.root = some r1 ∧
      g1.totalNodes = g.totalNodes + 1 ∧
      indexAt r1 pp = some neighbor ∧
      (nodeAt r1 pp).map NODE.neighbors = some (old ++ [NODE.new index]) ∧
      nodeAt r1 (pp ++ [old.length]) = some (NODE.new index) ∧
      find g1.hash index = some (pp ++ [old.length]) ∧
      (g.root = none → pp = [] ∧ old = [] ∧ find g1.hash neighbor = some [] ∧
        ∀ k, k ≠ index → k ≠ neighbor → find g1.hash k = none) ∧
      (∀ r, g.root = some r →
        find g.hash neighbor = some pp ∧ (nodeAt r pp).map NODE.neighbors = some old ∧
        (∀ k, k ≠ index → find g1.hash k = find g.hash k) ∧
        (∀ q, q ≠ pp ++ [old.length] → indexAt r1 q = indexAt r q) ∧
        (∀ q n, q ≠ pp → nodeAt r q = some n →
          ∃ n1, nodeAt r1 q = some n1 ∧
            n1.neighbors.map NODE.index = n.neighbors.map NODE.index)) := by
  rcases hg with ⟨hroot, hhash, hne⟩ | ⟨r, ⟨hroot, hlink⟩, ⟨pp, hpp⟩, hfresh⟩
  · refine ⟨{ g with
        root := some (NODE.pushNeighbor (NODE.new index) (NODE.new neighbor)),
        hash := hashInsert (hashInsert g.hash neighbor []) index [0],
        totalNodes := g.totalNodes + 1 },
      NODE.pushNeighbor (NODE.new index) (NODE.new neighbor), [], [], ?_, rfl, rfl, rfl, rfl,
      rfl, ?_, ?_, ?_⟩
    · simp only [addSegment, hroot]
    · simp [hhash, hashInsert, find, Ne.symm hne]
    · intro _
      refine ⟨rfl, rfl, ?_, ?_⟩
      · simp [hhash, hashInsert, find, Ne.symm hne]
      · intro k hk1 hk2
        simp [hhash, hashInsert, find, Ne.symm hne, Ne.symm hk1, Ne.symm hk2]
    · intro r0 hr0
      rw [hroot] at hr0
      cases hr0
  · have hf : find g.hash neighbor = some pp := (hlink neighbor pp).mpr hpp
    have hnone : find g.hash index = none := by
      cases hq : find g.hash index with
      | none => rfl
      | some q => exact absurd ((hlink index q).mp hq) (hfresh q)
    cases hn : nodeAt r pp with
    | none => simp [indexAt, hn] at hpp
    | some parent =>
      obtain ⟨n1, e1, e2, e3, -⟩ := neighbors_push index pp r parent pp parent hn hn
      refine ⟨{ g with
          root := some (NODE.modifyAt (NODE.pushNeighbor (NODE.new index)) r pp),
          hash := hashInsert g.hash index (pp ++ [parent.neighbors.length]),
          totalNodes := g.totalNodes + 1 },
        NODE.modifyAt (NODE.pushNeighbor (NODE.new index)) r pp, pp, parent.neighbors,
        ?_, rfl, rfl, ?_, ?_, nodeAt_push_new _ pp r parent hn, ?_, ?_, ?_⟩
      · simp only [addSegment, hroot, hf, hn]
      · rw [indexAt_push index pp r parent pp hn, if_neg (by simp)]
        exact hpp
      · rw [e1, ← e3 rfl]
        rfl
      · simp only
        rw [hashInsert_fresh _ _ _ hnone, find_append, hnone]
        simp [find]
      · intro h
        rw [hroot] at h
        cases h
      · intro r0 hr0
        rw [hroot] at hr0
        simp only [Option.some.injEq] at hr0
        subst hr0
        refine ⟨hf, by rw [hn]; rfl, ?_, ?_, ?_⟩
        · intro k hk
          simp only
          rw [hashInsert_fresh _ _ _ hnone, find_append]
          cases find g.hash k with
          | none => simp [find, Ne.symm hk]
          | some v => rfl
        · intro q hq
          rw [indexAt_push index pp r parent q hn, if_neg hq]
        · intro q n hq hnq
          obtain ⟨n2, f1, -, -, f4⟩ := neighbors_push index pp r parent q n hn hnq
          exact ⟨n2, f1, f4 hq⟩

theorem addSegment_appends_witness :
    ∃ g1 r1 pp old, addSegment sampleDag2 6 1 = some g1 ∧ g1.root = some r1 ∧
      g1.totalNodes = sampleDag2.totalNodes + 1 ∧
      indexAt r1 pp = some 1 ∧
      (nodeAt r1 pp).map NODE.neighbors = some (old ++ [NODE.new 6]) ∧
      nodeAt r1 (pp ++ [old.length]) = some (NODE.new 6) ∧
      find g1.hash 6 = some (pp ++ [old.length]) ∧
      (sampleDag2.root = none → pp = [] ∧ old = [] ∧ find g1.hash 1 = some [] ∧
        ∀ k, k ≠ 6 → k ≠ 1 → find g1.hash k = none) ∧
      (∀ r, sampleDag2.root = some r →
        find sampleDag2.hash 1 = some pp ∧ (nodeAt r pp).map NODE.neighbors = some old ∧
        (∀ k, k ≠ 6 → find g1.hash k = find sampleDag2.hash k) ∧
        (∀ q, q ≠ pp ++ [old.length] → indexAt r1 q = indexAt r q) ∧
        (∀ q n, q ≠ pp → nodeAt r q = some n →
          ∃ n1, nodeAt r1 q = some n1 ∧
            n1.neighbors.map NODE.index = n.neighbors.map NODE.index)) :=
  addSegment_appends sampleDag2 6 1
    (Or.inr ⟨NODE.mk 1 [NODE.mk 5 [NODE.new 9] false false 0 none none] false false 0 none none,
      sampleDag2_built.linked _ rfl, ⟨[], rfl⟩, fresh_of_not_mem _ 6 (by decide)⟩)

end DAG

end Lumo

namespace Lumo

namespace QUAD_DBM_2D

/-- The cumulative weight `(w_0 + ... + w_k) / total` of the first `k + 1` entries of
the list of weights. -/
def cumulativeWeight (probabilities : List ℚ) (total : ℚ) (k : Nat) : ℚ :=
  (probabilities.take (k + 1)).sum / total

theorem totalPotentialOf_exact (cands : List (Bool × ℚ)) :
    totalPotentialOf exactOps cands = (probabilitiesOf cands).sum := by
  unfold totalPotentialOf probabilitiesOf
  have h : ∀ (l : List (Bool × ℚ)) (t : ℚ),
      l.foldl (fun t c => if c.1 = true then exactOps.add t c.2 else t) t =
        t + (l.map (fun c => if c.1 = true then c.2 else 0)).sum := by
    intro l
    induction l with
    | nil => intro t; simp
    | cons c cs ih =>
      intro t
      simp only [List.foldl_cons, List.map_cons, List.sum_cons]
      rw [ih]
      by_cases hc : c.1 = true
      · simp only [hc, if_true, exactOps]
        ring
      · have hf : c.1 = false := by simpa using hc
        simp only [hf, Bool.false_eq_true, if_false]
        ring
  rw [h, zero_add]

theorem sum_take_succ (l : List ℚ) (k : Nat) (p : ℚ) (h : l.get? k = some p) :
    (l.take (k + 1)).sum = (l.take k).sum + p := by
  induction l generalizing k with
  | nil => simp at h
  | cons a as ih =>
    cases k with
    | zero =>
      simp only [List.get?_cons_zero, Option.some.injEq] at h
      simp [h]
    | succ k =>
      simp only [List.get?_cons_succ] at h
      simp only [List.take_succ_cons, List.sum_cons]
      rw [ih k h]
      ring

theorem cumulativeWeight_succ (probabilities : List ℚ) (total : ℚ) (k : Nat) (p : ℚ)
    (h : probabilities.get? (k + 1) = some p) :
    cumulativeWeight probabilities total (k + 1) =
      cumulativeWeight probabilities total k + p * (1 / total) := by
  unfold cumulativeWeight
  rw [sum_take_succ probabilities (k + 1) p h]
  ring

/-- The walk over the cumulative weights without rounding: from the index `idx` with
the cumulative weight of `idx` it stops at the first index whose cumulative weight is
not less than the draw. -/
theorem walkLoop_exact (probabilities : List ℚ) (total random : ℚ)
    (hlast : random ≤ cumulativeWeight probabilities total (probabilities.length - 1)) :
    ∀ (fuel idx : Nat), idx < probabilities.length → probabilities.length - idx < fuel →
      (∀ i, i < idx → cumulativeWeight probabilities total i < random) →
      ∃ k, walkLoop exactOps probabilities (1 / total) random fuel idx
          (cumulativeWeight probabilities total idx) = some k ∧
        k < probabilities.length ∧ random ≤ cumulativeWeight probabilities total k ∧
        ∀ i, i < k → cumulativeWeight probabilities total i < random := by
  intro fuel
  induction fuel with
  | zero => intro idx _ hf; omega
  | succ fuel ih =>
    intro idx hidx hf hbefore
    unfold walkLoop
    by_cases hlt : cumulativeWeight probabilities total idx < random
    · rw [if_pos ⟨hlt, hidx⟩]
      have hnext : idx + 1 < probabilities.length := by
        by_contra hge
        have e : idx = probabilities.length - 1 := by omega
        rw [← e] at hlast
        exact absurd hlt (not_lt.mpr hlast)
      have hget : probabilities.get? (idx + 1) = some (probabilities.get ⟨idx + 1, hnext⟩) :=
        List.get?_eq_get hnext
      rw [hget]
      simp only [exactOps]
      rw [← cumulativeWeight_succ probabilities total idx _ hget]
      apply ih (idx + 1) hnext (by omega)
      intro i hi
      rcases Nat.lt_or_ge i idx with h | h
      · exact hbefore i h
      · have e : i = idx := by omega
        rw [e]; exact hlt
    · rw [if_neg (fun h => hlt h.1)]
      exact ⟨idx, rfl, hidx, not_lt.mp hlt, hbefore⟩

/-- Without rounding, for a candidate list that is not empty, a total weight of at
least 1e-8 and a draw `r` below 1, the walk returns the first index `k` of the list whose
cumulative weight `(w_0 + ... + w_k) / total` is not less than `r`. -/
theorem dbmIndex_exact (cands : List (Bool × ℚ)) (r : ℚ) (hne : cands ≠ [])
    (htot : 1 / 100000000 ≤ totalPotentialOf exactOps cands) (hr1 : r < 1) :
    ∃ k, dbmIndex exactOps (probabilitiesOf cands) (totalPotentialOf exactOps cands) r = some k ∧
      k < cands.length ∧
      r ≤ cumulativeWeight (probabilitiesOf cands) (totalPotentialOf exactOps cands) k ∧
      ∀ i, i < k →
        cumulativeWeight (probabilitiesOf cands) (totalPotentialOf exactOps cands) i < r := by
  have hlen : (probabilitiesOf cands).length = cands.length := by
    simp [probabilitiesOf]
  have hpos : 0 < cands.length := List.length_pos.mpr hne
  have htpos : (0 : ℚ) < totalPotentialOf exactOps cands := lt_of_lt_of_le (by norm_num) htot
  have hlast : r ≤ cumulativeWeight (probabilitiesOf cands) (totalPotentialOf exactOps cands)
      ((probabilitiesOf cands).length - 1) := by
    unfold cumulativeWeight
    rw [Nat.sub_add_cancel (by omega), List.take_length, ← totalPotentialOf_exact,
      div_self (ne_of_gt htpos)]
    exact le_of_lt hr1
  have h0 : 0 < (probabilitiesOf cands).length := by omega
  have hget : (probabilitiesOf cands).get? 0 = some ((probabilitiesOf cands).get ⟨0, h0⟩) :=
    List.get?_eq_get h0
  have hc0 : exactOps.mul ((probabilitiesOf cands).get ⟨0, h0⟩)
      (exactOps.div 1 (totalPotentialOf exactOps cands)) =
      cumulativeWeight (probabilitiesOf cands) (totalPotentialOf exactOps cands) 0 := by
    unfold cumulativeWeight
    have : ((probabilitiesOf cands).take (0 + 1)).sum = (probabilitiesOf cands).get ⟨0, h0⟩ := by
      rw [sum_take_succ _ 0 _ hget]
      simp
    rw [this]
    simp only [exactOps]
    ring
  obtain ⟨k, hk, h1, h2, h3⟩ := walkLoop_exact (probabilitiesOf cands)
    (totalPotentialOf exactOps cands) r hlast ((probabilitiesOf cands).length + 2) 0 h0
    (by omega) (fun i hi => absurd hi (Nat.not_lt_zero i))
  refine ⟨k, ?_, by omega, h2, h3⟩
  unfold dbmIndex
  rw [hget]
  simp only
  rw [hc0]
  have e : exactOps.div 1 (totalPotentialOf exactOps cands) =
      1 / totalPotentialOf exactOps cands := rfl
  rw [e]
  exact hk

end QUAD_DBM_2D

end Lumo

namespace Lumo

namespace CG_SOLVER

open CELL

/-! ## The conjugate gradient iteration: what the loops write -/

/-- The data of a cell with what `solve` writes reset: the stencil, the right-hand side,
the index and the potential. -/
def core (c : CellData) : CellData :=
  { c with stencil := Mathlib.Vector.replicate 9 0, b := 0, index := 0, potential := 0 }

/-- The tree `r1` is the tree `r` up to what `solve` writes. -/
def SameCore (r1 r : CELL) : Prop :=
  ∀ a, (dataAt r1 a).map core = (dataAt r a).map core

theorem core_fields {c1 c : CellData} (h : core c1 = core c) :
    c1.depth = c.depth ∧ c1.neighbors = c.neighbors ∧ c1.boundary = c.boundary := by
  have e1 : (core c1).depth = (core c).depth := by rw [h]
  have e2 : (core c1).neighbors = (core c).neighbors := by rw [h]
  have e3 : (core c1).boundary = (core c).boundary := by rw [h]
  exact ⟨e1, e2, e3⟩

theorem SameCore.refl_core (r : CELL) : SameCore r r := fun _ => rfl

theorem SameCore.symm_core {r1 r : CELL} (h : SameCore r1 r) : SameCore r r1 :=
  fun a => (h a).symm

theorem SameCore.trans_core {r2 r1 r : CELL} (h2 : SameCore r2 r1) (h1 : SameCore r1 r) :
    SameCore r2 r := fun a => (h2 a).trans (h1 a)

theorem core_wipe (c : CellData) : core (wipe c) = core c := rfl

theorem SameFields.fields_core {r1 r : CELL} (h : SameFields r1 r) : SameCore r1 r := by
  intro a
  have ha := congrArg (Option.map core) (h a)
  rw [Option.map_map, Option.map_map] at ha
  exact ha

theorem SameCore.bind_core {r1 r : CELL} (h : SameCore r1 r) (x : Option CellRef) :
    (x.bind (deref r1)).map core = (x.bind (deref r)).map core := by
  cases x with
  | none => rfl
  | some p =>
    cases p with
    | cell a => exact h a
    | ghost d => rfl

theorem faceKindAt_core {r1 r : CELL} (h : SameCore r1 r) {c1 c : CellData}
    (hc : core c1 = core c) (i i1 : Fin 8) : faceKindAt r1 c1 i i1 = faceKindAt r c i i1 := by
  obtain ⟨hd, hn, -⟩ := core_fields hc
  unfold faceKindAt
  rw [hn]
  rcases option_map_cases core _ _ (h.bind_core (c.neighbors.get i)) with ⟨e1, e2⟩ |
    ⟨n1, n, e1, e2, e3⟩
  · rw [e1, e2]
  · rw [e1, e2]
    obtain ⟨hd0, -, -⟩ := core_fields e3
    cases c.neighbors.get i1 with
    | none => simp only [faceKind, hd, hd0]
    | some p1 =>
      rcases option_map_cases core _ _ (h.bind_core (some p1)) with ⟨e4, e5⟩ | ⟨m1, m, e4, e5, e6⟩
      · simp only [Option.some_bind] at e4 e5
        simp only [e4, e5]
      · simp only [Option.some_bind] at e4 e5
        obtain ⟨hd1, -, -⟩ := core_fields e6
        simp only [e4, e5, faceKind, hd, hd0, hd1]

theorem slotWeight_core {r1 r : CELL} (h : SameCore r1 r) {c1 c : CellData}
    (hc : core c1 = core c) (invDx : ℚ) (j : Fin 8) :
    slotWeight r1 c1 invDx j = slotWeight r c invDx j := by
  obtain ⟨hd, hn, -⟩ := core_fields hc
  unfold slotWeight
  rw [hn]
  rcases option_map_cases core _ _ (h.bind_core (c.neighbors.get j)) with ⟨e1, e2⟩ |
    ⟨n1, n, e1, e2, e3⟩
  · rw [e1, e2]
  · obtain ⟨hd0, -, hb0⟩ := core_fields e3
    simp only [e1, e2, hd, hd0, hb0]

theorem Classified.congr_core {r1 r : CELL} (h : SameCore r1 r) {c1 c : CellData}
    (hc : core c1 = core c) (hcl : Classified r c) : Classified r1 c1 := by
  unfold Classified at hcl ⊢
  rw [faceKindAt_core h hc, faceKindAt_core h hc, faceKindAt_core h hc, faceKindAt_core h hc]
  exact hcl

/-! ### The loop that numbers the cells -/

/-- The number of the cell `b` in the list of the cells: its first position (the length
of the list if it is not in the list). -/
def cellNumber (b : Addr) : List Addr → Nat
  | [] => 0
  | a :: rest => if b = a then 0 else cellNumber b rest + 1

theorem cellNumber_cons_self (b : Addr) (l : List Addr) : cellNumber b (b :: l) = 0 := by
  simp [cellNumber]

theorem cellNumber_cons_ne {a b : Addr} (l : List Addr) (h : b ≠ a) :
    cellNumber b (a :: l) = cellNumber b l + 1 := by
  simp [cellNumber, h]

theorem cellNumber_lt {b : Addr} : ∀ {l : List Addr}, b ∈ l → cellNumber b l < l.length := by
  intro l
  induction l with
  | nil => intro h; cases h
  | cons a rest ih =>
    intro h
    by_cases hba : b = a
    · subst hba
      rw [cellNumber_cons_self]
      exact Nat.succ_pos _
    · rw [cellNumber_cons_ne _ hba]
      rcases List.mem_cons.mp h with e | e
      · exact absurd e hba
      · exact Nat.succ_lt_succ (ih e)

theorem cellNumber_append {a : Addr} : ∀ (pre rest : List Addr), a ∉ pre →
    cellNumber a (pre ++ a :: rest) = pre.length := by
  intro pre
  induction pre with
  | nil => intro rest _; exact cellNumber_cons_self _ _
  | cons p pre ih =>
    intro rest h
    have hap : a ≠ p := fun e => h (e ▸ List.mem_cons_self _ _)
    have hpre : a ∉ pre := fun e => h (List.mem_cons_of_mem _ e)
    show cellNumber a (p :: (pre ++ a :: rest)) = _
    rw [cellNumber_cons_ne _ hap, ih rest hpre]
    rfl

theorem setIndices_other : ∀ (l : List Addr) (root : CELL) (x : Int) (b : Addr), b ∉ l →
    dataAt (setIndices root l x) b = dataAt root b := by
  intro l
  induction l with
  | nil => intro root x b _; rfl
  | cons a rest ih =>
    intro root x b hb
    have hba : b ≠ a := fun e => hb (e ▸ List.mem_cons_self _ _)
    have hbr : b ∉ rest := fun e => hb (List.mem_cons_of_mem _ e)
    show dataAt (setIndices (setData _ root a) rest (x + 1)) b = _
    rw [ih _ _ _ hbr, dataAt_setData, if_neg hba]

theorem setIndices_mem : ∀ (l : List Addr) (root : CELL) (x : Int) (b : Addr), l.Nodup → b ∈ l →
    dataAt (setIndices root l x) b =
      (dataAt root b).map (fun c => { c with index := x + (cellNumber b l : Nat) }) := by
  intro l
  induction l with
  | nil => intro root x b _ hb; cases hb
  | cons a rest ih =>
    intro root x b hnd hb
    obtain ⟨ha, hnd1⟩ := List.nodup_cons.mp hnd
    show dataAt (setIndices (setData _ root a) rest (x + 1)) b = _
    by_cases hba : b = a
    · subst hba
      rw [setIndices_other _ _ _ _ ha, dataAt_setData, if_pos rfl, cellNumber_cons_self]
      simp
    · have hbr : b ∈ rest := by
        rcases List.mem_cons.mp hb with e | e
        · exact absurd e hba
        · exact e
      rw [ih _ _ _ hnd1 hbr, dataAt_setData, if_neg hba,
        cellNumber_cons_ne _ hba]
      congr 1
      funext c
      have e : x + 1 + (cellNumber b rest : Nat) = x + ((cellNumber b rest + 1 : Nat) : Int) := by
        push_cast
        ring
      rw [e]

/-- The data of a cell with the index reset. -/
def noIndex (c : CellData) : CellData :=
  { c with index := 0 }

theorem setIndices_noIndex (l : List Addr) (root : CELL) (x : Int) (hnd : l.Nodup) (b : Addr) :
    (dataAt (setIndices root l x) b).map noIndex = (dataAt root b).map noIndex := by
  by_cases hb : b ∈ l
  · rw [setIndices_mem l root x b hnd hb, Option.map_map]
    rfl
  · rw [setIndices_other l root x b hb]

/-! ### The loop that adds to the potentials -/

theorem addPotentials_other (alpha : ℚ) (d : List ℚ) : ∀ (l : List Addr) (root : CELL) (x : Nat)
    (b : Addr), b ∉ l → dataAt (addPotentials alpha d root l x) b = dataAt root b := by
  intro l
  induction l with
  | nil => intro root x b _; rfl
  | cons a rest ih =>
    intro root x b hb
    have hba : b ≠ a := fun e => hb (e ▸ List.mem_cons_self _ _)
    have hbr : b ∉ rest := fun e => hb (List.mem_cons_of_mem _ e)
    show dataAt (addPotentials alpha d (setData _ root a) rest (x + 1)) b = _
    rw [ih _ _ _ hbr, dataAt_setData, if_neg hba]

theorem addPotentials_mem (alpha : ℚ) (d : List ℚ) : ∀ (l : List Addr) (root : CELL) (x : Nat)
    (b : Addr), l.Nodup → b ∈ l →
    dataAt (addPotentials alpha d root l x) b =
      (dataAt root b).map (fun c =>
        { c with potential := c.potential + alpha * d.getD (x + cellNumber b l) 0 }) := by
  intro l
  induction l with
  | nil => intro root x b _ hb; cases hb
  | cons a rest ih =>
    intro root x b hnd hb
    obtain ⟨ha, hnd1⟩ := List.nodup_cons.mp hnd
    show dataAt (addPotentials alpha d (setData _ root a) rest (x + 1)) b = _
    by_cases hba : b = a
    · subst hba
      rw [addPotentials_other _ _ _ _ _ _ ha, dataAt_setData, if_pos rfl,
        cellNumber_cons_self]
      rfl
    · have hbr : b ∈ rest := by
        rcases List.mem_cons.mp hb with e | e
        · exact absurd e hba
        · exact e
      rw [ih _ _ _ hnd1 hbr, dataAt_setData, if_neg hba,
        cellNumber_cons_ne _ hba]
      congr 1
      funext c
      have e : x + 1 + cellNumber b rest = x + (cellNumber b rest + 1) := by omega
      rw [e]

/-- The data of a cell with the potential reset. -/
def noPotential (c : CellData) : CellData :=
  { c with potential := 0 }

/-- The tree `r1` is the tree `r` up to the potentials. -/
def SamePot (r1 r : CELL) : Prop :=
  ∀ a, (dataAt r1 a).map noPotential = (dataAt r a).map noPotential

theorem addPotentials_samePot (alpha : ℚ) (d : List ℚ) (l : List Addr) (root : CELL)
    (hnd : l.Nodup) : SamePot (addPotentials alpha d root l 0) root := by
  intro b
  by_cases hb : b ∈ l
  · rw [addPotentials_mem alpha d l root 0 b hnd hb, Option.map_map]
    rfl
  · rw [addPotentials_other alpha d l root 0 b hb]

theorem SamePot.refl_pot (r : CELL) : SamePot r r := fun _ => rfl

theorem SamePot.trans_pot {r2 r1 r : CELL} (h2 : SamePot r2 r1) (h1 : SamePot r1 r) :
    SamePot r2 r := fun a => (h2 a).trans (h1 a)

theorem SamePot.pot_core {r1 r : CELL} (h : SamePot r1 r) : SameCore r1 r := by
  intro a
  have ha := congrArg (Option.map core) (h a)
  rw [Option.map_map, Option.map_map] at ha
  exact ha

theorem noPotential_fields {c1 c : CellData} (h : noPotential c1 = noPotential c) :
    c1.stencil = c.stencil ∧ c1.b = c.b ∧ c1.index = c.index ∧ core c1 = core c := by
  have e1 : (noPotential c1).stencil = (noPotential c).stencil := by rw [h]
  have e2 : (noPotential c1).b = (noPotential c).b := by rw [h]
  have e3 : (noPotential c1).index = (noPotential c).index := by rw [h]
  have e4 : core (noPotential c1) = core (noPotential c) := by rw [h]
  exact ⟨e1, e2, e3, e4⟩

end CG_SOLVER

end Lumo

namespace Lumo

namespace CG_SOLVER

open CELL

/-! ## The matrix of the solver, row by row -/

/-- Potential of the cell at address `p` (0 if there is no such cell). -/
def potentialAt (root : CELL) (p : Addr) : ℚ :=
  ((dataAt root p).map (fun c => c.potential)).getD 0

/-- Share of the slot `j` of a cell with data `c` in its row of the product `A x`, sign
apart: `stencil[j]` times the entry of `x` for the neighbour in the slot if that is a
cell of the tree which is not a boundary, nothing otherwise. -/
def offDiag (root : CELL) (c : CellData) (x : Addr → ℚ) (j : Fin 8) : ℚ :=
  match c.neighbors.get j with
  | some (CellRef.cell p) =>
    match dataAt root p with
    | some n => if n.boundary = false then c.stencil.get j.castSucc * x p else 0
    | none => 0
  | _ => 0

/-- The row of the product `A x` for the cell at address `a` with data `c`: the diagonal
`stencil[8]` times the entry of the cell, minus the shares of the eight slots. -/
def rowApply (root : CELL) (a : Addr) (c : CellData) (x : Addr → ℚ) : ℚ :=
  c.stencil.get 8 * x a - Finset.sum Finset.univ (fun j : Fin 8 => offDiag root c x j)

/-- The entry of `b - A x` for the cell at address `a`, with `x` the potentials of the
tree. -/
def residualAt (root : CELL) (a : Addr) : ℚ :=
  match dataAt root a with
  | some c => c.b - rowApply root a c (potentialAt root)
  | none => 0

/-- The entry of `A d` for the cell at address `a`, with the entry of `d` for a cell found
at the number of the cell in the list `cells`. -/
def productAt (root : CELL) (cells : List Addr) (d : List ℚ) (a : Addr) : ℚ :=
  match dataAt root a with
  | some c => rowApply root a c (fun p => d.getD (cellNumber p cells) 0)
  | none => 0

/-- The working set `cells` is closed in the tree `root`: a cell of the tree that is in a
neighbour slot of a cell of the working set and is not a boundary is in the working set. -/
def Closed (root : CELL) (cells : List Addr) : Prop :=
  ∀ a ∈ cells, ∀ (c : CellData) (j : Fin 8) (p : Addr) (n : CellData), dataAt root a = some c →
    c.neighbors.get j = some (CellRef.cell p) → dataAt root p = some n → n.boundary = false →
    p ∈ cells

/-- The cells of the working set are ready for the iteration: depth within the table of
the solver, faces of one of the three kinds, weight 0 in the slot of a boundary cell,
and the working set is closed. -/
def Staged (maxDepth : Int) (cells : List Addr) (r : CELL) : Prop :=
  ∀ a ∈ cells, ∃ c, dataAt r a = some c ∧ 0 ≤ c.depth ∧ c.depth ≤ maxDepth ∧ Classified r c ∧
    (∀ (j : Fin 8) (n : CellData), (c.neighbors.get j).bind (deref r) = some n →
      n.boundary = true → c.stencil.get j.castSucc = 0) ∧
    (∀ (j : Fin 8) (p : Addr) (n : CellData), c.neighbors.get j = some (CellRef.cell p) →
      dataAt r p = some n → n.boundary = false → p ∈ cells)

/-- Every cell of the working set carries its number in the list as index. -/
def Numbered (cells : List Addr) (r : CELL) : Prop :=
  ∀ a ∈ cells, ∃ c, dataAt r a = some c ∧ c.index = (cellNumber a cells : Nat)

/-- The data of a cell with the index and the potential reset. -/
def free (c : CellData) : CellData :=
  { c with index := 0, potential := 0 }

/-- The tree `r1` is the tree `r` up to the indices and the potentials. -/
def SameRows (r1 r : CELL) : Prop :=
  ∀ a, (dataAt r1 a).map free = (dataAt r a).map free

theorem free_fields {c1 c : CellData} (h : free c1 = free c) :
    c1.stencil = c.stencil ∧ c1.b = c.b ∧ core c1 = core c := by
  have e1 : (free c1).stencil = (free c).stencil := by rw [h]
  have e2 : (free c1).b = (free c).b := by rw [h]
  have e4 : core (free c1) = core (free c) := by rw [h]
  exact ⟨e1, e2, e4⟩

theorem SameRows.rows_core {r1 r : CELL} (h : SameRows r1 r) : SameCore r1 r := by
  intro a
  have ha := congrArg (Option.map core) (h a)
  rw [Option.map_map, Option.map_map] at ha
  exact ha

theorem SamePot.to_rows {r1 r : CELL} (h : SamePot r1 r) : SameRows r1 r := by
  intro a
  have ha := congrArg (Option.map free) (h a)
  rw [Option.map_map, Option.map_map] at ha
  exact ha

theorem setIndices_rows (l : List Addr) (root : CELL) (x : Int) (hnd : l.Nodup) :
    SameRows (setIndices root l x) root := by
  intro a
  have ha := congrArg (Option.map free) (setIndices_noIndex l root x hnd a)
  rw [Option.map_map, Option.map_map] at ha
  exact ha

theorem Staged.congr_rows {maxDepth : Int} {cells : List Addr} {r1 r : CELL}
    (h : SameRows r1 r) (hs : Staged maxDepth cells r) : Staged maxDepth cells r1 := by
  intro a ha
  obtain ⟨c, hc, h0, h1, hcl, hz, hclosed⟩ := hs a ha
  have hra := h a
  rw [hc] at hra
  rcases option_map_cases free _ _ hra with ⟨-, e2⟩ | ⟨c1, c2, e1, e2, e3⟩
  · cases e2
  · cases e2
    obtain ⟨hst, -, hcore⟩ := free_fields e3
    obtain ⟨hd, hn, -⟩ := core_fields hcore
    refine ⟨c1, e1, by omega, by omega, hcl.congr_core h.rows_core hcore, ?_, ?_⟩
    · intro j n1 hn1 hb1
      rw [hn] at hn1
      rw [hst]
      rcases option_map_cases core _ _ (h.rows_core.bind_core (c.neighbors.get j)) with
        ⟨e4, -⟩ | ⟨m1, m, e4, e5, e6⟩
      · rw [e4] at hn1
        cases hn1
      · rw [e4] at hn1
        cases hn1
        obtain ⟨-, -, hb⟩ := core_fields e6
        exact hz j m e5 (by rw [← hb]; exact hb1)
    · intro j p n1 hj hp hb1
      rw [hn] at hj
      have hrp := h.rows_core p
      rw [hp] at hrp
      rcases option_map_cases core _ _ hrp with ⟨e4, -⟩ | ⟨m1, m, e4, e5, e6⟩
      · cases e4
      · cases e4
        obtain ⟨-, -, hb⟩ := core_fields e6
        exact hclosed j p m hj e5 (by rw [← hb]; exact hb1)

theorem Numbered.congr_pot {cells : List Addr} {r1 r : CELL} (h : SamePot r1 r)
    (hs : Numbered cells r) : Numbered cells r1 := by
  intro a ha
  obtain ⟨c, hc, hi⟩ := hs a ha
  have hra := h a
  rw [hc] at hra
  rcases option_map_cases noPotential _ _ hra with ⟨-, e2⟩ | ⟨c1, c2, e1, e2, e3⟩
  · cases e2
  · cases e2
    obtain ⟨-, -, hidx, -⟩ := noPotential_fields e3
    exact ⟨c1, e1, hidx.trans hi⟩

/-! ### The sum over the neighbours -/

theorem slotTerm (root : CELL) (c : CellData) (val : CellData → ℚ) (x : Addr → ℚ) (j : Fin 8)
    (hz : ∀ n : CellData, (c.neighbors.get j).bind (deref root) = some n →
      n.boundary = true → c.stencil.get j.castSucc = 0)
    (hval : ∀ (p : Addr) (n : CellData), c.neighbors.get j = some (CellRef.cell p) →
      dataAt root p = some n → n.boundary = false → val n = x p)
    (ref : CellRef) (n : CellData) (hj : c.neighbors.get j = some ref)
    (hn : deref root ref = some n) :
    val n * c.stencil.get j.castSucc = offDiag root c x j := by
  have hbind : (c.neighbors.get j).bind (deref root) = some n := by rw [hj]; exact hn
  cases ref with
  | cell p =>
    have hp : dataAt root p = some n := hn
    simp only [offDiag, hj, hp]
    by_cases hb : n.boundary = false
    · rw [if_pos hb, hval p n hj hp hb]
      ring
    · rw [if_neg hb, hz n hbind (by simpa using hb)]
      ring
  | ghost d =>
    have hg : n = CellData.ghost d := (Option.some.inj hn).symm
    simp only [offDiag, hj]
    rw [hz n hbind (by rw [hg]; rfl)]
    ring

theorem offDiag_none (root : CELL) (c : CellData) (x : Addr → ℚ) (j : Fin 8)
    (hj : c.neighbors.get j = none) : offDiag root c x j = 0 := by
  simp only [offDiag, hj]

theorem faceSum_spec (root : CELL) (c : CellData) (val : CellData → ℚ) (x : Addr → ℚ)
    (i i1 : Fin 8) (sum : ℚ) (hk : (faceKindAt root c i i1).isSome = true)
    (hz : ∀ (j : Fin 8) (n : CellData), (c.neighbors.get j).bind (deref root) = some n →
      n.boundary = true → c.stencil.get j.castSucc = 0)
    (hval : ∀ (j : Fin 8) (p : Addr) (n : CellData), c.neighbors.get j = some (CellRef.cell p) →
      dataAt root p = some n → n.boundary = false → val n = x p) :
    faceSum root c val i i1 sum = some (sum + offDiag root c x i + offDiag root c x i1) := by
  unfold faceKindAt at hk
  unfold faceSum
  cases h0 : c.neighbors.get i with
  | none =>
    rw [h0] at hk
    cases hk
  | some ref0 =>
    rw [h0] at hk
    simp only [Option.some_bind] at hk ⊢
    cases hn0 : deref root ref0 with
    | none =>
      rw [hn0] at hk
      cases hk
    | some n0 =>
      rw [hn0] at hk
      have t0 := slotTerm root c val x i (hz i) (hval i) ref0 n0 h0 hn0
      cases h1 : c.neighbors.get i1 with
      | none =>
        simp only
        rw [t0, offDiag_none root c x i1 h1, add_zero]
      | some ref1 =>
        rw [h1] at hk
        simp only at hk ⊢
        cases hn1 : deref root ref1 with
        | none =>
          rw [hn1] at hk
          cases hk
        | some n1 =>
          have t1 := slotTerm root c val x i1 (hz i1) (hval i1) ref1 n1 h1 hn1
          simp only
          rw [t0, t1]

theorem neighborSum_spec (root : CELL) (c : CellData) (val : CellData → ℚ) (x : Addr → ℚ)
    (hcl : Classified root c)
    (hz : ∀ (j : Fin 8) (n : CellData), (c.neighbors.get j).bind (deref root) = some n →
      n.boundary = true → c.stencil.get j.castSucc = 0)
    (hval : ∀ (j : Fin 8) (p : Addr) (n : CellData), c.neighbors.get j = some (CellRef.cell p) →
      dataAt root p = some n → n.boundary = false → val n = x p) :
    neighborSum root c val =
      some (Finset.sum Finset.univ (fun j : Fin 8 => offDiag root c x j)) := by
  obtain ⟨k0, k1, k2, k3⟩ := hcl
  unfold neighborSum
  rw [faceSum_spec root c val x 0 1 0 k0 hz hval]
  simp only
  rw [faceSum_spec root c val x 2 3 _ k1 hz hval]
  simp only
  rw [faceSum_spec root c val x 4 5 _ k2 hz hval]
  simp only
  rw [faceSum_spec root c val x 6 7 _ k3 hz hval, Fin.sum_univ_eight]
  congr 1
  ring

/-! ### The residual and the product `A d` -/

theorem calcResidual_spec (maxDepth iterations digits : Int) (root : CELL) (cells : List Addr)
    (hs : Staged maxDepth cells root) : ∀ l : List Addr, (∀ a ∈ l, a ∈ cells) →
    calcResidual (CG_SOLVER.new maxDepth iterations digits) root l =
      some (l.map (residualAt root)) := by
  intro l
  induction l with
  | nil => intro _; rfl
  | cons a rest ih =>
    intro hl
    obtain ⟨c, hc, h0, h1, hcl, hz, -⟩ := hs a (hl a (List.mem_cons_self _ _))
    have hsum := neighborSum_spec root c (fun n => n.potential) (potentialAt root) hcl hz
      (by
        intro j p n _ hp _
        simp only [potentialAt, hp, Option.map_some', Option.getD_some])
    have hpa : potentialAt root a = c.potential := by
      simp only [potentialAt, hc, Option.map_some', Option.getD_some]
    simp only [calcResidual, hc, readDx_new maxDepth iterations digits c.depth h0 h1, hsum,
      ih (fun b hb => hl b (List.mem_cons_of_mem _ hb)), List.map_cons, residualAt, rowApply, hpa]
    congr 2
    ring

theorem calcQ_spec (junk : Int → ℚ) (root : CELL) (cells : List Addr) (d : List ℚ)
    (maxDepth : Int) (hs : Staged maxDepth cells root) (hnum : Numbered cells root)
    (hlen : d.length = cells.length) (hnd : cells.Nodup) :
    ∀ suf pre : List Addr, cells = pre ++ suf →
    calcQ junk root d suf pre.length = some (suf.map (productAt root cells d)) := by
  intro suf
  induction suf with
  | nil => intro _ _; rfl
  | cons a rest ih =>
    intro pre hsplit
    have ha : a ∈ cells := by rw [hsplit]; simp
    obtain ⟨c, hc, -, -, hcl, hz, hclosed⟩ := hs a ha
    have hsum := neighborSum_spec root c (fun n => dirRead junk d n.index)
      (fun p => d.getD (cellNumber p cells) 0) hcl hz
      (by
        intro j p n hj hp hb
        have hpc := hclosed j p n hj hp hb
        obtain ⟨n1, hn1, hidx⟩ := hnum p hpc
        rw [hp] at hn1
        cases hn1
        have hlt := cellNumber_lt hpc
        show dirRead junk d n.index = _
        unfold dirRead
        rw [hidx, if_pos ⟨by omega, by omega⟩, Int.toNat_ofNat])
    have hapre : a ∉ pre := by
      intro hmem
      rw [hsplit] at hnd
      have := List.nodup_append.mp hnd
      exact this.2.2 hmem (List.mem_cons_self _ _)
    have hnum_a : cellNumber a cells = pre.length := by
      rw [hsplit]
      exact cellNumber_append pre rest hapre
    have hrest := ih (pre ++ [a]) (by rw [hsplit]; simp)
    rw [List.length_append, List.length_singleton] at hrest
    simp only [calcQ, hc, hsum, hrest, List.map_cons, productAt, rowApply, hnum_a]
    congr 2
    ring

end CG_SOLVER

end Lumo

namespace Lumo

namespace CG_SOLVER

open CELL

/-! ## The residual along the iteration -/

theorem addPotentials_data (alpha : ℚ) (d : List ℚ) (cells : List Addr) (root : CELL)
    (hnd : cells.Nodup) (p : Addr) (n : CellData) (hp : dataAt root p = some n) :
    ∃ n1, dataAt (addPotentials alpha d root cells 0) p = some n1 ∧
      n1.boundary = n.boundary ∧ n1.neighbors = n.neighbors ∧ n1.stencil = n.stencil ∧
      n1.b = n.b ∧
      (p ∈ cells → n1.potential = n.potential + alpha * d.getD (cellNumber p cells) 0) := by
  by_cases hm : p ∈ cells
  · rw [addPotentials_mem alpha d cells root 0 p hnd hm, hp]
    refine ⟨_, rfl, rfl, rfl, rfl, rfl, ?_⟩
    intro _
    show n.potential + alpha * d.getD (0 + cellNumber p cells) 0 = _
    rw [Nat.zero_add]
  · rw [addPotentials_other alpha d cells root 0 p hm, hp]
    exact ⟨n, rfl, rfl, rfl, rfl, rfl, fun h => absurd h hm⟩

theorem addPotentials_none (alpha : ℚ) (d : List ℚ) (cells : List Addr) (root : CELL)
    (hnd : cells.Nodup) (p : Addr) (hp : dataAt root p = none) :
    dataAt (addPotentials alpha d root cells 0) p = none := by
  by_cases hm : p ∈ cells
  · rw [addPotentials_mem alpha d cells root 0 p hnd hm, hp]
    rfl
  · rw [addPotentials_other alpha d cells root 0 p hm, hp]

/-- The residual after the potentials have moved by `alpha d` is the residual before
minus `alpha` times the product `A d`. -/
theorem residualAt_step (maxDepth : Int) (alpha : ℚ) (d : List ℚ) (cells : List Addr)
    (root : CELL) (hnd : cells.Nodup) (hs : Staged maxDepth cells root) (a : Addr)
    (ha : a ∈ cells) :
    residualAt (addPotentials alpha d root cells 0) a =
      residualAt root a - productAt root cells d a * alpha := by
  obtain ⟨c, hc, -, -, -, -, hclosed⟩ := hs a ha
  obtain ⟨c1, hc1, -, hn1, hst1, hb1, hp1⟩ := addPotentials_data alpha d cells root hnd a c hc
  have hpa : potentialAt root a = c.potential := by
    simp only [potentialAt, hc, Option.map_some', Option.getD_some]
  have hpa1 : potentialAt (addPotentials alpha d root cells 0) a =
      c.potential + alpha * d.getD (cellNumber a cells) 0 := by
    simp only [potentialAt, hc1, Option.map_some', Option.getD_some]
    exact hp1 ha
  have hoff : ∀ j : Fin 8,
      offDiag (addPotentials alpha d root cells 0) c1
        (potentialAt (addPotentials alpha d root cells 0)) j =
      offDiag root c (potentialAt root) j +
        alpha * offDiag root c (fun p => d.getD (cellNumber p cells) 0) j := by
    intro j
    unfold offDiag
    rw [hn1, hst1]
    cases hj : c.neighbors.get j with
    | none => simp
    | some ref =>
      cases ref with
      | ghost g => simp
      | cell p =>
        simp only
        cases hp : dataAt root p with
        | none =>
          rw [addPotentials_none alpha d cells root hnd p hp]
          simp
        | some n =>
          obtain ⟨m, hm, hbm, -, -, -, hpm⟩ := addPotentials_data alpha d cells root hnd p n hp
          rw [hm]
          simp only [hbm]
          by_cases hb : n.boundary = false
          · rw [if_pos hb, if_pos hb, if_pos hb]
            have hpc := hclosed j p n hj hp hb
            have e1 : potentialAt (addPotentials alpha d root cells 0) p =
                n.potential + alpha * d.getD (cellNumber p cells) 0 := by
              simp only [potentialAt, hm, Option.map_some', Option.getD_some]
              exact hpm hpc
            have e2 : potentialAt root p = n.potential := by
              simp only [potentialAt, hp, Option.map_some', Option.getD_some]
            rw [e1, e2]
            ring
          · rw [if_neg hb, if_neg hb, if_neg hb]
            ring
  simp only [residualAt, productAt, hc, hc1, rowApply, hpa, hpa1, hb1, hst1, hoff,
    Finset.sum_add_distrib, ← Finset.mul_sum]
  ring

/-- What holds of the state of `solve` whenever the condition of the loop is tested: the
working set is ready and numbered, the residual is `b - A x` for the potentials `x` of
the tree, and the direction is as long as the working set. -/
def Inv (maxDepth : Int) (cells : List Addr) (st : SolveState) : Prop :=
  Staged maxDepth cells st.root ∧ Numbered cells st.root ∧
    st.residual = cells.map (residualAt st.root) ∧ st.direction.length = cells.length

/-- The states of `solve` at the test of the condition of the loop: the state `st0` the
loop is entered with, and the state after a round that the condition let through. -/
inductive Reached (s : CG_SOLVER) (junk : Int → ℚ) (cells : List Addr) (st0 : SolveState) :
    SolveState → Prop
  | start : Reached s junk cells st0 st0
  | round {st st1 : SolveState} : Reached s junk cells st0 st → solveGuard s st →
      solveBody junk cells st = some st1 → Reached s junk cells st0 st1

theorem solveBody_inv (junk : Int → ℚ) (maxDepth : Int) (cells : List Addr) (st : SolveState)
    (hnd : cells.Nodup) (hinv : Inv maxDepth cells st) :
    ∃ st1, solveBody junk cells st = some st1 ∧ Inv maxDepth cells st1 ∧ st1.i = st.i + 1 := by
  obtain ⟨hs, hnum, hres, hlen⟩ := hinv
  have hq := calcQ_spec junk st.root cells st.direction maxDepth hs hnum hlen hnd cells []
    (by simp)
  have hq0 : calcQ junk st.root st.direction cells 0 =
      some (cells.map (productAt st.root cells st.direction)) := hq
  refine ⟨advance cells st (cells.map (productAt st.root cells st.direction)), ?_, ?_, rfl⟩
  · simp only [solveBody, hq0]
  · have hpot := addPotentials_samePot
      (alphaOf st.deltaNew (dot st.direction (cells.map (productAt st.root cells st.direction))))
      st.direction cells st.root hnd
    refine ⟨hs.congr_rows hpot.to_rows, hnum.congr_pot hpot, ?_, ?_⟩
    · show newResidual _ st.residual _ = cells.map (residualAt (addPotentials _ _ _ _ _))
      unfold newResidual
      rw [hres, List.zipWith_map, List.zipWith_same]
      apply List.map_congr_left
      intro a ha
      exact (residualAt_step maxDepth _ st.direction cells st.root hnd hs a ha).symm
    · show (newDirection _ (newResidual _ st.residual _) st.direction).length = _
      unfold newDirection newResidual
      rw [List.length_zipWith, List.length_zipWith, hres, List.length_map, List.length_map, hlen]
      simp

/-- The state that `solve` enters its loop with, given the tree `r2` with the stencils and
the indices. -/
def startState (s : CG_SOLVER) (r2 : CELL) (cells : List Addr) : SolveState :=
  { root := r2, direction := cells.map (residualAt r2), residual := cells.map (residualAt r2),
    deltaNew := dot (cells.map (residualAt r2)) (cells.map (residualAt r2)),
    maxR := 2 * eps s, i := 0 }

theorem solveInit_inv (maxDepth iterations digits : Int) (root : CELL) (cells : List Addr)
    (hw : ∀ a ∈ cells, Workable maxDepth root a) (hnd : cells.Nodup)
    (hcl : Closed root cells) :
    ∃ r1, calcStencils (CG_SOLVER.new maxDepth iterations digits) root cells = some r1 ∧
      solveInit (CG_SOLVER.new maxDepth iterations digits) root cells =
        some (startState (CG_SOLVER.new maxDepth iterations digits) (setIndices r1 cells 0) cells) ∧
      Inv maxDepth cells
        (startState (CG_SOLVER.new maxDepth iterations digits) (setIndices r1 cells 0) cells) := by
  obtain ⟨r1, hcalc, hsame, hdone⟩ := calcLoop_spec maxDepth iterations digits cells root hw
  have hs1 : Staged maxDepth cells r1 := by
    intro a ha
    obtain ⟨c, k0, k1, k2, k3, hc, e0, e1, e2, e3, -, -, hst⟩ := hdone a (Or.inl ha)
    obtain ⟨c0, hc0, h0, h1, -⟩ := hw a ha
    have hra := hsame a
    rw [hc, hc0] at hra
    obtain ⟨hd, hn, -, -⟩ := wipe_fields (Option.some.inj hra)
    refine ⟨c, hc, by omega, by omega, ?_, ?_, ?_⟩
    · unfold Classified
      rw [e0, e1, e2, e3]
      exact ⟨rfl, rfl, rfl, rfl⟩
    · intro j n hn1 hb
      rw [hst j]
      simp only [slotWeight, hn1, hb, if_true]
    · intro j p n hj hp hb
      have hrp := hsame p
      rw [hp] at hrp
      rcases option_map_cases wipe _ _ hrp with ⟨e4, -⟩ | ⟨m1, m, e4, e5, e6⟩
      · cases e4
      · cases e4
        obtain ⟨-, -, hbm, -⟩ := wipe_fields e6
        exact hcl a ha c0 j p m hc0 (by rw [← hn]; exact hj) e5 (by rw [← hbm]; exact hb)
  have hs2 : Staged maxDepth cells (setIndices r1 cells 0) :=
    hs1.congr_rows (setIndices_rows cells r1 0 hnd)
  have hnum : Numbered cells (setIndices r1 cells 0) := by
    intro a ha
    obtain ⟨c, hc, -⟩ := hs1 a ha
    rw [setIndices_mem cells r1 0 a hnd ha, hc]
    refine ⟨_, rfl, ?_⟩
    show (0 : Int) + (cellNumber a cells : Nat) = _
    rw [zero_add]
  have hres := calcResidual_spec maxDepth iterations digits (setIndices r1 cells 0) cells hs2
    cells (fun _ h => h)
  refine ⟨r1, hcalc, ?_, ?_⟩
  · simp only [solveInit, hcalc, hres, startState]
  · exact ⟨hs2, hnum, rfl, List.length_map _ _⟩

theorem solveLoop_total (s : CG_SOLVER) (junk : Int → ℚ) (maxDepth : Int) (cells : List Addr)
    (st0 : SolveState) (hnd : cells.Nodup) : ∀ (fuel : Nat) (st : SolveState),
    Reached s junk cells st0 st → Inv maxDepth cells st → s.iterations - st.i ≤ fuel →
    ∃ st1, solveLoop s junk cells fuel st = some st1 ∧ Reached s junk cells st0 st1 ∧
      Inv maxDepth cells st1 ∧ ¬ solveGuard s st1 := by
  intro fuel
  induction fuel with
  | zero =>
    intro st hr hinv hf
    have hg : ¬ solveGuard s st := by
      intro hg
      have := hg.1
      simp only [Nat.cast_zero] at hf
      omega
    exact ⟨st, by simp only [solveLoop, if_neg hg], hr, hinv, hg⟩
  | succ fuel ih =>
    intro st hr hinv hf
    by_cases hg : solveGuard s st
    · obtain ⟨st1, hbody, hinv1, hi⟩ := solveBody_inv junk maxDepth cells st hnd hinv
      obtain ⟨st2, hloop, hr2, hinv2, hg2⟩ := ih st1 (Reached.round hr hg hbody) hinv1 (by
        rw [hi]
        push_cast at hf
        omega)
      exact ⟨st2, by simp only [solveLoop, if_pos hg, hbody, hloop], hr2, hinv2, hg2⟩
    · exact ⟨st, by simp only [solveLoop, if_neg hg], hr, hinv, hg⟩

theorem Reached.keeps_inv {s : CG_SOLVER} {junk : Int → ℚ} {maxDepth : Int} {cells : List Addr}
    {st0 st : SolveState} (hnd : cells.Nodup) (h0 : Inv maxDepth cells st0)
    (hr : Reached s junk cells st0 st) : Inv maxDepth cells st := by
  induction hr with
  | start => exact h0
  | round _ _ hbody ih =>
    obtain ⟨st2, hb2, hinv2, -⟩ := solveBody_inv junk maxDepth cells _ hnd ih
    rw [hbody] at hb2
    cases hb2
    exact hinv2

end CG_SOLVER

end Lumo

namespace Lumo

namespace CG_SOLVER

open CELL QUAD_POISSON

/-- Test of `Closed` for one cell of the working set. -/
def closedCell (root : CELL) (cells : List Addr) (c : CellData) : Bool :=
  (List.finRange 8).all (fun j =>
    match c.neighbors.get j with
    | some (CellRef.cell p) =>
      match dataAt root p with
      | some n => n.boundary || decide (p ∈ cells)
      | none => true
    | _ => true)

/-- Test of `Closed`. -/
def closedCheck (root : CELL) (cells : List Addr) : Bool :=
  cells.all (fun a =>
    match dataAt root a with
    | some c => closedCell root cells c
    | none => true)

theorem closed_of_check (root : CELL) (cells : List Addr) (h : closedCheck root cells = true) :
    Closed root cells := by
  intro a ha c j p n hc hj hp hb
  unfold closedCheck at h
  have h1 := List.all_eq_true.mp h a ha
  simp only [hc] at h1
  unfold closedCell at h1
  have h2 := List.all_eq_true.mp h1 j (List.mem_finRange j)
  simp only [hj, hp, hb, Bool.false_or, decide_eq_true_eq] at h2
  exact h2

theorem stencilMesh_closed : Closed stencilMesh (getEmptyLeaves stencilMesh) :=
  closed_of_check _ _ rfl

theorem stencilMesh_nodup : (getEmptyLeaves stencilMesh).Nodup := by
  rw [stencilMesh_leaves]
  decide

/-- C11: for a working set without repetition whose cells `calcStencils` can process and
that holds every non-boundary cell found in a neighbour slot of one of its cells, and
whatever is read outside of the array `_direction`: `solve` (rationals for floats) enters
its loop in a state `st0`, every round that the condition of the loop lets through
completes, the loop ends within the iteration cap, and at every test of the condition
(before the first round and after every round) the entry of the residual for the cell
number `k` of the working set is `b - (stencil[8] * potential - sum over the slots j of
stencil[j] * potential of the non-boundary neighbour in the slot j)`, that is the entry
of `b - A x` for the potentials `x` of the tree at that time. -/
theorem solve_residual_invariant (maxDepth iterations digits : Int) (junk : Int → ℚ)
    (root : CELL) (cells : List Addr) (hw : ∀ a ∈ cells, Workable maxDepth root a)
    (hnd : cells.Nodup) (hcl : Closed root cells) :
    ∃ st0 stEnd, solveInit (CG_SOLVER.new maxDepth iterations digits) root cells = some st0 ∧
      Reached (CG_SOLVER.new maxDepth iterations digits) junk cells st0 stEnd ∧
      ¬ solveGuard (CG_SOLVER.new maxDepth iterations digits) stEnd ∧
      solve (CG_SOLVER.new maxDepth iterations digits) junk root cells =
        some (stEnd.i, stEnd.root) ∧
      ∀ st, Reached (CG_SOLVER.new maxDepth iterations digits) junk cells st0 st →
        (solveGuard (CG_SOLVER.new maxDepth iterations digits) st →
          ∃ st1, solveBody junk cells st = some st1) ∧
        ∀ (k : Nat) (a : Addr), cells[k]? = some a → ∃ c, dataAt st.root a = some c ∧
          st.residual[k]? = some (c.b - (c.stencil.get 8 * c.potential -
            Finset.sum Finset.univ (fun j : Fin 8 => offDiag st.root c (potentialAt st.root) j))) := by
  obtain ⟨r1, -, hinit, hinv0⟩ := solveInit_inv maxDepth iterations digits root cells hw hnd hcl
  obtain ⟨stEnd, hloop, hreach, -, hg⟩ := solveLoop_total (CG_SOLVER.new maxDepth iterations digits)
    junk maxDepth cells _ hnd iterations.toNat _ Reached.start hinv0 (by
      show iterations - 0 ≤ _
      have := Int.self_le_toNat iterations
      omega)
  refine ⟨_, stEnd, hinit, hreach, hg, ?_, ?_⟩
  · have hloop1 : solveLoop (CG_SOLVER.new maxDepth iterations digits) junk cells
        (CG_SOLVER.new maxDepth iterations digits).iterations.toNat _ = some stEnd := hloop
    simp only [solve, hinit, hloop1]
  · intro st hr
    have hinv := Reached.keeps_inv hnd hinv0 hr
    refine ⟨?_, ?_⟩
    · intro _
      obtain ⟨st1, hb, -, -⟩ := solveBody_inv junk maxDepth cells st hnd hinv
      exact ⟨st1, hb⟩
    · intro k a hk
      obtain ⟨hs, -, hres, -⟩ := hinv
      have ha : a ∈ cells := mem_of_getElem? cells k a hk
      obtain ⟨c, hc, -⟩ := hs a ha
      refine ⟨c, hc, ?_⟩
      rw [hres, List.getElem?_map, hk]
      simp only [Option.map_some', residualAt, hc, rowApply, potentialAt, Option.getD_some]

theorem solve_residual_invariant_witness :
    ∃ st0 stEnd, solveInit (CG_SOLVER.new 2 100 8) stencilMesh (getEmptyLeaves stencilMesh) =
        some st0 ∧
      Reached (CG_SOLVER.new 2 100 8) (fun _ => 0) (getEmptyLeaves stencilMesh) st0 stEnd ∧
      ¬ solveGuard (CG_SOLVER.new 2 100 8) stEnd ∧
      solve (CG_SOLVER.new 2 100 8) (fun _ => 0) stencilMesh (getEmptyLeaves stencilMesh) =
        some (stEnd.i, stEnd.root) ∧
      ∀ st, Reached (CG_SOLVER.new 2 100 8) (fun _ => 0) (getEmptyLeaves stencilMesh) st0 st →
        (solveGuard (CG_SOLVER.new 2 100 8) st →
          ∃ st1, solveBody (fun _ => 0) (getEmptyLeaves stencilMesh) st = some st1) ∧
        ∀ (k : Nat) (a : Addr), (getEmptyLeaves stencilMesh)[k]? = some a →
          ∃ c, dataAt st.root a = some c ∧
          st.residual[k]? = some (c.b - (c.stencil.get 8 * c.potential -
            Finset.sum Finset.univ (fun j : Fin 8 => offDiag st.root c (potentialAt st.root) j))) :=
  solve_residual_invariant 2 100 8 (fun _ => 0) stencilMesh (getEmptyLeaves stencilMesh)
    stencilMesh_workable stencilMesh_nodup stencilMesh_closed

end CG_SOLVER

end Lumo

namespace Lumo

namespace CG_SOLVER

open CELL QUAD_POISSON

/-! ## One cell between four boundary cells -/

/-- The face with the slots `i` and `i1` of the cell with data `c` has a single neighbour,
with data `n`, of the depth of the cell and flagged `boundary`. -/
def BoundaryFace (root : CELL) (c : CellData) (i i1 : Fin 8) (n : CellData) : Prop :=
  (c.neighbors.get i).bind (deref root) = some n ∧ c.neighbors.get i1 = none ∧
    n.depth = c.depth ∧ n.boundary = true

theorem BoundaryFace.kind {root : CELL} {c : CellData} {i i1 : Fin 8} {n : CellData}
    (h : BoundaryFace root c i i1 n) : faceKindAt root c i i1 = some FaceKind.same := by
  obtain ⟨h0, h1, hd, -⟩ := h
  unfold faceKindAt
  rw [h0, h1]
  simp only [faceKind, hd, if_true]

theorem BoundaryFace.share {root : CELL} {c : CellData} {i i1 : Fin 8} {n : CellData}
    (h : BoundaryFace root c i i1 n) (w : ℚ) :
    boundaryShare root c w i = n.potential * w ∧ boundaryShare root c w i1 = 0 := by
  obtain ⟨h0, h1, hd, hb⟩ := h
  constructor
  · unfold boundaryShare
    rw [h0]
    simp only [hb, if_true, hd, lt_self_iff_false, if_false]
  · unfold boundaryShare
    rw [h1]
    rfl

/-- The step of the iteration for a single unknown: with the diagonal `4 w`, the
right-hand side `P w` and the potential `x0`, the new residual is 0 and the new potential
is `P / 4`. -/
theorem single_step (w x0 P : ℚ) (hw : 0 < w) :
    (P * w - 4 * w * x0) - (4 * w * (P * w - 4 * w * x0)) *
        alphaOf (0 + (P * w - 4 * w * x0) * (P * w - 4 * w * x0))
          (0 + (P * w - 4 * w * x0) * (4 * w * (P * w - 4 * w * x0))) = 0 ∧
      x0 + alphaOf (0 + (P * w - 4 * w * x0) * (P * w - 4 * w * x0))
          (0 + (P * w - 4 * w * x0) * (4 * w * (P * w - 4 * w * x0))) *
        (P * w - 4 * w * x0) = P / 4 := by
  have hw0 : w ≠ 0 := ne_of_gt hw
  by_cases hr : P * w - 4 * w * x0 = 0
  · have hx : x0 = P / 4 := by
      have h4 : w * (P - 4 * x0) = 0 := by linarith
      rcases mul_eq_zero.mp h4 with h | h
      · exact absurd h hw0
      · linarith
    rw [hr]
    simp [alphaOf, hx]
  · have hp : (0 : ℚ) + (P * w - 4 * w * x0) * (4 * w * (P * w - 4 * w * x0)) ≠ 0 := by
      rw [zero_add]
      exact mul_ne_zero hr (mul_ne_zero (mul_ne_zero (by norm_num) hw0) hr)
    have ha : alphaOf (0 + (P * w - 4 * w * x0) * (P * w - 4 * w * x0))
        (0 + (P * w - 4 * w * x0) * (4 * w * (P * w - 4 * w * x0))) = 1 / (4 * w) := by
      unfold alphaOf
      rw [if_pos (abs_pos.mpr hp)]
      field_simp
      ring
    rw [ha]
    constructor
    · field_simp
    · field_simp
      ring

theorem eps_pos (s : CG_SOLVER) : 0 < eps s := by
  unfold eps
  exact zpow_pos (by norm_num) _

theorem offDiag_boundary (r : CELL) (c : CellData) (x : Addr → ℚ) (j : Fin 8)
    (h : c.neighbors.get j = none ∨
      ∃ n, (c.neighbors.get j).bind (deref r) = some n ∧ n.boundary = true) :
    offDiag r c x j = 0 := by
  rcases h with h | ⟨n, hn, hb⟩
  · exact offDiag_none r c x j h
  · unfold offDiag
    cases hj : c.neighbors.get j with
    | none => rfl
    | some ref =>
      cases ref with
      | ghost g => rfl
      | cell p =>
        rw [hj] at hn
        have hp : dataAt r p = some n := hn
        simp only [hp, hb, Bool.true_eq_false, if_false]

theorem dot_single (x y : ℚ) : dot [x] [y] = 0 + x * y := rfl

/-- One round of the loop of `solve` for a working set of one cell whose row of `A` is the
diagonal `4 w` alone and whose right-hand side is `P w`: the loop ends after that round
and the potential of the cell is `P / 4`. -/
theorem single_round (s : CG_SOLVER) (junk : Int → ℚ) (r2 : CELL) (a : Addr) (c2 : CellData)
    (w x0 P : ℚ) (hw : 0 < w) (hit : 1 ≤ s.iterations) (hc2 : dataAt r2 a = some c2)
    (hpot : c2.potential = x0) (hres : residualAt r2 a = P * w - 4 * w * x0)
    (hq : ∀ d : ℚ, calcQ junk r2 [d] [a] 0 = some [4 * w * d]) :
    ∃ st, solveLoop s junk [a] s.iterations.toNat (startState s r2 [a]) = some st ∧
      st.i = 1 ∧ (dataAt st.root a).map (fun x => x.potential) = some (P / 4) := by
  obtain ⟨hzero, hquarter⟩ := single_step w x0 P hw
  have hst : startState s r2 [a] =
      { root := r2, direction := [P * w - 4 * w * x0], residual := [P * w - 4 * w * x0],
        deltaNew := 0 + (P * w - 4 * w * x0) * (P * w - 4 * w * x0), maxR := 2 * eps s,
        i := 0 } := by
    simp only [startState, List.map_cons, List.map_nil, hres, dot_single]
  rw [hst]
  have hguard0 : solveGuard s
      { root := r2, direction := [P * w - 4 * w * x0], residual := [P * w - 4 * w * x0],
        deltaNew := 0 + (P * w - 4 * w * x0) * (P * w - 4 * w * x0), maxR := 2 * eps s,
        i := 0 } := by
    refine ⟨?_, ?_⟩
    · show (0 : Int) < s.iterations
      omega
    · show 2 * eps s > eps s
      have := eps_pos s
      linarith
  have hbody : solveBody junk [a]
      { root := r2, direction := [P * w - 4 * w * x0], residual := [P * w - 4 * w * x0],
        deltaNew := 0 + (P * w - 4 * w * x0) * (P * w - 4 * w * x0), maxR := 2 * eps s,
        i := 0 } =
      some (advance [a]
        { root := r2, direction := [P * w - 4 * w * x0], residual := [P * w - 4 * w * x0],
          deltaNew := 0 + (P * w - 4 * w * x0) * (P * w - 4 * w * x0), maxR := 2 * eps s,
          i := 0 } [4 * w * (P * w - 4 * w * x0)]) := by
    simp only [solveBody, hq]
  have hmax : (advance [a]
        { root := r2, direction := [P * w - 4 * w * x0], residual := [P * w - 4 * w * x0],
          deltaNew := 0 + (P * w - 4 * w * x0) * (P * w - 4 * w * x0), maxR := 2 * eps s,
          i := 0 } [4 * w * (P * w - 4 * w * x0)]).maxR = 0 := by
    show maxResidual (newResidual _ [P * w - 4 * w * x0] [4 * w * (P * w - 4 * w * x0)]) = 0
    show (if (P * w - 4 * w * x0) - (4 * w * (P * w - 4 * w * x0)) *
        alphaOf (0 + (P * w - 4 * w * x0) * (P * w - 4 * w * x0))
          (dot [P * w - 4 * w * x0] [4 * w * (P * w - 4 * w * x0)]) > 0 then _ else (0 : ℚ)) = 0
    rw [dot_single, hzero]
    simp
  have hguard1 : ¬ solveGuard s (advance [a]
        { root := r2, direction := [P * w - 4 * w * x0], residual := [P * w - 4 * w * x0],
          deltaNew := 0 + (P * w - 4 * w * x0) * (P * w - 4 * w * x0), maxR := 2 * eps s,
          i := 0 } [4 * w * (P * w - 4 * w * x0)]) := by
    intro hg
    have h2 := hg.2
    rw [hmax] at h2
    have := eps_pos s
    linarith
  obtain ⟨n, hfuel⟩ : ∃ n, s.iterations.toNat = n + 1 := ⟨s.iterations.toNat - 1, by omega⟩
  refine ⟨advance [a]
        { root := r2, direction := [P * w - 4 * w * x0], residual := [P * w - 4 * w * x0],
          deltaNew := 0 + (P * w - 4 * w * x0) * (P * w - 4 * w * x0), maxR := 2 * eps s,
          i := 0 } [4 * w * (P * w - 4 * w * x0)], ?_, ?_, ?_⟩
  · rw [hfuel]
    cases n with
    | zero => simp only [solveLoop, if_pos hguard0, hbody, if_neg hguard1]
    | succ m => simp only [solveLoop, if_pos hguard0, hbody, if_neg hguard1]
  · rfl
  · show (dataAt (addPotentials _ [P * w - 4 * w * x0] r2 [a] 0) a).map _ = _
    rw [addPotentials_mem _ _ [a] r2 0 a (List.nodup_singleton a) (List.mem_singleton_self a), hc2]
    simp only [Option.map_some', cellNumber_cons_self, Nat.add_zero, List.getD_cons_zero, hpot,
      Option.some.injEq]
    show x0 + alphaOf (0 + (P * w - 4 * w * x0) * (P * w - 4 * w * x0))
      (dot [P * w - 4 * w * x0] [4 * w * (P * w - 4 * w * x0)]) * (P * w - 4 * w * x0) = P / 4
    rw [dot_single]
    exact hquarter

/-- C12: for a cell whose four faces each have a single neighbour of the depth of the cell
that is flagged `boundary`, whatever the potential of the cell is before: `solve`
(rationals for floats) on the working set that consists of that cell, with an iteration
cap of at least 1, returns 1 and leaves the potential of the cell equal to the sum of the
potentials of the four neighbours divided by 4. -/
theorem solve_single_leaf (maxDepth iterations digits : Int) (junk : Int → ℚ) (root : CELL)
    (a : Addr) (c nN nE nS nW : CellData) (hc : dataAt root a = some c)
    (h0 : 0 ≤ c.depth) (h1 : c.depth ≤ maxDepth) (hit : 1 ≤ iterations)
    (hN : BoundaryFace root c 0 1 nN) (hE : BoundaryFace root c 2 3 nE)
    (hS : BoundaryFace root c 4 5 nS) (hW : BoundaryFace root c 6 7 nW) :
    ∃ r, solve (CG_SOLVER.new maxDepth iterations digits) junk root [a] = some (1, r) ∧
      (dataAt r a).map (fun x => x.potential) =
        some ((nN.potential + nE.potential + nS.potential + nW.potential) / 4) := by
  have hslots : ∀ j : Fin 8, c.neighbors.get j = none ∨
      ∃ n, (c.neighbors.get j).bind (deref root) = some n ∧ n.boundary = true := by
    intro j
    fin_cases j
    · exact Or.inr ⟨nN, hN.1, hN.2.2.2⟩
    · exact Or.inl hN.2.1
    · exact Or.inr ⟨nE, hE.1, hE.2.2.2⟩
    · exact Or.inl hE.2.1
    · exact Or.inr ⟨nS, hS.1, hS.2.2.2⟩
    · exact Or.inl hS.2.1
    · exact Or.inr ⟨nW, hW.1, hW.2.2.2⟩
    · exact Or.inl hW.2.1
  have hw : ∀ b ∈ [a], Workable maxDepth root b := by
    intro b hb
    rw [List.mem_singleton] at hb
    subst hb
    refine ⟨c, hc, h0, h1, ?_⟩
    unfold Classified
    rw [hN.kind, hE.kind, hS.kind, hW.kind]
    exact ⟨rfl, rfl, rfl, rfl⟩
  have hcl : Closed root [a] := by
    intro b hb c2 j p n hc2 hj hp hbn
    rw [List.mem_singleton] at hb
    subst hb
    rw [hc] at hc2
    cases hc2
    rcases hslots j with h | ⟨m, hm, hbm⟩
    · rw [h] at hj
      cases hj
    · rw [hj] at hm
      have hpm : dataAt root p = some m := hm
      rw [hp] at hpm
      cases hpm
      rw [hbn] at hbm
      cases hbm
  have hnd : [a].Nodup := List.nodup_singleton a
  obtain ⟨r1, hcalc, hinit, hinv⟩ := solveInit_inv maxDepth iterations digits root [a] hw hnd hcl
  obtain ⟨r0, hcalc0, hsame, hdone⟩ := calcLoop_spec maxDepth iterations digits [a] root hw
  rw [hcalc] at hcalc0
  cases hcalc0
  obtain ⟨c1, k0, k1, k2, k3, hc1, e0, e1, e2, e3, h8, hb, -⟩ :=
    hdone a (Or.inl (List.mem_singleton_self a))
  have hra := hsame a
  rw [hc1, hc] at hra
  have hwipe : wipe c1 = wipe c := Option.some.inj hra
  obtain ⟨hd, hn, -, hpot⟩ := wipe_fields hwipe
  rw [faceKindAt_congr hsame hwipe, hN.kind] at e0
  rw [faceKindAt_congr hsame hwipe, hE.kind] at e1
  rw [faceKindAt_congr hsame hwipe, hS.kind] at e2
  rw [faceKindAt_congr hsame hwipe, hW.kind] at e3
  cases e0
  cases e1
  cases e2
  cases e3
  have h8w : c1.stencil.get 8 = 4 * 2 ^ c.depth.toNat := by
    rw [h8, hd]
    simp only [FaceKind.weight]
    ring
  have hbw : c1.b = (nN.potential + nE.potential + nS.potential + nW.potential) *
      2 ^ c.depth.toNat := by
    rw [hb, bTotal_congr hsame hwipe, hd, bTotal, Fin.sum_univ_eight,
      (hN.share _).1, (hN.share _).2, (hE.share _).1, (hE.share _).2,
      (hS.share _).1, (hS.share _).2, (hW.share _).1, (hW.share _).2]
    ring
  -- the tree with the indices
  have hcore : SameCore (setIndices r1 [a] 0) root :=
    (setIndices_rows [a] r1 0 hnd).rows_core.trans_core hsame.fields_core
  obtain ⟨c2, hc2, hst2, hb2, hp2, hn2⟩ : ∃ c2, dataAt (setIndices r1 [a] 0) a = some c2 ∧
      c2.stencil = c1.stencil ∧ c2.b = c1.b ∧ c2.potential = c1.potential ∧
      c2.neighbors = c1.neighbors := by
    rw [setIndices_mem [a] r1 0 a hnd (List.mem_singleton_self a), hc1]
    exact ⟨_, rfl, rfl, rfl, rfl, rfl⟩
  have hoff : ∀ (x : Addr → ℚ) (j : Fin 8), offDiag (setIndices r1 [a] 0) c2 x j = 0 := by
    intro x j
    apply offDiag_boundary
    rw [hn2, hn]
    rcases hslots j with h | ⟨m, hm, hbm⟩
    · exact Or.inl h
    · right
      rcases option_map_cases core _ _ (hcore.bind_core (c.neighbors.get j)) with
        ⟨-, e5⟩ | ⟨m1, m2, e4, e5, e6⟩
      · rw [hm] at e5
        cases e5
      · rw [hm] at e5
        cases e5
        obtain ⟨-, -, hbb⟩ := core_fields e6
        exact ⟨m1, e4, hbb.trans hbm⟩
  have hrow : ∀ x : Addr → ℚ, rowApply (setIndices r1 [a] 0) a c2 x =
      4 * 2 ^ c.depth.toNat * x a := by
    intro x
    unfold rowApply
    rw [Finset.sum_eq_zero (fun j _ => hoff x j), hst2, h8w, sub_zero]
  have hres : residualAt (setIndices r1 [a] 0) a =
      (nN.potential + nE.potential + nS.potential + nW.potential) * 2 ^ c.depth.toNat -
        4 * 2 ^ c.depth.toNat * c.potential := by
    unfold residualAt
    rw [hc2]
    show c2.b - rowApply _ a c2 _ = _
    rw [hrow, hb2, hbw]
    simp only [potentialAt, hc2, Option.map_some', Option.getD_some, hp2, hpot]
  obtain ⟨hs, hnumd, -, -⟩ := hinv
  have hq : ∀ d : ℚ, calcQ junk (setIndices r1 [a] 0) [d] [a] 0 =
      some [4 * 2 ^ c.depth.toNat * d] := by
    intro d
    have h := calcQ_spec junk (setIndices r1 [a] 0) [a] [d] maxDepth hs hnumd rfl hnd [a] [] rfl
    have h2 : calcQ junk (setIndices r1 [a] 0) [d] [a] 0 =
        some [productAt (setIndices r1 [a] 0) [a] [d] a] := h
    rw [h2]
    unfold productAt
    rw [hc2]
    show some [rowApply _ a c2 _] = _
    rw [hrow, cellNumber_cons_self]
    rfl
  obtain ⟨st, hloop, hi, hp⟩ := single_round (CG_SOLVER.new maxDepth iterations digits) junk
    (setIndices r1 [a] 0) a c2 (2 ^ c.depth.toNat) c.potential
    (nN.potential + nE.potential + nS.potential + nW.potential) (pow_pos (by norm_num) _) hit
    hc2 (hp2.trans hpot) hres hq
  refine ⟨st.root, ?_, hp⟩
  simp only [solve, hinit, hloop, hi]

/-- What makes a cell a boundary cell with the potential `p`. -/
def fixedAt (p : ℚ) (c : CellData) : CellData :=
  { c with boundary := true, potential := p }

/-- The unit square in four by four cells. -/
def gridTree : CELL :=
  refineAt (refineAt (refineAt sampleTree [Quadrant.q1]) [Quadrant.q2]) [Quadrant.q3]

/-- The tree `gridTree` with the neighbour slots that `buildNeighbors` fills and boundary
cells on the four faces of the cell `[q2, q0]`. -/
def gridMesh : CELL :=
  setData (fixedAt (1 / 2))
    (setData (fixedAt 0)
      (setData (fixedAt (1 / 2))
        (setData (fixedAt 1) ((getAllLeaves gridTree).foldl buildCell gridTree)
          [Quadrant.q1, Quadrant.q0])
        [Quadrant.q3, Quadrant.q1])
      [Quadrant.q1, Quadrant.q3])
    [Quadrant.q3, Quadrant.q0]

/-- The data of a cell of `gridMesh`. -/
def gridCell (a : Addr) : CellData :=
  (dataAt gridMesh a).getD (CellData.ghost 0)

set_option maxRecDepth 100000 in
theorem solve_single_leaf_witness :
    ∃ r, solve (CG_SOLVER.new 2 10 8) (fun _ => 0) gridMesh [[Quadrant.q2, Quadrant.q0]] =
        some (1, r) ∧
      (dataAt r [Quadrant.q2, Quadrant.q0]).map (fun x => x.potential) =
        some (((gridCell [Quadrant.q1, Quadrant.q0]).potential +
          (gridCell [Quadrant.q3, Quadrant.q1]).potential +
          (gridCell [Quadrant.q1, Quadrant.q3]).potential +
          (gridCell [Quadrant.q3, Quadrant.q0]).potential) / 4) :=
  solve_single_leaf 2 10 8 (fun _ => 0) gridMesh [Quadrant.q2, Quadrant.q0]
    (gridCell [Quadrant.q2, Quadrant.q0]) (gridCell [Quadrant.q1, Quadrant.q0])
    (gridCell [Quadrant.q3, Quadrant.q1]) (gridCell [Quadrant.q1, Quadrant.q3])
    (gridCell [Quadrant.q3, Quadrant.q0]) rfl (by decide) (by decide) (by decide)
    ⟨rfl, rfl, rfl, rfl⟩ ⟨rfl, rfl, rfl, rfl⟩ ⟨rfl, rfl, rfl, rfl⟩ ⟨rfl, rfl, rfl, rfl⟩

set_option maxRecDepth 100000 in
theorem gridCell_potentials :
    (gridCell [Quadrant.q1, Quadrant.q0]).potential = 1 ∧
      (gridCell [Quadrant.q3, Quadrant.q1]).potential = 1 / 2 ∧
      (gridCell [Quadrant.q1, Quadrant.q3]).potential = 0 ∧
      (gridCell [Quadrant.q3, Quadrant.q0]).potential = 1 / 2 := ⟨rfl, rfl, rfl, rfl⟩

end CG_SOLVER

end Lumo

namespace Lumo

namespace QUAD_DBM_2D

open CELL QUAD_POISSON

/-! ## The growth parent -/

/-- Modelled from the spec: a neighbour `side` to the north or to the south, if it exists,
followed by its eastern and its western neighbour, as far as they exist. -/
def sideCells (root : CELL) : Option Addr → List Addr
  | none => []
  | some n => n :: ((eastNeighbor root n).toList ++ (westNeighbor root n).toList)

/-- Modelled from the spec: the neighbours of the cell `added` in the order in which they
are examined: north, north-east, north-west, east, south, south-east, south-west, west;
north-east and north-west only when the north neighbour exists, south-east and
south-west only when the south neighbour exists; a neighbour that does not exist is left
out. -/
def examined (root : CELL) (added : Addr) : List Addr :=
  sideCells root (northNeighbor root added) ++ (eastNeighbor root added).toList ++
    sideCells root (southNeighbor root added) ++ (westNeighbor root added).toList

/-- Modelled from the spec: the last cell of a list with the state filled (`NEGATIVE`). -/
def lastFilled (root : CELL) (l : List Addr) : Option Addr :=
  (l.filter (fun a => decide (stateAt root a = CELL_STATE.NEGATIVE))).getLast?

/-- The value of `neighbor` after the cells of the list `l` have been examined one after
the other, starting from the value `init`. -/
def scanFilled (root : CELL) (l : List Addr) (init : Option Addr) : Option Addr :=
  l.foldl (fun nb a => if stateAt root a = CELL_STATE.NEGATIVE then some a else nb) init

theorem pickFilled_eq (root : CELL) (p : Option Addr) (nb : Option Addr) :
    pickFilled root p nb = scanFilled root p.toList nb := by
  cases p <;> rfl

theorem pickSide_eq (root : CELL) (side : Option Addr) (nb : Option Addr) :
    pickSide root side nb = scanFilled root (sideCells root side) nb := by
  cases side with
  | none => rfl
  | some n =>
    unfold pickSide
    simp only [pickFilled_eq, sideCells, scanFilled, List.foldl_cons, List.foldl_append,
      Option.toList, List.foldl_nil]

theorem growthParent_eq (root : CELL) (added : Addr) :
    growthParent root added = scanFilled root (examined root added) none := by
  unfold growthParent examined
  simp only [pickFilled_eq, pickSide_eq, scanFilled, List.foldl_append]

theorem scanFilled_snoc (root : CELL) (l : List Addr) (a : Addr) (init : Option Addr) :
    scanFilled root (l ++ [a]) init =
      if stateAt root a = CELL_STATE.NEGATIVE then some a else scanFilled root l init := by
  simp only [scanFilled, List.foldl_append, List.foldl_cons, List.foldl_nil]

theorem scanFilled_none (root : CELL) (l : List Addr) :
    scanFilled root l none = lastFilled root l := by
  induction l using List.reverseRecOn with
  | nil => rfl
  | append_singleton l a ih =>
    rw [scanFilled_snoc, ih]
    unfold lastFilled
    rw [List.filter_append]
    by_cases h : stateAt root a = CELL_STATE.NEGATIVE
    · rw [if_pos h]
      simp [List.filter, h]
    · rw [if_neg h]
      simp [List.filter, h]

theorem lastFilled_mem (root : CELL) (l : List Addr) (p : Addr) (h : lastFilled root l = some p) :
    p ∈ l ∧ stateAt root p = CELL_STATE.NEGATIVE := by
  unfold lastFilled at h
  have hm := List.mem_of_getLast?_eq_some h
  rw [List.mem_filter] at hm
  exact ⟨hm.1, by simpa using hm.2⟩

theorem lastFilled_cons (root : CELL) (n : Addr) (l : List Addr) :
    lastFilled root (n :: l) =
      match lastFilled root l with
      | some p => some p
      | none => if stateAt root n = CELL_STATE.NEGATIVE then some n else none := by
  unfold lastFilled
  by_cases h : stateAt root n = CELL_STATE.NEGATIVE
  · simp only [List.filter_cons, h, decide_True, if_true]
    cases hl : List.filter (fun a => decide (stateAt root a = CELL_STATE.NEGATIVE)) l with
    | nil => rfl
    | cons x xs =>
      simp only [List.getLast?_cons_cons]
      rw [List.getLast?_eq_getLast _ (List.cons_ne_nil x xs)]
  · simp only [List.filter_cons, h, decide_False, if_false, Bool.false_eq_true]
    cases (List.filter (fun a => decide (stateAt root a = CELL_STATE.NEGATIVE)) l).getLast? <;> rfl

theorem lastFilled_none (root : CELL) (l : List Addr) :
    lastFilled root l = none ↔ ∀ q ∈ l, stateAt root q ≠ CELL_STATE.NEGATIVE := by
  unfold lastFilled
  rw [List.getLast?_eq_none_iff, List.filter_eq_nil_iff]
  simp

/-- The cell a lookup returns, with its data: it lies across the face and is a proper
rectangle. -/
theorem lookup_data {root : CELL} (hwf : WellFormed root) (d : Dir) (c n : Addr) (dc : CellData)
    (hc : dataAt root c = some dc) (hn : neighbor root d c = some n) :
    ∃ dn, dataAt root n = some dn ∧ Across d dc dn ∧ dn.south < dn.north ∧ dn.west < dn.east := by
  obtain ⟨dn, h1, h2, -⟩ := neighbor_spec hwf d c n dc hc hn
  obtain ⟨p1, p2⟩ := hwf.proper n dn h1
  exact ⟨dn, h1, h2, p1, p2⟩

/-- The northern neighbour of a cell is none of the other cells that are examined. -/
theorem north_not_other {root : CELL} (hwf : WellFormed root) (added n : Addr) (da : CellData)
    (hc : dataAt root added = some da) (hn : northNeighbor root added = some n) :
    n ∉ (eastNeighbor root n).toList ++ (westNeighbor root n).toList ++
      (eastNeighbor root added).toList ++ sideCells root (southNeighbor root added) ++
      (westNeighbor root added).toList := by
  obtain ⟨dn, hdn, an, pn1, pn2⟩ := lookup_data hwf Dir.north added n da hc hn
  obtain ⟨pa1, pa2⟩ := hwf.proper added da hc
  simp only [Across] at an
  obtain ⟨an1, an2, an3⟩ := an
  intro hm
  simp only [List.mem_append, Option.mem_toList, Option.mem_def] at hm
  rcases hm with (((h | h) | h) | h) | h
  · obtain ⟨dx, hdx, ax, -, -⟩ := lookup_data hwf Dir.east n n dn hdn h
    rw [hdn] at hdx
    cases hdx
    simp only [Across] at ax
    linarith [ax.1]
  · obtain ⟨dx, hdx, ax, -, -⟩ := lookup_data hwf Dir.west n n dn hdn h
    rw [hdn] at hdx
    cases hdx
    simp only [Across] at ax
    linarith [ax.1]
  · obtain ⟨dx, hdx, ax, -, -⟩ := lookup_data hwf Dir.east added n da hc h
    rw [hdn] at hdx
    cases hdx
    simp only [Across] at ax
    linarith [ax.1]
  · cases hs : southNeighbor root added with
    | none =>
      rw [hs] at h
      cases h
    | some s =>
      rw [hs] at h
      obtain ⟨ds, hds, as, ps1, ps2⟩ := lookup_data hwf Dir.south added s da hc hs
      simp only [Across] at as
      simp only [sideCells, List.mem_cons, List.mem_append, Option.mem_toList,
        Option.mem_def] at h
      rcases h with h | h | h
      · subst h
        rw [hdn] at hds
        cases hds
        linarith [as.1]
      · obtain ⟨dx, hdx, ax, -, -⟩ := lookup_data hwf Dir.east s n ds hds h
        rw [hdn] at hdx
        cases hdx
        simp only [Across] at ax
        linarith [ax.1, ax.2.1, as.1]
      · obtain ⟨dx, hdx, ax, -, -⟩ := lookup_data hwf Dir.west s n ds hds h
        rw [hdn] at hdx
        cases hdx
        simp only [Across] at ax
        linarith [ax.1, ax.2.1, as.1]
  · obtain ⟨dx, hdx, ax, -, -⟩ := lookup_data hwf Dir.west added n da hc h
    rw [hdn] at hdx
    cases hdx
    simp only [Across] at ax
    linarith [ax.1]

/-- C18: the growth parent that `addParticle` finds for the cell `added` is the last cell
with the state filled among the neighbours in the order north, north-east, north-west,
east, south, south-east, south-west, west (none if no neighbour is filled); a filled
west neighbour is the parent whatever the other neighbours are, and the north neighbour
is the parent exactly when it is filled and no other neighbour is. -/
theorem growthParent_last_filled (root : CELL) (added : Addr) (da : CellData)
    (hwf : WellFormed root) (hc : dataAt root added = some da) :
    growthParent root added = lastFilled root (examined root added) ∧
    (∀ w, westNeighbor root added = some w → stateAt root w = CELL_STATE.NEGATIVE →
      growthParent root added = some w) ∧
    (∀ n, northNeighbor root added = some n →
      (growthParent root added = some n ↔
        stateAt root n = CELL_STATE.NEGATIVE ∧
          ∀ q ∈ (examined root added).tail, stateAt root q ≠ CELL_STATE.NEGATIVE)) := by
  have hmain : growthParent root added = lastFilled root (examined root added) := by
    rw [growthParent_eq, scanFilled_none]
  refine ⟨hmain, ?_, ?_⟩
  · intro w hw hs
    unfold growthParent
    rw [hw]
    simp only [pickFilled, hs, if_true]
  · intro n hn
    have hex : examined root added = n :: ((eastNeighbor root n).toList ++
        (westNeighbor root n).toList ++ (eastNeighbor root added).toList ++
        sideCells root (southNeighbor root added) ++ (westNeighbor root added).toList) := by
      unfold examined
      rw [hn]
      simp only [sideCells, List.cons_append, List.append_assoc]
    have hnot := north_not_other hwf added n da hc hn
    rw [hmain, hex, List.tail_cons, lastFilled_cons]
    constructor
    · intro h
      cases hl : lastFilled root ((eastNeighbor root n).toList ++
          (westNeighbor root n).toList ++ (eastNeighbor root added).toList ++
          sideCells root (southNeighbor root added) ++ (westNeighbor root added).toList) with
      | none =>
        rw [hl] at h
        simp only at h
        refine ⟨?_, (lastFilled_none root _).mp hl⟩
        by_contra hneg
        rw [if_neg hneg] at h
        cases h
      | some p =>
        rw [hl] at h
        simp only [Option.some.injEq] at h
        subst h
        exact absurd (lastFilled_mem root _ p hl).1 hnot
    · intro h
      rw [(lastFilled_none root _).mpr h.2]
      simp only [h.1, if_true]

theorem keepsGeo_markFilled : KeepsGeo markFilled :=
  fun _ => ⟨rfl, rfl, rfl, rfl, rfl⟩

/-- The four by four tree with the cells north and west of the cell `[q2, q0]` filled. -/
def filledTree : CELL :=
  setData markFilled (setData markFilled CG_SOLVER.gridTree [Quadrant.q1, Quadrant.q0])
    [Quadrant.q3, Quadrant.q0]

theorem gridTree_wellFormed : WellFormed CG_SOLVER.gridTree :=
  ((sampleTree_wellFormed.refineAt_wf _).refineAt_wf _).refineAt_wf _

theorem filledTree_wellFormed : WellFormed filledTree :=
  ((Evolve.of_set (M := 2) _ _ _ keepsGeo_markFilled).trans_evolve
    (Evolve.of_set (M := 2) _ _ _ keepsGeo_markFilled)).wf_evolve gridTree_wellFormed

set_option maxRecDepth 100000 in
theorem growthParent_last_filled_witness :
    growthParent filledTree [Quadrant.q2, Quadrant.q0] =
      lastFilled filledTree (examined filledTree [Quadrant.q2, Quadrant.q0]) ∧
    (∀ w, westNeighbor filledTree [Quadrant.q2, Quadrant.q0] = some w →
      stateAt filledTree w = CELL_STATE.NEGATIVE →
      growthParent filledTree [Quadrant.q2, Quadrant.q0] = some w) ∧
    (∀ n, northNeighbor filledTree [Quadrant.q2, Quadrant.q0] = some n →
      (growthParent filledTree [Quadrant.q2, Quadrant.q0] = some n ↔
        stateAt filledTree n = CELL_STATE.NEGATIVE ∧
          ∀ q ∈ (examined filledTree [Quadrant.q2, Quadrant.q0]).tail,
            stateAt filledTree q ≠ CELL_STATE.NEGATIVE)) :=
  growthParent_last_filled filledTree [Quadrant.q2, Quadrant.q0]
    ((dataAt filledTree [Quadrant.q2, Quadrant.q0]).getD (CellData.ghost 0))
    filledTree_wellFormed rfl

end QUAD_DBM_2D

end Lumo

namespace Lumo

namespace QUAD_DBM_2D

open CELL QUAD_POISSON

variable {F : Type}

/-! ## hitGround -/

/-- The state of a simulation on four by four cells, maximum depth 2, before a cell has
been added, with the tree `root` and the graph `dag`. -/
def gridState (root : CELL) (dag : DAG ℚ) : QUAD_DBM_2D ℚ :=
  { xRes := 4, yRes := 4, bottomHit := 0,
    mesh := { root := root, maxRes := 4, maxDepth := 2, noise := List.replicate 16 false,
              smallestLeaves := [], emptyLeaves := [] },
    solver := CG_SOLVER.new 2 10 8, dag := dag, candidates := [], skips := 10,
    totalParticles := 0, skipSolve := 0, firstSolve := true, savedIterations := 10 }

/-- C16, the case in which the code leaves the claim: on the four by four mesh with all
cells at the maximum depth and no terminator, `hitGround` for the cell `[q0, q3]` of the
west column dereferences a null pointer: the north neighbour `[q3, q0]` exists, its
western neighbour does not, and `north->westNeighbor()->state` is read. -/
theorem hitGround_west_column :
    hitGround DAG.sampleShading (gridState CG_SOLVER.gridTree (DAG.new 4 4))
      (some [Quadrant.q0, Quadrant.q3]) = none := rfl

theorem keepsGeo_markTerminator : KeepsGeo markTerminator :=
  fun _ => ⟨rfl, rfl, rfl, rfl, rfl⟩

end QUAD_DBM_2D

end Lumo

namespace Lumo

namespace QUAD_POISSON

open CELL

/-! ## insert returns -/

/-- The loop of `insert` that walks down to the maximum level ends, whatever the
position is, on a cell of the tree. -/
theorem descend_total (x y : ℚ) (M : Nat) :
    ∀ (steps : Nat) (root : CELL) (cur : Addr) (existed : Bool),
      cur.length + steps ≤ M → (cellAt root cur).isSome = true →
      ∃ root1 cur1 ex1, descend x y steps root cur existed = some (root1, cur1, ex1) ∧
        Evolve M root root1 ∧ cur1.length = cur.length + steps ∧
        (cellAt root1 cur1).isSome = true ∧ (ex1 = false → existed = false ∨ cur1 ≠ []) := by
  intro steps
  induction steps with
  | zero =>
    intro root cur existed _ hc
    exact ⟨root, cur, existed, rfl, Evolve.refl _, rfl, hc, fun h => Or.inl h⟩
  | succ steps ih =>
    intro root cur existed hlen hcell
    unfold descend
    obtain ⟨c, hc⟩ := Option.isSome_iff_exists.mp hcell
    simp only [hc]
    have hne : ∀ (q : Quadrant) (l : Addr), l.length = (q :: cur).length + steps → l ≠ [] := by
      intro q l hl e
      rw [e] at hl
      simp only [List.length_nil, List.length_cons] at hl
      omega
    by_cases hk : (c.child (quadrantOf c.data x y)).isNone = true
    · rw [if_pos hk]
      have hkids : kidsAt (refineAt root cur) cur = true := by
        rw [kidsAt_refineAt]
        simp [hcell]
      obtain ⟨dq, hdq⟩ := dataAt_child (quadrantOf c.data x y) hkids
      obtain ⟨root1, cur1, ex1, e, ev, w5, w6, -⟩ :=
        ih (refineAt root cur) (quadrantOf c.data x y :: cur) false
          (by simp only [List.length_cons]; omega) (by rw [← dataAt_isSome, hdq]; rfl)
      refine ⟨root1, cur1, ex1, e, Evolve.refine_then root root1 cur (by omega) ev, ?_, w6,
        fun _ => Or.inr (hne _ _ w5)⟩
      rw [w5]
      simp only [List.length_cons]
      omega
    · rw [if_neg hk]
      have hkids : kidsAt root cur = true := by
        unfold kidsAt
        rw [hc]
        simp only []
        rw [← child_isSome c (quadrantOf c.data x y)]
        cases h : c.child (quadrantOf c.data x y) with
        | none => simp [h] at hk
        | some _ => rfl
      obtain ⟨dq, hdq⟩ := dataAt_child (quadrantOf c.data x y) hkids
      obtain ⟨root1, cur1, ex1, e, ev, w5, w6, -⟩ :=
        ih root (quadrantOf c.data x y :: cur) existed
          (by simp only [List.length_cons]; omega) (by rw [← dataAt_isSome, hdq]; rfl)
      refine ⟨root1, cur1, ex1, e, ev, ?_, w6, fun _ => Or.inr (hne _ _ w5)⟩
      rw [w5]
      simp only [List.length_cons]
      omega

/-- On a mesh that is in order `insert` returns, whatever the position is, and leaves the
mesh in order. -/
theorem insert_total (M : Nat) (m : QUAD_POISSON) (x y : ℚ) (hok : MeshOK M m) :
    ∃ m1 c, QUAD_POISSON.insert m x y = some (m1, c) ∧ MeshOK M m1 ∧
      (cellAt m1.root c).isSome = true := by
  obtain ⟨hwf, hd0, hh, hmd⟩ := hok
  have hM : m.maxDepth.toNat = M := by rw [hmd]; simp
  obtain ⟨root1, cur, ex, e, ev1, w5, hcell1, hex⟩ :=
    descend_total x y M M m.root [] true (by simp) (by rw [cellAt_nil]; rfl)
  simp only [List.length_nil, zero_add] at w5
  have hok0 : MeshOK M m := ⟨hwf, hd0, hh, hmd⟩
  have hok1 : MeshOK M { m with root := root1 } := hok0.evolve ev1 rfl
  obtain ⟨m2, e2, ev2, hm2⟩ : ∃ m2,
      (if ex = true then some { m with root := root1 }
        else noteSiblings { m with root := root1 } cur) = some m2 ∧
      Evolve M root1 m2.root ∧ m2.maxDepth = m.maxDepth := by
    cases hx : ex with
    | true => exact ⟨{ m with root := root1 }, rfl, Evolve.refl _, rfl⟩
    | false =>
      have hcur : cur ≠ [] := by
        rcases hex hx with h | h
        · cases h
        · exact h
      obtain ⟨m2, e2, ev2, hm2⟩ := noteSiblings_spec M { m with root := root1 } cur hcur
      exact ⟨m2, by simpa using e2, ev2, hm2⟩
  have hok2 := hok1.evolve ev2 hm2
  have hc2 := ev2.isCell_evolve hcell1
  obtain ⟨m3, north, e3, ev3, hm3, hn3⟩ := forceOrtho_spec M Dir.north cur w5 m2 hok2 hc2
  have hok3 := hok2.evolve ev3 hm3
  have hc3 := ev3.isCell_evolve hc2
  obtain ⟨m4, south, e4, ev4, hm4, hn4⟩ := forceOrtho_spec M Dir.south cur w5 m3 hok3 hc3
  have hok4 := hok3.evolve ev4 hm4
  have hc4 := ev4.isCell_evolve hc3
  obtain ⟨m5, west, e5, ev5, hm5, -⟩ := forceOrtho_spec M Dir.west cur w5 m4 hok4 hc4
  have hok5 := hok4.evolve ev5 hm5
  have hc5 := ev5.isCell_evolve hc4
  obtain ⟨m6, east, e6, ev6, hm6, -⟩ := forceOrtho_spec M Dir.east cur w5 m5 hok5 hc5
  have hok6 := hok5.evolve ev6 hm6
  have hc6 := ev6.isCell_evolve hc5
  obtain ⟨m7, e7, ev7, hm7⟩ := forceDiagPair_spec M Quadrant.q2 Quadrant.q3 m6 north hok6
    (fun b hb => ev6.isCell_evolve (ev5.isCell_evolve (ev4.isCell_evolve (hn3 b hb).1)))
  have hok7 := hok6.evolve ev7 hm7
  obtain ⟨m8, e8, ev8, hm8⟩ := forceDiagPair_spec M Quadrant.q1 Quadrant.q0 m7 south hok7
    (fun b hb => ev7.isCell_evolve (ev6.isCell_evolve (ev5.isCell_evolve (hn4 b hb).1)))
  have hok8 := hok7.evolve ev8 hm8
  refine ⟨m8, cur, ?_, hok8, ev8.isCell_evolve (ev7.isCell_evolve hc6)⟩
  unfold QUAD_POISSON.insert
  simp only [hM, e, e2, e3, e4, e5, e6, e7, e8]

end QUAD_POISSON

end Lumo

namespace Lumo

namespace QUAD_DBM_2D

open CELL QUAD_POISSON

variable {F : Type}

/-! ## readImage -/

theorem keepsGeo_candidate : KeepsGeo (fun c : CellData => { c with candidate := true }) :=
  fun _ => ⟨rfl, rfl, rfl, rfl, rfl⟩

theorem keepsGeo_markInitial : KeepsGeo markInitial :=
  fun _ => ⟨rfl, rfl, rfl, rfl, rfl⟩

theorem keepsGeo_markAttractor : KeepsGeo markAttractor :=
  fun _ => ⟨rfl, rfl, rfl, rfl, rfl⟩

theorem keepsGeo_markRepulsor : KeepsGeo markRepulsor :=
  fun _ => ⟨rfl, rfl, rfl, rfl, rfl⟩

theorem noteCandidate_ok (M : Nat) (st : QUAD_DBM_2D F) (p : Option Addr)
    (hok : MeshOK M st.mesh) : MeshOK M (noteCandidate st p).mesh := by
  unfold noteCandidate
  cases p with
  | none => exact hok
  | some a =>
    simp only
    cases dataAt st.mesh.root a with
    | none => exact hok
    | some d =>
      simp only
      by_cases hc : d.candidate = false
      · rw [if_pos hc]
        exact hok.evolve (Evolve.of_set _ _ _ keepsGeo_candidate) rfl
      · rw [if_neg hc]
        exact hok

theorem noteSide_ok (M : Nat) (st : QUAD_DBM_2D F) (side : Addr) (hok : MeshOK M st.mesh) :
    MeshOK M (noteSide st side).mesh :=
  noteCandidate_ok M _ _ (noteCandidate_ok M _ _ (noteCandidate_ok M _ _ hok))

theorem checkForCandidates_ok (M : Nat) (st : QUAD_DBM_2D F) (cell : Addr)
    (hok : MeshOK M st.mesh) : MeshOK M (checkForCandidates st cell).mesh := by
  unfold checkForCandidates
  have h1 : MeshOK M (match northNeighbor st.mesh.root cell with
      | some north =>
        if depthAt st.mesh.root north = st.mesh.maxDepth then noteSide st north else st
      | none => st).mesh := by
    cases northNeighbor st.mesh.root cell with
    | none => exact hok
    | some north =>
      simp only
      by_cases hd : depthAt st.mesh.root north = st.mesh.maxDepth
      · rw [if_pos hd]
        exact noteSide_ok M st north hok
      · rw [if_neg hd]
        exact hok
  have h2 := noteCandidate_ok M _ (eastNeighbor st.mesh.root cell) h1
  apply noteCandidate_ok
  cases southNeighbor st.mesh.root cell with
  | none => exact h2
  | some south => exact noteSide_ok M _ south h2

theorem insertMarked_ok (M : Nat) (mark : CellData → CellData) (hg : KeepsGeo mark)
    (st : QUAD_DBM_2D F) (x y : Int) (hok : MeshOK M st.mesh) :
    ∃ st1 c, insertMarked mark st x y = some (st1, c) ∧ MeshOK M st1.mesh := by
  obtain ⟨m1, c, e, hok1, -⟩ := insert_total M st.mesh ((x : ℚ) / st.mesh.maxRes)
    ((y : ℚ) / st.mesh.maxRes) hok
  refine ⟨{ st with mesh := { m1 with root := setData mark m1.root c } }, c, ?_, ?_⟩
  · simp only [insertMarked, e]
  · exact hok1.evolve (Evolve.of_set _ _ _ hg) rfl

theorem maskAt_inside (junk : Int → Bool) (mask : List Bool) (i : Nat) (h : i < mask.length) :
    maskAt junk mask (i : Int) = mask.getD i false := by
  unfold maskAt
  rw [if_pos ⟨by omega, by omega⟩, Int.toNat_ofNat]

/-- The flags `initialFound` and `terminateFound` when the pixels before the number `i`
have been looked at. -/
def Found (initial terminators : List Bool) (i : Nat) (s : Scan F) : Prop :=
  s.initialFound = (initial.take i).any id ∧ s.terminateFound = (terminators.take i).any id

theorem any_take_succ (mask : List Bool) (i : Nat) (h : i < mask.length) :
    (mask.take (i + 1)).any id = ((mask.take i).any id || mask.getD i false) := by
  rw [List.take_succ, List.any_append, List.getElem?_eq_getElem h, List.getD_eq_getElem _ _ h]
  simp

/-- The body of the inner loop of `readImage` for a pixel inside the masks: it completes
and brings the flags up to date. -/
theorem pixelStep_spec (junk : Int → Bool) (initial attractors repulsors terminators : List Bool)
    (w h x y : Int) (M i : Nat) (s : Scan F) (hok : MeshOK M s.st.mesh)
    (hi : i < initial.length) (ht : i < terminators.length)
    (hf : Found initial terminators i s) :
    ∃ s1, pixelStep junk initial attractors repulsors terminators w h x y i s = some s1 ∧
      MeshOK M s1.st.mesh ∧ Found initial terminators (i + 1) s1 := by
  obtain ⟨hf1, hf2⟩ := hf
  -- the start pixel
  obtain ⟨s1, e1, ok1, a1, b1⟩ : ∃ s1, initialStep junk initial x y i s = some s1 ∧
      MeshOK M s1.st.mesh ∧ s1.initialFound = (s.initialFound || initial.getD i false) ∧
      s1.terminateFound = s.terminateFound := by
    unfold initialStep
    rw [maskAt_inside junk initial i hi]
    by_cases hp : initial.getD i false = true
    · rw [if_pos hp]
      obtain ⟨st1, c, e, ok⟩ := insertMarked_ok M markInitial keepsGeo_markInitial s.st x y hok
      rw [e]
      refine ⟨{ s with st := checkForCandidates st1 c, initialFound := true }, rfl,
        checkForCandidates_ok M st1 c ok, ?_, rfl⟩
      show true = (s.initialFound || initial.getD i false)
      rw [hp, Bool.or_true]
    · rw [if_neg hp]
      refine ⟨s, rfl, hok, ?_, rfl⟩
      rw [Bool.eq_false_iff.mpr hp, Bool.or_false]
  -- the attractor pixel
  obtain ⟨s2, e2, ok2, a2, b2⟩ : ∃ s2, attractorStep junk attractors x y i s1 = some s2 ∧
      MeshOK M s2.st.mesh ∧ s2.initialFound = s1.initialFound ∧
      s2.terminateFound = s1.terminateFound := by
    unfold attractorStep
    by_cases hp : maskAt junk attractors i = true
    · rw [if_pos hp]
      obtain ⟨st1, c, e, ok⟩ := insertMarked_ok M markAttractor keepsGeo_markAttractor s1.st x y ok1
      rw [e]
      exact ⟨{ s1 with st := st1 }, rfl, ok, rfl, rfl⟩
    · rw [if_neg hp]
      exact ⟨s1, rfl, ok1, rfl, rfl⟩
  -- the repulsor pixel
  obtain ⟨s3, e3, ok3, a3, b3⟩ : ∃ s3, repulsorStep junk repulsors w h x y i s2 = some s3 ∧
      MeshOK M s3.st.mesh ∧ s3.initialFound = s2.initialFound ∧
      s3.terminateFound = s2.terminateFound := by
    unfold repulsorStep
    by_cases hp : maskAt junk repulsors i = true ∧
        repulsorEdge junk repulsors s2.st.xRes w h x y i = true
    · rw [if_pos hp]
      obtain ⟨st1, c, e, ok⟩ := insertMarked_ok M markRepulsor keepsGeo_markRepulsor s2.st x y ok2
      rw [e]
      exact ⟨{ s2 with st := st1 }, rfl, ok, rfl, rfl⟩
    · rw [if_neg hp]
      exact ⟨s2, rfl, ok2, rfl, rfl⟩
  -- the terminator pixel
  obtain ⟨s4, e4, ok4, a4, b4⟩ : ∃ s4, terminatorStep junk terminators x y i s3 = some s4 ∧
      MeshOK M s4.st.mesh ∧ s4.initialFound = s3.initialFound ∧
      s4.terminateFound = (s3.terminateFound || terminators.getD i false) := by
    unfold terminatorStep
    rw [maskAt_inside junk terminators i ht]
    by_cases hp : terminators.getD i false = true
    · rw [if_pos hp]
      obtain ⟨st1, c, e, ok⟩ := insertMarked_ok M markTerminator keepsGeo_markTerminator s3.st x y ok3
      rw [e]
      refine ⟨{ s3 with st := st1, terminateFound := true }, rfl, ok, rfl, ?_⟩
      show true = (s3.terminateFound || terminators.getD i false)
      rw [hp, Bool.or_true]
    · rw [if_neg hp]
      refine ⟨s3, rfl, ok3, rfl, ?_⟩
      rw [Bool.eq_false_iff.mpr hp, Bool.or_false]
  refine ⟨s4, by simp only [pixelStep, e1, e2, e3, e4], ok4, ?_, ?_⟩
  · rw [a4, a3, a2, a1, hf1, any_take_succ initial i hi]
  · rw [b4, b3, b2, b1, hf2, any_take_succ terminators i ht]

theorem rowLoop_spec (junk : Int → Bool) (initial attractors repulsors terminators : List Bool)
    (w h y : Int) (M : Nat) : ∀ (xs : List Nat) (i : Nat) (s : Scan F), MeshOK M s.st.mesh →
    i + xs.length ≤ initial.length → i + xs.length ≤ terminators.length →
    Found initial terminators i s →
    ∃ s1, rowLoop junk initial attractors repulsors terminators w h y xs i s =
        some (((i + xs.length : Nat) : Int), s1) ∧
      MeshOK M s1.st.mesh ∧ Found initial terminators (i + xs.length) s1 := by
  intro xs
  induction xs with
  | nil =>
    intro i s hok _ _ hf
    exact ⟨s, rfl, hok, hf⟩
  | cons x xs ih =>
    intro i s hok hi ht hf
    simp only [List.length_cons] at hi ht
    obtain ⟨s1, e1, ok1, f1⟩ := pixelStep_spec junk initial attractors repulsors terminators
      w h x y M i s hok (by omega) (by omega) hf
    obtain ⟨s2, e2, ok2, f2⟩ := ih (i + 1) s1 ok1 (by omega) (by omega) f1
    have hidx : ((i : Nat) : Int) + 1 = ((i + 1 : Nat) : Int) := by push_cast; rfl
    have hlen : i + (x :: xs).length = i + 1 + xs.length := by
      simp only [List.length_cons]
      omega
    refine ⟨s2, ?_, ok2, by rw [hlen]; exact f2⟩
    simp only [rowLoop, e1, hidx, e2, hlen]

theorem imageLoop_spec (junk : Int → Bool) (initial attractors repulsors terminators : List Bool)
    (w h : Int) (M : Nat) : ∀ (ys : List Nat) (i : Nat) (s : Scan F), MeshOK M s.st.mesh →
    i + ys.length * w.toNat ≤ initial.length → i + ys.length * w.toNat ≤ terminators.length →
    Found initial terminators i s →
    ∃ s1, imageLoop junk initial attractors repulsors terminators w h ys i s =
        some (((i + ys.length * w.toNat : Nat) : Int), s1) ∧
      MeshOK M s1.st.mesh ∧ Found initial terminators (i + ys.length * w.toNat) s1 := by
  intro ys
  induction ys with
  | nil =>
    intro i s hok _ _ hf
    refine ⟨s, ?_, hok, by simpa using hf⟩
    simp [imageLoop]
  | cons y ys ih =>
    intro i s hok hi ht hf
    have hlen : i + (y :: ys).length * w.toNat = i + w.toNat + ys.length * w.toNat := by
      simp only [List.length_cons]
      ring
    rw [hlen] at hi ht
    obtain ⟨s1, e1, ok1, f1⟩ := rowLoop_spec junk initial attractors repulsors terminators w h y M
      (List.range w.toNat) i s hok (by rw [List.length_range]; omega)
      (by rw [List.length_range]; omega) hf
    rw [List.length_range] at e1 f1
    obtain ⟨s2, e2, ok2, f2⟩ := ih (i + w.toNat) s1 ok1 hi ht f1
    refine ⟨s2, ?_, ok2, by rw [hlen]; exact f2⟩
    simp only [imageLoop, e1, e2, hlen]

theorem any_id_false (mask : List Bool) : mask.any id = false ↔ ∀ p ∈ mask, p = false := by
  induction mask with
  | nil => simp
  | cons a l ih => simp [List.any_cons, ih]

/-- C13: on a mesh that is in order, for masks of which the start mask and the terminator
mask have `xRes * yRes` pixels: `readImage` returns, and it returns false if and only if
the start mask has no set pixel or the terminator mask has no set pixel (otherwise it
returns true). -/
theorem readImage_false_iff (junk : Int → Bool) (st : QUAD_DBM_2D F) (M : Nat)
    (initial attractors repulsors terminators : List Bool) (w h : Int)
    (hok : MeshOK M st.mesh) (hi : initial.length = h.toNat * w.toNat)
    (ht : terminators.length = h.toNat * w.toNat) :
    ∃ res st1, readImage junk st initial attractors repulsors terminators w h = some (res, st1) ∧
      (res = false ↔ (∀ p ∈ initial, p = false) ∨ (∀ p ∈ terminators, p = false)) := by
  obtain ⟨s1, e1, -, f1, f2⟩ := imageLoop_spec junk initial attractors repulsors terminators w h M
    (List.range h.toNat) 0
    { st := { st with dag := { st.dag with inputWidth := w, inputHeight := h } },
      initialFound := false, terminateFound := false } hok
    (by rw [List.length_range, hi]; omega) (by rw [List.length_range, ht]; omega)
    ⟨by simp, by simp⟩
  rw [List.length_range, Nat.zero_add] at f1 f2
  rw [← hi, List.take_length] at f1
  rw [← ht, List.take_length] at f2
  have e2 : imageLoop junk initial attractors repulsors terminators w h (List.range h.toNat) 0
      { st := { st with dag := { st.dag with inputWidth := w, inputHeight := h } },
        initialFound := false, terminateFound := false } =
      some (((0 + (List.range h.toNat).length * w.toNat : Nat) : Int), s1) := e1
  unfold readImage
  rw [e2]
  simp only
  by_cases c1 : s1.initialFound = false
  · rw [if_pos c1]
    refine ⟨false, s1.st, rfl, ?_⟩
    rw [f1] at c1
    simp only [true_iff]
    exact Or.inl ((any_id_false initial).mp c1)
  · rw [if_neg c1]
    have n1 : ¬ ∀ p ∈ initial, p = false := by
      intro hall
      rw [f1] at c1
      exact c1 ((any_id_false initial).mpr hall)
    by_cases c2 : s1.terminateFound = false
    · rw [if_pos c2]
      refine ⟨false, s1.st, rfl, ?_⟩
      rw [f2] at c2
      simp only [true_iff]
      exact Or.inr ((any_id_false terminators).mp c2)
    · rw [if_neg c2]
      have n2 : ¬ ∀ p ∈ terminators, p = false := by
        intro hall
        rw [f2] at c2
        exact c2 ((any_id_false terminators).mpr hall)
      refine ⟨true, s1.st, rfl, ?_⟩
      constructor
      · intro hx
        cases hx
      · intro hx
        rcases hx with hx | hx
        · exact absurd hx n1
        · exact absurd hx n2

theorem gridTree_height : height CG_SOLVER.gridTree ≤ 2 := by decide

theorem gridState_ok (dag : DAG ℚ) : MeshOK 2 (gridState CG_SOLVER.gridTree dag).mesh :=
  ⟨gridTree_wellFormed, rfl, gridTree_height, rfl⟩

theorem readImage_false_iff_witness :
    ∃ res st1, readImage (fun _ => false) (gridState CG_SOLVER.gridTree (DAG.new 4 4))
        [true, false, false, false] [false, false, false, false] [false, false, false, false]
        [false, false, false, true] 2 2 = some (res, st1) ∧
      (res = false ↔ (∀ p ∈ [true, false, false, false], p = false) ∨
        (∀ p ∈ [false, false, false, true], p = false)) :=
  readImage_false_iff (fun _ => false) (gridState CG_SOLVER.gridTree (DAG.new 4 4)) 2
    [true, false, false, false] [false, false, false, false] [false, false, false, false]
    [false, false, false, true] 2 2 (gridState_ok _) rfl rfl

end QUAD_DBM_2D

end Lumo

namespace Lumo

namespace QUAD_DBM_2D

open CELL QUAD_POISSON

variable {F : Type}

/-! ## addParticle and the candidate list -/

theorem solvePoisson_candidates (junk : Int → ℚ) (st s1 : QUAD_DBM_2D F) (n : Int)
    (h : solvePoisson junk st = some (n, s1)) : s1.candidates = st.candidates := by
  unfold solvePoisson at h
  cases h0 : balance st.mesh.root with
  | none => simp [h0] at h
  | some r0 =>
    simp only [h0] at h
    cases h1 : buildNeighbors r0 with
    | none => simp [h1] at h
    | some r1 =>
      simp only [h1] at h
      cases h2 : CG_SOLVER.solve
          { st.solver with iterations := if st.firstSolve then 10000 else st.savedIterations }
          junk r1 (getEmptyLeaves r1) with
      | none => simp [h2] at h
      | some res =>
        obtain ⟨k, r2⟩ := res
        simp only [h2, Option.some.injEq, Prod.mk.injEq] at h
        rw [← h.2]

theorem solveStep_candidates (junk : Int → ℚ) (st s2 : QUAD_DBM_2D F)
    (h : solveStep junk st = some s2) : s2.candidates = st.candidates := by
  unfold solveStep at h
  by_cases hs : st.skipSolve = 0
  · rw [if_pos hs] at h
    cases hp : solvePoisson junk st with
    | none => simp [hp] at h
    | some res =>
      obtain ⟨n, s1⟩ := res
      simp only [hp, Option.map_some', Option.some.injEq] at h
      rw [← h]
      exact solvePoisson_candidates junk st s1 n hp
  · rw [if_neg hs] at h
    simp only [Option.some.injEq] at h
    rw [← h]

theorem accept_true (sh : Shading F) (st s : QUAD_DBM_2D F) (added : Addr) (b : Bool)
    (h : accept sh st added = some (b, s)) : b = true := by
  unfold accept at h
  split at h
  · cases h
  · split at h
    · cases h
    · split at h
      · split at h
        · cases h
        · split at h
          · cases h
          · simp only [Option.some.injEq, Prod.mk.injEq] at h
            exact h.1.symm
      · cases h

/-- A call of `addParticle` that returns false found the candidate list empty. -/
theorem addParticle_false_empty (ops : FloatOps) (sh : Shading F) (junk : Int → ℚ)
    (st st1 : QUAD_DBM_2D F) (random : ℚ)
    (h : addParticle ops sh junk st random = some (false, st1)) : st.candidates = [] := by
  unfold addParticle at h
  cases hs : solveStep junk st with
  | none => simp [hs] at h
  | some s2 =>
    simp only [hs] at h
    have hc := solveStep_candidates junk st s2 hs
    by_cases hl : s2.candidates.length = 0
    · rw [← hc]
      exact List.length_eq_zero.mp hl
    · rw [if_neg hl] at h
      cases hk : chooseIndex ops (candidateData s2.mesh.root s2.candidates) random with
      | none => simp [hk] at h
      | some k =>
        simp only [hk] at h
        cases ha : s2.candidates[k]? with
        | none => simp [ha] at h
        | some added =>
          simp only [List.get?_eq_getElem?, ha] at h
          have := accept_true sh s2 st1 added false h
          cases this

/-- The lines of `addParticle` from the marking of the chosen cell on, from what their
steps give. -/
theorem accept_of (sh : Shading F) (st s6 : QUAD_DBM_2D F) (added c p : Addr) (da d1 d2 : CellData)
    (m4 : QUAD_POISSON) (g : DAG F) (b : Bool)
    (h1 : dataAt (setData markFilled st.mesh.root added) added = some da)
    (h2 : QUAD_POISSON.insert { st.mesh with root := setData markFilled st.mesh.root added }
      da.centerX da.centerY = some (m4, c))
    (h3 : dataAt (checkForCandidates { st with mesh := m4 } added).mesh.root added = some d1)
    (h4 : growthParent (setData markFilled st.mesh.root added) added = some p)
    (h5 : dataAt (checkForCandidates { st with mesh := m4 } added).mesh.root p = some d2)
    (h6 : DAG.addSegment st.dag (flatIndex st.xRes st.yRes d1) (flatIndex st.xRes st.yRes d2) =
      some g)
    (h7 : hitGround sh
      { checkForCandidates { st with mesh := m4 } added with
        dag := g, totalParticles := st.totalParticles + 1 } (some added) = some (b, s6)) :
    accept sh st added = some (true, s6) := by
  unfold accept
  simp only [h1, h2, h3, h4, Option.some_bind, h5, h6, h7]

end QUAD_DBM_2D

end Lumo

namespace Lumo

namespace CELL

/-! ## A lookup returns null exactly at the edge of the domain -/

/-- A cell that a lookup in direction `d` returns lies beyond the face `d` of the cell
asked: that face is not on the border of the root cell. -/
theorem front_ne_of_neighbor {root : CELL} (hwf : WellFormed root) (d : Dir) (c n : Addr)
    (dc : CellData) (hc : dataAt root c = some dc) (hn : neighbor root d c = some n) :
    front d dc ≠ front d root.data := by
  obtain ⟨dn, hdn, hacr, -⟩ := neighbor_spec hwf d c n dc hc hn
  obtain ⟨p1, p2⟩ := hwf.proper n dn hdn
  obtain ⟨i1, i2, i3, i4⟩ := hwf.inside_root n dn hdn
  intro h
  cases d
  · simp only [front] at h
    simp only [Across] at hacr
    linarith [hacr.1]
  · simp only [front] at h
    simp only [Across] at hacr
    linarith [hacr.1]
  · simp only [front] at h
    simp only [Across] at hacr
    linarith [hacr.1]
  · simp only [front] at h
    simp only [Across] at hacr
    linarith [hacr.1]

/-- C25: in a well-formed quadtree the lookup in the direction `d` from a cell `c`
returns null exactly when the face `d` of `c` lies on the border of the root cell (for
north: `c.north = root.north`); a pointer that it returns points to a cell of the tree;
every lookup from the root returns null. -/
theorem neighbor_null_iff_border (root : CELL) (hwf : WellFormed root) (d : Dir) (c : Addr)
    (dc : CellData) (hc : dataAt root c = some dc) :
    (neighbor root d c = none ↔ front d dc = front d root.data) ∧
    (∀ n, neighbor root d c = some n → (cellAt root n).isSome = true) ∧
    (∀ e, neighbor root e [] = none) := by
  refine ⟨⟨fun h => neighbor_none_front hwf d c dc hc h, fun h => ?_⟩, fun n hn => ?_,
    fun e => neighbor_nil root e⟩
  · cases hn : neighbor root d c with
    | none => rfl
    | some n => exact absurd h (front_ne_of_neighbor hwf d c n dc hc hn)
  · exact neighbor_isCell root d c n (by rw [← dataAt_isSome, hc]; rfl) hn

end CELL

theorem neighbor_null_iff_border_witness :
    (CELL.WellFormed sampleTree ∧
      CELL.dataAt sampleTree [Quadrant.q1, Quadrant.q0] =
        some (CELL.childData (CELL.childData (CellData.new 1 1 0 0 0) Quadrant.q0) Quadrant.q1)) ∧
    (CELL.neighbor sampleTree Dir.north [Quadrant.q1, Quadrant.q0] = none ↔
      CELL.front Dir.north (CELL.childData (CELL.childData (CellData.new 1 1 0 0 0) Quadrant.q0)
        Quadrant.q1) = CELL.front Dir.north sampleTree.data) ∧
    (∀ n, CELL.neighbor sampleTree Dir.north [Quadrant.q1, Quadrant.q0] = some n →
      (CELL.cellAt sampleTree n).isSome = true) ∧
    (∀ e, CELL.neighbor sampleTree e [] = none) :=
  ⟨⟨sampleTree_wellFormed, rfl⟩,
    CELL.neighbor_null_iff_border sampleTree sampleTree_wellFormed Dir.north
      [Quadrant.q1, Quadrant.q0]
      (CELL.childData (CELL.childData (CellData.new 1 1 0 0 0) Quadrant.q0) Quadrant.q1) rfl⟩

end Lumo

namespace Lumo

namespace QUAD_POISSON

open CELL CG_SOLVER

/-! ## The slots of a leaf after `buildNeighbors` -/

/-- The first slot of the face `d`. -/
def firstSlot : Dir → Fin 8
  | Dir.north => 0
  | Dir.east => 2
  | Dir.south => 4
  | Dir.west => 6

/-- What the claim says of the slots `e = firstSlot d` and `e + 1 = secondSlot d` of a leaf
with the address `a` and the data `dat` in the tree `r`: a ghost cell of the depth of the
leaf and null where the lookup returns null; the cell found and null where it has no
children; else its two children on the side that faces the leaf. -/
def SlotsAsLookup (r : CELL) (a : Addr) (dat : CellData) (d : Dir) : Prop :=
  match neighbor r d a with
  | none =>
    dat.neighbors.get (firstSlot d) = some (CellRef.ghost dat.depth) ∧
      dat.neighbors.get (secondSlot d) = none
  | some n =>
    if kidsAt r n = false then
      dat.neighbors.get (firstSlot d) = some (CellRef.cell n) ∧
        dat.neighbors.get (secondSlot d) = none
    else
      ∃ k0 k1, k0 ≠ k1 ∧ d.opp.onSide k0 = true ∧ d.opp.onSide k1 = true ∧
        dat.neighbors.get (firstSlot d) = some (CellRef.cell (k0 :: n)) ∧
        dat.neighbors.get (secondSlot d) = some (CellRef.cell (k1 :: n))

theorem slotsAsLookup_of_faceOK {r1 r : CELL} (v : SameView r1 r) (a : Addr) (dat : CellData)
    (hdat : dataAt r1 a = some dat) (d : Dir) (k0 k1 : Quadrant) (hk : k0 ≠ k1)
    (h0 : d.opp.onSide k0 = true) (h1 : d.opp.onSide k1 = true)
    (hok : FaceOK r a dat d (firstSlot d) (secondSlot d) k0 k1)
    (hnull : OnBorder d a → dat.neighbors.get (secondSlot d) = none) :
    SlotsAsLookup r1 a dat d := by
  unfold SlotsAsLookup
  unfold FaceOK at hok
  rw [neighbor_congr v.1 d a]
  cases hn : neighbor r d a with
  | none =>
    rw [hn] at hok
    simp only at hok ⊢
    refine ⟨?_, hnull ((neighbor_none_iff r d a).mp hn)⟩
    rw [hok, ← v.2.1 a, depthAt_eq r1 a dat hdat]
  | some n =>
    rw [hn] at hok
    simp only at hok ⊢
    rw [v.1 n]
    by_cases hk0 : kidsAt r n = false
    · rw [if_pos hk0] at hok ⊢
      exact hok
    · rw [if_neg hk0] at hok ⊢
      exact ⟨k0, k1, hk, h0, h1, hok.1, hok.2⟩

theorem borderNull_leaf (d : CellData) (h : ∀ j, d.neighbors.get j = none) :
    BorderNull (CELL.leaf d) := by
  intro a dat dir hdat _
  cases a with
  | nil =>
    simp only [dataAt, cellAt_nil, Option.map_some', Option.some.injEq, CELL.data] at hdat
    subst hdat
    exact h _
  | cons q p =>
    rw [dataAt, cellAt_leaf_cons] at hdat
    cases hdat

/-- C23: on a well-formed tree whose border faces have a null second slot (as the
constructors leave it) `buildNeighbors` returns, and afterwards for every leaf and every
direction the first slot of the face is not null; where the lookup returns null the first
slot holds a ghost cell (boundary, potential 0) of the depth of the leaf and the second
slot is null; where it returns a cell without children the first slot holds that cell and
the second is null; where it returns a cell with children the two slots hold its two
children on the side that faces the leaf. -/
theorem buildNeighbors_slots (root : CELL) (hwf : WellFormed root) (hnull : BorderNull root) :
    ∃ r1, buildNeighbors root = some r1 ∧
      ∀ (a : Addr) (dat : CellData), IsLeafAt r1 a → dataAt r1 a = some dat → ∀ d : Dir,
        dat.neighbors.get (firstSlot d) ≠ none ∧ SlotsAsLookup r1 a dat d ∧
        (CellData.ghost dat.depth).boundary = true ∧ (CellData.ghost dat.depth).potential = 0 ∧
        (CellData.ghost dat.depth).depth = dat.depth := by
  obtain ⟨r, new, e, g, -⟩ := balance_spec root hwf
  obtain ⟨v, -, hs⟩ := buildLoop_spec r (getAllLeaves r) r (SameView.refl_view r)
  have hb2 : BorderNull ((getAllLeaves r).foldl buildCell r) :=
    BorderNull.buildLoop r (getAllLeaves r) r (SameView.refl_view r) (hnull.grows g)
  refine ⟨(getAllLeaves r).foldl buildCell r, by unfold buildNeighbors; rw [e], ?_⟩
  intro a dat hl1 hdat d
  have hl := (v.isLeafAt a).mp hl1
  obtain ⟨s0, s1, s2, s3⟩ := hs a dat hdat (Or.inl ((mem_getAllLeaves r a).mpr hl))
  have key : SlotsAsLookup ((getAllLeaves r).foldl buildCell r) a dat d := by
    cases d
    · exact slotsAsLookup_of_faceOK v a dat hdat Dir.north Quadrant.q3 Quadrant.q2 (by decide)
        rfl rfl s0
        (hb2 a dat Dir.north hdat)
    · exact slotsAsLookup_of_faceOK v a dat hdat Dir.east Quadrant.q0 Quadrant.q3 (by decide)
        rfl rfl s1
        (hb2 a dat Dir.east hdat)
    · exact slotsAsLookup_of_faceOK v a dat hdat Dir.south Quadrant.q1 Quadrant.q0 (by decide)
        rfl rfl s2
        (hb2 a dat Dir.south hdat)
    · exact slotsAsLookup_of_faceOK v a dat hdat Dir.west Quadrant.q2 Quadrant.q1 (by decide)
        rfl rfl s3
        (hb2 a dat Dir.west hdat)
  refine ⟨?_, key, rfl, rfl, rfl⟩
  unfold SlotsAsLookup at key
  cases hn : neighbor ((getAllLeaves r).foldl buildCell r) d a with
  | none =>
    rw [hn] at key
    rw [key.1]
    exact Option.some_ne_none _
  | some n =>
    rw [hn] at key
    simp only at key
    by_cases hk0 : kidsAt ((getAllLeaves r).foldl buildCell r) n = false
    · rw [if_pos hk0] at key
      rw [key.1]
      exact Option.some_ne_none _
    · rw [if_neg hk0] at key
      obtain ⟨k0, k1, -, -, -, h, -⟩ := key
      rw [h]
      exact Option.some_ne_none _

end QUAD_POISSON

theorem sampleTree_borderNull : QUAD_POISSON.BorderNull sampleTree := by
  have h0 : QUAD_POISSON.BorderNull (CELL.leaf (CellData.new 1 1 0 0 0)) :=
    QUAD_POISSON.borderNull_leaf _ (fun j => Mathlib.Vector.get_replicate _ j)
  have h1 : QUAD_POISSON.BorderNull
      (CELL.refineAt (CELL.leaf (CellData.new 1 1 0 0 0)) []) :=
    QUAD_POISSON.BorderNull.refineAt_null ⟨rfl, rfl⟩ h0
  exact QUAD_POISSON.BorderNull.refineAt_null ⟨rfl, rfl⟩ h1

theorem buildNeighbors_slots_witness :
    (CELL.WellFormed sampleTree ∧ QUAD_POISSON.BorderNull sampleTree) ∧
    ∃ r1, QUAD_POISSON.buildNeighbors sampleTree = some r1 ∧
      ∀ (a : Addr) (dat : CellData), CELL.IsLeafAt r1 a → CELL.dataAt r1 a = some dat →
        ∀ d : Dir,
        dat.neighbors.get (QUAD_POISSON.firstSlot d) ≠ none ∧
        QUAD_POISSON.SlotsAsLookup r1 a dat d ∧
        (CellData.ghost dat.depth).boundary = true ∧ (CellData.ghost dat.depth).potential = 0 ∧
        (CellData.ghost dat.depth).depth = dat.depth :=
  ⟨⟨sampleTree_wellFormed, sampleTree_borderNull⟩,
    QUAD_POISSON.buildNeighbors_slots sampleTree sampleTree_wellFormed sampleTree_borderNull⟩

end Lumo

namespace Lumo

namespace NODE

variable {F : Type}

/-! ## The intensities that `buildIntensity` assigns -/

theorem intensityStep_eq (sh : Shading F) (i : Int) (ns : List (NODE F)) (l s : Bool) (d : Int)
    (m : Option NodePath) (it : Option F) :
    intensityStep sh (mk i ns l s d m it) =
      if l = true then mk i (ns.map (intensityStep sh)) l s d m (some sh.leaderIntensity)
      else mk i (ns.map (intensityStep sh)) l s d (some (deepestOf (mk i ns l s d m it)))
        (some (sh.falloff (maxDepthOf (mk i ns l s d m it)) d)) := by
  rw [intensityStep, buildIntensityList_eq]

theorem intensityStep_neighbors (sh : Shading F) (n : NODE F) :
    (intensityStep sh n).neighbors = n.neighbors.map (intensityStep sh) := by
  cases n with
  | mk i ns l s d m it =>
    rw [intensityStep_eq]
    split <;> rfl

theorem intensityStep_leader (sh : Shading F) (n : NODE F) :
    (intensityStep sh n).leader = n.leader := by
  cases n with
  | mk i ns l s d m it =>
    rw [intensityStep_eq]
    split <;> rfl

theorem intensityStep_intensity (sh : Shading F) (n : NODE F) :
    (intensityStep sh n).intensity =
      if n.leader = true then some sh.leaderIntensity
      else some (sh.falloff (maxDepthOf n) n.depth) := by
  cases n with
  | mk i ns l s d m it =>
    rw [intensityStep_eq]
    cases l with
    | true => rfl
    | false => rfl

/-- The node found at a pointer after the pass of `buildIntensity` over a neighbour is the
node found there before, with the pass made over it. -/
theorem nodeAt_intensityStep (sh : Shading F) (q : NodePath) : ∀ t : NODE F,
    nodeAt (intensityStep sh t) q = (nodeAt t q).map (intensityStep sh) := by
  induction q with
  | nil => intro t; rw [nodeAt_nil, nodeAt_nil]; rfl
  | cons k rest ih =>
    intro t
    rw [nodeAt_cons_eq, nodeAt_cons_eq, intensityStep_neighbors, List.getElem?_map]
    cases t.neighbors[k]? with
    | none => rfl
    | some c => exact ih c

/-- Every node other than the one `buildIntensity` is called for gets the pass. -/
theorem nodeAt_buildIntensity (sh : Shading F) (t : NODE F) (k : Nat) (rest : NodePath) :
    nodeAt (buildIntensity sh t) (k :: rest) =
      (nodeAt t (k :: rest)).map (intensityStep sh) := by
  cases t with
  | mk i ns l s d m it =>
    rw [buildIntensity_eq, nodeAt_cons, nodeAt_cons, List.getElem?_map]
    cases ns[k]? with
    | none => rfl
    | some c => exact nodeAt_intensityStep sh rest c

/-- The node `buildIntensity` is called for keeps its intensity. -/
theorem buildIntensity_intensity (sh : Shading F) (t : NODE F) :
    (buildIntensity sh t).intensity = t.intensity := by
  cases t with
  | mk i ns l s d m it => rw [buildIntensity_eq]; rfl

theorem buildIntensity_leader (sh : Shading F) (t : NODE F) :
    (buildIntensity sh t).leader = t.leader := by
  cases t with
  | mk i ns l s d m it => rw [buildIntensity_eq]; rfl

end NODE

namespace DAG

variable {F : Type}

open NODE

theorem crawl_intensity (p : NodePath) (r : NODE F) (hp : (nodeAt r p).isSome) :
    (crawl r p).intensity = r.intensity := by
  cases r with
  | mk i ns l s d m it =>
    cases p with
    | nil => rw [crawl_nil, tagLeader_eq]; rfl
    | cons k rest =>
      rw [nodeAt_cons] at hp
      cases hc : ns[k]? with
      | none => rw [hc] at hp; cases hp
      | some c => rw [crawl_cons _ _ _ _ _ _ _ _ _ c hc]; rfl

/-- C21, as the code has it: `buildLeader(t)` on a graph that holds `t` returns, and
afterwards every node other than the root whose leader flag is set has the leader
intensity; the root has the leader flag set and keeps the intensity it had, which on a
graph built by `addSegment` is the one the constructor left unassigned. -/
theorem buildLeader_leader_intensity (sh : Shading F) (g : DAG F) (r : NODE F) (t : Int)
    (p : NodePath) (hr : g.root = some r) (hf : find g.hash t = some p)
    (hp : (nodeAt r p).isSome = true) :
    ∃ g2 r2, buildLeader sh g t = some g2 ∧ g2.root = some r2 ∧
      (∀ (k : Nat) (q : NodePath) (n : NODE F), nodeAt r2 (k :: q) = some n →
        n.leader = true → n.intensity = some sh.leaderIntensity) ∧
      r2.leader = true ∧ r2.intensity = r.intensity := by
  refine ⟨{ g with bottomHit := t, root := some (buildIntensity sh (crawl r p)) },
    buildIntensity sh (crawl r p), ?_, rfl, ?_, ?_, ?_⟩
  · simp only [buildLeader, hf, hr]
  · intro k q n hn hl
    rw [nodeAt_buildIntensity] at hn
    cases h0 : nodeAt (crawl r p) (k :: q) with
    | none => rw [h0] at hn; cases hn
    | some n0 =>
      rw [h0] at hn
      simp only [Option.map_some', Option.some.injEq] at hn
      subst hn
      rw [intensityStep_leader] at hl
      rw [intensityStep_intensity, if_pos hl]
  · rw [buildIntensity_leader]
    exact crawl_leader r p hp
  · rw [buildIntensity_intensity, crawl_intensity p r hp]

theorem buildLeader_leader_intensity_witness :
    (sampleDag.root = some sampleRoot ∧ find sampleDag.hash 9 = some [0, 0] ∧
      (nodeAt sampleRoot [0, 0]).isSome = true) ∧
    ∃ g2 r2, buildLeader sampleShading sampleDag 9 = some g2 ∧ g2.root = some r2 ∧
      (∀ (k : Nat) (q : NodePath) (n : NODE ℚ), nodeAt r2 (k :: q) = some n →
        n.leader = true → n.intensity = some sampleShading.leaderIntensity) ∧
      r2.leader = true ∧ r2.intensity = sampleRoot.intensity :=
  ⟨⟨rfl, rfl, rfl⟩,
    buildLeader_leader_intensity sampleShading sampleDag sampleRoot 9 [0, 0] rfl rfl rfl⟩

/-- C21, the case in which the claim fails: after `buildLeader(9)` on the graph with the
segments 1 - 5, 5 - 9 and 1 - 6 the root, the node 1, has the leader flag set and no
intensity assigned. -/
theorem buildLeader_root_intensity :
    ∃ g2 r2, buildLeader sampleShading sampleDag 9 = some g2 ∧ g2.root = some r2 ∧
      r2.index = 1 ∧ r2.leader = true ∧ r2.intensity = none ∧
      r2.intensity ≠ some sampleShading.leaderIntensity :=
  ⟨_, _, rfl, rfl, rfl, rfl, rfl, by intro h; cases h⟩

end DAG

end Lumo

namespace Lumo

namespace NODE

variable {F : Type}

/-! ## The deepest node of a channel -/

end NODE

namespace DAG

variable {F : Type}

open NODE

end DAG

end Lumo

namespace Lumo

namespace DAG

open NODE

/-! ## The falloff of the intensity along a side branch -/

end DAG

end Lumo

namespace Lumo

namespace CELL

theorem modifyPath_mapData_id (g : CellData → CellData) (hg : ∀ c, g c = c) (t : CELL) :
    ∀ r : List Quadrant, modifyPath (mapData g) t r = t := by
  induction t with
  | leaf d =>
    intro r
    cases r with
    | nil => simp only [modifyPath, mapData, hg]
    | cons q r => rfl
  | node d c0 c1 c2 c3 ih0 ih1 ih2 ih3 =>
    intro r
    cases r with
    | nil => simp only [modifyPath, mapData, hg]
    | cons q r =>
      cases q <;> simp only [modifyPath]
      · rw [ih0]
      · rw [ih1]
      · rw [ih2]
      · rw [ih3]

/-- A write of the values that are there changes nothing. -/
theorem setData_id (g : CellData → CellData) (hg : ∀ c, g c = c) (root : CELL) (a : Addr) :
    setData g root a = root :=
  modifyPath_mapData_id g hg root a.reverse

end CELL

namespace CG_SOLVER

open CELL

/-! ## A round of the solver with a zero pivot -/

/-- The divisors of the divisions in the body of the loop of `solve`, in the order of the
program: the pivot in `alpha = deltaNew / alpha`, behind the test `fabs(alpha) > 0.0f`,
and `deltaOld` in `beta = deltaNew / deltaOld`; `q` is the array `_q` of the round. -/
def divisors (st : SolveState) (q : List ℚ) : List ℚ :=
  (if |dot st.direction q| > 0 then [dot st.direction q] else []) ++ [st.deltaNew]

theorem addPotentials_zero (direction : List ℚ) : ∀ (cells : List Addr) (root : CELL) (x : Nat),
    addPotentials 0 direction root cells x = root := by
  intro cells
  induction cells with
  | nil => intro root x; rfl
  | cons a rest ih =>
    intro root x
    rw [addPotentials, setData_id _ (fun c => by simp) root a]
    exact ih root (x + 1)

theorem calcQ_length (junk : Int → ℚ) (root : CELL) (direction : List ℚ) :
    ∀ (cells : List Addr) (y : Nat) (q : List ℚ), calcQ junk root direction cells y = some q →
      q.length = cells.length := by
  intro cells
  induction cells with
  | nil =>
    intro y q h
    simp only [calcQ, Option.some.injEq] at h
    subst h
    rfl
  | cons a rest ih =>
    intro y q h
    rw [calcQ] at h
    cases hd : dataAt root a with
    | none => rw [hd] at h; cases h
    | some c =>
      rw [hd] at h
      simp only at h
      cases hs : neighborSum root c (fun n => dirRead junk direction n.index) with
      | none => rw [hs] at h; cases h
      | some sum =>
        cases hq : calcQ junk root direction rest (y + 1) with
        | none => rw [hs, hq] at h; cases h
        | some qs =>
          rw [hs, hq] at h
          simp only [Option.some.injEq] at h
          subst h
          simp only [List.length_cons, ih (y + 1) qs hq]

theorem newResidual_zero : ∀ (residual q : List ℚ), residual.length ≤ q.length →
    newResidual 0 residual q = residual := by
  intro residual
  induction residual with
  | nil => intro q _; simp [newResidual]
  | cons r rest ih =>
    intro q hq
    cases q with
    | nil => simp at hq
    | cons z zs =>
      have := ih zs (by simpa using hq)
      unfold newResidual at this ⊢
      rw [List.zipWith_cons_cons, this]
      simp

/-- A round of the loop of `solve` in which the pivot `d . q` is zero: `alpha` is 0, the
round leaves the tree with every potential and the residual as they are, and it does not
divide by the pivot; the one division of the round is `beta = deltaNew / deltaOld`, with
the divisor `deltaOld`, the value of `deltaNew` before the round. -/
theorem solve_zero_pivot (junk : Int → ℚ) (cells : List Addr) (st : SolveState) (q : List ℚ)
    (hq : calcQ junk st.root st.direction cells 0 = some q)
    (hres : st.residual.length = cells.length) (hp : dot st.direction q = 0) :
    alphaOf st.deltaNew (dot st.direction q) = 0 ∧
      solveBody junk cells st = some (advance cells st q) ∧
      (advance cells st q).root = st.root ∧ (advance cells st q).residual = st.residual ∧
      divisors st q = [st.deltaNew] := by
  have ha : alphaOf st.deltaNew (dot st.direction q) = 0 := by
    unfold alphaOf
    rw [hp]
    simp
  refine ⟨ha, by simp only [solveBody, hq], ?_, ?_, ?_⟩
  · show addPotentials (alphaOf st.deltaNew (dot st.direction q)) st.direction st.root cells 0 = _
    rw [ha, addPotentials_zero]
  · show newResidual (alphaOf st.deltaNew (dot st.direction q)) st.residual q = _
    rw [ha]
    exact newResidual_zero st.residual q
      (by rw [calcQ_length junk st.root st.direction cells 0 q hq, hres])
  · unfold divisors
    rw [hp]
    simp

/-- The first round of the loop of `solve` on the tree `stencilMesh`, in which every
potential is 0: whether the loop is entered, the pivot of the round, the divisors of the
round, the number of entries of `_direction` that the round writes, and whether the loop
is entered once more. -/
def firstRound : Option (Bool × Option (ℚ × List ℚ × Nat × Bool)) :=
  (solveInit (CG_SOLVER.new 2 100 8) stencilMesh (QUAD_POISSON.getEmptyLeaves stencilMesh)).map
    (fun st0 =>
      (decide (solveGuard (CG_SOLVER.new 2 100 8) st0),
        (calcQ (fun _ => 0) st0.root st0.direction
          (QUAD_POISSON.getEmptyLeaves stencilMesh) 0).map
          (fun q => (dot st0.direction q, divisors st0 q,
            (advance (QUAD_POISSON.getEmptyLeaves stencilMesh) st0 q).direction.length,
            decide (solveGuard (CG_SOLVER.new 2 100 8)
              (advance (QUAD_POISSON.getEmptyLeaves stencilMesh) st0 q))))))

theorem firstRound_eq : firstRound = some (true, some (0, [0], 7, false)) := by decide!

/-- C26, a mesh on which the code leaves the claim: `solve` on the tree `stencilMesh`, in
which every potential is 0, enters its loop (`maxR` starts at `2 eps`); the pivot `d . q`
of the first round is 0, `alpha` is taken to be 0 behind the test `fabs(alpha) > 0.0f`,
and the round leaves every potential and the residual as they are.  The round then
computes `beta = deltaNew / deltaOld` without a test, with `deltaNew = deltaOld = 0`: a
division of zero by zero, whose result goes into all the 7 entries of `_direction` in
use; the loop is not entered again, and `solve` returns with these entries. -/
theorem solve_zero_pivot_divides :
    ∃ st0 q, solveInit (CG_SOLVER.new 2 100 8) stencilMesh
        (QUAD_POISSON.getEmptyLeaves stencilMesh) = some st0 ∧
      solveGuard (CG_SOLVER.new 2 100 8) st0 ∧
      calcQ (fun _ => 0) st0.root st0.direction (QUAD_POISSON.getEmptyLeaves stencilMesh) 0 =
        some q ∧
      dot st0.direction q = 0 ∧
      alphaOf st0.deltaNew (dot st0.direction q) = 0 ∧
      solveBody (fun _ => 0) (QUAD_POISSON.getEmptyLeaves stencilMesh) st0 =
        some (advance (QUAD_POISSON.getEmptyLeaves stencilMesh) st0 q) ∧
      (advance (QUAD_POISSON.getEmptyLeaves stencilMesh) st0 q).root = st0.root ∧
      (advance (QUAD_POISSON.getEmptyLeaves stencilMesh) st0 q).residual = st0.residual ∧
      st0.deltaNew = 0 ∧ (advance (QUAD_POISSON.getEmptyLeaves stencilMesh) st0 q).deltaNew = 0 ∧
      divisors st0 q = [0] ∧ (0 : ℚ) ∈ divisors st0 q ∧
      (QUAD_POISSON.getEmptyLeaves stencilMesh).length = 7 ∧
      (advance (QUAD_POISSON.getEmptyLeaves stencilMesh) st0 q).direction.length = 7 ∧
      ¬ solveGuard (CG_SOLVER.new 2 100 8)
        (advance (QUAD_POISSON.getEmptyLeaves stencilMesh) st0 q) := by
  have h := firstRound_eq
  unfold firstRound at h
  obtain ⟨st0, h0, h1⟩ := Option.map_eq_some'.mp h
  simp only [Prod.mk.injEq, decide_eq_true_eq] at h1
  obtain ⟨hg, h2⟩ := h1
  obtain ⟨q, hq, h3⟩ := Option.map_eq_some'.mp h2
  simp only [Prod.mk.injEq, decide_eq_false_iff_not] at h3
  obtain ⟨hp, hd, hl, hn⟩ := h3
  have hlen : st0.residual.length = (QUAD_POISSON.getEmptyLeaves stencilMesh).length := by
    obtain ⟨r1, -, e, hinv⟩ := solveInit_inv 2 100 8 stencilMesh
      (QUAD_POISSON.getEmptyLeaves stencilMesh) stencilMesh_workable stencilMesh_nodup
      stencilMesh_closed
    rw [h0] at e
    cases e
    rw [hinv.2.2.1, List.length_map]
  obtain ⟨a1, a2, a3, a4, a5⟩ :=
    solve_zero_pivot (fun _ => 0) (QUAD_POISSON.getEmptyLeaves stencilMesh) st0 q hq hlen hp
  have hd0 : st0.deltaNew = 0 := by
    rw [a5] at hd
    simpa using hd
  have hd1 : (advance (QUAD_POISSON.getEmptyLeaves stencilMesh) st0 q).deltaNew = 0 := by
    have e0 : st0.deltaNew = dot st0.residual st0.residual := by
      unfold solveInit at h0
      cases hc : calcStencils (CG_SOLVER.new 2 100 8) stencilMesh
          (QUAD_POISSON.getEmptyLeaves stencilMesh) with
      | none => rw [hc] at h0; cases h0
      | some r1 =>
        rw [hc] at h0
        simp only at h0
        cases hr : calcResidual (CG_SOLVER.new 2 100 8)
            (setIndices r1 (QUAD_POISSON.getEmptyLeaves stencilMesh) 0)
            (QUAD_POISSON.getEmptyLeaves stencilMesh) with
        | none => rw [hr] at h0; cases h0
        | some res =>
          rw [hr] at h0
          simp only [Option.some.injEq] at h0
          rw [← h0]
    show dot (advance (QUAD_POISSON.getEmptyLeaves stencilMesh) st0 q).residual
      (advance (QUAD_POISSON.getEmptyLeaves stencilMesh) st0 q).residual = 0
    rw [a4, ← e0, hd0]
  exact ⟨st0, q, h0, hg, hq, hp, a1, a2, a3, a4, hd0, hd1, hd, by rw [hd]; simp, by decide,
    hl, hn⟩

end CG_SOLVER

end Lumo

namespace Lumo

namespace QUAD_DBM_2D

open CELL QUAD_POISSON

/-! ## The edge of a repulsor region -/

/-- Modelled from the claim: the pixel `(x, y)` of a mask of the width `w` and the height
`h` (`none`: the pixel lies outside the mask). -/
def pixelOf (mask : List Bool) (w h x y : Int) : Option Bool :=
  if 0 ≤ x ∧ x < w ∧ 0 ≤ y ∧ y < h then some (mask.getD (y * w + x).toNat false) else none

/-- Modelled from the claim: one of the 8 neighbours of the pixel `(x, y)` that lie inside
the mask is not set. -/
def edgePixel (mask : List Bool) (w h x y : Int) : Bool :=
  decide (pixelOf mask w h (x - 1) y = some false) ||
  decide (pixelOf mask w h (x - 1) (y - 1) = some false) ||
  decide (pixelOf mask w h (x - 1) (y + 1) = some false) ||
  decide (pixelOf mask w h (x + 1) y = some false) ||
  decide (pixelOf mask w h (x + 1) (y - 1) = some false) ||
  decide (pixelOf mask w h (x + 1) (y + 1) = some false) ||
  decide (pixelOf mask w h x (y - 1) = some false) ||
  decide (pixelOf mask w h x (y + 1) = some false)

/-- A pixel inside the mask is read inside the array. -/
theorem maskAt_pixel (junk : Int → Bool) (mask : List Bool) (w h x y : Int)
    (hlen : (mask.length : Int) = h * w) (hx0 : 0 ≤ x) (hxw : x < w) (hy0 : 0 ≤ y)
    (hyh : y < h) :
    maskAt junk mask (y * w + x) = mask.getD (y * w + x).toNat false := by
  unfold maskAt
  have h1 : 0 ≤ y * w := mul_nonneg hy0 (by omega)
  have h2 : (y + 1) * w ≤ h * w := mul_le_mul_of_nonneg_right (by omega) (by omega)
  rw [if_pos ⟨by omega, by rw [hlen]; linarith⟩]

theorem pixelOf_unset (junk : Int → Bool) (mask : List Bool) (w h x y : Int)
    (hlen : (mask.length : Int) = h * w) :
    decide (pixelOf mask w h x y = some false) =
      (decide (0 ≤ x ∧ x < w ∧ 0 ≤ y ∧ y < h) && !maskAt junk mask (y * w + x)) := by
  unfold pixelOf
  by_cases hr : 0 ≤ x ∧ x < w ∧ 0 ≤ y ∧ y < h
  · rw [if_pos hr, maskAt_pixel junk mask w h x y hlen hr.1 hr.2.1 hr.2.2.1 hr.2.2.2]
    cases mask.getD (y * w + x).toNat false <;> simp [hr]
  · rw [if_neg hr]
    simp [hr]

/-- Where the mask is as wide as the mesh, the test of `readImage` for a pixel of the mask
is the test of the claim, and it reads the mask inside the array only. -/
theorem repulsorEdge_eq (junk : Int → Bool) (mask : List Bool) (w h x y : Int)
    (hlen : (mask.length : Int) = h * w) (hx0 : 0 ≤ x) (hxw : x < w) (hy0 : 0 ≤ y)
    (hyh : y < h) :
    repulsorEdge junk mask w w h x y (y * w + x) = edgePixel mask w h x y := by
  unfold repulsorEdge edgePixel
  rw [pixelOf_unset junk mask w h (x - 1) y hlen, pixelOf_unset junk mask w h (x - 1) (y - 1) hlen,
    pixelOf_unset junk mask w h (x - 1) (y + 1) hlen, pixelOf_unset junk mask w h (x + 1) y hlen,
    pixelOf_unset junk mask w h (x + 1) (y - 1) hlen,
    pixelOf_unset junk mask w h (x + 1) (y + 1) hlen,
    pixelOf_unset junk mask w h x (y - 1) hlen, pixelOf_unset junk mask w h x (y + 1) hlen]
  have e1 : y * w + x - 1 = y * w + (x - 1) := by ring
  have e2 : y * w + x - w - 1 = (y - 1) * w + (x - 1) := by ring
  have e3 : y * w + x + w - 1 = (y + 1) * w + (x - 1) := by ring
  have e4 : y * w + x + 1 = y * w + (x + 1) := by ring
  have e5 : y * w + x - w + 1 = (y - 1) * w + (x + 1) := by ring
  have e6 : y * w + x + w + 1 = (y + 1) * w + (x + 1) := by ring
  have e7 : y * w + x - w = (y - 1) * w + x := by ring
  have e8 : y * w + x + w = (y + 1) * w + x := by ring
  rw [e1, e2, e3, e4, e5, e6, e7, e8]
  have g1 : decide (0 ≤ x - 1 ∧ x - 1 < w ∧ 0 ≤ y ∧ y < h) = decide (x ≠ 0) :=
    decide_eq_decide.mpr (by omega)
  have g2 : decide (0 ≤ x - 1 ∧ x - 1 < w ∧ 0 ≤ y - 1 ∧ y - 1 < h) =
      (decide (x ≠ 0) && decide (y ≠ 0)) := by
    rw [← Bool.decide_and]
    exact decide_eq_decide.mpr (by omega)
  have g3 : decide (0 ≤ x - 1 ∧ x - 1 < w ∧ 0 ≤ y + 1 ∧ y + 1 < h) =
      (decide (x ≠ 0) && decide (y ≠ h - 1)) := by
    rw [← Bool.decide_and]
    exact decide_eq_decide.mpr (by omega)
  have g4 : decide (0 ≤ x + 1 ∧ x + 1 < w ∧ 0 ≤ y ∧ y < h) = decide (x ≠ w - 1) :=
    decide_eq_decide.mpr (by omega)
  have g5 : decide (0 ≤ x + 1 ∧ x + 1 < w ∧ 0 ≤ y - 1 ∧ y - 1 < h) =
      (decide (x ≠ w - 1) && decide (y ≠ 0)) := by
    rw [← Bool.decide_and]
    exact decide_eq_decide.mpr (by omega)
  have g6 : decide (0 ≤ x + 1 ∧ x + 1 < w ∧ 0 ≤ y + 1 ∧ y + 1 < h) =
      (decide (x ≠ w - 1) && decide (y ≠ h - 1)) := by
    rw [← Bool.decide_and]
    exact decide_eq_decide.mpr (by omega)
  have g7 : decide (0 ≤ x ∧ x < w ∧ 0 ≤ y - 1 ∧ y - 1 < h) = decide (y ≠ 0) :=
    decide_eq_decide.mpr (by omega)
  have g8 : decide (0 ≤ x ∧ x < w ∧ 0 ≤ y + 1 ∧ y + 1 < h) = decide (y ≠ h - 1) :=
    decide_eq_decide.mpr (by omega)
  rw [g1, g2, g3, g4, g5, g6, g7, g8]
  generalize maskAt junk mask (y * w + (x - 1)) = m1
  generalize maskAt junk mask ((y - 1) * w + (x - 1)) = m2
  generalize maskAt junk mask ((y + 1) * w + (x - 1)) = m3
  generalize maskAt junk mask (y * w + (x + 1)) = m4
  generalize maskAt junk mask ((y - 1) * w + (x + 1)) = m5
  generalize maskAt junk mask ((y + 1) * w + (x + 1)) = m6
  generalize maskAt junk mask ((y - 1) * w + x) = m7
  generalize maskAt junk mask ((y + 1) * w + x) = m8
  generalize decide (x ≠ 0) = a
  generalize decide (x ≠ w - 1) = b
  generalize decide (y ≠ 0) = c
  generalize decide (y ≠ h - 1) = d
  cases a <;> cases b <;> cases c <;> cases d <;> simp [Bool.or_assoc]

/-! ### A mask that is narrower than the mesh -/

/-- The noise array of a mesh of 4 by 4 cells in which no cell is a noise node. -/
def noNoise : List Bool := List.replicate 16 false

/-- A mask of 3 by 3 pixels in which no pixel is set. -/
def emptyMask : List Bool := List.replicate 9 false

/-- A repulsor mask of 3 by 3 pixels: all pixels but `(0, 1)` and `(0, 2)`. -/
def wrapMask : List Bool := [true, true, true, false, true, true, false, true, true]

/-- The start mask with the pixel `(0, 1)`. -/
def wrapStart : List Bool := [false, false, false, true, false, false, false, false, false]

/-- The terminator mask with the pixel `(0, 2)`. -/
def wrapEnd : List Bool := [false, false, false, false, false, false, true, false, false]

/-- A repulsor mask of 3 by 3 pixels with every pixel set. -/
def fullMask : List Bool := List.replicate 9 true

/-- The value that `readImage` returns for the masks `wrapStart`, `wrapMask` and `wrapEnd`
on a new object for 3 by 3 pixels, the cell that `insert` returns for the pixel `(2, 0)`,
and the state of that cell afterwards. -/
def wrapRun : Option (Bool × Option Addr × CELL_STATE) :=
  (readImage (fun _ => false) (fresh ℚ 3 3 10 noNoise) wrapStart emptyMask wrapMask wrapEnd
    3 3).map (fun p =>
      (p.1, (QUAD_POISSON.insert p.2.mesh (2 / 4) (0 / 4)).map Prod.snd,
        stateAt p.2.mesh.root [Quadrant.q2, Quadrant.q3]))

theorem wrapRun_eq :
    wrapRun = some (true, some [Quadrant.q2, Quadrant.q3], CELL_STATE.REPULSOR) := by decide!

/-- C27, the case in which the code leaves the claim: `readImage` compares `x` with the
width `_xRes` of the mesh and not with the width `xRes` of the mask.  On a mesh of 4 by 4
cells and masks of 3 by 3 pixels, every neighbour inside the mask of the repulsor pixel
`(2, 0)` is set, but the test reads the pixel `(0, 1)` of the next row as the eastern
neighbour, finds an edge, and `readImage` inserts a repulsor cell; for the pixel `(2, 2)`
of a mask with every pixel set the test reads behind the end of the mask and decides by
what it finds there.  Where the mask is as wide as the mesh the test is the one of the
claim. -/
theorem repulsorEdge_wraps :
    (fresh ℚ 3 3 10 noNoise).xRes = 4 ∧
    edgePixel wrapMask 3 3 2 0 = false ∧
    (∀ junk, repulsorEdge junk wrapMask 4 3 3 2 0 2 = true) ∧
    (∃ st1, readImage (fun _ => false) (fresh ℚ 3 3 10 noNoise) wrapStart emptyMask wrapMask
        wrapEnd 3 3 = some (true, st1) ∧
      (QUAD_POISSON.insert st1.mesh (2 / 4) (0 / 4)).map Prod.snd =
        some [Quadrant.q2, Quadrant.q3] ∧
      stateAt st1.mesh.root [Quadrant.q2, Quadrant.q3] = CELL_STATE.REPULSOR) ∧
    edgePixel fullMask 3 3 2 2 = false ∧
    (∀ junk, repulsorEdge junk fullMask 4 3 3 2 2 8 = !junk 9) ∧
    ∀ (junk : Int → Bool) (mask : List Bool) (w h x y : Int), (mask.length : Int) = h * w →
      0 ≤ x → x < w → 0 ≤ y → y < h →
      repulsorEdge junk mask w w h x y (y * w + x) = edgePixel mask w h x y := by
  refine ⟨by decide!, by decide!, fun junk => ?_, ?_, by decide!, fun junk => ?_,
    fun junk mask w h x y hlen hx0 hxw hy0 hyh =>
      repulsorEdge_eq junk mask w h x y hlen hx0 hxw hy0 hyh⟩
  · simp [repulsorEdge, maskAt, wrapMask]
  · have h := wrapRun_eq
    unfold wrapRun at h
    obtain ⟨p, hp, h1⟩ := Option.map_eq_some'.mp h
    simp only [Prod.mk.injEq] at h1
    obtain ⟨h2, h3, h4⟩ := h1
    refine ⟨p.2, ?_, h3, h4⟩
    rw [hp, ← h2]
  · simp [repulsorEdge, maskAt, fullMask]

end QUAD_DBM_2D

end Lumo

namespace Lumo

namespace CELL

/-! ## The cells around the cell that `insert` returns -/

theorem Evolve.kids_evolve {M : Nat} {r1 r2 : CELL} (h : Evolve M r1 r2) {a : Addr}
    (ha : kidsAt r1 a = true) : kidsAt r2 a = true := by
  rw [← cellAt_cons_isSome r2 Quadrant.q0 a]
  exact h.isCell_evolve (by rw [cellAt_cons_isSome]; exact ha)

/-- A lookup that finds a cell of the depth of the cell asked finds it in every tree with
more children. -/
theorem neighbor_stable {r1 r2 : CELL} (hk : ∀ a, kidsAt r1 a = true → kidsAt r2 a = true)
    (d : Dir) : ∀ (c n : Addr), neighbor r1 d c = some n → n.length = c.length →
      neighbor r2 d c = some n := by
  intro c
  induction c with
  | nil => intro n h; rw [neighbor_nil] at h; cases h
  | cons q p ih =>
    intro n h hl
    rw [neighbor_cons] at h ⊢
    by_cases hq : d.onSide q = true
    · rw [if_pos hq] at h ⊢
      cases hn : neighbor r1 d p with
      | none => rw [hn] at h; cases h
      | some mu =>
        rw [hn] at h
        simp only at h
        have hmu := (neighbor_length r1 d p mu hn).1
        by_cases hkm : kidsAt r1 mu = false
        · rw [if_pos hkm] at h
          cases h
          simp only [List.length_cons] at hl
          omega
        · rw [if_neg hkm] at h
          cases h
          simp only [List.length_cons, add_left_inj] at hl
          rw [ih mu hn hl]
          simp only
          rw [if_neg (by rw [hk mu (by simpa using hkm)]; decide)]
    · rw [if_neg hq] at h ⊢
      exact h

theorem Evolve.neighbor_evolve {M : Nat} {r1 r2 : CELL} (h : Evolve M r1 r2) (d : Dir)
    (c n : Addr) (hn : neighbor r1 d c = some n) (hl : n.length = c.length) :
    neighbor r2 d c = some n :=
  neighbor_stable (fun _ ha => h.kids_evolve ha) d c n hn hl

/-- Whether a lookup returns null does not depend on the tree. -/
theorem neighbor_none_congr (r1 r2 : CELL) (d : Dir) (c : Addr) :
    neighbor r1 d c = none ↔ neighbor r2 d c = none := by
  rw [QUAD_POISSON.neighbor_none_iff, QUAD_POISSON.neighbor_none_iff]

end CELL

namespace QUAD_POISSON

open CELL

/-- The block of `insert` for an orthogonal neighbour returns, and afterwards the lookup
finds the neighbour at the maximum depth, or nothing. -/
theorem forceOrtho_lookup (M : Nat) (d : Dir) (cur : Addr) (hcur : cur.length = M)
    (m : QUAD_POISSON) (hok : MeshOK M m) (hc : (cellAt m.root cur).isSome = true) :
    ∃ m1 res, forceOrtho d (M + 1) m cur = some (m1, res) ∧ Evolve M m.root m1.root ∧
      m1.maxDepth = m.maxDepth ∧ neighbor m1.root d cur = res ∧
      ∀ n1, res = some n1 → (cellAt m1.root n1).isSome = true ∧ n1.length = M := by
  unfold forceOrtho
  cases hn : neighbor m.root d cur with
  | none => exact ⟨m, none, rfl, Evolve.refl _, rfl, hn, fun n1 h => by simp at h⟩
  | some n =>
    simp only []
    have hncell := neighbor_isCell m.root d cur n hc hn
    by_cases hcond : depthAt m.root n ≠ m.maxDepth
    · rw [if_pos hcond]
      obtain ⟨m1, n1, e, ev, hm, h1, h2⟩ := forceWhile_spec M d cur hcur (M + 1) m n hok hc hn
        (by omega)
      rw [e]
      simp only []
      have hne : n1 ≠ [] := by
        rintro rfl
        cases cur with
        | nil => simp [neighbor_nil] at hn
        | cons q p =>
          simp only [List.length_cons, List.length_nil] at hcur h2
          omega
      obtain ⟨m2, e2, ev2, hm2⟩ := noteSiblings_spec M m1 n1 hne
      rw [e2]
      refine ⟨m2, some n1, rfl, ev.trans_evolve ev2, by rw [hm2, hm],
        ev2.neighbor_evolve d cur n1 h1 (by rw [h2, hcur]), ?_⟩
      intro n2 h
      simp only [Option.some.injEq] at h
      subst h
      exact ⟨ev2.isCell_evolve (neighbor_isCell m1.root d cur n1 (ev.isCell_evolve hc) h1), h2⟩
    · rw [if_neg hcond]
      refine ⟨m, some n, rfl, Evolve.refl _, rfl, hn, ?_⟩
      intro n1 h
      simp only [Option.some.injEq] at h
      subst h
      refine ⟨hncell, ?_⟩
      rw [hok.depthAt_eq_length hncell, hok.2.2.2] at hcond
      by_contra h
      exact hcond (fun e => h (by exact_mod_cast e))

/-! ### The geometry behind the diagonal blocks -/

/-- The pairs of directions of the diagonal blocks of `insert`: `d1` leads from the cell
to the neighbour north or south of it, `d2` from there to the east or to the west. -/
def DiagPair (d1 d2 : Dir) : Prop :=
  (d1 = Dir.north ∨ d1 = Dir.south) ∧ (d2 = Dir.east ∨ d2 = Dir.west)

/-- Depth and bounds of the two cells are the same. -/
def SameGeo (a b : CellData) : Prop :=
  a.depth = b.depth ∧ a.north = b.north ∧ a.east = b.east ∧ a.south = b.south ∧ a.west = b.west

theorem SameGeo.front_geo {a b : CellData} (h : SameGeo a b) (d : Dir) : front d a = front d b := by
  obtain ⟨-, h1, h2, h3, h4⟩ := h
  cases d <;> simp only [front] <;> assumption

theorem across_front {d : Dir} {c n : CellData} (h : Across d c n) :
    front d.opp n = front d c := by
  cases d <;> simp only [Across] at h <;> simp only [front, Dir.opp] <;> exact h.1

theorem aligned_front {d1 d2 : Dir} {c n : CellData} (hp : DiagPair d1 d2)
    (h : Aligned d1 c n) : front d2 n = front d2 c := by
  obtain ⟨h1 | h1, h2 | h2⟩ := hp <;> subst h1 <;> subst h2 <;> simp only [Aligned] at h <;>
    simp only [front] <;> first | exact h.1 | exact h.2

/-- The cell `dX` found from the neighbour `db` of the cell `dc` in the direction `d2`
ends where `db` ends on the side of `dc`, unless it covers the neighbour `dw` of `dc` in
the direction `d2`. -/
theorem corner_of_disjoint {d1 d2 : Dir} {dc db dw dX : CellData} (hp : DiagPair d1 d2)
    (hb : Across d1 dc db) (hw : Across d2 dc dw) (hwa : Aligned d2 dc dw)
    (hba : Aligned d1 dc db) (hX : Across d2 db dX)
    (pc : dc.south < dc.north ∧ dc.west < dc.east) (pb : db.south < db.north ∧ db.west < db.east)
    (pw : dw.south < dw.north ∧ dw.west < dw.east) (pX : dX.south < dX.north ∧ dX.west < dX.east)
    (hno : ¬ Overlap dX dw) : front d1.opp dX = front d1.opp db := by
  by_contra hne
  apply hno
  obtain ⟨h1 | h1, h2 | h2⟩ := hp <;> subst h1 <;> subst h2 <;>
    simp only [Across, Aligned] at hb hw hwa hba hX <;>
    simp only [front, Dir.opp] at hne <;>
    simp only [Overlap, max_lt_iff, lt_min_iff] <;>
    have hlt := lt_or_gt_of_ne hne <;>
    refine ⟨⟨⟨?_, ?_⟩, ?_, ?_⟩, ⟨?_, ?_⟩, ?_, ?_⟩ <;>
    first
    | linarith [hb.1, hb.2.1, hb.2.2, hw.1, hw.2.1, hw.2.2, hwa.1, hwa.2, hba.1, hba.2, hX.1,
        hX.2.1, hX.2.2, pc.1, pc.2, pb.1, pb.2, pw.1, pw.2, pX.1, pX.2]
    | (rcases hlt with hlt | hlt <;>
        linarith [hb.1, hb.2.1, hb.2.2, hw.1, hw.2.1, hw.2.2, hwa.1, hwa.2, hba.1, hba.2, hX.1,
          hX.2.1, hX.2.2, pc.1, pc.2, pb.1, pb.2, pw.1, pw.2, pX.1, pX.2])

/-- A cell `dt` in the corner next to the cell `db` overlaps whatever the lookup from `db`
in the direction `d2` finds. -/
theorem overlap_of_corner {d1 d2 : Dir} {db dt dn : CellData} (hp : DiagPair d1 d2)
    (h1 : front d1.opp dt = front d1.opp db) (h2 : front d2.opp dt = front d2 db)
    (hn : Across d2 db dn)
    (pb : db.south < db.north ∧ db.west < db.east) (pt : dt.south < dt.north ∧ dt.west < dt.east)
    (pn : dn.south < dn.north ∧ dn.west < dn.east) : Overlap dn dt := by
  obtain ⟨e1 | e1, e2 | e2⟩ := hp <;> subst e1 <;> subst e2 <;>
    simp only [Across] at hn <;>
    simp only [front, Dir.opp] at h1 h2 <;>
    simp only [Overlap, max_lt_iff, lt_min_iff] <;>
    refine ⟨⟨⟨?_, ?_⟩, ?_, ?_⟩, ⟨?_, ?_⟩, ?_, ?_⟩ <;>
    linarith [hn.1, hn.2.1, hn.2.2, pb.1, pb.2, pt.1, pt.2, pn.1, pn.2]

theorem geo_same {M : Nat} {r1 r2 : CELL} (h : Evolve M r1 r2) (a : Addr) (d : CellData)
    (hd : dataAt r1 a = some d) : ∃ d2, dataAt r2 a = some d2 ∧ SameGeo d2 d :=
  h.geo_evolve a d hd

/-- The loop that walks down to the diagonal neighbour ends at the maximum depth, in the
corner `k` of the cell it started from. -/
theorem forceDiagWhile_corner (M : Nat) (k : Quadrant) (e1 e2 : Dir)
    (h1 : e1.onSide k = true) (h2 : e2.onSide k = true) :
    ∀ (fuel : Nat) (m : QUAD_POISSON) (n : Addr) (dn : CellData), MeshOK M m →
      dataAt m.root n = some dn → M < n.length + fuel →
      ∃ m1 n1 d1, forceDiagWhile k fuel m n = some (m1, n1) ∧ Evolve M m.root m1.root ∧
        m1.maxDepth = m.maxDepth ∧ n1.length = M ∧ dataAt m1.root n1 = some d1 ∧
        front e1 d1 = front e1 dn ∧ front e2 d1 = front e2 dn := by
  intro fuel
  induction fuel with
  | zero =>
    intro m n dn hok hd hf
    have hn : (cellAt m.root n).isSome = true := by rw [← dataAt_isSome, hd]; rfl
    have h3 := length_le_height m.root n hn
    have h4 := hok.2.2.1
    omega
  | succ fuel ih =>
    intro m n dn hok hd hf
    have hn : (cellAt m.root n).isSome = true := by rw [← dataAt_isSome, hd]; rfl
    have hle : n.length ≤ M := le_trans (length_le_height m.root n hn) hok.2.2.1
    have hdep := hok.depthAt_eq_length hn
    unfold forceDiagWhile
    by_cases hcond : depthAt m.root n ≠ m.maxDepth
    · rw [if_pos hcond]
      rw [hdep, hok.2.2.2] at hcond
      have hlt : n.length < M := by
        have : n.length ≠ M := fun h => hcond (by rw [h])
        omega
      have hkids : kidsAt (refineAt m.root n) n = true := by
        rw [kidsAt_refineAt]
        simp [hn]
      rw [if_pos hkids]
      have hev : Evolve M m.root (refineAt m.root n) := Evolve.of_refine m.root n (by omega)
      have hok1 : MeshOK M { m with root := refineAt m.root n } := hok.evolve hev rfl
      obtain ⟨dk, hdk⟩ := dataAt_child k hkids
      have hdn1 : dataAt (refineAt m.root n) n = some dn := dataAt_refineAt m.root n n dn hd
      have hch : IsChildOf dn k dk := hok1.1.2.2.isChildOf hdn1 hdk
      obtain ⟨m1, n1, d1, e, ev, hm, hl, hd1, f1, f2⟩ :=
        ih { m with root := refineAt m.root n } (k :: n) dk hok1 hdk
          (by simp only [List.length_cons]; omega)
      exact ⟨m1, n1, d1, e, hev.trans_evolve ev, hm, hl, hd1,
        f1.trans (hch.front_eq h1), f2.trans (hch.front_eq h2)⟩
    · rw [if_neg hcond]
      rw [hdep, hok.2.2.2] at hcond
      refine ⟨m, n, dn, rfl, Evolve.refl _, rfl, ?_, hd, rfl, rfl⟩
      by_contra h
      exact hcond (fun e => h (by exact_mod_cast e))

/-- A diagonal block of `insert` returns; it leaves a cell of the maximum depth in the
corner `k` of the cell that the lookup from `base` found. -/
theorem forceDiag_corner (M : Nat) (d : Dir) (k : Quadrant) (e1 e2 : Dir)
    (h1 : e1.onSide k = true) (h2 : e2.onSide k = true) (m : QUAD_POISSON) (base : Addr)
    (hok : MeshOK M m) (hb : (cellAt m.root base).isSome = true) :
    ∃ m1, forceDiag d k (M + 1) m base = some m1 ∧ Evolve M m.root m1.root ∧
      m1.maxDepth = m.maxDepth ∧
      (∀ n, neighbor m.root d base = some n → n.length = M → m1 = m) ∧
      ∀ n dn, neighbor m.root d base = some n → dataAt m.root n = some dn →
        ∃ t dt, t.length = M ∧ dataAt m1.root t = some dt ∧
          front e1 dt = front e1 dn ∧ front e2 dt = front e2 dn := by
  unfold forceDiag
  cases hn : neighbor m.root d base with
  | none =>
    exact ⟨m, rfl, Evolve.refl _, rfl, fun n h _ => (by cases h), fun n dn h _ => (by cases h)⟩
  | some n =>
    simp only []
    have hncell := neighbor_isCell m.root d base n hb hn
    have hdep := hok.depthAt_eq_length hncell
    by_cases hcond : depthAt m.root n ≠ m.maxDepth
    · rw [if_pos hcond]
      obtain ⟨dn0, hdn0⟩ : ∃ dn0, dataAt m.root n = some dn0 := by
        apply Option.isSome_iff_exists.mp
        rw [dataAt_isSome]; exact hncell
      obtain ⟨m1, n1, d1, e, ev, hm, hl, hd1, f1, f2⟩ :=
        forceDiagWhile_corner M k e1 e2 h1 h2 (M + 1) m n dn0 hok hdn0 (by omega)
      rw [e]
      simp only []
      have hne : n1 ≠ [] := by
        rintro rfl
        rw [hdep, hok.2.2.2] at hcond
        simp only [List.length_nil] at hl
        have h3 := length_le_height m.root n hncell
        have h4 := hok.2.2.1
        have : n.length = 0 := by omega
        exact hcond (by rw [this, ← hl])
      obtain ⟨m2, en, ev2, hm2⟩ := noteSiblings_spec M m1 n1 hne
      refine ⟨m2, en, ev.trans_evolve ev2, by rw [hm2, hm], ?_, ?_⟩
      · intro n2 h hlen
        simp only [Option.some.injEq] at h
        subst h
        rw [hdep, hok.2.2.2, hlen] at hcond
        exact absurd rfl hcond
      · intro n2 dn h hdn
        simp only [Option.some.injEq] at h
        subst h
        rw [hdn0] at hdn
        cases hdn
        obtain ⟨d2, hd2, g⟩ := geo_same ev2 n1 d1 hd1
        exact ⟨n1, d2, hl, hd2, (g.front_geo e1).trans f1, (g.front_geo e2).trans f2⟩
    · rw [if_neg hcond]
      have hlen : n.length = M := by
        rw [hdep, hok.2.2.2] at hcond
        by_contra h
        exact hcond (fun e => h (by exact_mod_cast e))
      refine ⟨m, rfl, Evolve.refl _, rfl, fun _ _ _ => rfl, ?_⟩
      intro n2 dn h hdn
      simp only [Option.some.injEq] at h
      subst h
      exact ⟨n, dn, hlen, hdn, rfl, rfl⟩

end QUAD_POISSON

end Lumo

namespace Lumo

namespace QUAD_POISSON

open CELL

theorem data_of_cell {root : CELL} {a : Addr} (h : (cellAt root a).isSome = true) :
    ∃ d, dataAt root a = some d := by
  apply Option.isSome_iff_exists.mp
  rw [dataAt_isSome]
  exact h

theorem not_overlap_leaf {root : CELL} (hwf : WellFormed root) (X w : Addr) (dX dw : CellData)
    (hX : dataAt root X = some dX) (hw : dataAt root w = some dw) (hl : X.length < w.length)
    (hleaf : kidsAt root X = false) : ¬ Overlap dX dw := by
  intro ho
  obtain ⟨s, hs⟩ := suffix_of_overlap hwf X w dX dw (by omega) hX hw ho
  have hne : s ≠ [] := by
    rintro rfl
    rw [hs] at hl
    simp at hl
  have hk := kidsAt_of_append s X hne (by rw [← hs, ← dataAt_isSome, hw]; rfl)
  rw [hk] at hleaf
  cases hleaf

/-- A diagonal block of `insert`, run behind the four orthogonal blocks: afterwards the
lookup from the neighbour `base` of the cell finds a cell of the maximum depth, or
nothing. -/
theorem forceDiag_lookup (M : Nat) (d1 d2 : Dir) (k : Quadrant) (hp : DiagPair d1 d2)
    (hk1 : d1.opp.onSide k = true) (hk2 : d2.opp.onSide k = true) (m : QUAD_POISSON)
    (cur base : Addr) (hok : MeshOK M m) (hcur : cur.length = M)
    (hc : (cellAt m.root cur).isSome = true) (hbase : neighbor m.root d1 cur = some base)
    (hbl : base.length = M) (hside : ∀ w, neighbor m.root d2 cur = some w → w.length = M) :
    ∃ m1, forceDiag d2 k (M + 1) m base = some m1 ∧ Evolve M m.root m1.root ∧
      m1.maxDepth = m.maxDepth ∧ ∀ n2, neighbor m1.root d2 base = some n2 → n2.length = M := by
  have hwf := hok.1
  have hbcell := neighbor_isCell m.root d1 cur base hc hbase
  obtain ⟨m1, e, ev, hm, hsame, hcorner⟩ :=
    forceDiag_corner M d2 k d1.opp d2.opp hk1 hk2 m base hok hbcell
  refine ⟨m1, e, ev, hm, ?_⟩
  intro n2 hn2
  cases hX : neighbor m.root d2 base with
  | none =>
    rw [(neighbor_none_congr m.root m1.root d2 base).mp hX] at hn2
    cases hn2
  | some X =>
    by_cases hXl : X.length = M
    · have := hsame X hX hXl
      subst this
      rw [hX] at hn2
      cases hn2
      exact hXl
    · obtain ⟨hXle, hXleaf⟩ := neighbor_length m.root d2 base X hX
      have hXlt : X.length < M := by omega
      have hXk : kidsAt m.root X = false := hXleaf (by omega)
      obtain ⟨dc, hdc⟩ := data_of_cell hc
      obtain ⟨db, hdb⟩ := data_of_cell hbcell
      obtain ⟨db0, hdb0, hacb, -, -, halb⟩ := neighbor_spec hwf d1 cur base dc hdc hbase
      rw [hdb] at hdb0
      cases hdb0
      have hdepb : db.depth = dc.depth := by
        rw [hwf.2.2.depth_eq base db hdb, hwf.2.2.depth_eq cur dc hdc, hbl, hcur]
      have halb1 := halb hdepb
      obtain ⟨dX, hdX, hacX, -⟩ := neighbor_spec hwf d2 base X db hdb hX
      -- the neighbour of the cell on the side of the diagonal block
      cases hW : neighbor m.root d2 cur with
      | none =>
        have f1 := neighbor_none_front hwf d2 cur dc hdc hW
        have f2 := aligned_front hp halb1
        exact absurd (f2.trans f1) (front_ne_of_neighbor hwf d2 base X db hdb hX)
      | some w =>
        have hwl := hside w hW
        have hwcell := neighbor_isCell m.root d2 cur w hc hW
        obtain ⟨dw, hdw⟩ := data_of_cell hwcell
        obtain ⟨dw0, hdw0, hacw, -, -, halw⟩ := neighbor_spec hwf d2 cur w dc hdc hW
        rw [hdw] at hdw0
        cases hdw0
        have hdepw : dw.depth = dc.depth := by
          rw [hwf.2.2.depth_eq w dw hdw, hwf.2.2.depth_eq cur dc hdc, hwl, hcur]
        have hno := not_overlap_leaf hwf X w dX dw hdX hdw (by omega) hXk
        have hcor := corner_of_disjoint hp hacb hacw (halw hdepw) halb1 hacX
          (hwf.proper cur dc hdc) (hwf.proper base db hdb) (hwf.proper w dw hdw)
          (hwf.proper X dX hdX) hno
        obtain ⟨t, dt, htl, hdt, c1, c2⟩ := hcorner X dX hX hdX
        -- the lookup in the tree afterwards
        have hwf1 := ev.wf_evolve hwf
        obtain ⟨db1, hdb1, g⟩ := geo_same ev base db hdb
        obtain ⟨dn2, hdn2, hacn, -⟩ := neighbor_spec hwf1 d2 base n2 db1 hdb1 hn2
        have ho := overlap_of_corner hp
          (c1.trans (hcor.trans (g.front_geo d1.opp).symm))
          (c2.trans ((across_front hacX).trans (g.front_geo d2).symm)) hacn
          (hwf1.proper base db1 hdb1) (hwf1.proper t dt hdt) (hwf1.proper n2 dn2 hdn2)
        obtain ⟨hn2le, hn2leaf⟩ := neighbor_length m1.root d2 base n2 hn2
        by_contra hne
        have hlt : n2.length < t.length := by omega
        exact not_overlap_leaf hwf1 n2 t dn2 dt hdn2 hdt hlt (hn2leaf (by omega)) ho

/-- The lookup from the cell `c` in the direction `d` finds a cell at the level `M`, or
nothing. -/
def Forced (M : Nat) (r : CELL) (d : Dir) (c : Addr) : Prop :=
  ∀ n, neighbor r d c = some n → n.length = M

theorem Forced.evolve_forced {M : Nat} {r1 r2 : CELL} {d : Dir} {c : Addr}
    (h : Forced M r1 d c) (ev : Evolve M r1 r2) (hc : c.length = M) : Forced M r2 d c := by
  intro n hn
  cases h1 : neighbor r1 d c with
  | none =>
    rw [(neighbor_none_congr r1 r2 d c).mp h1] at hn
    cases hn
  | some n1 =>
    have hl := h n1 h1
    rw [ev.neighbor_evolve d c n1 h1 (by rw [hl, hc])] at hn
    cases hn
    exact hl

/-- A cell at the level `M` of a mesh in order has the maximum depth and no children. -/
theorem MeshOK.at_max {M : Nat} {m : QUAD_POISSON} (hok : MeshOK M m) {n : Addr}
    (hn : (cellAt m.root n).isSome = true) (hl : n.length = M) :
    depthAt m.root n = m.maxDepth ∧ kidsAt m.root n = false := by
  refine ⟨by rw [hok.depthAt_eq_length hn, hl, hok.2.2.2], ?_⟩
  cases hk : kidsAt m.root n with
  | false => rfl
  | true =>
    have h1 := kidsAt_length_lt hk
    have h2 := hok.2.2.1
    omega

/-- The two diagonal blocks behind `if (north)` (or `if (south)`), run behind the four
orthogonal blocks. -/
theorem forceDiagPair_lookup (M : Nat) (d1 : Dir) (kw ke : Quadrant)
    (hd1 : d1 = Dir.north ∨ d1 = Dir.south)
    (hw1 : d1.opp.onSide kw = true) (hw2 : Dir.east.onSide kw = true)
    (he1 : d1.opp.onSide ke = true) (he2 : Dir.west.onSide ke = true)
    (m : QUAD_POISSON) (cur : Addr) (hok : MeshOK M m) (hcur : cur.length = M)
    (hc : (cellAt m.root cur).isSome = true) (hf : Forced M m.root d1 cur)
    (hfw : Forced M m.root Dir.west cur) (hfe : Forced M m.root Dir.east cur) :
    ∃ m1, forceDiagPair kw ke (M + 1) m (neighbor m.root d1 cur) = some m1 ∧
      Evolve M m.root m1.root ∧ m1.maxDepth = m.maxDepth ∧
      ∀ b, neighbor m.root d1 cur = some b →
        Forced M m1.root Dir.west b ∧ Forced M m1.root Dir.east b := by
  cases hb : neighbor m.root d1 cur with
  | none => exact ⟨m, rfl, Evolve.refl _, rfl, fun b h => by cases h⟩
  | some b =>
    have hbl := hf b hb
    unfold forceDiagPair
    obtain ⟨m1, e1, ev1, hm1, hl1⟩ := forceDiag_lookup M d1 Dir.west kw ⟨hd1, Or.inr rfl⟩ hw1 hw2
      m cur b hok hcur hc hb hbl hfw
    simp only [e1]
    obtain ⟨m2, e2, ev2, hm2, hl2⟩ := forceDiag_lookup M d1 Dir.east ke ⟨hd1, Or.inl rfl⟩ he1 he2
      m1 cur b (hok.evolve ev1 hm1) hcur (ev1.isCell_evolve hc)
      (ev1.neighbor_evolve d1 cur b hb (by rw [hbl, hcur])) hbl (hfe.evolve_forced ev1 hcur)
    refine ⟨m2, e2, ev1.trans_evolve ev2, by rw [hm2, hm1], ?_⟩
    intro b1 h
    cases h
    exact ⟨Forced.evolve_forced hl1 ev2 hbl, hl2⟩

end QUAD_POISSON

end Lumo

namespace Lumo

namespace QUAD_POISSON

open CELL

theorem Forced.lookup_eq {M : Nat} {r1 r2 : CELL} {d : Dir} {c : Addr}
    (h : Forced M r1 d c) (ev : Evolve M r1 r2) (hc : c.length = M) :
    neighbor r2 d c = neighbor r1 d c := by
  cases h1 : neighbor r1 d c with
  | none => exact (neighbor_none_congr r1 r2 d c).mp h1
  | some n1 => exact ev.neighbor_evolve d c n1 h1 (by rw [h n1 h1, hc])

/-- C24: on a mesh in order (a well-formed tree with the root at depth 0 and no cell
below the maximum depth `M`), for every position, `insert` returns a cell `c` of the
tree, which has no children and the maximum depth, and, where the centres are the
midpoints and the position lies in the bounds of the root, holds the position in its
bounds; afterwards every cell that a lookup from `c` to the north, east, south or west
finds, and every cell that a lookup to the east or west from the northern or the southern
one finds, has the maximum depth and no children. -/
theorem insert_forces_neighbors (M : Nat) (m : QUAD_POISSON) (x y : ℚ) (hok : MeshOK M m) :
    ∃ m1 c dc, QUAD_POISSON.insert m x y = some (m1, c) ∧
      dataAt m1.root c = some dc ∧ kidsAt m1.root c = false ∧ dc.depth = m.maxDepth ∧
      (Centered m.root → Holds m.root.data x y → Holds dc x y) ∧
      (∀ d n, neighbor m1.root d c = some n →
        depthAt m1.root n = m.maxDepth ∧ kidsAt m1.root n = false) ∧
      ∀ d1 d2 b n, DiagPair d1 d2 → neighbor m1.root d1 c = some b →
        neighbor m1.root d2 b = some n →
        depthAt m1.root n = m.maxDepth ∧ kidsAt m1.root n = false := by
  have hM : m.maxDepth.toNat = M := by rw [hok.2.2.2]; simp
  obtain ⟨root1, cur, ex, e, ev1, w5, hcell1, hex⟩ :=
    descend_total x y M M m.root [] true (by simp) (by rw [cellAt_nil]; rfl)
  simp only [List.length_nil, zero_add] at w5
  have hok1 : MeshOK M { m with root := root1 } := hok.evolve ev1 rfl
  obtain ⟨m2, e2, ev2, hm2⟩ : ∃ m2,
      (if ex = true then some { m with root := root1 }
        else noteSiblings { m with root := root1 } cur) = some m2 ∧
      Evolve M root1 m2.root ∧ m2.maxDepth = m.maxDepth := by
    cases hx : ex with
    | true => exact ⟨{ m with root := root1 }, rfl, Evolve.refl _, rfl⟩
    | false =>
      have hcur : cur ≠ [] := by
        rcases hex hx with h | h
        · cases h
        · exact h
      obtain ⟨m2, e2, ev2, hm2⟩ := noteSiblings_spec M { m with root := root1 } cur hcur
      exact ⟨m2, by simpa using e2, ev2, hm2⟩
  have hok2 := hok1.evolve ev2 hm2
  have hc2 := ev2.isCell_evolve hcell1
  -- the four orthogonal blocks
  obtain ⟨m3, north, e3, ev3, hm3, hl3, hn3⟩ := forceOrtho_lookup M Dir.north cur w5 m2 hok2 hc2
  have hok3 := hok2.evolve ev3 hm3
  have hc3 := ev3.isCell_evolve hc2
  have f3 : Forced M m3.root Dir.north cur := fun n h => (hn3 n (hl3 ▸ h)).2
  obtain ⟨m4, south, e4, ev4, hm4, hl4, hn4⟩ := forceOrtho_lookup M Dir.south cur w5 m3 hok3 hc3
  have hok4 := hok3.evolve ev4 hm4
  have hc4 := ev4.isCell_evolve hc3
  have f4 : Forced M m4.root Dir.south cur := fun n h => (hn4 n (hl4 ▸ h)).2
  obtain ⟨m5, west, e5, ev5, hm5, hl5, hn5⟩ := forceOrtho_lookup M Dir.west cur w5 m4 hok4 hc4
  have hok5 := hok4.evolve ev5 hm5
  have hc5 := ev5.isCell_evolve hc4
  have f5 : Forced M m5.root Dir.west cur := fun n h => (hn5 n (hl5 ▸ h)).2
  obtain ⟨m6, east, e6, ev6, hm6, hl6, hn6⟩ := forceOrtho_lookup M Dir.east cur w5 m5 hok5 hc5
  have hok6 := hok5.evolve ev6 hm6
  have hc6 := ev6.isCell_evolve hc5
  have f6 : Forced M m6.root Dir.east cur := fun n h => (hn6 n (hl6 ▸ h)).2
  -- the state of the four lookups before the diagonal blocks
  have ev36 : Evolve M m3.root m6.root := (ev4.trans_evolve ev5).trans_evolve ev6
  have ev46 : Evolve M m4.root m6.root := ev5.trans_evolve ev6
  have g3 : Forced M m6.root Dir.north cur := f3.evolve_forced ev36 w5
  have g4 : Forced M m6.root Dir.south cur := f4.evolve_forced ev46 w5
  have g5 : Forced M m6.root Dir.west cur := f5.evolve_forced ev6 w5
  have hnorth : neighbor m6.root Dir.north cur = north := by
    rw [f3.lookup_eq ev36 w5, hl3]
  -- the diagonal blocks
  obtain ⟨m7, e7, ev7, hm7, hd7⟩ := forceDiagPair_lookup M Dir.north Quadrant.q2 Quadrant.q3
    (Or.inl rfl) rfl rfl rfl rfl m6 cur hok6 w5 hc6 g3 g5 f6
  rw [hnorth] at e7 hd7
  have hok7 := hok6.evolve ev7 hm7
  have hc7 := ev7.isCell_evolve hc6
  have k3 : Forced M m7.root Dir.north cur := g3.evolve_forced ev7 w5
  have k4 : Forced M m7.root Dir.south cur := g4.evolve_forced ev7 w5
  have k5 : Forced M m7.root Dir.west cur := g5.evolve_forced ev7 w5
  have k6 : Forced M m7.root Dir.east cur := f6.evolve_forced ev7 w5
  have hsouth : neighbor m7.root Dir.south cur = south := by
    rw [f4.lookup_eq (ev46.trans_evolve ev7) w5, hl4]
  obtain ⟨m8, e8, ev8, hm8, hd8⟩ := forceDiagPair_lookup M Dir.south Quadrant.q1 Quadrant.q0
    (Or.inr rfl) rfl rfl rfl rfl m7 cur hok7 w5 hc7 k4 k5 k6
  rw [hsouth] at e8 hd8
  have hok8 := hok7.evolve ev8 hm8
  have hc8 := ev8.isCell_evolve hc7
  have hmax : m8.maxDepth = m.maxDepth := by rw [hm8, hm7, hm6, hm5, hm4, hm3, hm2]
  obtain ⟨dc, hdc⟩ : ∃ dc, dataAt m8.root cur = some dc :=
    Option.isSome_iff_exists.mp (by rw [dataAt_isSome]; exact hc8)
  have hat := hok8.at_max hc8 w5
  have ev18 : Evolve M root1 m8.root :=
    (((((ev2.trans_evolve ev3).trans_evolve ev4).trans_evolve ev5).trans_evolve
      ev6).trans_evolve ev7).trans_evolve ev8
  refine ⟨m8, cur, dc, ?_, hdc, hat.2, ?_, ?_, ?_, ?_⟩
  · unfold QUAD_POISSON.insert
    simp only [hM, e, e2, e3, e4, e5, e6, e7, e8]
  · rw [← hmax, ← hat.1, depthAt_eq _ cur dc hdc]
  · intro hcen hp
    obtain ⟨root2, cur2, ex2, dc1, e0, -, -, -, -, -, w6, w7⟩ :=
      descend_spec x y M M m.root [] true m.root.data hok.1 hcen hok.2.2.1 (by simp) rfl hp
    rw [e] at e0
    simp only [Option.some.injEq, Prod.mk.injEq] at e0
    obtain ⟨e01, e02, -⟩ := e0
    rw [← e01, ← e02] at w6
    obtain ⟨d2, hd2, -, g1, g2, g3, g4⟩ := ev18.geo_evolve cur dc1 w6
    rw [hdc] at hd2
    simp only [Option.some.injEq] at hd2
    subst hd2
    obtain ⟨p1, p2, p3, p4⟩ := w7
    exact ⟨by rw [g4]; exact p1, by rw [g2]; exact p2, by rw [g3]; exact p3,
      by rw [g1]; exact p4⟩
  · intro d n hn
    have hl : n.length = M := by
      cases d
      · exact k3.evolve_forced ev8 w5 n hn
      · exact k6.evolve_forced ev8 w5 n hn
      · exact k4.evolve_forced ev8 w5 n hn
      · exact k5.evolve_forced ev8 w5 n hn
    rw [← hmax]
    exact hok8.at_max (neighbor_isCell m8.root d cur n hc8 hn) hl
  · intro d1 d2 b n hp hb hn
    have hbcell := neighbor_isCell m8.root d1 cur b hc8 hb
    have hl : n.length = M := by
      obtain ⟨h1 | h1, h2 | h2⟩ := hp <;> subst h1 <;> subst h2
      · -- north, east
        have hb7 : north = some b := by
          rw [← hnorth, ← g3.lookup_eq (ev7.trans_evolve ev8) w5]; exact hb
        exact (hd7 b hb7).2.evolve_forced ev8 (hn3 b hb7).2 n hn
      · have hb7 : north = some b := by
          rw [← hnorth, ← g3.lookup_eq (ev7.trans_evolve ev8) w5]; exact hb
        exact (hd7 b hb7).1.evolve_forced ev8 (hn3 b hb7).2 n hn
      · have hb8 : south = some b := by
          rw [← hsouth, ← k4.lookup_eq ev8 w5]; exact hb
        exact (hd8 b hb8).2 n hn
      · have hb8 : south = some b := by
          rw [← hsouth, ← k4.lookup_eq ev8 w5]; exact hb
        exact (hd8 b hb8).1 n hn
    rw [← hmax]
    exact hok8.at_max (neighbor_isCell m8.root d2 b n hbcell hn) hl

theorem sampleMesh_ok : MeshOK 2 sampleMesh :=
  ⟨(WellFormed.of_leaf (by norm_num [CellData.new]) (by norm_num [CellData.new])).refineAt_wf _,
    rfl, by decide, rfl⟩

theorem insert_forces_neighbors_witness :
    MeshOK 2 sampleMesh ∧
    ∃ m1 c dc, QUAD_POISSON.insert sampleMesh (3 / 10) (9 / 10) = some (m1, c) ∧
      dataAt m1.root c = some dc ∧ kidsAt m1.root c = false ∧ dc.depth = sampleMesh.maxDepth ∧
      (Centered sampleMesh.root → Holds sampleMesh.root.data (3 / 10) (9 / 10) →
        Holds dc (3 / 10) (9 / 10)) ∧
      (∀ d n, neighbor m1.root d c = some n →
        depthAt m1.root n = sampleMesh.maxDepth ∧ kidsAt m1.root n = false) ∧
      ∀ d1 d2 b n, DiagPair d1 d2 → neighbor m1.root d1 c = some b →
        neighbor m1.root d2 b = some n →
        depthAt m1.root n = sampleMesh.maxDepth ∧ kidsAt m1.root n = false :=
  ⟨sampleMesh_ok, insert_forces_neighbors 2 sampleMesh (3 / 10) (9 / 10) sampleMesh_ok⟩

end QUAD_POISSON

end Lumo

namespace Lumo

namespace QUAD_DBM_2D

open CELL QUAD_POISSON

/-! ## A filled cell is accepted again -/

/-- The mask of 4 by 4 pixels that is set at the pixels with an index `x + 4 * y` of the
list. -/
def mask16 (l : List Nat) : List Bool :=
  (List.range 16).map (fun i => decide (i ∈ l))

/-- The records of the graph of a state, as `DAG::writeNode` lists them from the root. -/
def graphOf (st : QUAD_DBM_2D ℚ) : Option (List NodeRecord) :=
  st.dag.root.map (fun r => DAG.writeNode r (-1))

/-- The flattened grid index of the cell at an address. -/
def indexAt (st : QUAD_DBM_2D ℚ) (a : Addr) : Option Int :=
  (dataAt st.mesh.root a).map (flatIndex st.xRes st.yRes)

/-- A call of `addParticle` from its steps: the solve step, the choice of the index, the
cell of the candidate list and the lines from the marking of the cell on. -/
theorem addParticle_of (ops : FloatOps) (sh : Shading ℚ) (junk : Int → ℚ)
    (st s2 : QUAD_DBM_2D ℚ) (random : ℚ) (k : Nat) (added : Addr)
    (res : Option (Bool × QUAD_DBM_2D ℚ))
    (h1 : solveStep junk st = some s2)
    (h2 : chooseIndex ops (candidateData s2.mesh.root s2.candidates) random = some k)
    (h3 : s2.candidates.get? k = some added)
    (h4 : accept sh s2 added = res) :
    addParticle ops sh junk st random = res := by
  have hl : ¬ s2.candidates.length = 0 := by
    intro h0
    rw [List.length_eq_zero.mp h0] at h3
    cases h3
  unfold addParticle
  simp only [h1, if_neg hl, h2, h3, h4]

/-- The image of 4 by 4 pixels with the start pixel `(2, 2)`, the terminator pixel
`(0, 0)` and the repulsor pixels `(2, 0)` and `(0, 1)`, read into a new object: the
repulsor cells lie between the terminator cell and every other cell. -/
def walledImage : Option (Bool × QUAD_DBM_2D ℚ) :=
  readImage (fun _ => false) (fresh ℚ 4 4 10 noNoise) (mask16 [10]) (mask16 [])
    (mask16 [2, 4]) (mask16 [0]) 4 4

/-- What is observed of the two calls of `addParticle` behind `walledImage`. -/
structure WalledView where
  read : Bool
  calm1 : Option (Bool × Nat)
  first : Bool
  graph1 : Option (List NodeRecord)
  chosen : Option Nat
  index : Option Int
  state : CELL_STATE
  calm2 : Bool × Nat
  second : Bool
  graph2 : Option (List NodeRecord)
  totalNodes : Int
  deriving DecidableEq

/-- Whether the total potential of the candidate list, summed in single precision, is
below `1e-8`, and the size of the list. -/
def calm (st : QUAD_DBM_2D ℚ) : Bool × Nat :=
  (decide (totalPotentialOf f32Ops (candidateData st.mesh.root st.candidates) <
    1 / 100000000), st.candidates.length)

/-- Two calls of `addParticle` behind `walledImage`, in the arithmetic of the program and
both with the draw `1 / 128`, a `double` whose product with 7 is a `double`; the second
call by its steps: what `readImage` returns, `calm` behind the solve step of the first
call, what the first call returns, the graph after the first call, the index chosen by
the second call, the flattened index and the state of the cell at this place of the
candidate list before the call marks it, `calm` behind the solve step of the second call,
what the call returns, and the graph and `_totalNodes` afterwards. -/
def walledRun : Option WalledView :=
  walledImage.bind (fun p0 =>
    (addParticle f32Ops DAG.sampleShading (fun _ => 0) p0.2 (1 / 128)).bind (fun p1 =>
      (solveStep (fun _ => 0) p1.2).bind (fun s2 =>
        (s2.candidates.get? 0).bind (fun added =>
          (accept DAG.sampleShading s2 added).map (fun p2 =>
            WalledView.mk p0.1 ((solveStep (fun _ => 0) p0.2).map calm) p1.1 (graphOf p1.2)
              (chooseIndex f32Ops (candidateData s2.mesh.root s2.candidates) (1 / 128))
              (indexAt s2 added) (stateAt s2.mesh.root added) (calm s2) p2.1 (graphOf p2.2)
              p2.2.dag.totalNodes)))))

set_option maxRecDepth 100000 in
theorem walledRun_eq :
    walledRun = some (WalledView.mk true (some (true, 7)) true
      (some [{ index := 13, parent := 9, leader := false, secondary := false, depth := 0,
               neighbors := [] },
             { index := 9, parent := -1, leader := false, secondary := false, depth := 0,
               neighbors := [13] }])
      (some 0) (some 13) CELL_STATE.NEGATIVE (true, 7) true
      (some [{ index := 13, parent := 9, leader := false, secondary := false, depth := 0,
               neighbors := [] },
             { index := 13, parent := 9, leader := false, secondary := false, depth := 0,
               neighbors := [] },
             { index := 9, parent := -1, leader := false, secondary := false, depth := 0,
               neighbors := [13, 13] }])
      2) := by decide!

/-- C28, a run in which the code leaves the claim: `addParticle` never takes a cell out of
the candidate list, and below the total potential `1e-8` it chooses by the place in the
list alone.  In the image `walledImage` the terminator is walled off and every potential
is 0.  `readImage` returns true, and two calls of `addParticle`, both with the draw
`1 / 128` of the twister, return true and choose the place 0 of the list of 7 candidates
(the product `7 * (1 / 128)` is below 1; the arithmetic is the one of the program, the
product in double precision): the cell that the second call selects (flattened index 13)
is in the state `NEGATIVE`, filled by the first call, and the graph, which has the nodes 9
and 13 after the first call, has two nodes with the index 13 after the second one. -/
theorem addParticle_accepts_twice :
    ∃ (st0 st1 s2 st2 : QUAD_DBM_2D ℚ) (added : Addr),
      walledImage = some (true, st0) ∧
      addParticle f32Ops DAG.sampleShading (fun _ => 0) st0 (1 / 128) = some (true, st1) ∧
      graphOf st1 =
        some [{ index := 13, parent := 9, leader := false, secondary := false, depth := 0,
                neighbors := [] },
              { index := 9, parent := -1, leader := false, secondary := false, depth := 0,
                neighbors := [13] }] ∧
      solveStep (fun _ => 0) st1 = some s2 ∧
      s2.candidates.length = 7 ∧
      chooseIndex f32Ops (candidateData s2.mesh.root s2.candidates) (1 / 128) = some 0 ∧
      s2.candidates.get? 0 = some added ∧
      indexAt s2 added = some 13 ∧
      stateAt s2.mesh.root added = CELL_STATE.NEGATIVE ∧
      addParticle f32Ops DAG.sampleShading (fun _ => 0) st1 (1 / 128) = some (true, st2) ∧
      graphOf st2 =
        some [{ index := 13, parent := 9, leader := false, secondary := false, depth := 0,
                neighbors := [] },
              { index := 13, parent := 9, leader := false, secondary := false, depth := 0,
                neighbors := [] },
              { index := 9, parent := -1, leader := false, secondary := false, depth := 0,
                neighbors := [13, 13] }] ∧
      st2.dag.totalNodes = 2 := by
  have h := walledRun_eq
  unfold walledRun at h
  obtain ⟨p0, hp0, h⟩ := Option.bind_eq_some.mp h
  obtain ⟨p1, hp1, h⟩ := Option.bind_eq_some.mp h
  obtain ⟨s2, hs2, h⟩ := Option.bind_eq_some.mp h
  obtain ⟨added, hadd, h⟩ := Option.bind_eq_some.mp h
  obtain ⟨p2, hp2, h⟩ := Option.map_eq_some'.mp h
  simp only [WalledView.mk.injEq] at h
  obtain ⟨e0, -, e1, g1, hk2, hi, hst, c2, e2, g2, ht⟩ := h
  have hp0' : walledImage = some (true, p0.2) := by rw [hp0, ← e0]
  have hp1' : addParticle f32Ops DAG.sampleShading (fun _ => 0) p0.2 (1 / 128) =
      some (true, p1.2) := by rw [hp1, ← e1]
  have hp2' : accept DAG.sampleShading s2 added = some (true, p2.2) := by rw [hp2, ← e2]
  have hlen : s2.candidates.length = 7 := by
    unfold calm at c2
    simp only [Prod.mk.injEq] at c2
    exact c2.2
  exact ⟨p0.2, p1.2, s2, p2.2, added, hp0', hp1', g1, hs2, hlen, hk2, hadd, hi, hst,
    addParticle_of f32Ops DAG.sampleShading (fun _ => 0) p1.2 s2 (1 / 128) 0 added _
      hs2 hk2 hadd hp2', g2, ht⟩

end QUAD_DBM_2D

end Lumo

namespace Lumo

namespace QUAD_DBM_2D

open CELL QUAD_POISSON

/-! ## The parent of a new node with two start pixels -/

/-- The arguments `newIndex` and `neighborIndex` of the call
`_dag->addSegment(newIndex, neighborIndex)` of `addParticle` for the chosen cell `added`
(`none`: a null pointer is dereferenced before the call). -/
def segmentArgs (st : QUAD_DBM_2D ℚ) (added : Addr) : Option (Int × Int) :=
  match dataAt (setData markFilled st.mesh.root added) added with
  | none => none
  | some da =>
    match QUAD_POISSON.insert { st.mesh with root := setData markFilled st.mesh.root added }
      da.centerX da.centerY with
    | none => none
    | some (m4, _) =>
      match dataAt (checkForCandidates { st with mesh := m4 } added).mesh.root added,
        (growthParent (setData markFilled st.mesh.root added) added).bind
          (dataAt (checkForCandidates { st with mesh := m4 } added).mesh.root) with
      | some d1, some d2 => some (flatIndex st.xRes st.yRes d1, flatIndex st.xRes st.yRes d2)
      | _, _ => none

/-- Where `addSegment` does not find the parent, the lines of `addParticle` from the
marking of the cell on do not return. -/
theorem accept_segment_none (sh : Shading ℚ) (st : QUAD_DBM_2D ℚ) (added : Addr) (i n : Int)
    (h1 : segmentArgs st added = some (i, n)) (h2 : DAG.addSegment st.dag i n = none) :
    accept sh st added = none := by
  unfold segmentArgs at h1
  unfold accept
  cases ha : dataAt (setData markFilled st.mesh.root added) added with
  | none => rfl
  | some da =>
    simp only [ha] at h1 ⊢
    cases hi : QUAD_POISSON.insert
        { st.mesh with root := setData markFilled st.mesh.root added } da.centerX da.centerY with
    | none => rfl
    | some res =>
      obtain ⟨m4, c⟩ := res
      simp only [hi] at h1 ⊢
      split at h1
      · rename_i d1 d2 e1 e2
        simp only [Option.some.injEq, Prod.mk.injEq] at h1
        simp only [e1, e2, h1.1, h1.2, h2]
      · cases h1

/-- The image of 4 by 4 pixels with the two start pixels `(3, 1)` and `(3, 3)` and the
terminator pixel `(0, 0)`, read into a new object: the start cells have the flattened
indices 6 and 14. -/
def twinImage : Option (Bool × QUAD_DBM_2D ℚ) :=
  readImage (fun _ => false) (fresh ℚ 4 4 10 noNoise) (mask16 [7, 15]) (mask16 [])
    (mask16 []) (mask16 [0]) 4 4

/-- What is observed of the two calls of `addParticle` behind `twinImage`. -/
structure TwinView where
  read : Bool
  first : Bool
  graph1 : Option (List NodeRecord)
  hash1 : List (Int × NodePath)
  bottomHit : Int
  chosen : Option Nat
  args : Option (Int × Int)
  found : Option NodePath
  deriving DecidableEq

/-- Two calls of `addParticle` behind `twinImage`, with the draws `1 / 5` and `99 / 100`,
the second one by its steps: what `readImage` and the first call return, the graph, its
map and `_bottomHit` after the first call, the index chosen by the second call, the
arguments of its call of `addSegment`, and what the map holds for the second argument. -/
def twinRun : Option TwinView :=
  twinImage.bind (fun p0 =>
    (addParticle exactOps DAG.sampleShading (fun _ => 0) p0.2 (1 / 5)).bind (fun p1 =>
      (solveStep (fun _ => 0) p1.2).bind (fun s2 =>
        (s2.candidates.get? 9).map (fun added =>
          TwinView.mk p0.1 p1.1 (graphOf p1.2) p1.2.dag.hash p1.2.bottomHit
            (chooseIndex exactOps (candidateData s2.mesh.root s2.candidates) (99 / 100))
            (segmentArgs s2 added)
            ((segmentArgs s2 added).bind (fun a => DAG.find s2.dag.hash a.2))))))

set_option maxRecDepth 100000 in
theorem twinRun_eq :
    twinRun = some (TwinView.mk true true
      (some [{ index := 2, parent := 6, leader := false, secondary := false, depth := 0,
               neighbors := [] },
             { index := 6, parent := -1, leader := false, secondary := false, depth := 0,
               neighbors := [2] }])
      [(6, []), (2, [0])] 0 (some 9) (some (13, 14)) none) := by decide!

theorem solveStep_dag (junk : Int → ℚ) (st s2 : QUAD_DBM_2D ℚ)
    (h : solveStep junk st = some s2) : s2.dag = st.dag := by
  unfold solveStep at h
  by_cases hs : st.skipSolve = 0
  · rw [if_pos hs] at h
    cases hp : solvePoisson junk st with
    | none => simp [hp] at h
    | some res =>
      obtain ⟨n, s1⟩ := res
      simp only [hp, Option.map_some', Option.some.injEq] at h
      rw [← h]
      unfold solvePoisson at hp
      cases h0 : balance st.mesh.root with
      | none => simp [h0] at hp
      | some r0 =>
        simp only [h0] at hp
        cases h1 : buildNeighbors r0 with
        | none => simp [h1] at hp
        | some r1 =>
          simp only [h1] at hp
          cases h2 : CG_SOLVER.solve
              { st.solver with iterations := if st.firstSolve then 10000 else st.savedIterations }
              junk r1 (getEmptyLeaves r1) with
          | none => simp [h2] at hp
          | some res =>
            obtain ⟨k, r2⟩ := res
            simp only [h2, Option.some.injEq, Prod.mk.injEq] at hp
            rw [← hp.2]
  · rw [if_neg hs] at h
    simp only [Option.some.injEq] at h
    rw [← h]

/-- C30, a run in which the code leaves the claim: the first call of `addParticle` makes
the parent of its cell the root of the graph, and no other start cell enters the graph.
In the image `twinImage` with the two start cells 6 and 14, `readImage` returns true and
the call with the draw `1 / 5` returns true, with the graph `6 -> 2` and no terminator
reached; the call with the draw `99 / 100` selects the cell 13, whose filled neighbour is
the start cell 14, and calls `addSegment(13, 14)`: the graph is not empty, the index 14 is
not in its map, `addSegment` dereferences the end of the map, and the call does not
return. -/
theorem addParticle_parent_missing :
    ∃ (st0 st1 s2 : QUAD_DBM_2D ℚ) (added : Addr),
      twinImage = some (true, st0) ∧
      addParticle exactOps DAG.sampleShading (fun _ => 0) st0 (1 / 5) = some (true, st1) ∧
      graphOf st1 =
        some [{ index := 2, parent := 6, leader := false, secondary := false, depth := 0,
                neighbors := [] },
              { index := 6, parent := -1, leader := false, secondary := false, depth := 0,
                neighbors := [2] }] ∧
      st1.dag.hash = [(6, []), (2, [0])] ∧
      st1.bottomHit = 0 ∧
      solveStep (fun _ => 0) st1 = some s2 ∧
      chooseIndex exactOps (candidateData s2.mesh.root s2.candidates) (99 / 100) = some 9 ∧
      s2.candidates.get? 9 = some added ∧
      segmentArgs s2 added = some (13, 14) ∧
      DAG.find st1.dag.hash 14 = none ∧
      DAG.addSegment st1.dag 13 14 = none ∧
      addParticle exactOps DAG.sampleShading (fun _ => 0) st1 (99 / 100) = none := by
  have h := twinRun_eq
  unfold twinRun at h
  obtain ⟨p0, hp0, h⟩ := Option.bind_eq_some.mp h
  obtain ⟨p1, hp1, h⟩ := Option.bind_eq_some.mp h
  obtain ⟨s2, hs2, h⟩ := Option.bind_eq_some.mp h
  obtain ⟨added, hadd, h⟩ := Option.map_eq_some'.mp h
  simp only [TwinView.mk.injEq] at h
  obtain ⟨e0, e1, g1, hh, hb, hk, hargs, hf⟩ := h
  have hp0' : twinImage = some (true, p0.2) := by rw [hp0, ← e0]
  have hp1' : addParticle exactOps DAG.sampleShading (fun _ => 0) p0.2 (1 / 5) =
      some (true, p1.2) := by rw [hp1, ← e1]
  have hd := solveStep_dag (fun _ => 0) p1.2 s2 hs2
  rw [hargs, Option.some_bind, hd] at hf
  have hroot : ∃ r, p1.2.dag.root = some r := by
    unfold graphOf at g1
    obtain ⟨r, hr, -⟩ := Option.map_eq_some'.mp g1
    exact ⟨r, hr⟩
  obtain ⟨r, hr⟩ := hroot
  have hseg : DAG.addSegment p1.2.dag 13 14 = none := by
    unfold DAG.addSegment
    simp only [hr, hf]
  refine ⟨p0.2, p1.2, s2, added, hp0', hp1', g1, hh, hb, hs2, hk, hadd, hargs, hf, hseg, ?_⟩
  refine addParticle_of exactOps DAG.sampleShading (fun _ => 0) p1.2 s2 (99 / 100) 9 added _
    hs2 hk hadd ?_
  exact accept_segment_none DAG.sampleShading s2 added 13 14 hargs (by rw [hd]; exact hseg)

end QUAD_DBM_2D

end Lumo

namespace Lumo

namespace QUAD_DBM_2D

open CELL QUAD_POISSON

/-! ## Two runs in one process -/

/-- The image of 4 by 4 pixels with the start pixel `(2, 2)` and the terminator pixel
`(0, 0)`, read into the object `st`. -/
def plainImage (st : QUAD_DBM_2D ℚ) : Option (Bool × QUAD_DBM_2D ℚ) :=
  readImage (fun _ => false) st (mask16 [10]) (mask16 []) (mask16 []) (mask16 [0]) 4 4

/-- The object that the constructor builds in a process in which the run that ended in the
state `st` has taken place: the variables `totalParticles` and `skipSolve` of
`addParticle` and `firstSolve` and `iterations` of `QUAD_POISSON::solve` are static, and
keep the values that the run has left. -/
def nextEngine (xRes yRes iterations : Int) (noise : List Bool) (st : QUAD_DBM_2D ℚ) :
    QUAD_DBM_2D ℚ :=
  QUAD_DBM_2D.new ℚ xRes yRes iterations noise st.totalParticles st.skipSolve st.firstSolve
    st.savedIterations

/-- What is observed of the two runs. -/
structure ProcessView where
  read1 : Bool
  call1 : Bool
  graph1 : Option (List NodeRecord)
  bottomHit1 : Int
  skipSolve : Int
  firstSolve : Bool
  totalParticles : Int
  read2 : Bool
  call2 : Bool
  graph2 : Option (List NodeRecord)
  bottomHit2 : Int
  deriving DecidableEq

/-- Two runs, one after the other in one process; each one builds an object for 4 by 4
pixels, reads `plainImage` and calls `addParticle` once, with the first draw `random` of
the twister, which the constructor seeds with 123456 in both runs. -/
def processRun (random : ℚ) : Option ProcessView :=
  (plainImage (fresh ℚ 4 4 10 noNoise)).bind (fun p0 =>
    (addParticle exactOps DAG.sampleShading (fun _ => 0) p0.2 random).bind (fun p1 =>
      (plainImage (nextEngine 4 4 10 noNoise p1.2)).bind (fun q0 =>
        (addParticle exactOps DAG.sampleShading (fun _ => 0) q0.2 random).map (fun q1 =>
          ProcessView.mk p0.1 p1.1 (graphOf p1.2) p1.2.bottomHit p1.2.skipSolve
            p1.2.firstSolve p1.2.totalParticles q0.1 q1.1 (graphOf q1.2) q1.2.bottomHit))))

set_option maxRecDepth 100000 in
theorem processRun_eq :
    processRun (2 / 5) = some (ProcessView.mk true true
      (some [{ index := 6, parent := 9, leader := false, secondary := false, depth := 0,
               neighbors := [] },
             { index := 9, parent := -1, leader := false, secondary := false, depth := 0,
               neighbors := [6] }])
      0 1 false 1 true true
      (some [{ index := 10, parent := 9, leader := false, secondary := false, depth := 0,
               neighbors := [] },
             { index := 9, parent := -1, leader := false, secondary := false, depth := 0,
               neighbors := [10] }])
      0) := by decide!

/-- C29, two runs in which the code leaves the claim: `skipSolve` and `totalParticles` of
`addParticle` and `firstSolve` and `iterations` of `QUAD_POISSON::solve` are static
variables, which a new object does not reset.  The first run builds an object in a new
process, reads `plainImage` and calls `addParticle` once, with the draw `2 / 5`: the call
solves for the potential and adds the cell 6 below the start cell 9.  The second run does
the same in the same process: it finds `skipSolve = 1`, does not solve, chooses by the
place in the candidate list and adds the cell 10.  Both runs read the image and add their
cell with success and reach no terminator; their graphs differ. -/
theorem addParticle_static_state :
    ∃ st0 st1 su0 su1 : QUAD_DBM_2D ℚ,
      plainImage (fresh ℚ 4 4 10 noNoise) = some (true, st0) ∧
      addParticle exactOps DAG.sampleShading (fun _ => 0) st0 (2 / 5) = some (true, st1) ∧
      st1.skipSolve = 1 ∧ st1.firstSolve = false ∧ st1.totalParticles = 1 ∧
      plainImage (nextEngine 4 4 10 noNoise st1) = some (true, su0) ∧
      addParticle exactOps DAG.sampleShading (fun _ => 0) su0 (2 / 5) = some (true, su1) ∧
      st1.bottomHit = 0 ∧ su1.bottomHit = 0 ∧
      graphOf st1 =
        some [{ index := 6, parent := 9, leader := false, secondary := false, depth := 0,
                neighbors := [] },
              { index := 9, parent := -1, leader := false, secondary := false, depth := 0,
                neighbors := [6] }] ∧
      graphOf su1 =
        some [{ index := 10, parent := 9, leader := false, secondary := false, depth := 0,
                neighbors := [] },
              { index := 9, parent := -1, leader := false, secondary := false, depth := 0,
                neighbors := [10] }] ∧
      graphOf st1 ≠ graphOf su1 := by
  have h := processRun_eq
  unfold processRun at h
  obtain ⟨p0, hp0, h⟩ := Option.bind_eq_some.mp h
  obtain ⟨p1, hp1, h⟩ := Option.bind_eq_some.mp h
  obtain ⟨q0, hq0, h⟩ := Option.bind_eq_some.mp h
  obtain ⟨q1, hq1, h⟩ := Option.map_eq_some'.mp h
  simp only [ProcessView.mk.injEq] at h
  obtain ⟨e0, e1, g1, b1, hs, hf, ht, f0, f1, g2, b2⟩ := h
  refine ⟨p0.2, p1.2, q0.2, q1.2, ?_, ?_, hs, hf, ht, ?_, ?_, b1, b2, g1, g2, ?_⟩
  · rw [hp0, ← e0]
  · rw [hp1, ← e1]
  · rw [hq0, ← f0]
  · rw [hq1, ← f1]
  · rw [g1, g2]
    decide

end QUAD_DBM_2D

end Lumo

namespace Lumo

namespace CG_SOLVER

open CELL

/-! ## The convergence test of the solver -/

/-- The value of `maxR` after the loop over the residual is the largest of 0 and the
entries, with their signs. -/
theorem maxResidual_eq (residual : List ℚ) : maxResidual residual = residual.foldl max 0 := by
  unfold maxResidual
  suffices h : ∀ (l : List ℚ) (m : ℚ),
      l.foldl (fun m r => if r > m then r else m) m = l.foldl max m from h residual 0
  intro l
  induction l with
  | nil => intro m; rfl
  | cons r l ih =>
    intro m
    simp only [List.foldl_cons]
    rw [ih]
    congr 1
    by_cases h : r > m
    · rw [if_pos h, max_eq_right (le_of_lt h)]
    · rw [if_neg h, max_eq_left (not_lt.mp h)]

theorem foldl_max_le (e : ℚ) : ∀ (l : List ℚ) (m : ℚ),
    l.foldl max m ≤ e ↔ m ≤ e ∧ ∀ r ∈ l, r ≤ e := by
  intro l
  induction l with
  | nil => intro m; simp
  | cons r l ih =>
    intro m
    simp only [List.foldl_cons, List.mem_cons, forall_eq_or_imp]
    rw [ih, max_le_iff]
    tauto

/-- C37: the test of the loop of `solve` uses the largest of 0 and the signed entries of
the residual.  After a round that is not the last one the iteration cap allows, the
condition of the loop fails exactly when no entry of the residual exceeds
`10 ^ (-digits)`, whatever the negative entries are, and the loop then ends in this
state. -/
theorem solve_signed_maximum (s : CG_SOLVER) (junk : Int → ℚ) (cells : List Addr)
    (st : SolveState) (q : List ℚ) (fuel : Nat) (hcap : (advance cells st q).i < s.iterations) :
    (advance cells st q).maxR = (advance cells st q).residual.foldl max 0 ∧
    (¬ solveGuard s (advance cells st q) ↔
      ∀ r ∈ (advance cells st q).residual, r ≤ eps s) ∧
    ((∀ r ∈ (advance cells st q).residual, r ≤ eps s) →
      solveLoop s junk cells fuel (advance cells st q) = some (advance cells st q)) := by
  have hmax : (advance cells st q).maxR = (advance cells st q).residual.foldl max 0 := by
    show maxResidual _ = _
    rw [maxResidual_eq]
    rfl
  have hiff : ¬ solveGuard s (advance cells st q) ↔
      ∀ r ∈ (advance cells st q).residual, r ≤ eps s := by
    unfold solveGuard
    rw [not_and, hmax]
    constructor
    · intro h
      have h1 := not_lt.mp (h hcap)
      exact ((foldl_max_le (eps s) _ 0).mp h1).2
    · intro h _
      exact not_lt.mpr ((foldl_max_le (eps s) _ 0).mpr ⟨le_of_lt (eps_pos s), h⟩)
  refine ⟨hmax, hiff, fun h => ?_⟩
  have hg := hiff.mpr h
  cases fuel with
  | zero => simp only [solveLoop, if_neg hg]
  | succ n => simp only [solveLoop, if_neg hg]

/-- A state of the loop of `solve` on one cell, with the direction 1, the residual 1 and
`deltaNew = 1001`. -/
def signedState : SolveState :=
  { root := CELL.leaf (CellData.new 1 1 0 0 0), direction := [1], residual := [1],
    deltaNew := 1001, maxR := 1, i := 0 }

theorem solve_signed_maximum_witness :
    ((advance [[]] signedState [1]).i < (CG_SOLVER.new 2 10 8).iterations ∧
      (advance [[]] signedState [1]).residual = [-1000]) ∧
    (advance [[]] signedState [1]).maxR = (advance [[]] signedState [1]).residual.foldl max 0 ∧
    (¬ solveGuard (CG_SOLVER.new 2 10 8) (advance [[]] signedState [1]) ↔
      ∀ r ∈ (advance [[]] signedState [1]).residual, r ≤ eps (CG_SOLVER.new 2 10 8)) ∧
    ((∀ r ∈ (advance [[]] signedState [1]).residual, r ≤ eps (CG_SOLVER.new 2 10 8)) →
      solveLoop (CG_SOLVER.new 2 10 8) (fun _ => 0) [[]] 5 (advance [[]] signedState [1]) =
        some (advance [[]] signedState [1])) :=
  ⟨⟨by decide!, by decide!⟩,
    solve_signed_maximum (CG_SOLVER.new 2 10 8) (fun _ => 0) [[]] signedState [1] 5
      (by decide!)⟩

end CG_SOLVER

end Lumo

namespace Lumo

namespace CELL

/-! ## The deepest leaf and `balance` -/

/-- Some leaf lies as many levels below a cell as the height of the cell says. -/
theorem exists_leaf_height (t : CELL) :
    ∃ (r : List Quadrant) (c : CELL), cellAtPath t r = some c ∧ c.hasChildren = false ∧
      r.length = height t := by
  induction t with
  | leaf d => exact ⟨[], leaf d, rfl, rfl, rfl⟩
  | node d c0 c1 c2 c3 ih0 ih1 ih2 ih3 =>
    obtain ⟨r0, x0, e0, k0, l0⟩ := ih0
    obtain ⟨r1, x1, e1, k1, l1⟩ := ih1
    obtain ⟨r2, x2, e2, k2, l2⟩ := ih2
    obtain ⟨r3, x3, e3, k3, l3⟩ := ih3
    have hm : max (max (height c0) (height c1)) (max (height c2) (height c3)) = height c0 ∨
        max (max (height c0) (height c1)) (max (height c2) (height c3)) = height c1 ∨
        max (max (height c0) (height c1)) (max (height c2) (height c3)) = height c2 ∨
        max (max (height c0) (height c1)) (max (height c2) (height c3)) = height c3 := by
      omega
    rcases hm with h | h | h | h
    · exact ⟨Quadrant.q0 :: r0, x0, by simpa [cellAtPath, child] using e0, k0,
        by simp only [List.length_cons, height, h]; omega⟩
    · exact ⟨Quadrant.q1 :: r1, x1, by simpa [cellAtPath, child] using e1, k1,
        by simp only [List.length_cons, height, h]; omega⟩
    · exact ⟨Quadrant.q2 :: r2, x2, by simpa [cellAtPath, child] using e2, k2,
        by simp only [List.length_cons, height, h]; omega⟩
    · exact ⟨Quadrant.q3 :: r3, x3, by simpa [cellAtPath, child] using e3, k3,
        by simp only [List.length_cons, height, h]; omega⟩

/-- Some leaf of a tree has an address as long as the tree is high. -/
theorem exists_isLeafAt_height (root : CELL) : ∃ a, IsLeafAt root a ∧ a.length = height root := by
  obtain ⟨r, c, e, k, l⟩ := exists_leaf_height root
  refine ⟨r.reverse, ⟨?_, ?_⟩, by simpa using l⟩
  · unfold cellAt
    rw [List.reverse_reverse, e]
    rfl
  · unfold kidsAt cellAt
    rw [List.reverse_reverse, e]
    exact k

end CELL

namespace QUAD_POISSON

open CELL

/-- The largest depth of a leaf of the tree. -/
def maxLeafDepth (root : CELL) : Int :=
  ((getAllLeaves root).map (depthAt root)).foldl max root.data.depth

theorem foldl_max_int (v : Int) : ∀ (l : List Int) (m : Int), m ≤ v → (∀ x ∈ l, x ≤ v) →
    (m = v ∨ v ∈ l) → l.foldl max m = v := by
  intro l
  induction l with
  | nil =>
    intro m _ _ h
    rcases h with h | h
    · exact h
    · cases h
  | cons x l ih =>
    intro m hm hall h
    simp only [List.foldl_cons]
    have hx : x ≤ v := hall x (List.mem_cons_self _ _)
    refine ih (max m x) (max_le hm hx) (fun y hy => hall y (List.mem_cons_of_mem _ hy)) ?_
    rcases h with h | h
    · left
      rw [h]
      exact max_eq_left hx
    · rcases List.mem_cons.mp h with h1 | h1
      · left
        rw [← h1]
        exact max_eq_right hm
      · right
        exact h1

/-- In a well-formed tree the deepest leaf lies `height` levels below the root. -/
theorem maxLeafDepth_eq (root : CELL) (hwf : WellFormed root) :
    maxLeafDepth root = root.data.depth + height root := by
  unfold maxLeafDepth
  refine foldl_max_int _ _ _ (by omega) ?_ ?_
  · intro x hx
    obtain ⟨a, ha, e⟩ := List.mem_map.mp hx
    have hl := (mem_getAllLeaves root a).mp ha
    rw [← e, depthAt_of_cell hwf hl.1]
    have := length_le_height root a hl.1
    omega
  · right
    obtain ⟨a, hl, hlen⟩ := exists_isLeafAt_height root
    refine List.mem_map.mpr ⟨a, (mem_getAllLeaves root a).mpr hl, ?_⟩
    rw [depthAt_of_cell hwf hl.1, hlen]

/-- C38: on every well-formed quadtree `balance` ends; the tree it leaves is as high as
the tree it was given, the largest depth of a leaf is the same before and after, and no
cell of the tree lies deeper than the deepest leaf before the call. -/
theorem balance_keeps_depth (root : CELL) (hwf : WellFormed root) :
    ∃ r, balance root = some r ∧ height r = height root ∧
      maxLeafDepth r = maxLeafDepth root ∧
      ∀ a, (cellAt r a).isSome = true → depthAt r a ≤ maxLeafDepth root := by
  obtain ⟨r, new, e, g, -⟩ := balance_spec root hwf
  have hwf2 := g.wellFormed hwf
  have h1 : height r ≤ height root := g.height_le (le_refl _)
  have h2 : height root ≤ height r := by
    obtain ⟨a, hl, hlen⟩ := exists_isLeafAt_height root
    have := length_le_height r a (g.isCell_mono hl.1)
    omega
  have hh : height r = height root := le_antisymm h1 h2
  refine ⟨r, e, hh, ?_, ?_⟩
  · rw [maxLeafDepth_eq r hwf2, maxLeafDepth_eq root hwf, g.data_eq, hh]
  · intro a ha
    rw [maxLeafDepth_eq root hwf, depthAt_of_cell hwf2 ha, g.data_eq]
    have := length_le_height r a ha
    omega

end QUAD_POISSON

theorem balance_keeps_depth_witness :
    CELL.WellFormed unbalancedTree ∧
    ∃ r, QUAD_POISSON.balance unbalancedTree = some r ∧
      CELL.height r = CELL.height unbalancedTree ∧
      QUAD_POISSON.maxLeafDepth r = QUAD_POISSON.maxLeafDepth unbalancedTree ∧
      ∀ a, (CELL.cellAt r a).isSome = true →
        CELL.depthAt r a ≤ QUAD_POISSON.maxLeafDepth unbalancedTree :=
  ⟨unbalancedTree_wellFormed,
    QUAD_POISSON.balance_keeps_depth unbalancedTree unbalancedTree_wellFormed⟩

end Lumo

namespace Lumo

namespace DAG

variable {F : Type}

open NODE

/-! ## The order and the number of the records that `write` emits -/

/-- The record that `writeNode` writes for the node itself, with `parent` the index of
the parent or -1. -/
def record (n : NODE F) (parent : Int) : NodeRecord :=
  { index := n.index, parent := parent, leader := n.leader, secondary := n.secondary,
    depth := n.depth, neighbors := n.neighbors.map NODE.index }

theorem writeNode_record (n : NODE F) (parent : Int) :
    writeNode n parent = writeNodeList n.neighbors n.index ++ [record n parent] := by
  cases n with
  | mk i ns l s d m it =>
    rw [writeNode_eq]
    rfl

theorem writeNodeList_append (a b : List (NODE F)) (i : Int) :
    writeNodeList (a ++ b) i = writeNodeList a i ++ writeNodeList b i := by
  induction a with
  | nil => simp [writeNodeList]
  | cons c cs ih => simp [writeNodeList, ih]

theorem writeNodeList_indices (ns : List (NODE F)) (i : Int) :
    (writeNodeList ns i).map (fun r => r.index) = indicesList ns := by
  induction ns with
  | nil => rfl
  | cons c cs ih =>
    simp only [writeNodeList, indicesList, List.map_append]
    rw [writeNode_indices, ih]

/-- The records of the neighbours of a node hold the records of each neighbour as one
piece. -/
theorem writeNodeList_piece (i : Int) : ∀ (ns : List (NODE F)) (k : Nat) (c : NODE F),
    ns[k]? = some c → ∃ pre post, writeNodeList ns i = pre ++ writeNode c i ++ post := by
  intro ns
  induction ns with
  | nil =>
    intro k c h
    simp at h
  | cons x xs ih =>
    intro k c h
    cases k with
    | zero =>
      simp only [List.getElem?_cons_zero, Option.some.injEq] at h
      subst h
      exact ⟨[], writeNodeList xs i, by simp [writeNodeList]⟩
    | succ k =>
      simp only [List.getElem?_cons_succ] at h
      obtain ⟨pre, post, e⟩ := ih k c h
      exact ⟨writeNode x i ++ pre, post, by simp [writeNodeList, e]⟩

/-- The records of every node at and below a node are one piece of the records of the
node. -/
theorem writeNode_piece (p : NodePath) : ∀ (r n : NODE F) (parent : Int),
    nodeAt r p = some n →
    ∃ pre post par, writeNode r parent = pre ++ writeNode n par ++ post := by
  induction p with
  | nil =>
    intro r n parent h
    rw [nodeAt_nil] at h
    simp only [Option.some.injEq] at h
    subst h
    exact ⟨[], [], parent, by simp⟩
  | cons k rest ih =>
    intro r n parent h
    cases r with
    | mk i ns l s d m it =>
      rw [nodeAt_cons] at h
      cases hk : ns[k]? with
      | none => rw [hk] at h; cases h
      | some c =>
        rw [hk] at h
        obtain ⟨pre, post, par, e⟩ := ih c n i h
        obtain ⟨pre1, post1, e1⟩ := writeNodeList_piece i ns k c hk
        refine ⟨pre1 ++ pre, post ++ post1 ++
          [{ index := i, parent := parent, leader := l, secondary := s, depth := d,
             neighbors := ns.map NODE.index }], par, ?_⟩
        rw [writeNode_eq, e1, e]
        simp only [List.append_assoc]

theorem write_of_root (g : DAG F) (r : NODE F) (hr : g.root = some r) :
    ∃ f, write g = some f ∧ f.records = writeNode r (-1) ∧ f.totalNodes = g.totalNodes := by
  unfold write
  rw [hr]
  exact ⟨_, rfl, rfl, rfl⟩

/-- C34: `write` emits the records of the nodes depth first, each node after the nodes
below it (post-order): the record of the root is the last one, behind the records of all
other nodes, and for every node the records of the nodes below it come in one piece
right before the record of the node. -/
theorem write_post_order (g : DAG F) (r : NODE F) (hr : g.root = some r) :
    ∃ f, write g = some f ∧
      f.records = writeNodeList r.neighbors r.index ++ [record r (-1)] ∧
      ∀ p n, nodeAt r p = some n →
        (writeNodeList n.neighbors n.index).map (fun x => x.index) = indicesList n.neighbors ∧
        ∃ pre post par, f.records =
          pre ++ (writeNodeList n.neighbors n.index ++ [record n par]) ++ post := by
  obtain ⟨f, hf, hrec, -⟩ := write_of_root g r hr
  refine ⟨f, hf, by rw [hrec]; exact writeNode_record r (-1), fun p n hn => ?_⟩
  refine ⟨writeNodeList_indices _ _, ?_⟩
  obtain ⟨pre, post, par, e⟩ := writeNode_piece p r n (-1) hn
  exact ⟨pre, post, par, by rw [hrec, ← writeNode_record]; exact e⟩

theorem write_post_order_witness :
    sampleDag.root = some sampleRoot ∧
    ∃ f, write sampleDag = some f ∧
      f.records = writeNodeList sampleRoot.neighbors sampleRoot.index ++
        [record sampleRoot (-1)] ∧
      ∀ p n, nodeAt sampleRoot p = some n →
        (writeNodeList n.neighbors n.index).map (fun x => x.index) = indicesList n.neighbors ∧
        ∃ pre post par, f.records =
          pre ++ (writeNodeList n.neighbors n.index ++ [record n par]) ++ post :=
  ⟨rfl, write_post_order sampleDag sampleRoot rfl⟩

/-- The records that `write` emits for `sampleDag`, the root 1 with the neighbours 5 and 6
and the node 9 below 5, are those of 9, 5, 6, 1 in this order: the record of the root is
not the first one, and the record of 5 does not precede the record of the node 9 below
it. -/
theorem write_root_last :
    (write sampleDag).map (fun f => f.records.map (fun x => x.index)) = some [9, 5, 6, 1] := by
  decide

/-! ### The number of nodes in the header -/

/-- A graph that calls of `addSegment` have built on a new object. -/
inductive Grown : DAG F → Prop
  | first (xRes yRes index neighbor : Int) (g : DAG F) :
    addSegment (DAG.new xRes yRes) index neighbor = some g → Grown g
  | next (g0 : DAG F) (index neighbor : Int) (g : DAG F) :
    Grown g0 → addSegment g0 index neighbor = some g → Grown g

/-- The graph has one node more than `_totalNodes` says. -/
theorem Grown.count {g : DAG F} (h : Grown g) :
    ∃ r, g.root = some r ∧ ((indices r).length : Int) = g.totalNodes + 1 := by
  induction h with
  | first xRes yRes index neighbor g hg =>
    simp only [addSegment, DAG.new, Option.some.injEq] at hg
    subst hg
    refine ⟨_, rfl, ?_⟩
    simp [pushNeighbor, NODE.new, indices_eq, indicesList]
  | next g0 index neighbor g _ hg ih =>
    obtain ⟨r0, hr0, hc⟩ := ih
    unfold addSegment at hg
    simp only [hr0] at hg
    cases hf : find g0.hash neighbor with
    | none => simp [hf] at hg
    | some p =>
      simp only [hf] at hg
      cases hn : nodeAt r0 p with
      | none => simp [hn] at hg
      | some parent =>
        simp only [hn, Option.some.injEq] at hg
        subst hg
        refine ⟨_, rfl, ?_⟩
        have hp := (indices_push index p r0 parent hn).length_eq
        simp only [List.length_cons] at hp
        simp only [hp]
        push_cast
        omega

end DAG

end Lumo

namespace Lumo

namespace CG_SOLVER

open CELL QUAD_POISSON

/-! ## The entries of the direction vector that `q = Ad` reads -/

/-- The indices `neighbors[j]->index` and, where the second slot is filled,
`neighbors[j+1]->index` at which the loop `q = Ad` of `solve` reads `_direction` for the
face with the slots `i` and `i1` of a cell (`none`: a null pointer is dereferenced). -/
def faceReads (root : CELL) (c : CellData) (i i1 : Fin 8) : Option (List Int) :=
  match (c.neighbors.get i).bind (deref root) with
  | none => none
  | some n0 =>
    match c.neighbors.get i1 with
    | none => some [n0.index]
    | some p1 =>
      match deref root p1 with
      | none => none
      | some n1 => some [n0.index, n1.index]

/-- The indices at which the loop `q = Ad` reads `_direction` for the neighbours of a
cell, face by face. -/
def cellReads (root : CELL) (c : CellData) : Option (List Int) :=
  match faceReads root c 0 1, faceReads root c 2 3, faceReads root c 4 5,
    faceReads root c 6 7 with
  | some l0, some l1, some l2, some l3 => some (l0 ++ l1 ++ l2 ++ l3)
  | _, _, _, _ => none

/-- The loop over the neighbours in `q = Ad` reads `_direction` at the indices of
`faceReads` and nowhere else: with `g k` for what is read at the index `k`, the sum over
a face adds `g k` times the stencil entry of the slot for each of them. -/
theorem faceSum_reads (root : CELL) (c : CellData) (g : Int → ℚ) (i i1 : Fin 8) (sum : ℚ) :
    faceSum root c (fun n => g n.index) i i1 sum =
      (faceReads root c i i1).map (fun l =>
        (List.zipWith (fun k w => g k * w) l
          [c.stencil.get i.castSucc, c.stencil.get i1.castSucc]).foldl (fun t z => t + z) sum) := by
  unfold faceSum faceReads
  cases h0 : (c.neighbors.get i).bind (deref root) with
  | none => rfl
  | some n0 =>
    simp only []
    cases h1 : c.neighbors.get i1 with
    | none => rfl
    | some p1 =>
      simp only []
      cases h2 : deref root p1 with
      | none => rfl
      | some n1 => rfl

end CG_SOLVER

namespace QUAD_DBM_2D

open CELL QUAD_POISSON

/-- The first solve behind `plainImage`, up to the loop of `CG_SOLVER::solve`: the size of
the working set and, for every cell of it, the flattened index of the cell and the
indices at which `q = Ad` reads `_direction` for its neighbours. -/
def plainReads : Option (Nat × List (Option Int × Option (List Int))) :=
  (plainImage (fresh ℚ 4 4 10 noNoise)).bind (fun p =>
    (balance p.2.mesh.root).bind (fun r0 =>
      (buildNeighbors r0).bind (fun r1 =>
        (CG_SOLVER.solveInit { p.2.solver with iterations := 10000 } r1
            (getEmptyLeaves r1)).map (fun st0 =>
          ((getEmptyLeaves r1).length,
            (getEmptyLeaves r1).map (fun a =>
              ((dataAt st0.root a).map (flatIndex 4 4),
                (dataAt st0.root a).bind (CG_SOLVER.cellReads st0.root))))))))

set_option maxRecDepth 100000 in
/-- C31, a mesh on which the code leaves the claim: the ghost cells that `buildNeighbors`
makes and the boundary cells are not numbered by `solve`, and keep the index -1 of their
constructors.  In the first solve behind `plainImage` the working set has 14 cells,
numbered 0 to 13; for the cell with the flattened index 12, in the north-west corner,
`q = Ad` reads `_direction[-1]` for the ghost cells in the north and in the west, and for
the cell 13 it reads `_direction[-1]` for the ghost cell in the north and for its southern
neighbour, the start cell 9, which is flagged boundary.  The read at -1 is outside of the
array. -/
theorem calcQ_reads_outside :
    plainReads = some (14,
      [(some 12, some [-1, 1, 2, -1]), (some 13, some [-1, 3, -1, 0]),
       (some 8, some [0, -1, 11, -1]), (some 14, some [-1, 4, 6, 1]),
       (some 15, some [-1, -1, 5, 3]), (some 11, some [4, -1, 8, 6]),
       (some 10, some [3, 5, 7, -1]), (some 6, some [6, 8, 10, 12]),
       (some 7, some [5, -1, 9, 7]), (some 3, some [8, -1, -1, 10]),
       (some 2, some [7, 9, -1, 13]), (some 4, some [2, 12, -1, -1]),
       (some 5, some [-1, 7, 13, 11]), (some 1, some [12, 10, -1, -1])]) ∧
    (∀ (junk : Int → ℚ) (direction : List ℚ),
      CG_SOLVER.dirRead junk direction (-1) = junk (-1)) ∧
    ∀ (root : CELL) (c : CellData) (g : Int → ℚ) (i i1 : Fin 8) (sum : ℚ),
      CG_SOLVER.faceSum root c (fun n => g n.index) i i1 sum =
        (CG_SOLVER.faceReads root c i i1).map (fun l =>
          (List.zipWith (fun k w => g k * w) l
            [c.stencil.get i.castSucc, c.stencil.get i1.castSucc]).foldl
              (fun t z => t + z) sum) := by
  refine ⟨by decide!, fun junk direction => ?_, CG_SOLVER.faceSum_reads⟩
  unfold CG_SOLVER.dirRead
  rw [if_neg (by omega)]

end QUAD_DBM_2D

end Lumo

namespace Lumo

namespace QUAD_POISSON

open CELL

/-! ## insert with grid indices -/

/-- Insert at the grid cell `(xPos, yPos)`: `QUAD_POISSON::insert(int xPos, int yPos)`,
that is `insert((float)xPos / _maxRes, (float)yPos / _maxRes)`. -/
def insertGrid (m : QUAD_POISSON) (xPos yPos : Int) : Option (QUAD_POISSON × Addr) :=
  QUAD_POISSON.insert m ((xPos : ℚ) / m.maxRes) ((yPos : ℚ) / m.maxRes)

/-- Bounds `(west, east, south, north)` and flattened grid index of the cell that
`insert(xPos, yPos)` returns on the mesh `m`. -/
def gridCellOf (m : QUAD_POISSON) (xPos yPos : Int) : Option (ℚ × ℚ × ℚ × ℚ × Int) :=
  (insertGrid m xPos yPos).bind (fun p =>
    (dataAt p.1.root p.2).map (fun d =>
      (d.west, d.east, d.south, d.north, QUAD_DBM_2D.flatIndex m.maxRes m.maxRes d)))

/-- The flattened grid indices of the cells that `insert(x, y)` returns on a new mesh of 4
by 4 cells, for `y = 0, ..., 3` and in each row for `x = 0, ..., 3`. -/
def gridTable : List (Option Int) :=
  (List.range 4).flatMap (fun y => (List.range 4).map (fun x =>
    (gridCellOf (QUAD_POISSON.new 4 4 QUAD_DBM_2D.noNoise) x y).map (fun t => t.2.2.2.2)))

set_option maxRecDepth 100000 in
/-- C36, a mesh on which the code leaves the claim: the descent of `insert` goes east only
where `xPos - center[0] > 0`, and the position `x / R` of a grid index `x >= 1` lies on
the west face of the column `x`, so that `insert(x, y)` ends in the column `x - 1`.  On a
new mesh with `R = 4`, `insert(1, 0)` returns the cell with the bounds `0 <= x <= 1/4`,
`0 <= y <= 1/4` and the flattened index 0 and not 1, `insert(3, 2)` the cell with the
index 10 and not 11, and no grid index leads to a cell of the column 3. -/
theorem insertGrid_column :
    (QUAD_POISSON.new 4 4 QUAD_DBM_2D.noNoise).maxRes = 4 ∧
    (QUAD_POISSON.new 4 4 QUAD_DBM_2D.noNoise).maxDepth = 2 ∧
    gridCellOf (QUAD_POISSON.new 4 4 QUAD_DBM_2D.noNoise) 1 0 = some (0, 1 / 4, 0, 1 / 4, 0) ∧
    gridCellOf (QUAD_POISSON.new 4 4 QUAD_DBM_2D.noNoise) 3 2 =
      some (1 / 2, 3 / 4, 1 / 2, 3 / 4, 10) ∧
    gridTable = [some 0, some 0, some 1, some 2, some 4, some 4, some 5, some 6,
      some 8, some 8, some 9, some 10, some 12, some 12, some 13, some 14] := by
  refine ⟨by decide!, by decide!, by decide!, by decide!, by decide!⟩

end QUAD_POISSON

end Lumo

namespace Lumo

namespace QUAD_POISSON

open CELL

/-! ## insert at the centre of a leaf -/

/-- A point in the open rectangle of the child `q` of a cell is not on the centre lines of
the cell, and `insert` descends from the cell into the child `q`. -/
theorem quadrantOf_inside {dp dq : CellData} {q : Quadrant} {x y : ℚ}
    (hcx : dp.centerX = (dp.east + dp.west) * (1 / 2))
    (hcy : dp.centerY = (dp.north + dp.south) * (1 / 2))
    (hc : IsChildOf dp q dq) (hx1 : dq.west < x) (hx2 : x < dq.east)
    (hy1 : dq.south < y) (hy2 : y < dq.north) :
    quadrantOf dp x y = q ∧ x ≠ dp.centerX ∧ y ≠ dp.centerY := by
  obtain ⟨-, hn, he, hs, hw⟩ := hc
  unfold quadrantOf
  rw [hcx, hcy]
  cases q
  · simp only [childData, CellData.new] at hn he hs hw
    rw [hn] at hy2; rw [he] at hx2; rw [hs] at hy1; rw [hw] at hx1
    refine ⟨?_, ne_of_lt hx2, ne_of_gt hy1⟩
    rw [if_neg (by linarith), if_neg (by linarith)]
  · simp only [childData, CellData.new] at hn he hs hw
    rw [hn] at hy2; rw [he] at hx2; rw [hs] at hy1; rw [hw] at hx1
    refine ⟨?_, ne_of_gt hx1, ne_of_gt hy1⟩
    rw [if_pos (by linarith), if_neg (by linarith)]
  · simp only [childData, CellData.new] at hn he hs hw
    rw [hn] at hy2; rw [he] at hx2; rw [hs] at hy1; rw [hw] at hx1
    refine ⟨?_, ne_of_gt hx1, ne_of_lt hy2⟩
    rw [if_pos (by linarith), if_pos (by linarith)]
  · simp only [childData, CellData.new] at hn he hs hw
    rw [hn] at hy2; rw [he] at hx2; rw [hs] at hy1; rw [hw] at hx1
    refine ⟨?_, ne_of_lt hx2, ne_of_lt hy2⟩
    rw [if_neg (by linarith), if_pos (by linarith)]

/-- What the descent of `insert` finds at a proper ancestor `p` of the cell `c`, for a
point in the open rectangle of `c`: the child of `p` towards `c`, and no tie. -/
theorem quadrantOf_ancestor {root : CELL} (hwf : WellFormed root) (hcen : Centered root)
    (c : Addr) (dc : CellData) (hc : dataAt root c = some dc) (x y : ℚ)
    (hx1 : dc.west < x) (hx2 : x < dc.east) (hy1 : dc.south < y) (hy2 : y < dc.north)
    (s : Addr) (q : Quadrant) (p : Addr) (dp : CellData) (hs : c = s ++ q :: p)
    (hp : dataAt root p = some dp) :
    quadrantOf dp x y = q ∧ x ≠ dp.centerX ∧ y ≠ dp.centerY := by
  subst hs
  have hcell : (cellAt root (s ++ q :: p)).isSome = true := by rw [← dataAt_isSome, hc]; rfl
  have hq := isCell_of_append s (q :: p) hcell
  obtain ⟨dq, hdq⟩ := Option.isSome_iff_exists.mp (by rw [dataAt_isSome]; exact hq)
  have hin := inside_ancestor hwf s (q :: p) dc dq hc hdq
  obtain ⟨i1, i2, i3, i4⟩ := hin
  have hchild := hwf.2.2.isChildOf hp hdq
  obtain ⟨cp, hcp⟩ := Option.isSome_iff_exists.mp (by rw [← dataAt_isSome, hp]; rfl :
    (cellAt root p).isSome = true)
  have hd : cp.data = dp := by
    unfold dataAt at hp
    rw [hcp] at hp
    simpa using hp
  obtain ⟨cx, cy⟩ := (hcen.cellAt_cen p cp hcp).top
  rw [hd] at cx cy
  exact quadrantOf_inside cx cy hchild (by linarith) (by linarith) (by linarith) (by linarith)

/-- The descent of `insert` for a point in the open rectangle of a cell `c` of the tree
walks down the ancestors of `c`, changes nothing, and ends on `c`. -/
theorem descend_path {root : CELL} (hwf : WellFormed root) (hcen : Centered root)
    (c : Addr) (dc : CellData) (hc : dataAt root c = some dc) (x y : ℚ)
    (hx1 : dc.west < x) (hx2 : x < dc.east) (hy1 : dc.south < y) (hy2 : y < dc.north) :
    ∀ (n : Nat) (s cur : Addr) (ex : Bool), s.length = n → c = s ++ cur →
      descend x y n root cur ex = some (root, c, ex) := by
  intro n
  induction n with
  | zero =>
    intro s cur ex hs hcs
    rw [List.length_eq_zero.mp hs, List.nil_append] at hcs
    rw [hcs]
    rfl
  | succ n ih =>
    intro s cur ex hs hcs
    have hne : s ≠ [] := by
      intro h
      rw [h] at hs
      simp at hs
    obtain ⟨s1, q, hsq⟩ : ∃ s1 q, s = s1 ++ [q] :=
      ⟨s.dropLast, s.getLast hne, (List.dropLast_append_getLast hne).symm⟩
    have hcs2 : c = s1 ++ q :: cur := by rw [hcs, hsq]; simp
    have hcell : (cellAt root (s1 ++ q :: cur)).isSome = true := by
      rw [← hcs2, ← dataAt_isSome, hc]; rfl
    have hq := isCell_of_append s1 (q :: cur) hcell
    have hkids : kidsAt root cur = true := by
      rw [cellAt_cons_isSome] at hq
      exact hq
    have hcur : (cellAt root cur).isSome = true := kidsAt_isSome root cur hkids
    obtain ⟨cp, hcp⟩ := Option.isSome_iff_exists.mp hcur
    have hdp : dataAt root cur = some cp.data := by unfold dataAt; rw [hcp]; rfl
    have hquad := (quadrantOf_ancestor hwf hcen c dc hc x y hx1 hx2 hy1 hy2 s1 q cur cp.data
      hcs2 hdp).1
    have hchild : (cp.child q).isNone = false := by
      have h1 : (cp.child q).isSome = true := by
        rw [child_isSome]
        unfold kidsAt at hkids
        rw [hcp] at hkids
        exact hkids
      cases h : cp.child q with
      | none => simp [h] at h1
      | some _ => rfl
    unfold descend
    simp only [hcp, hquad, hchild]
    have hlen : s1.length = n := by
      rw [hsq] at hs
      simpa using hs
    exact ih s1 (q :: cur) ex hlen hcs2

/-- On a mesh that is in order `insert` returns the cell on which its descent ends, and
leaves a mesh in order that results from the tree behind the descent by refinement and by
writes that keep depth and bounds. -/
theorem insert_evolve (M : Nat) (m : QUAD_POISSON) (x y : ℚ) (hok : MeshOK M m) :
    ∃ root1 cur ex m1, descend x y m.maxDepth.toNat m.root [] true = some (root1, cur, ex) ∧
      QUAD_POISSON.insert m x y = some (m1, cur) ∧ Evolve M m.root root1 ∧
      (ex = true → Evolve M root1 m1.root) ∧ Evolve M m.root m1.root ∧ MeshOK M m1 ∧
      cur.length = M := by
  obtain ⟨hwf, hd0, hh, hmd⟩ := hok
  have hM : m.maxDepth.toNat = M := by rw [hmd]; simp
  obtain ⟨root1, cur, ex, e, ev1, w5, hcell1, hex⟩ :=
    descend_total x y M M m.root [] true (by simp) (by rw [cellAt_nil]; rfl)
  simp only [List.length_nil, zero_add] at w5
  have hok0 : MeshOK M m := ⟨hwf, hd0, hh, hmd⟩
  have hok1 : MeshOK M { m with root := root1 } := hok0.evolve ev1 rfl
  obtain ⟨m2, e2, ev2, hm2⟩ : ∃ m2,
      (if ex = true then some { m with root := root1 }
        else noteSiblings { m with root := root1 } cur) = some m2 ∧
      Evolve M root1 m2.root ∧ m2.maxDepth = m.maxDepth := by
    cases hx : ex with
    | true => exact ⟨{ m with root := root1 }, rfl, Evolve.refl _, rfl⟩
    | false =>
      have hcur : cur ≠ [] := by
        rcases hex hx with h | h
        · cases h
        · exact h
      obtain ⟨m2, e2, ev2, hm2⟩ := noteSiblings_spec M { m with root := root1 } cur hcur
      exact ⟨m2, by simpa using e2, ev2, hm2⟩
  have hok2 := hok1.evolve ev2 hm2
  have hc2 := ev2.isCell_evolve hcell1
  obtain ⟨m3, north, e3, ev3, hm3, hn3⟩ := forceOrtho_spec M Dir.north cur w5 m2 hok2 hc2
  have hok3 := hok2.evolve ev3 hm3
  have hc3 := ev3.isCell_evolve hc2
  obtain ⟨m4, south, e4, ev4, hm4, hn4⟩ := forceOrtho_spec M Dir.south cur w5 m3 hok3 hc3
  have hok4 := hok3.evolve ev4 hm4
  have hc4 := ev4.isCell_evolve hc3
  obtain ⟨m5, west, e5, ev5, hm5, -⟩ := forceOrtho_spec M Dir.west cur w5 m4 hok4 hc4
  have hok5 := hok4.evolve ev5 hm5
  have hc5 := ev5.isCell_evolve hc4
  obtain ⟨m6, east, e6, ev6, hm6, -⟩ := forceOrtho_spec M Dir.east cur w5 m5 hok5 hc5
  have hok6 := hok5.evolve ev6 hm6
  obtain ⟨m7, e7, ev7, hm7⟩ := forceDiagPair_spec M Quadrant.q2 Quadrant.q3 m6 north hok6
    (fun b hb => ev6.isCell_evolve (ev5.isCell_evolve (ev4.isCell_evolve (hn3 b hb).1)))
  have hok7 := hok6.evolve ev7 hm7
  obtain ⟨m8, e8, ev8, hm8⟩ := forceDiagPair_spec M Quadrant.q1 Quadrant.q0 m7 south hok7
    (fun b hb => ev7.isCell_evolve (ev6.isCell_evolve (ev5.isCell_evolve (hn4 b hb).1)))
  have hok8 := hok7.evolve ev8 hm8
  have evAll : Evolve M root1 m8.root :=
    (((((ev2.trans_evolve ev3).trans_evolve ev4).trans_evolve ev5).trans_evolve
      ev6).trans_evolve ev7).trans_evolve ev8
  refine ⟨root1, cur, ex, m8, by rw [hM]; exact e, ?_, ev1, fun _ => evAll,
    ev1.trans_evolve evAll, hok8, w5⟩
  unfold QUAD_POISSON.insert
  simp only [hM, e, e2, e3, e4, e5, e6, e7, e8]

/-- C39: on a mesh that is in order and for every cell `c` at the maximum depth: the
centre of `c` lies on no centre line of an ancestor of `c`, the descent of
`insert(c.center[0], c.center[1])` changes nothing in the tree, creates no cell
(`existed` stays true) and ends on `c`, and `insert` returns `c`, which has no children
afterwards and has kept its depth and bounds; every cell of the tree is a cell
afterwards. -/
theorem insert_centre (M : Nat) (m : QUAD_POISSON) (c : Addr) (dc : CellData)
    (hok : MeshOK M m) (hcen : Centered m.root) (hc : dataAt m.root c = some dc)
    (hlen : c.length = M) :
    (∀ s q p dp, c = s ++ q :: p → dataAt m.root p = some dp →
      quadrantOf dp dc.centerX dc.centerY = q ∧
        dc.centerX ≠ dp.centerX ∧ dc.centerY ≠ dp.centerY) ∧
    descend dc.centerX dc.centerY m.maxDepth.toNat m.root [] true = some (m.root, c, true) ∧
    ∃ m1 d1, QUAD_POISSON.insert m dc.centerX dc.centerY = some (m1, c) ∧
      kidsAt m1.root c = false ∧ dataAt m1.root c = some d1 ∧ d1.depth = dc.depth ∧
      d1.north = dc.north ∧ d1.east = dc.east ∧ d1.south = dc.south ∧ d1.west = dc.west ∧
      ∀ a, (cellAt m.root a).isSome = true → (cellAt m1.root a).isSome = true := by
  have hwf := hok.1
  have hM : m.maxDepth.toNat = M := by rw [hok.2.2.2]; simp
  obtain ⟨p1, p2⟩ := hwf.proper c dc hc
  obtain ⟨cc, hcc⟩ := Option.isSome_iff_exists.mp (by rw [← dataAt_isSome, hc]; rfl :
    (cellAt m.root c).isSome = true)
  have hd : cc.data = dc := by
    unfold dataAt at hc
    rw [hcc] at hc
    simpa using hc
  obtain ⟨cx, cy⟩ := (hcen.cellAt_cen c cc hcc).top
  rw [hd] at cx cy
  have hx1 : dc.west < dc.centerX := by rw [cx]; linarith
  have hx2 : dc.centerX < dc.east := by rw [cx]; linarith
  have hy1 : dc.south < dc.centerY := by rw [cy]; linarith
  have hy2 : dc.centerY < dc.north := by rw [cy]; linarith
  have hdesc : descend dc.centerX dc.centerY m.maxDepth.toNat m.root [] true =
      some (m.root, c, true) := by
    rw [hM]
    exact descend_path hwf hcen c dc hc _ _ hx1 hx2 hy1 hy2 M c [] true hlen (by simp)
  refine ⟨fun s q p dp hs hp =>
    quadrantOf_ancestor hwf hcen c dc hc _ _ hx1 hx2 hy1 hy2 s q p dp hs hp, hdesc, ?_⟩
  obtain ⟨root1, cur, ex, m1, e, hins, -, -, evAll, hok1, -⟩ :=
    insert_evolve M m dc.centerX dc.centerY hok
  rw [hdesc] at e
  simp only [Option.some.injEq, Prod.mk.injEq] at e
  obtain ⟨-, e2, -⟩ := e
  subst e2
  obtain ⟨d1, hd1, g1, g2, g3, g4, g5⟩ := evAll.geo_evolve c dc hc
  refine ⟨m1, d1, hins, ?_, hd1, g1, g2, g3, g4, g5, fun a ha => evAll.isCell_evolve ha⟩
  cases hk : kidsAt m1.root c with
  | false => rfl
  | true =>
    have h1 := kidsAt_length_lt hk
    have h2 := hok1.2.2.1
    omega

/-- The mesh of maximum depth 2 on the tree `sampleTree`. -/
def centreMesh : QUAD_POISSON :=
  { sampleMesh with root := sampleTree }

theorem sampleTree_centered : Centered sampleTree :=
  have h0 : Centered (CELL.leaf (CellData.new 1 1 0 0 0)) := ⟨rfl, rfl⟩
  (h0.refineAt_cen []).refineAt_cen [Quadrant.q0]

theorem centreMesh_ok : MeshOK 2 centreMesh :=
  ⟨sampleTree_wellFormed, rfl, by decide, rfl⟩

theorem insert_centre_witness :
    (MeshOK 2 centreMesh ∧ Centered centreMesh.root ∧
      dataAt centreMesh.root [Quadrant.q1, Quadrant.q0] =
        some (childData (childData (CellData.new 1 1 0 0 0) Quadrant.q0) Quadrant.q1) ∧
      [Quadrant.q1, Quadrant.q0].length = 2) ∧
    (∀ s q p dp, [Quadrant.q1, Quadrant.q0] = s ++ q :: p → dataAt centreMesh.root p = some dp →
      quadrantOf dp
          (childData (childData (CellData.new 1 1 0 0 0) Quadrant.q0) Quadrant.q1).centerX
          (childData (childData (CellData.new 1 1 0 0 0) Quadrant.q0) Quadrant.q1).centerY = q ∧
        (childData (childData (CellData.new 1 1 0 0 0) Quadrant.q0) Quadrant.q1).centerX ≠
          dp.centerX ∧
        (childData (childData (CellData.new 1 1 0 0 0) Quadrant.q0) Quadrant.q1).centerY ≠
          dp.centerY) ∧
    descend (childData (childData (CellData.new 1 1 0 0 0) Quadrant.q0) Quadrant.q1).centerX
        (childData (childData (CellData.new 1 1 0 0 0) Quadrant.q0) Quadrant.q1).centerY
        centreMesh.maxDepth.toNat centreMesh.root [] true =
      some (centreMesh.root, [Quadrant.q1, Quadrant.q0], true) ∧
    ∃ m1 d1, QUAD_POISSON.insert centreMesh
        (childData (childData (CellData.new 1 1 0 0 0) Quadrant.q0) Quadrant.q1).centerX
        (childData (childData (CellData.new 1 1 0 0 0) Quadrant.q0) Quadrant.q1).centerY =
          some (m1, [Quadrant.q1, Quadrant.q0]) ∧
      kidsAt m1.root [Quadrant.q1, Quadrant.q0] = false ∧
      dataAt m1.root [Quadrant.q1, Quadrant.q0] = some d1 ∧
      d1.depth = (childData (childData (CellData.new 1 1 0 0 0) Quadrant.q0) Quadrant.q1).depth ∧
      d1.north = (childData (childData (CellData.new 1 1 0 0 0) Quadrant.q0) Quadrant.q1).north ∧
      d1.east = (childData (childData (CellData.new 1 1 0 0 0) Quadrant.q0) Quadrant.q1).east ∧
      d1.south = (childData (childData (CellData.new 1 1 0 0 0) Quadrant.q0) Quadrant.q1).south ∧
      d1.west = (childData (childData (CellData.new 1 1 0 0 0) Quadrant.q0) Quadrant.q1).west ∧
      ∀ a, (cellAt centreMesh.root a).isSome = true → (cellAt m1.root a).isSome = true :=
  ⟨⟨centreMesh_ok, sampleTree_centered, rfl, rfl⟩,
    insert_centre 2 centreMesh [Quadrant.q1, Quadrant.q0]
      (childData (childData (CellData.new 1 1 0 0 0) Quadrant.q0) Quadrant.q1)
      centreMesh_ok sampleTree_centered rfl rfl⟩

end QUAD_POISSON

end Lumo

namespace Lumo

namespace CELL

/-! ## The cells in the slots of a leaf are leaves -/

/-- From a cell below the neighbour `n` of a leaf `a`, on the side of `n` that faces `a`,
the lookup back finds `a`. -/
theorem neighbor_down (r : CELL) (d : Dir) (a n : Addr) (ha : (cellAt r a).isSome = true)
    (hleaf : kidsAt r a = false) (hn : neighbor r d a = some n) (hl : n.length = a.length) :
    ∀ s : Addr, (∀ q ∈ s, d.opp.onSide q = true) → (cellAt r (s ++ n)).isSome = true →
      neighbor r d.opp (s ++ n) = some a := by
  intro s
  induction s with
  | nil =>
    intro _ _
    exact neighbor_opp r d a n ha hn hl
  | cons q s ih =>
    intro hs hc
    rw [List.cons_append] at hc ⊢
    rw [cellAt_cons_isSome] at hc
    rw [neighbor_cons, if_pos (hs q (List.mem_cons_self _ _)),
      ih (fun x hx => hs x (List.mem_cons_of_mem _ hx)) (kidsAt_isSome r _ hc)]
    simp only [hleaf, if_true]

/-- Below every cell there is a leaf that is reached through the slot `k` only. -/
theorem exists_leaf_on_side (r : CELL) (k : Quadrant) :
    ∀ (fuel : Nat) (x : Addr), (cellAt r x).isSome = true → height r ≤ x.length + fuel →
      ∃ s : Addr, (∀ q ∈ s, q = k) ∧ IsLeafAt r (s ++ x) := by
  intro fuel
  induction fuel with
  | zero =>
    intro x hx hh
    refine ⟨[], fun q hq => (by cases hq), hx, ?_⟩
    cases hk : kidsAt r x with
    | false => exact hk
    | true =>
      have := kidsAt_length_lt hk
      omega
  | succ fuel ih =>
    intro x hx hh
    cases hk : kidsAt r x with
    | false => exact ⟨[], fun q hq => (by cases hq), hx, hk⟩
    | true =>
      obtain ⟨s, hs, hl⟩ := ih (k :: x) (by rw [cellAt_cons_isSome]; exact hk)
        (by simp only [List.length_cons]; omega)
      refine ⟨s ++ [k], ?_, by simpa using hl⟩
      intro q hq
      rcases List.mem_append.mp hq with h | h
      · exact hs q h
      · simpa using h

/-- In a balanced tree the children of the neighbour of a leaf that face the leaf have no
children. -/
theorem sat_child_leaf (r : CELL) (hsat : ∀ b, IsLeafAt r b → QUAD_POISSON.Sat r b) (d : Dir)
    (a n : Addr) (ha : IsLeafAt r a) (hn : neighbor r d a = some n) (hk : kidsAt r n = true)
    (k : Quadrant) (hside : d.opp.onSide k = true) : kidsAt r (k :: n) = false := by
  have hlen : n.length = a.length := by
    obtain ⟨h1, h2⟩ := neighbor_length r d a n hn
    by_contra hne
    have := h2 (by omega)
    rw [hk] at this
    cases this
  cases hkk : kidsAt r (k :: n) with
  | false => rfl
  | true =>
    exfalso
    obtain ⟨s, hs, hl⟩ := exists_leaf_on_side r k (height r) (k :: k :: n)
      (by rw [cellAt_cons_isSome]; exact hkk) (by omega)
    have hback := neighbor_down r d a n ha.1 ha.2 hn hlen (s ++ [k, k])
      (by
        intro q hq
        rcases List.mem_append.mp hq with h | h
        · rw [hs q h]; exact hside
        · simp only [List.mem_cons, List.mem_singleton, List.not_mem_nil, or_false, or_self] at h
          rw [h]; exact hside)
      (by
        have : s ++ [k, k] ++ n = s ++ k :: k :: n := by simp
        rw [this]
        exact hl.1)
    have hsat2 := hsat (s ++ k :: k :: n) hl d.opp a
      (by
        have : s ++ [k, k] ++ n = s ++ k :: k :: n := by simp
        rw [← this]
        exact hback)
    simp only [List.length_append, List.length_cons] at hsat2
    omega

end CELL

namespace QUAD_POISSON

open CELL CG_SOLVER

/-- The cells that `buildNeighbors` puts into the slots of one face of a leaf of a
balanced tree are leaves, at most one level above or below the leaf. -/
theorem face_slot_leaf {r : CELL} (hsat : ∀ b, IsLeafAt r b → Sat r b) (a : Addr)
    (dat : CellData) (hl : IsLeafAt r a) (d : Dir) (i i1 : Fin 8) (k0 k1 : Quadrant)
    (h0 : d.opp.onSide k0 = true) (h1 : d.opp.onSide k1 = true)
    (hok : FaceOK r a dat d i i1 k0 k1)
    (hnull : OnBorder d a → dat.neighbors.get i1 = none) (j : Fin 8) (hj : j = i ∨ j = i1)
    (n1 : Addr) (hs : dat.neighbors.get j = some (CellRef.cell n1)) :
    IsLeafAt r n1 ∧ a.length ≤ n1.length + 1 ∧ n1.length ≤ a.length + 1 := by
  unfold FaceOK at hok
  cases hn : neighbor r d a with
  | none =>
    rw [hn] at hok
    simp only at hok
    have hb := hnull ((neighbor_none_iff r d a).mp hn)
    rcases hj with e | e
    · rw [e, hok] at hs
      cases hs
    · rw [e, hb] at hs
      cases hs
  | some n =>
    rw [hn] at hok
    simp only at hok
    obtain ⟨hlen, hkids⟩ := neighbor_length r d a n hn
    have hnc := neighbor_isCell r d a n hl.1 hn
    have hsa := hsat a hl d n hn
    by_cases hk : kidsAt r n = false
    · rw [if_pos hk] at hok
      rcases hj with e | e
      · rw [e, hok.1] at hs
        simp only [Option.some.injEq, CellRef.cell.injEq] at hs
        subst hs
        exact ⟨⟨hnc, hk⟩, hsa, by omega⟩
      · rw [e, hok.2] at hs
        cases hs
    · rw [if_neg hk] at hok
      have hk1 : kidsAt r n = true := by simpa using hk
      have hlen2 : n.length = a.length := by
        by_contra hne
        exact hk (hkids (by omega))
      rcases hj with e | e
      · rw [e, hok.1] at hs
        simp only [Option.some.injEq, CellRef.cell.injEq] at hs
        subst hs
        refine ⟨⟨by rw [cellAt_cons_isSome]; exact hk1,
          sat_child_leaf r hsat d a n hl hn hk1 k0 h0⟩, ?_, ?_⟩ <;>
          simp only [List.length_cons] <;> omega
      · rw [e, hok.2] at hs
        simp only [Option.some.injEq, CellRef.cell.injEq] at hs
        subst hs
        refine ⟨⟨by rw [cellAt_cons_isSome]; exact hk1,
          sat_child_leaf r hsat d a n hl hn hk1 k1 h1⟩, ?_, ?_⟩ <;>
          simp only [List.length_cons] <;> omega

/-- C33: on a well-formed tree whose border faces have a null second slot (as the
constructors leave it) `buildNeighbors` returns, and afterwards every cell of the tree
that a neighbour slot of a leaf points to is a leaf, and its depth differs from the depth
of that leaf by at most 1. -/
theorem buildNeighbors_slot_leaves (root : CELL) (hwf : WellFormed root)
    (hnull : BorderNull root) :
    ∃ r1, buildNeighbors root = some r1 ∧
      ∀ (a : Addr) (dat : CellData), IsLeafAt r1 a → dataAt r1 a = some dat →
        ∀ (j : Fin 8) (n : Addr), dat.neighbors.get j = some (CellRef.cell n) →
          IsLeafAt r1 n ∧ |depthAt r1 n - dat.depth| ≤ 1 := by
  obtain ⟨r, new, e, g, hsat⟩ := balance_spec root hwf
  obtain ⟨v, -, hs⟩ := buildLoop_spec r (getAllLeaves r) r (SameView.refl_view r)
  have hwf2 := g.wellFormed hwf
  have hb2 : BorderNull ((getAllLeaves r).foldl buildCell r) :=
    BorderNull.buildLoop r (getAllLeaves r) r (SameView.refl_view r) (hnull.grows g)
  refine ⟨(getAllLeaves r).foldl buildCell r, by unfold buildNeighbors; rw [e], ?_⟩
  intro a dat hl1 hdat j n hj
  have hl := (v.isLeafAt a).mp hl1
  obtain ⟨s0, s1, s2, s3⟩ := hs a dat hdat (Or.inl ((mem_getAllLeaves r a).mpr hl))
  have key : IsLeafAt r n ∧ a.length ≤ n.length + 1 ∧ n.length ≤ a.length + 1 := by
    have hcases : (j = 0 ∨ j = 1) ∨ (j = 2 ∨ j = 3) ∨ (j = 4 ∨ j = 5) ∨ (j = 6 ∨ j = 7) := by
      fin_cases j <;> simp
    rcases hcases with h | h | h | h
    · exact face_slot_leaf hsat a dat hl Dir.north 0 1 Quadrant.q3 Quadrant.q2 rfl rfl s0
        (hb2 a dat Dir.north hdat) j h n hj
    · exact face_slot_leaf hsat a dat hl Dir.east 2 3 Quadrant.q0 Quadrant.q3 rfl rfl s1
        (hb2 a dat Dir.east hdat) j h n hj
    · exact face_slot_leaf hsat a dat hl Dir.south 4 5 Quadrant.q1 Quadrant.q0 rfl rfl s2
        (hb2 a dat Dir.south hdat) j h n hj
    · exact face_slot_leaf hsat a dat hl Dir.west 6 7 Quadrant.q2 Quadrant.q1 rfl rfl s3
        (hb2 a dat Dir.west hdat) j h n hj
  obtain ⟨hln, k1, k2⟩ := key
  refine ⟨(v.isLeafAt n).mpr hln, ?_⟩
  rw [← depthAt_eq _ a dat hdat, v.2.1 n, v.2.1 a, depthAt_of_cell hwf2 hln.1,
    depthAt_of_cell hwf2 hl.1, abs_le]
  constructor <;> omega

end QUAD_POISSON

theorem buildNeighbors_slot_leaves_witness :
    (CELL.WellFormed unbalancedTree ∧ QUAD_POISSON.BorderNull unbalancedTree) ∧
    ∃ r1, QUAD_POISSON.buildNeighbors unbalancedTree = some r1 ∧
      ∀ (a : Addr) (dat : CellData), CELL.IsLeafAt r1 a → CELL.dataAt r1 a = some dat →
        ∀ (j : Fin 8) (n : Addr), dat.neighbors.get j = some (CellRef.cell n) →
          CELL.IsLeafAt r1 n ∧ |CELL.depthAt r1 n - dat.depth| ≤ 1 :=
  have h0 : QUAD_POISSON.BorderNull (CELL.leaf (CellData.new 1 1 0 0 0)) :=
    QUAD_POISSON.borderNull_leaf _ (fun j => Mathlib.Vector.get_replicate _ j)
  have h1 : QUAD_POISSON.BorderNull
      (CELL.refineAt (CELL.leaf (CellData.new 1 1 0 0 0)) []) :=
    QUAD_POISSON.BorderNull.refineAt_null ⟨rfl, rfl⟩ h0
  have h2 : QUAD_POISSON.BorderNull
      (CELL.refineAt (CELL.refineAt (CELL.leaf (CellData.new 1 1 0 0 0)) []) [Quadrant.q0]) :=
    QUAD_POISSON.BorderNull.refineAt_null ⟨rfl, rfl⟩ h1
  have h3 : QUAD_POISSON.BorderNull unbalancedTree :=
    QUAD_POISSON.BorderNull.refineAt_null ⟨rfl, rfl⟩ h2
  ⟨⟨unbalancedTree_wellFormed, h3⟩,
    QUAD_POISSON.buildNeighbors_slot_leaves unbalancedTree unbalancedTree_wellFormed h3⟩

end Lumo

namespace Lumo

namespace CELL

/-! ## The matrix of the solver is symmetric -/

/-- A cell of the list of the leaves that are not flagged `boundary` is a leaf, and not
flagged `boundary`. -/
theorem mem_emptyLeavesFrom (t : CELL) :
    ∀ (base a : Addr), a ∈ emptyLeavesFrom t base →
      ∃ s d, a = s ++ base ∧ IsLeafAt t s ∧ dataAt t s = some d ∧ d.boundary = false := by
  induction t with
  | leaf d =>
    intro base a h
    simp only [emptyLeavesFrom] at h
    split at h
    · cases h
    · rename_i hb
      simp only [List.mem_singleton] at h
      exact ⟨[], d, by simp [h], ⟨rfl, rfl⟩, rfl, by simpa using hb⟩
  | node d c0 c1 c2 c3 ih0 ih1 ih2 ih3 =>
    intro base a h
    simp only [emptyLeavesFrom, List.mem_append] at h
    rcases h with ((h | h) | h) | h
    · obtain ⟨s, x, hs, ⟨h1, h2⟩, h3, h4⟩ := ih0 _ a h
      exact ⟨s ++ [Quadrant.q0], x, by simp [hs], ⟨by rw [cellAt_node_append]; exact h1,
        by rw [kidsAt_node_append]; exact h2⟩, by unfold dataAt; rw [cellAt_node_append]; exact h3,
        h4⟩
    · obtain ⟨s, x, hs, ⟨h1, h2⟩, h3, h4⟩ := ih1 _ a h
      exact ⟨s ++ [Quadrant.q1], x, by simp [hs], ⟨by rw [cellAt_node_append]; exact h1,
        by rw [kidsAt_node_append]; exact h2⟩, by unfold dataAt; rw [cellAt_node_append]; exact h3,
        h4⟩
    · obtain ⟨s, x, hs, ⟨h1, h2⟩, h3, h4⟩ := ih2 _ a h
      exact ⟨s ++ [Quadrant.q2], x, by simp [hs], ⟨by rw [cellAt_node_append]; exact h1,
        by rw [kidsAt_node_append]; exact h2⟩, by unfold dataAt; rw [cellAt_node_append]; exact h3,
        h4⟩
    · obtain ⟨s, x, hs, ⟨h1, h2⟩, h3, h4⟩ := ih3 _ a h
      exact ⟨s ++ [Quadrant.q3], x, by simp [hs], ⟨by rw [cellAt_node_append]; exact h1,
        by rw [kidsAt_node_append]; exact h2⟩, by unfold dataAt; rw [cellAt_node_append]; exact h3,
        h4⟩

theorem Dir.two_on_side (d : Dir) (k0 k1 q : Quadrant) (hk : k0 ≠ k1) (h0 : d.onSide k0 = true)
    (h1 : d.onSide k1 = true) (hq : d.onSide q = true) : q = k0 ∨ q = k1 := by
  cases d <;> cases k0 <;> cases k1 <;> cases q <;> simp_all [Dir.onSide]

theorem Dir.opp_opp (d : Dir) : d.opp.opp = d := by
  cases d <;> rfl

end CELL

namespace QUAD_POISSON

open CELL CG_SOLVER

theorem mem_getEmptyLeaves (root : CELL) (a : Addr) (h : a ∈ getEmptyLeaves root) :
    IsLeafAt root a ∧ ∃ d, dataAt root a = some d ∧ d.boundary = false := by
  obtain ⟨s, d, hs, hl, hd, hb⟩ := mem_emptyLeavesFrom root [] a h
  simp only [List.append_nil] at hs
  subst hs
  exact ⟨hl, d, hd, hb⟩

/-- In a balanced tree a leaf `b` that `buildNeighbors` puts into a slot of the face `d` of
a leaf `a` has `a` in a slot of its face opposite to `d`, and the two leaves are at most
one level apart. -/
theorem face_mutual {r : CELL} (hsat : ∀ x, IsLeafAt r x → Sat r x) (a b : Addr)
    (da db : CellData) (hla : IsLeafAt r a) (hlb : IsLeafAt r b) (d : Dir)
    (i i1 : Fin 8) (k0 k1 : Quadrant) (j0 j1 : Fin 8) (c0 c1 : Quadrant)
    (h0 : d.opp.onSide k0 = true) (h1 : d.opp.onSide k1 = true) (hc : c0 ≠ c1)
    (g0 : d.onSide c0 = true) (g1 : d.onSide c1 = true)
    (hok : FaceOK r a da d i i1 k0 k1)
    (hnull : OnBorder d a → da.neighbors.get i1 = none)
    (hokb : FaceOK r b db d.opp j0 j1 c0 c1) (j : Fin 8) (hj : j = i ∨ j = i1)
    (hs : da.neighbors.get j = some (CellRef.cell b)) :
    (db.neighbors.get j0 = some (CellRef.cell a) ∨ db.neighbors.get j1 = some (CellRef.cell a)) ∧
      (a.length = b.length ∨ a.length = b.length + 1 ∨ b.length = a.length + 1) := by
  unfold FaceOK at hok hokb
  cases hn : neighbor r d a with
  | none =>
    rw [hn] at hok
    simp only at hok
    have hb := hnull ((neighbor_none_iff r d a).mp hn)
    rcases hj with e | e
    · rw [e, hok] at hs
      cases hs
    · rw [e, hb] at hs
      cases hs
  | some n =>
    rw [hn] at hok
    simp only at hok
    obtain ⟨hlen, hkids⟩ := neighbor_length r d a n hn
    have hsa := hsat a hla d n hn
    by_cases hk : kidsAt r n = false
    · rw [if_pos hk] at hok
      rcases hj with e | e
      · rw [e, hok.1] at hs
        simp only [Option.some.injEq, CellRef.cell.injEq] at hs
        subst hs
        by_cases hsame : n.length = a.length
        · -- the same level: the lookup back finds `a`
          have hback := neighbor_opp r d a n hla.1 hn hsame
          rw [hback] at hokb
          simp only [hla.2, if_true] at hokb
          exact ⟨Or.inl hokb.1, Or.inl hsame.symm⟩
        · -- `n` is one level coarser: the lookup back finds the parent of `a`
          cases a with
          | nil => simp [neighbor_nil] at hn
          | cons q p =>
            simp only [List.length_cons] at hlen hsa hsame
            have hnl : n.length = p.length := by omega
            rw [neighbor_cons] at hn
            have hkp : kidsAt r p = true := by
              rw [← cellAt_cons_isSome r q p]
              exact hla.1
            by_cases hside : d.onSide q = true
            · rw [if_pos hside] at hn
              cases hmu : neighbor r d p with
              | none => simp [hmu] at hn
              | some mu =>
                simp only [hmu] at hn
                by_cases hkm : kidsAt r mu = false
                · rw [if_pos hkm] at hn
                  simp only [Option.some.injEq] at hn
                  subst hn
                  have hback := neighbor_opp r d p mu (kidsAt_isSome r p hkp) hmu hnl
                  rw [hback] at hokb
                  simp only [hkp, Bool.true_eq_false, if_false] at hokb
                  refine ⟨?_, Or.inr (Or.inl (by simp only [List.length_cons]; omega))⟩
                  rcases Dir.two_on_side d c0 c1 q hc g0 g1 hside with e1 | e1
                  · rw [e1]
                    exact Or.inl hokb.1
                  · rw [e1]
                    exact Or.inr hokb.2
                · rw [if_neg hkm] at hn
                  simp only [Option.some.injEq] at hn
                  subst hn
                  have h2 := (neighbor_length r d p mu hmu).2
                  simp only [List.length_cons] at hnl
                  exact absurd (h2 (by omega)) hkm
            · rw [if_neg hside] at hn
              simp only [Option.some.injEq] at hn
              subst hn
              simp only [List.length_cons] at hnl
              omega
      · rw [e, hok.2] at hs
        cases hs
    · rw [if_neg hk] at hok
      have hk1 : kidsAt r n = true := by simpa using hk
      have hlen2 : n.length = a.length := by
        by_contra hne
        exact hk (hkids (by omega))
      have key : ∀ k : Quadrant, d.opp.onSide k = true → b = k :: n →
          (db.neighbors.get j0 = some (CellRef.cell a) ∨
            db.neighbors.get j1 = some (CellRef.cell a)) ∧
          (a.length = b.length ∨ a.length = b.length + 1 ∨ b.length = a.length + 1) := by
        intro k hkside hb
        subst hb
        have hback := neighbor_down r d a n hla.1 hla.2 hn hlen2 [k]
          (by intro q hq; simp only [List.mem_singleton] at hq; rw [hq]; exact hkside)
          (by simpa using hlb.1)
        simp only [List.singleton_append] at hback
        rw [hback] at hokb
        simp only [hla.2, if_true] at hokb
        exact ⟨Or.inl hokb.1, Or.inr (Or.inr (by simp only [List.length_cons]; omega))⟩
      rcases hj with e | e
      · rw [e, hok.1] at hs
        simp only [Option.some.injEq, CellRef.cell.injEq] at hs
        exact key k0 h0 hs.symm
      · rw [e, hok.2] at hs
        simp only [Option.some.injEq, CellRef.cell.injEq] at hs
        exact key k1 h1 hs.symm

/-- The same for all the slots of a leaf. -/
theorem slots_mutual {r : CELL} (hsat : ∀ x, IsLeafAt r x → Sat r x) (a b : Addr)
    (da db : CellData) (hla : IsLeafAt r a) (hlb : IsLeafAt r b) (hsa : SlotsOK r a da)
    (hsb : SlotsOK r b db)
    (hnull : ∀ d, OnBorder d a → da.neighbors.get (secondSlot d) = none) (j : Fin 8)
    (hs : da.neighbors.get j = some (CellRef.cell b)) :
    (∃ j1, db.neighbors.get j1 = some (CellRef.cell a)) ∧
      (a.length = b.length ∨ a.length = b.length + 1 ∨ b.length = a.length + 1) := by
  obtain ⟨s0, s1, s2, s3⟩ := hsa
  obtain ⟨t0, t1, t2, t3⟩ := hsb
  have hcases : (j = 0 ∨ j = 1) ∨ (j = 2 ∨ j = 3) ∨ (j = 4 ∨ j = 5) ∨ (j = 6 ∨ j = 7) := by
    fin_cases j <;> simp
  have fin : ∀ (x y : Fin 8),
      (db.neighbors.get x = some (CellRef.cell a) ∨ db.neighbors.get y = some (CellRef.cell a)) →
      ∃ j1, db.neighbors.get j1 = some (CellRef.cell a) := by
    intro x y h
    rcases h with h | h
    · exact ⟨x, h⟩
    · exact ⟨y, h⟩
  rcases hcases with h | h | h | h
  · obtain ⟨m1, m2⟩ := face_mutual hsat a b da db hla hlb Dir.north 0 1 Quadrant.q3
      Quadrant.q2 4 5 Quadrant.q1 Quadrant.q0 rfl rfl (by decide) rfl rfl s0 (hnull Dir.north)
      t2 j h hs
    exact ⟨fin _ _ m1, m2⟩
  · obtain ⟨m1, m2⟩ := face_mutual hsat a b da db hla hlb Dir.east 2 3 Quadrant.q0
      Quadrant.q3 6 7 Quadrant.q2 Quadrant.q1 rfl rfl (by decide) rfl rfl s1 (hnull Dir.east)
      t3 j h hs
    exact ⟨fin _ _ m1, m2⟩
  · obtain ⟨m1, m2⟩ := face_mutual hsat a b da db hla hlb Dir.south 4 5 Quadrant.q1
      Quadrant.q0 0 1 Quadrant.q3 Quadrant.q2 rfl rfl (by decide) rfl rfl s2 (hnull Dir.south)
      t0 j h hs
    exact ⟨fin _ _ m1, m2⟩
  · obtain ⟨m1, m2⟩ := face_mutual hsat a b da db hla hlb Dir.west 6 7 Quadrant.q2
      Quadrant.q1 2 3 Quadrant.q0 Quadrant.q3 rfl rfl (by decide) rfl rfl s3 (hnull Dir.west)
      t1 j h hs
    exact ⟨fin _ _ m1, m2⟩

end QUAD_POISSON

end Lumo

namespace Lumo

namespace CG_SOLVER

open CELL QUAD_POISSON

/-- The data of a cell in a tree that differs only in what `calcStencils` writes. -/
theorem SameFields.data_of {r2 r1 : CELL} (h : SameFields r2 r1) {a : Addr} {d2 : CellData}
    (hd : dataAt r2 a = some d2) :
    ∃ d1, dataAt r1 a = some d1 ∧ d2.depth = d1.depth ∧ d2.neighbors = d1.neighbors ∧
      d2.boundary = d1.boundary := by
  have ha := h a
  rw [hd] at ha
  cases h1 : dataAt r1 a with
  | none => simp [h1] at ha
  | some d1 =>
    simp only [h1, Option.map_some', Option.some.injEq] at ha
    obtain ⟨e1, e2, e3, -⟩ := wipe_fields ha
    exact ⟨d1, rfl, e1, e2, e3⟩

theorem half_pow_succ (n : Nat) : (1 : ℚ) / 2 * 2 ^ (n + 1) = 2 ^ n := by
  rw [pow_succ]
  ring

/-- C32: on a well-formed mesh with the root at depth 0, not higher than the maximum depth
of the solver and with null second slots on the border, `buildNeighbors` and
`calcStencils` on the leaves that are not flagged `boundary` return, and the matrix of the
solver is symmetric: for two such leaves `L` and `M` with `M` in a slot of `L`, `L` is in a
slot of `M`, the two slots carry the same weight, and the two leaves are at most one level
apart; the weight is `invDx = 2 ^ depth` of the coarser one of the two leaves, which is
`invDx` of both for leaves of one depth and half of `invDx` of the finer leaf
otherwise. -/
theorem calcStencils_symmetric (maxDepth iterations digits : Int) (root : CELL)
    (hwf : WellFormed root) (hd0 : root.data.depth = 0) (hh : (height root : Int) ≤ maxDepth)
    (hnull : BorderNull root) :
    ∃ r1 r2, buildNeighbors root = some r1 ∧
      calcStencils (CG_SOLVER.new maxDepth iterations digits) r1 (getEmptyLeaves r1) = some r2 ∧
      ∀ (a b : Addr) (da db : CellData) (j : Fin 8),
        a ∈ getEmptyLeaves r1 → b ∈ getEmptyLeaves r1 →
        dataAt r2 a = some da → dataAt r2 b = some db →
        da.neighbors.get j = some (CellRef.cell b) →
        ∃ j1 : Fin 8, db.neighbors.get j1 = some (CellRef.cell a) ∧
          da.stencil.get j.castSucc = db.stencil.get j1.castSucc ∧
          da.stencil.get j.castSucc = 2 ^ (min da.depth db.depth).toNat ∧
          da.stencil.get j.castSucc =
            (if db.depth < da.depth then 1 / 2 * 2 ^ da.depth.toNat else 2 ^ da.depth.toNat) ∧
          |da.depth - db.depth| ≤ 1 := by
  obtain ⟨r, new, e, g, hsat⟩ := balance_spec root hwf
  obtain ⟨v, -, hs⟩ := buildLoop_spec r (getAllLeaves r) r (SameView.refl_view r)
  have hwf2 := g.wellFormed hwf
  have hb2 : BorderNull ((getAllLeaves r).foldl buildCell r) :=
    BorderNull.buildLoop r (getAllLeaves r) r (SameView.refl_view r) (hnull.grows g)
  have hbuild : buildNeighbors root = some ((getAllLeaves r).foldl buildCell r) := by
    unfold buildNeighbors
    rw [e]
  obtain ⟨r1x, ex, hwork⟩ := emptyLeaves_workable root maxDepth hwf hd0 hh hnull
  rw [hbuild] at ex
  simp only [Option.some.injEq] at ex
  subst ex
  obtain ⟨r2, hcalc, hsame, hdone⟩ := calcLoop_spec maxDepth iterations digits
    (getEmptyLeaves ((getAllLeaves r).foldl buildCell r)) _ hwork
  refine ⟨_, r2, hbuild, hcalc, ?_⟩
  intro a b da db j ha hb hda hdb hj
  obtain ⟨hla1, -, -, -⟩ := mem_getEmptyLeaves _ a ha
  obtain ⟨hlb1, xb, hxb, hbb⟩ := mem_getEmptyLeaves _ b hb
  obtain ⟨xa1, hxa1, ea1, ea2, -⟩ := hsame.data_of hda
  obtain ⟨xb1, hxb1, eb1, eb2, eb3⟩ := hsame.data_of hdb
  rw [hxb] at hxb1
  simp only [Option.some.injEq] at hxb1
  subst hxb1
  have hla := (v.isLeafAt a).mp hla1
  have hlb := (v.isLeafAt b).mp hlb1
  have hsa := hs a xa1 hxa1 (Or.inl ((mem_getAllLeaves r a).mpr hla))
  have hsb := hs b xb hxb (Or.inl ((mem_getAllLeaves r b).mpr hlb))
  have hj1 : xa1.neighbors.get j = some (CellRef.cell b) := by rw [← ea2]; exact hj
  obtain ⟨⟨j1, hj2⟩, hlen⟩ := slots_mutual hsat a b xa1 xb hla hlb hsa hsb
    (fun d hd => hb2 a xa1 d hxa1 hd) j hj1
  have hroot : r.data.depth = 0 := by rw [g.data_eq, hd0]
  have hdepa : da.depth = (a.length : Int) := by
    rw [ea1, ← depthAt_eq _ a xa1 hxa1, v.2.1 a, depthAt_of_cell hwf2 hla.1, hroot]
    simp
  have hdepb : db.depth = (b.length : Int) := by
    rw [eb1, ← depthAt_eq _ b xb hxb, v.2.1 b, depthAt_of_cell hwf2 hlb.1, hroot]
    simp
  have hbda : da.boundary = false := by
    obtain ⟨-, ya, hya, hba⟩ := mem_getEmptyLeaves _ a ha
    obtain ⟨za, hza, -, -, ez⟩ := hsame.data_of hda
    rw [hya] at hza
    simp only [Option.some.injEq] at hza
    rw [ez, ← hza]
    exact hba
  have hbdb : db.boundary = false := by rw [eb3]; exact hbb
  -- the weights that `calcStencils` has stored
  obtain ⟨ca, -, -, -, -, hca, -, -, -, -, -, -, hwa⟩ := hdone a (Or.inl ha)
  rw [hda] at hca
  simp only [Option.some.injEq] at hca
  rw [← hca] at hwa
  obtain ⟨cb, -, -, -, -, hcb, -, -, -, -, -, -, hwb⟩ := hdone b (Or.inl hb)
  rw [hdb] at hcb
  simp only [Option.some.injEq] at hcb
  rw [← hcb] at hwb
  have hj3 : db.neighbors.get j1 = some (CellRef.cell a) := by rw [eb2]; exact hj2
  have wa : da.stencil.get j.castSucc =
      if db.depth < da.depth then 1 / 2 * 2 ^ da.depth.toNat else 2 ^ da.depth.toNat := by
    rw [hwa j]
    simp only [slotWeight, hj, Option.some_bind, deref, hdb, hbdb, Bool.false_eq_true, if_false]
  have wb : db.stencil.get j1.castSucc =
      if da.depth < db.depth then 1 / 2 * 2 ^ db.depth.toNat else 2 ^ db.depth.toNat := by
    rw [hwb j1]
    simp only [slotWeight, hj3, Option.some_bind, deref, hda, hbda, Bool.false_eq_true, if_false]
  refine ⟨j1, hj3, ?_, ?_, wa, ?_⟩
  · rw [wa, wb, hdepa, hdepb]
    simp only [Int.toNat_ofNat]
    rcases hlen with h | h | h
    · rw [h]
    · rw [h, if_pos (by push_cast; omega), if_neg (by push_cast; omega), half_pow_succ]
    · rw [h, if_neg (by push_cast; omega), if_pos (by push_cast; omega), half_pow_succ]
  · rw [wa, hdepa, hdepb]
    rcases hlen with h | h | h
    · rw [h]
      simp
    · rw [h, if_pos (by push_cast; omega), min_eq_right (by push_cast; omega)]
      simp only [Int.toNat_ofNat]
      exact half_pow_succ _
    · rw [h, if_neg (by push_cast; omega), min_eq_left (by push_cast; omega)]
  · rw [hdepa, hdepb, abs_le]
    constructor <;> omega

theorem calcStencils_symmetric_witness :
    (WellFormed sampleTree ∧ sampleTree.data.depth = 0 ∧ (height sampleTree : Int) ≤ 2 ∧
      BorderNull sampleTree) ∧
    ∃ r1 r2, buildNeighbors sampleTree = some r1 ∧
      calcStencils (CG_SOLVER.new 2 100 8) r1 (getEmptyLeaves r1) = some r2 ∧
      ∀ (a b : Addr) (da db : CellData) (j : Fin 8),
        a ∈ getEmptyLeaves r1 → b ∈ getEmptyLeaves r1 →
        dataAt r2 a = some da → dataAt r2 b = some db →
        da.neighbors.get j = some (CellRef.cell b) →
        ∃ j1 : Fin 8, db.neighbors.get j1 = some (CellRef.cell a) ∧
          da.stencil.get j.castSucc = db.stencil.get j1.castSucc ∧
          da.stencil.get j.castSucc = 2 ^ (min da.depth db.depth).toNat ∧
          da.stencil.get j.castSucc =
            (if db.depth < da.depth then 1 / 2 * 2 ^ da.depth.toNat else 2 ^ da.depth.toNat) ∧
          |da.depth - db.depth| ≤ 1 :=
  ⟨⟨sampleTree_wellFormed, rfl, by decide, sampleTree_borderNull⟩,
    calcStencils_symmetric 2 100 8 sampleTree sampleTree_wellFormed rfl (by decide)
      sampleTree_borderNull⟩

end CG_SOLVER

end Lumo

namespace Lumo

namespace CELL

/-! ## The candidate flags are never reset -/

/-- Every cell of the tree `r1` is a cell of the tree `r2`, and a `candidate` flag that is
set in `r1` is set in `r2`. -/
def FlagsKept (r1 r2 : CELL) : Prop :=
  ∀ a d, dataAt r1 a = some d →
    ∃ d2, dataAt r2 a = some d2 ∧ (d.candidate = true → d2.candidate = true)

theorem FlagsKept.refl_kept (r : CELL) : FlagsKept r r :=
  fun _ d h => ⟨d, h, id⟩

theorem FlagsKept.trans_kept {r1 r2 r3 : CELL} (h1 : FlagsKept r1 r2) (h2 : FlagsKept r2 r3) :
    FlagsKept r1 r3 := by
  intro a d hd
  obtain ⟨d2, e2, f2⟩ := h1 a d hd
  obtain ⟨d3, e3, f3⟩ := h2 a d2 e2
  exact ⟨d3, e3, fun h => f3 (f2 h)⟩

theorem flagsKept_refineAt (root : CELL) (n : Addr) : FlagsKept root (refineAt root n) :=
  fun a d h => ⟨d, dataAt_refineAt root n a d h, id⟩

/-- The write `g` does not reset the `candidate` flag. -/
def KeepsFlag (g : CellData → CellData) : Prop :=
  ∀ x, x.candidate = true → (g x).candidate = true

theorem flagsKept_setData {g : CellData → CellData} (hg : KeepsFlag g) (root : CELL)
    (a0 : Addr) : FlagsKept root (setData g root a0) := by
  intro a d h
  rw [dataAt_setData]
  by_cases ha : a = a0
  · rw [if_pos ha, h]
    exact ⟨g d, rfl, hg d⟩
  · rw [if_neg ha]
    exact ⟨d, h, id⟩

theorem flagsKept_foldl {α : Type} (f : CELL → α → CELL) (h : ∀ r x, FlagsKept r (f r x)) :
    ∀ (l : List α) (r : CELL), FlagsKept r (l.foldl f r) := by
  intro l
  induction l with
  | nil => exact fun r => FlagsKept.refl_kept r
  | cons x xs ih => exact fun r => (h r x).trans_kept (ih (f r x))

end CELL

namespace QUAD_POISSON

open CELL

theorem descend_kept (x y : ℚ) : ∀ (steps : Nat) (root : CELL) (cur : Addr) (ex : Bool)
    (r1 : CELL) (c : Addr) (e : Bool), descend x y steps root cur ex = some (r1, c, e) →
    FlagsKept root r1 := by
  intro steps
  induction steps with
  | zero =>
    intro root cur ex r1 c e h
    simp only [descend, Option.some.injEq, Prod.mk.injEq] at h
    rw [← h.1]
    exact FlagsKept.refl_kept root
  | succ steps ih =>
    intro root cur ex r1 c e h
    unfold descend at h
    cases hc : cellAt root cur with
    | none => simp [hc] at h
    | some cell =>
      simp only [hc] at h
      split at h
      · exact (flagsKept_refineAt root cur).trans_kept (ih _ _ _ _ _ _ h)
      · exact ih _ _ _ _ _ _ h

theorem keepsFlag_noiseData : KeepsFlag noiseData := fun _ _ => rfl

theorem setNoise_kept (m : QUAD_POISSON) (a : Addr) : FlagsKept m.root (setNoise m a).root := by
  unfold setNoise
  cases dataAt m.root a with
  | none => exact FlagsKept.refl_kept _
  | some c =>
    simp only []
    split
    · exact FlagsKept.refl_kept _
    · split
      · exact flagsKept_setData keepsFlag_noiseData m.root a
      · exact FlagsKept.refl_kept _

theorem noteLeaf_kept (m : QUAD_POISSON) (a : Addr) : FlagsKept m.root (noteLeaf m a).root :=
  setNoise_kept { m with smallestLeaves := m.smallestLeaves ++ [a] } a

theorem noteLeaves_kept (m : QUAD_POISSON) (parent : Addr) :
    FlagsKept m.root (noteLeaves m parent).root := by
  unfold noteLeaves childrenOf
  simp only [List.foldl_cons, List.foldl_nil]
  exact (((noteLeaf_kept _ _).trans_kept (noteLeaf_kept _ _)).trans_kept
    (noteLeaf_kept _ _)).trans_kept (noteLeaf_kept _ _)

theorem noteSiblings_kept (m m1 : QUAD_POISSON) (a : Addr) (h : noteSiblings m a = some m1) :
    FlagsKept m.root m1.root := by
  cases a with
  | nil => simp [noteSiblings] at h
  | cons q p =>
    simp only [noteSiblings, Option.some.injEq] at h
    rw [← h]
    exact noteLeaves_kept m p

theorem forceWhile_kept (d : Dir) (cur : Addr) : ∀ (fuel : Nat) (m : QUAD_POISSON) (n : Addr)
    (m1 : QUAD_POISSON) (n1 : Addr), forceWhile d cur fuel m n = some (m1, n1) →
    FlagsKept m.root m1.root := by
  intro fuel
  induction fuel with
  | zero =>
    intro m n m1 n1 h
    simp [forceWhile] at h
  | succ fuel ih =>
    intro m n m1 n1 h
    unfold forceWhile at h
    split at h
    · cases hn : neighbor (refineAt m.root n) d cur with
      | none => simp [hn] at h
      | some n2 =>
        simp only [hn] at h
        exact (flagsKept_refineAt m.root n).trans_kept (ih _ _ _ _ h)
    · simp only [Option.some.injEq, Prod.mk.injEq] at h
      rw [← h.1]
      exact FlagsKept.refl_kept _

theorem forceOrtho_kept (d : Dir) (fuel : Nat) (m : QUAD_POISSON) (cur : Addr)
    (m1 : QUAD_POISSON) (res : Option Addr) (h : forceOrtho d fuel m cur = some (m1, res)) :
    FlagsKept m.root m1.root := by
  unfold forceOrtho at h
  cases hn : neighbor m.root d cur with
  | none =>
    simp only [hn, Option.some.injEq, Prod.mk.injEq] at h
    rw [← h.1]
    exact FlagsKept.refl_kept _
  | some n =>
    simp only [hn] at h
    split at h
    · cases hf : forceWhile d cur fuel m n with
      | none => simp [hf] at h
      | some p =>
        obtain ⟨m2, n2⟩ := p
        simp only [hf] at h
        cases hs : noteSiblings m2 n2 with
        | none => simp [hs] at h
        | some m3 =>
          simp only [hs, Option.some.injEq, Prod.mk.injEq] at h
          rw [← h.1]
          exact (forceWhile_kept d cur fuel m n m2 n2 hf).trans_kept
            (noteSiblings_kept m2 m3 n2 hs)
    · simp only [Option.some.injEq, Prod.mk.injEq] at h
      rw [← h.1]
      exact FlagsKept.refl_kept _

theorem forceDiagWhile_kept (k : Quadrant) : ∀ (fuel : Nat) (m : QUAD_POISSON) (n : Addr)
    (m1 : QUAD_POISSON) (n1 : Addr), forceDiagWhile k fuel m n = some (m1, n1) →
    FlagsKept m.root m1.root := by
  intro fuel
  induction fuel with
  | zero =>
    intro m n m1 n1 h
    simp [forceDiagWhile] at h
  | succ fuel ih =>
    intro m n m1 n1 h
    unfold forceDiagWhile at h
    split at h
    · split at h
      · exact (flagsKept_refineAt m.root n).trans_kept (ih _ _ _ _ h)
      · cases h
    · simp only [Option.some.injEq, Prod.mk.injEq] at h
      rw [← h.1]
      exact FlagsKept.refl_kept _

theorem forceDiag_kept (d : Dir) (k : Quadrant) (fuel : Nat) (m : QUAD_POISSON) (base : Addr)
    (m1 : QUAD_POISSON) (h : forceDiag d k fuel m base = some m1) :
    FlagsKept m.root m1.root := by
  unfold forceDiag at h
  cases hn : neighbor m.root d base with
  | none =>
    simp only [hn, Option.some.injEq] at h
    rw [← h]
    exact FlagsKept.refl_kept _
  | some n =>
    simp only [hn] at h
    split at h
    · cases hf : forceDiagWhile k fuel m n with
      | none => simp [hf] at h
      | some p =>
        obtain ⟨m2, n2⟩ := p
        simp only [hf] at h
        exact (forceDiagWhile_kept k fuel m n m2 n2 hf).trans_kept
          (noteSiblings_kept m2 m1 n2 h)
    · simp only [Option.some.injEq] at h
      rw [← h]
      exact FlagsKept.refl_kept _

theorem forceDiagPair_kept (kw ke : Quadrant) (fuel : Nat) (m : QUAD_POISSON)
    (base : Option Addr) (m1 : QUAD_POISSON)
    (h : forceDiagPair kw ke fuel m base = some m1) : FlagsKept m.root m1.root := by
  cases base with
  | none =>
    simp only [forceDiagPair, Option.some.injEq] at h
    rw [← h]
    exact FlagsKept.refl_kept _
  | some b =>
    simp only [forceDiagPair] at h
    cases hf : forceDiag Dir.west kw fuel m b with
    | none => simp [hf] at h
    | some m2 =>
      simp only [hf] at h
      exact (forceDiag_kept Dir.west kw fuel m b m2 hf).trans_kept
        (forceDiag_kept Dir.east ke fuel m2 b m1 h)

/-- `insert` keeps the cells of the tree and resets no `candidate` flag. -/
theorem insert_kept (m : QUAD_POISSON) (x y : ℚ) (m1 : QUAD_POISSON) (c : Addr)
    (h : QUAD_POISSON.insert m x y = some (m1, c)) : FlagsKept m.root m1.root := by
  unfold QUAD_POISSON.insert at h
  cases h0 : descend x y m.maxDepth.toNat m.root [] true with
  | none => simp [h0] at h
  | some p =>
    obtain ⟨root1, cur, ex⟩ := p
    simp only [h0] at h
    have k0 := descend_kept x y _ _ _ _ _ _ _ h0
    cases h1 : (if ex = true then some { m with root := root1 }
        else noteSiblings { m with root := root1 } cur) with
    | none => simp [h1] at h
    | some m2 =>
      simp only [h1] at h
      have k1 : FlagsKept root1 m2.root := by
        cases ex with
        | true =>
          simp only [if_true, Option.some.injEq] at h1
          rw [← h1]
          exact FlagsKept.refl_kept _
        | false =>
          simp only [Bool.false_eq_true, if_false] at h1
          exact noteSiblings_kept _ m2 cur h1
      cases h2 : forceOrtho Dir.north (m.maxDepth.toNat + 1) m2 cur with
      | none => simp [h2] at h
      | some p2 =>
        obtain ⟨m3, north⟩ := p2
        simp only [h2] at h
        cases h3 : forceOrtho Dir.south (m.maxDepth.toNat + 1) m3 cur with
        | none => simp [h3] at h
        | some p3 =>
          obtain ⟨m4, south⟩ := p3
          simp only [h3] at h
          cases h4 : forceOrtho Dir.west (m.maxDepth.toNat + 1) m4 cur with
          | none => simp [h4] at h
          | some p4 =>
            obtain ⟨m5, west⟩ := p4
            simp only [h4] at h
            cases h5 : forceOrtho Dir.east (m.maxDepth.toNat + 1) m5 cur with
            | none => simp [h5] at h
            | some p5 =>
              obtain ⟨m6, east⟩ := p5
              simp only [h5] at h
              cases h6 : forceDiagPair Quadrant.q2 Quadrant.q3 (m.maxDepth.toNat + 1) m6
                  north with
              | none => simp [h6] at h
              | some m7 =>
                simp only [h6] at h
                cases h7 : forceDiagPair Quadrant.q1 Quadrant.q0 (m.maxDepth.toNat + 1) m7
                    south with
                | none => simp [h7] at h
                | some m8 =>
                  simp only [h7, Option.some.injEq, Prod.mk.injEq] at h
                  rw [← h.1]
                  exact ((((((k0.trans_kept k1).trans_kept
                    (forceOrtho_kept _ _ _ _ _ _ h2)).trans_kept
                    (forceOrtho_kept _ _ _ _ _ _ h3)).trans_kept
                    (forceOrtho_kept _ _ _ _ _ _ h4)).trans_kept
                    (forceOrtho_kept _ _ _ _ _ _ h5)).trans_kept
                    (forceDiagPair_kept _ _ _ _ _ _ h6)).trans_kept
                    (forceDiagPair_kept _ _ _ _ _ _ h7)

end QUAD_POISSON

end Lumo

namespace Lumo

namespace QUAD_POISSON

open CELL

/-! ### balance and buildNeighbors -/

theorem balanceWhile_kept (d : Dir) : ∀ (fuel : Nat) (root : CELL) (cur n : Addr)
    (leaves : List Addr) (r1 : CELL) (l1 : List Addr),
    balanceWhile d fuel root cur n leaves = some (r1, l1) → FlagsKept root r1 := by
  intro fuel
  induction fuel with
  | zero =>
    intro root cur n leaves r1 l1 h
    simp [balanceWhile] at h
  | succ fuel ih =>
    intro root cur n leaves r1 l1 h
    unfold balanceWhile at h
    split at h
    · cases hn : neighbor (refineAt root n) d cur with
      | none => simp [hn] at h
      | some n2 =>
        simp only [hn] at h
        exact (flagsKept_refineAt root n).trans_kept (ih _ _ _ _ _ _ h)
    · simp only [Option.some.injEq, Prod.mk.injEq] at h
      rw [← h.1]
      exact FlagsKept.refl_kept _

theorem balanceDir_kept (d : Dir) (fuel : Nat) (root : CELL) (cur : Addr) (leaves : List Addr)
    (r1 : CELL) (l1 : List Addr) (h : balanceDir d fuel root cur leaves = some (r1, l1)) :
    FlagsKept root r1 := by
  unfold balanceDir at h
  cases hn : neighbor root d cur with
  | none =>
    simp only [hn, Option.some.injEq, Prod.mk.injEq] at h
    rw [← h.1]
    exact FlagsKept.refl_kept _
  | some n =>
    simp only [hn] at h
    exact balanceWhile_kept d fuel root cur n leaves r1 l1 h

theorem balanceLoop_kept : ∀ (fuel : Nat) (root : CELL) (leaves : List Addr) (r1 : CELL),
    balanceLoop fuel root leaves = some r1 → FlagsKept root r1 := by
  intro fuel
  induction fuel with
  | zero =>
    intro root leaves r1 h
    simp [balanceLoop] at h
  | succ fuel ih =>
    intro root leaves r1 h
    cases leaves with
    | nil =>
      simp only [balanceLoop, Option.some.injEq] at h
      rw [← h]
      exact FlagsKept.refl_kept _
    | cons cur rest =>
      simp only [balanceLoop] at h
      cases h1 : balanceDir Dir.north fuel root cur rest with
      | none => simp [h1] at h
      | some p1 =>
        obtain ⟨r2, l2⟩ := p1
        simp only [h1] at h
        cases h2 : balanceDir Dir.south fuel r2 cur l2 with
        | none => simp [h2] at h
        | some p2 =>
          obtain ⟨r3, l3⟩ := p2
          simp only [h2] at h
          cases h3 : balanceDir Dir.west fuel r3 cur l3 with
          | none => simp [h3] at h
          | some p3 =>
            obtain ⟨r4, l4⟩ := p3
            simp only [h3] at h
            cases h4 : balanceDir Dir.east fuel r4 cur l4 with
            | none => simp [h4] at h
            | some p4 =>
              obtain ⟨r5, l5⟩ := p4
              simp only [h4] at h
              exact ((((balanceDir_kept _ _ _ _ _ _ _ h1).trans_kept
                (balanceDir_kept _ _ _ _ _ _ _ h2)).trans_kept
                (balanceDir_kept _ _ _ _ _ _ _ h3)).trans_kept
                (balanceDir_kept _ _ _ _ _ _ _ h4)).trans_kept (ih _ _ _ h)

theorem balance_kept (root r1 : CELL) (h : balance root = some r1) : FlagsKept root r1 :=
  balanceLoop_kept _ _ _ _ h

theorem keepsFlag_setSlot (i : Fin 8) (v : Option CellRef) : KeepsFlag (setSlot i v) :=
  fun _ h => h

/-- A write that leaves the `candidate` flag of the cell alone. -/
theorem flagsKept_write (g : CellData → CellData) (hg : ∀ x, (g x).candidate = x.candidate)
    (root : CELL) (a : Addr) : FlagsKept root (setData g root a) :=
  flagsKept_setData (fun x h => by rw [hg]; exact h) root a

theorem buildFace_kept (d : Dir) (i i1 : Fin 8) (k0 k1 : Quadrant) (root : CELL) (cur : Addr) :
    FlagsKept root (buildFace d i i1 k0 k1 root cur) := by
  unfold buildFace
  cases neighbor root d cur with
  | none => exact flagsKept_setData (keepsFlag_setSlot _ _) root cur
  | some n =>
    simp only []
    split
    · apply flagsKept_write
      intro x
      rfl
    · apply flagsKept_write
      intro x
      rfl

theorem buildCell_kept (root : CELL) (cur : Addr) : FlagsKept root (buildCell root cur) := by
  unfold buildCell
  exact (((buildFace_kept _ _ _ _ _ _ _).trans_kept (buildFace_kept _ _ _ _ _ _ _)).trans_kept
    (buildFace_kept _ _ _ _ _ _ _)).trans_kept (buildFace_kept _ _ _ _ _ _ _)

theorem buildNeighbors_kept (root r1 : CELL) (h : buildNeighbors root = some r1) :
    FlagsKept root r1 := by
  unfold buildNeighbors at h
  cases hb : balance root with
  | none => simp [hb] at h
  | some r =>
    simp only [hb, Option.some.injEq] at h
    rw [← h]
    exact (balance_kept root r hb).trans_kept (flagsKept_foldl buildCell buildCell_kept _ r)

end QUAD_POISSON

namespace CG_SOLVER

open CELL QUAD_POISSON

/-! ### The solver -/

theorem calcCell_kept (s : CG_SOLVER) (root : CELL) (a : Addr) (r1 : CELL)
    (h : calcCell s root a = some r1) : FlagsKept root r1 := by
  unfold calcCell at h
  cases hd : dataAt root a with
  | none => simp [hd] at h
  | some c =>
    simp only [hd] at h
    cases hx : readDx s c.depth with
    | none => simp [hx] at h
    | some dx =>
      simp only [hx] at h
      cases hf : calcFaces root c (1 / dx) { stencil := c.stencil, deltaSum := 0, bSum := 0 } with
      | none =>
        rw [hf] at h
        cases h
      | some acc =>
        rw [hf] at h
        simp only [Option.some.injEq] at h
        rw [← h]
        apply flagsKept_write
        intro x
        rfl

theorem calcStencils_kept (s : CG_SOLVER) : ∀ (cells : List Addr) (root r1 : CELL),
    calcStencils s root cells = some r1 → FlagsKept root r1 := by
  intro cells
  induction cells with
  | nil =>
    intro root r1 h
    simp only [calcStencils, Option.some.injEq] at h
    rw [← h]
    exact FlagsKept.refl_kept _
  | cons a rest ih =>
    intro root r1 h
    simp only [calcStencils] at h
    cases hc : calcCell s root a with
    | none => simp [hc] at h
    | some r =>
      simp only [hc] at h
      exact (calcCell_kept s root a r hc).trans_kept (ih r r1 h)

theorem setIndices_kept : ∀ (cells : List Addr) (root : CELL) (x : Int),
    FlagsKept root (setIndices root cells x) := by
  intro cells
  induction cells with
  | nil => exact fun root _ => FlagsKept.refl_kept root
  | cons a rest ih =>
    intro root x
    simp only [setIndices]
    refine FlagsKept.trans_kept (flagsKept_write _ ?_ root a) (ih _ _)
    intro c
    rfl

theorem addPotentials_kept (alpha : ℚ) (direction : List ℚ) : ∀ (cells : List Addr) (root : CELL)
    (x : Nat), FlagsKept root (addPotentials alpha direction root cells x) := by
  intro cells
  induction cells with
  | nil => exact fun root _ => FlagsKept.refl_kept root
  | cons a rest ih =>
    intro root x
    simp only [addPotentials]
    refine FlagsKept.trans_kept (flagsKept_write _ ?_ root a) (ih _ _)
    intro c
    rfl

theorem solveLoop_kept (s : CG_SOLVER) (junk : Int → ℚ) (cells : List Addr) :
    ∀ (fuel : Nat) (st st1 : SolveState), solveLoop s junk cells fuel st = some st1 →
      FlagsKept st.root st1.root := by
  intro fuel
  induction fuel with
  | zero =>
    intro st st1 h
    simp only [solveLoop] at h
    split at h
    · cases h
    · simp only [Option.some.injEq] at h
      rw [← h]
      exact FlagsKept.refl_kept _
  | succ fuel ih =>
    intro st st1 h
    simp only [solveLoop] at h
    split at h
    · cases hb : solveBody junk cells st with
      | none => simp [hb] at h
      | some st2 =>
        simp only [hb] at h
        have h2 : FlagsKept st.root st2.root := by
          unfold solveBody at hb
          cases hq : calcQ junk st.root st.direction cells 0 with
          | none => simp [hq] at hb
          | some q =>
            simp only [hq, Option.some.injEq] at hb
            rw [← hb]
            exact addPotentials_kept _ _ _ _ _
        exact h2.trans_kept (ih st2 st1 h)
    · simp only [Option.some.injEq] at h
      rw [← h]
      exact FlagsKept.refl_kept _

/-- `CG_SOLVER::solve` keeps the cells of the tree and resets no `candidate` flag. -/
theorem solve_kept (s : CG_SOLVER) (junk : Int → ℚ) (root : CELL) (cells : List Addr) (n : Int)
    (r1 : CELL) (h : solve s junk root cells = some (n, r1)) : FlagsKept root r1 := by
  unfold solve at h
  cases hi : solveInit s root cells with
  | none => simp [hi] at h
  | some st0 =>
    simp only [hi] at h
    cases hl : solveLoop s junk cells s.iterations.toNat st0 with
    | none => simp [hl] at h
    | some st =>
      simp only [hl, Option.some.injEq, Prod.mk.injEq] at h
      rw [← h.2]
      have h0 : FlagsKept root st0.root := by
        unfold solveInit at hi
        cases hc : calcStencils s root cells with
        | none => simp [hc] at hi
        | some r2 =>
          simp only [hc] at hi
          cases hr : calcResidual s (setIndices r2 cells 0) cells with
          | none => simp [hr] at hi
          | some res =>
            simp only [hr, Option.some.injEq] at hi
            rw [← hi]
            exact (calcStencils_kept s cells root r2 hc).trans_kept (setIndices_kept _ _ _)
      exact h0.trans_kept (solveLoop_kept s junk cells _ st0 st hl)

end CG_SOLVER

end Lumo

namespace Lumo

namespace QUAD_DBM_2D

open CELL QUAD_POISSON

variable {F : Type}

/-! ## The candidate list -/

/-- The candidate list holds no cell twice, and every cell of it is a cell of the tree
with the `candidate` flag set. -/
def CandOK (st : QUAD_DBM_2D F) : Prop :=
  st.candidates.Nodup ∧
    ∀ a ∈ st.candidates, ∃ d, dataAt st.mesh.root a = some d ∧ d.candidate = true

theorem CandOK.of_kept {st st1 : QUAD_DBM_2D F} (h : CandOK st)
    (hc : st1.candidates = st.candidates) (hk : FlagsKept st.mesh.root st1.mesh.root) :
    CandOK st1 := by
  refine ⟨by rw [hc]; exact h.1, ?_⟩
  intro a ha
  rw [hc] at ha
  obtain ⟨d, hd, hf⟩ := h.2 a ha
  obtain ⟨d2, hd2, hf2⟩ := hk a d hd
  exact ⟨d2, hd2, hf2 hf⟩

theorem noteCandidate_cand (st : QUAD_DBM_2D F) (p : Option Addr) (h : CandOK st) :
    CandOK (noteCandidate st p) := by
  unfold noteCandidate
  cases p with
  | none => exact h
  | some a =>
    simp only []
    cases hd : dataAt st.mesh.root a with
    | none => exact h
    | some d =>
      simp only []
      by_cases hc : d.candidate = false
      · rw [if_pos hc]
        have hna : a ∉ st.candidates := by
          intro hm
          obtain ⟨d2, e2, f2⟩ := h.2 a hm
          rw [hd] at e2
          simp only [Option.some.injEq] at e2
          rw [← e2, hc] at f2
          cases f2
        refine ⟨?_, ?_⟩
        · refine List.Nodup.append h.1 (List.nodup_singleton a) ?_
          intro x hx hx1
          simp only [List.mem_singleton] at hx1
          rw [hx1] at hx
          exact hna hx
        · intro b hb
          simp only [dataAt_setData]
          by_cases hba : b = a
          · rw [if_pos hba, hba, hd]
            exact ⟨_, rfl, rfl⟩
          · rw [if_neg hba]
            rcases List.mem_append.mp hb with h1 | h1
            · exact h.2 b h1
            · simp only [List.mem_singleton] at h1
              exact absurd h1 hba
      · rw [if_neg hc]
        exact h

theorem noteSide_cand (st : QUAD_DBM_2D F) (side : Addr) (h : CandOK st) :
    CandOK (noteSide st side) :=
  noteCandidate_cand _ _ (noteCandidate_cand _ _ (noteCandidate_cand _ _ h))

/-- `checkForCandidates` keeps the candidate list free of duplicates and of cells without
the flag. -/
theorem checkForCandidates_cand (st : QUAD_DBM_2D F) (cell : Addr) (h : CandOK st) :
    CandOK (checkForCandidates st cell) := by
  unfold checkForCandidates
  simp only []
  have h1 : CandOK (match northNeighbor st.mesh.root cell with
      | some north =>
        if depthAt st.mesh.root north = st.mesh.maxDepth then noteSide st north else st
      | none => st) := by
    split
    · split
      · exact noteSide_cand _ _ h
      · exact h
    · exact h
  apply noteCandidate_cand
  split
  · exact noteSide_cand _ _ (noteCandidate_cand _ _ h1)
  · exact noteCandidate_cand _ _ h1

theorem keepsFlag_markInitial : KeepsFlag markInitial := fun _ _ => rfl

theorem keepsFlag_markAttractor : KeepsFlag markAttractor := fun _ _ => rfl

theorem keepsFlag_markRepulsor : KeepsFlag markRepulsor := fun _ _ => rfl

theorem keepsFlag_markTerminator : KeepsFlag markTerminator := fun _ _ => rfl

theorem keepsFlag_markFilled : KeepsFlag markFilled := fun _ h => h

theorem insertMarked_cand (mark : CellData → CellData) (hm : KeepsFlag mark)
    (st st1 : QUAD_DBM_2D F) (x y : Int) (c : Addr)
    (h : insertMarked mark st x y = some (st1, c)) (hok : CandOK st) : CandOK st1 := by
  unfold insertMarked at h
  cases hi : QUAD_POISSON.insert st.mesh ((x : ℚ) / st.mesh.maxRes) ((y : ℚ) / st.mesh.maxRes) with
  | none =>
    rw [hi] at h
    cases h
  | some p =>
    obtain ⟨m1, c1⟩ := p
    rw [hi] at h
    simp only [Option.some.injEq, Prod.mk.injEq] at h
    rw [← h.1]
    exact hok.of_kept rfl ((insert_kept _ _ _ _ _ hi).trans_kept (flagsKept_setData hm _ _))

theorem pixelStep_cand (junk : Int → Bool) (initial attractors repulsors terminators : List Bool)
    (w h x y index : Int) (s s4 : Scan F)
    (hp : pixelStep junk initial attractors repulsors terminators w h x y index s = some s4)
    (hok : CandOK s.st) : CandOK s4.st := by
  unfold pixelStep at hp
  cases h1 : initialStep junk initial x y index s with
  | none =>
    rw [h1] at hp
    cases hp
  | some s1 =>
    rw [h1] at hp
    simp only [] at hp
    have ok1 : CandOK s1.st := by
      unfold initialStep at h1
      split at h1
      · cases hi : insertMarked markInitial s.st x y with
        | none =>
          rw [hi] at h1
          cases h1
        | some p =>
          obtain ⟨st1, c⟩ := p
          rw [hi] at h1
          simp only [Option.some.injEq] at h1
          rw [← h1]
          exact checkForCandidates_cand _ _
            (insertMarked_cand _ keepsFlag_markInitial _ _ _ _ _ hi hok)
      · simp only [Option.some.injEq] at h1
        rw [← h1]
        exact hok
    cases h2 : attractorStep junk attractors x y index s1 with
    | none =>
      rw [h2] at hp
      cases hp
    | some s2 =>
      rw [h2] at hp
      simp only [] at hp
      have ok2 : CandOK s2.st := by
        unfold attractorStep at h2
        split at h2
        · cases hi : insertMarked markAttractor s1.st x y with
          | none =>
            rw [hi] at h2
            cases h2
          | some p =>
            obtain ⟨st1, c⟩ := p
            rw [hi] at h2
            simp only [Option.some.injEq] at h2
            rw [← h2]
            exact insertMarked_cand _ keepsFlag_markAttractor _ _ _ _ _ hi ok1
        · simp only [Option.some.injEq] at h2
          rw [← h2]
          exact ok1
      cases h3 : repulsorStep junk repulsors w h x y index s2 with
      | none =>
        rw [h3] at hp
        cases hp
      | some s3 =>
        rw [h3] at hp
        simp only [] at hp
        have ok3 : CandOK s3.st := by
          unfold repulsorStep at h3
          split at h3
          · cases hi : insertMarked markRepulsor s2.st x y with
            | none =>
              rw [hi] at h3
              cases h3
            | some p =>
              obtain ⟨st1, c⟩ := p
              rw [hi] at h3
              simp only [Option.some.injEq] at h3
              rw [← h3]
              exact insertMarked_cand _ keepsFlag_markRepulsor _ _ _ _ _ hi ok2
          · simp only [Option.some.injEq] at h3
            rw [← h3]
            exact ok2
        unfold terminatorStep at hp
        split at hp
        · cases hi : insertMarked markTerminator s3.st x y with
          | none =>
            rw [hi] at hp
            cases hp
          | some p =>
            obtain ⟨st1, c⟩ := p
            rw [hi] at hp
            simp only [Option.some.injEq] at hp
            rw [← hp]
            exact insertMarked_cand _ keepsFlag_markTerminator _ _ _ _ _ hi ok3
        · simp only [Option.some.injEq] at hp
          rw [← hp]
          exact ok3

theorem rowLoop_cand (junk : Int → Bool) (initial attractors repulsors terminators : List Bool)
    (w h y : Int) : ∀ (xs : List Nat) (index : Int) (s : Scan F) (index1 : Int) (s1 : Scan F),
    rowLoop junk initial attractors repulsors terminators w h y xs index s = some (index1, s1) →
    CandOK s.st → CandOK s1.st := by
  intro xs
  induction xs with
  | nil =>
    intro index s index1 s1 hr hok
    simp only [rowLoop, Option.some.injEq, Prod.mk.injEq] at hr
    rw [← hr.2]
    exact hok
  | cons x xs ih =>
    intro index s index1 s1 hr hok
    simp only [rowLoop] at hr
    cases hp : pixelStep junk initial attractors repulsors terminators w h x y index s with
    | none =>
      rw [hp] at hr
      cases hr
    | some s2 =>
      rw [hp] at hr
      exact ih _ _ _ _ hr (pixelStep_cand _ _ _ _ _ _ _ _ _ _ _ _ hp hok)

theorem imageLoop_cand (junk : Int → Bool) (initial attractors repulsors terminators : List Bool)
    (w h : Int) : ∀ (ys : List Nat) (index : Int) (s : Scan F) (index1 : Int) (s1 : Scan F),
    imageLoop junk initial attractors repulsors terminators w h ys index s = some (index1, s1) →
    CandOK s.st → CandOK s1.st := by
  intro ys
  induction ys with
  | nil =>
    intro index s index1 s1 hr hok
    simp only [imageLoop, Option.some.injEq, Prod.mk.injEq] at hr
    rw [← hr.2]
    exact hok
  | cons y ys ih =>
    intro index s index1 s1 hr hok
    simp only [imageLoop] at hr
    cases hp : rowLoop junk initial attractors repulsors terminators w h y (List.range w.toNat)
        index s with
    | none =>
      rw [hp] at hr
      cases hr
    | some p =>
      obtain ⟨i2, s2⟩ := p
      rw [hp] at hr
      exact ih _ _ _ _ hr (rowLoop_cand _ _ _ _ _ _ _ _ _ _ _ _ _ hp hok)

/-- `readImage` keeps the candidate list free of duplicates and of cells without the
flag. -/
theorem readImage_cand (junk : Int → Bool) (st : QUAD_DBM_2D F)
    (initial attractors repulsors terminators : List Bool) (xRes yRes : Int) (b : Bool)
    (st1 : QUAD_DBM_2D F)
    (h : readImage junk st initial attractors repulsors terminators xRes yRes = some (b, st1))
    (hok : CandOK st) : CandOK st1 := by
  unfold readImage at h
  cases hl : imageLoop junk initial attractors repulsors terminators xRes yRes
      (List.range yRes.toNat) 0
      { st := { st with dag := { st.dag with inputWidth := xRes, inputHeight := yRes } },
        initialFound := false, terminateFound := false } with
  | none =>
    rw [hl] at h
    cases h
  | some p =>
    obtain ⟨i, s⟩ := p
    rw [hl] at h
    have hs : CandOK s.st := imageLoop_cand _ _ _ _ _ _ _ _ _ _ _ _ hl ⟨hok.1, hok.2⟩
    simp only [] at h
    split at h
    · simp only [Option.some.injEq, Prod.mk.injEq] at h
      rw [← h.2]
      exact hs
    · split at h
      · simp only [Option.some.injEq, Prod.mk.injEq] at h
        rw [← h.2]
        exact hs
      · simp only [Option.some.injEq, Prod.mk.injEq] at h
        rw [← h.2]
        exact hs

theorem solvePoisson_cand (junk : Int → ℚ) (st s1 : QUAD_DBM_2D F) (n : Int)
    (h : solvePoisson junk st = some (n, s1)) (hok : CandOK st) : CandOK s1 := by
  have hc := solvePoisson_candidates junk st s1 n h
  unfold solvePoisson at h
  cases h0 : balance st.mesh.root with
  | none => simp [h0] at h
  | some r0 =>
    simp only [h0] at h
    cases h1 : buildNeighbors r0 with
    | none => simp [h1] at h
    | some r1 =>
      simp only [h1] at h
      cases h2 : CG_SOLVER.solve
          { st.solver with iterations := if st.firstSolve then 10000 else st.savedIterations }
          junk r1 (getEmptyLeaves r1) with
      | none => simp [h2] at h
      | some res =>
        obtain ⟨k, r2⟩ := res
        simp only [h2, Option.some.injEq, Prod.mk.injEq] at h
        refine hok.of_kept hc ?_
        rw [← h.2]
        exact ((balance_kept _ _ h0).trans_kept (buildNeighbors_kept _ _ h1)).trans_kept
          (CG_SOLVER.solve_kept _ _ _ _ _ _ h2)

theorem solveStep_cand (junk : Int → ℚ) (st s2 : QUAD_DBM_2D F)
    (h : solveStep junk st = some s2) (hok : CandOK st) : CandOK s2 := by
  unfold solveStep at h
  by_cases hs : st.skipSolve = 0
  · rw [if_pos hs] at h
    cases hp : solvePoisson junk st with
    | none => simp [hp] at h
    | some res =>
      obtain ⟨n, s1⟩ := res
      simp only [hp, Option.map_some', Option.some.injEq] at h
      rw [← h]
      have := solvePoisson_cand junk st s1 n hp hok
      exact ⟨this.1, this.2⟩
  · rw [if_neg hs] at h
    simp only [Option.some.injEq] at h
    rw [← h]
    exact ⟨hok.1, hok.2⟩

theorem hitGround_cand (sh : Shading F) (st : QUAD_DBM_2D F) (cell : Option Addr) (b : Bool)
    (s : QUAD_DBM_2D F) (h : hitGround sh st cell = some (b, s)) (hok : CandOK st) :
    CandOK s := by
  unfold hitGround at h
  split at h
  · simp only [Option.some.injEq, Prod.mk.injEq] at h
    rw [← h.2]
    exact hok
  · split at h
    · simp only [Option.some.injEq, Prod.mk.injEq] at h
      rw [← h.2]
      exact hok
    · split at h
      · cases h
      · simp only [Option.some.injEq, Prod.mk.injEq] at h
        rw [← h.2]
        exact hok
      · split at h
        · cases h
        · split at h
          · cases h
          · simp only [Option.some.injEq, Prod.mk.injEq] at h
            rw [← h.2]
            exact ⟨hok.1, hok.2⟩

theorem accept_cand (sh : Shading F) (st s : QUAD_DBM_2D F) (added : Addr) (b : Bool)
    (h : accept sh st added = some (b, s)) (hok : CandOK st) : CandOK s := by
  unfold accept at h
  split at h
  · cases h
  · rename_i da hda
    cases hi : QUAD_POISSON.insert { st.mesh with root := setData markFilled st.mesh.root added }
        da.centerX da.centerY with
    | none =>
      rw [hi] at h
      cases h
    | some p =>
      obtain ⟨m4, c⟩ := p
      rw [hi] at h
      simp only [] at h
      have h4 : CandOK ({ st with mesh := m4 } : QUAD_DBM_2D F) :=
        hok.of_kept rfl ((flagsKept_setData keepsFlag_markFilled _ _).trans_kept
          (insert_kept _ _ _ _ _ hi))
      have h5 := checkForCandidates_cand _ added h4
      split at h
      · split at h
        · cases h
        · split at h
          · cases h
          · rename_i hg
            simp only [Option.some.injEq, Prod.mk.injEq] at h
            rw [← h.2]
            exact hitGround_cand sh _ _ _ _ hg ⟨h5.1, h5.2⟩
      · cases h

/-- `addParticle` keeps the candidate list free of duplicates and of cells without the
flag. -/
theorem addParticle_cand (ops : FloatOps) (sh : Shading F) (junk : Int → ℚ)
    (st : QUAD_DBM_2D F) (random : ℚ) (b : Bool) (s : QUAD_DBM_2D F)
    (h : addParticle ops sh junk st random = some (b, s)) (hok : CandOK st) : CandOK s := by
  unfold addParticle at h
  cases hs : solveStep junk st with
  | none =>
    rw [hs] at h
    cases h
  | some s2 =>
    rw [hs] at h
    simp only [] at h
    have h2 := solveStep_cand junk st s2 hs hok
    split at h
    · simp only [Option.some.injEq, Prod.mk.injEq] at h
      rw [← h.2]
      exact h2
    · split at h
      · cases h
      · split at h
        · cases h
        · exact accept_cand sh s2 s _ b h h2

/-- The states of an object that the constructor has built and on which `readImage` and
`addParticle` have been called, in any order and any number of times, each call with a
result. -/
inductive Reachable : QUAD_DBM_2D F → Prop
  | built (xRes yRes iterations : Int) (noise : List Bool) (totalParticles skipSolve : Int)
      (firstSolve : Bool) (savedIterations : Int) :
      Reachable (QUAD_DBM_2D.new F xRes yRes iterations noise totalParticles skipSolve
        firstSolve savedIterations)
  | read (junk : Int → Bool) (st : QUAD_DBM_2D F)
      (initial attractors repulsors terminators : List Bool) (xRes yRes : Int) (b : Bool)
      (st1 : QUAD_DBM_2D F) :
      Reachable st →
      readImage junk st initial attractors repulsors terminators xRes yRes = some (b, st1) →
      Reachable st1
  | add (ops : FloatOps) (sh : Shading F) (junk : Int → ℚ) (st : QUAD_DBM_2D F) (random : ℚ)
      (b : Bool) (st1 : QUAD_DBM_2D F) :
      Reachable st → addParticle ops sh junk st random = some (b, st1) → Reachable st1

end QUAD_DBM_2D

end Lumo

namespace Lumo

namespace QUAD_DBM_2D

open CELL QUAD_POISSON

variable {F : Type}

/-- A run on 4 by 4 pixels: the constructor in a new process, `readImage` of `plainImage`
and two calls of `addParticle`, with the draws `2 / 5` and `1 / 10` of the twister. -/
def frontierRun : Option (QUAD_DBM_2D ℚ) :=
  (plainImage (fresh ℚ 4 4 10 noNoise)).bind (fun p0 =>
    (addParticle exactOps DAG.sampleShading (fun _ => 0) p0.2 (2 / 5)).bind (fun p1 =>
      (addParticle exactOps DAG.sampleShading (fun _ => 0) p1.2 (1 / 10)).map Prod.snd))

/-- The state at the end of `frontierRun`. -/
def frontierState : QUAD_DBM_2D ℚ :=
  frontierRun.getD (fresh ℚ 4 4 10 noNoise)

set_option maxRecDepth 100000 in
theorem frontierRun_eq :
    frontierRun.map (fun st => st.candidates) =
      some [[Quadrant.q1, Quadrant.q0], [Quadrant.q0, Quadrant.q1], [Quadrant.q0, Quadrant.q0],
        [Quadrant.q3, Quadrant.q1], [Quadrant.q1, Quadrant.q3], [Quadrant.q0, Quadrant.q2],
        [Quadrant.q0, Quadrant.q3], [Quadrant.q3, Quadrant.q0], [Quadrant.q2, Quadrant.q1],
        [Quadrant.q1, Quadrant.q2], [Quadrant.q3, Quadrant.q2], [Quadrant.q2, Quadrant.q2],
        [Quadrant.q2, Quadrant.q3]] := by decide!

theorem frontierState_reachable :
    Reachable frontierState ∧
      frontierState.candidates =
        [[Quadrant.q1, Quadrant.q0], [Quadrant.q0, Quadrant.q1], [Quadrant.q0, Quadrant.q0],
          [Quadrant.q3, Quadrant.q1], [Quadrant.q1, Quadrant.q3], [Quadrant.q0, Quadrant.q2],
          [Quadrant.q0, Quadrant.q3], [Quadrant.q3, Quadrant.q0], [Quadrant.q2, Quadrant.q1],
          [Quadrant.q1, Quadrant.q2], [Quadrant.q3, Quadrant.q2], [Quadrant.q2, Quadrant.q2],
          [Quadrant.q2, Quadrant.q3]] := by
  obtain ⟨st, hst, hc⟩ := Option.map_eq_some'.mp frontierRun_eq
  have hs : frontierState = st := by
    unfold frontierState
    rw [hst]
    rfl
  rw [hs]
  refine ⟨?_, hc⟩
  unfold frontierRun at hst
  obtain ⟨p0, hp0, h⟩ := Option.bind_eq_some.mp hst
  obtain ⟨p1, hp1, h⟩ := Option.bind_eq_some.mp h
  obtain ⟨p2, hp2, h⟩ := Option.map_eq_some'.mp h
  rw [← h]
  exact Reachable.add _ _ _ _ _ p2.1 p2.2
    (Reachable.add _ _ _ _ _ p1.1 p1.2
      (Reachable.read _ _ _ _ _ _ _ _ p0.1 p0.2 (Reachable.built 4 4 10 noNoise 0 0 true 10) hp0)
      hp1) hp2

/-- C40: in every state of an object that the constructor has built and on which
`readImage` (the `readBoundaryConditions` of the specification) and `addParticle` have
been called, in any order and any number of times, the candidate list contains no cell
more than once, and every cell in it is a cell of the tree with its `candidate` flag
set. -/
theorem candidates_distinct_flagged (st : QUAD_DBM_2D F) (h : Reachable st) :
    st.candidates.Nodup ∧
      ∀ a ∈ st.candidates, ∃ d, dataAt st.mesh.root a = some d ∧ d.candidate = true := by
  induction h with
  | built xRes yRes iterations noise totalParticles skipSolve firstSolve savedIterations =>
    exact ⟨List.nodup_nil, fun a ha => by cases ha⟩
  | read junk st initial attractors repulsors terminators xRes yRes b st1 _ hr ih =>
    exact readImage_cand _ _ _ _ _ _ _ _ _ _ hr ih
  | add ops sh junk st random b st1 _ ha ih =>
    exact addParticle_cand _ _ _ _ _ _ _ ha ih

theorem candidates_distinct_flagged_witness :
    Reachable frontierState ∧
      frontierState.candidates.Nodup ∧
      ∀ a ∈ frontierState.candidates,
        ∃ d, dataAt frontierState.mesh.root a = some d ∧ d.candidate = true :=
  ⟨frontierState_reachable.1,
    candidates_distinct_flagged frontierState frontierState_reachable.1⟩

end QUAD_DBM_2D

end Lumo

namespace Lumo

namespace QUAD_DBM_2D

/-! ## The walk over the cumulative weights, in the arithmetic of the program -/

/-- The value of the variable `potentialSeen` of `addParticle` when `toAddIndex` is `k`:
`probabilities[0] * invTotalPotential` for `k = 0`, and for `k + 1` the value for `k`
with `probabilities[k + 1] * invTotalPotential` added, in the arithmetic `ops`. -/
def potentialSeenAt (ops : FloatOps) (probabilities : List ℚ) (inv : ℚ) : Nat → ℚ
  | 0 => ops.mul (probabilities.getD 0 0) inv
  | k + 1 =>
    ops.add (potentialSeenAt ops probabilities inv k) (ops.mul (probabilities.getD (k + 1) 0) inv)

/-- The value of `potentialSeen` at the place `k` of the candidate list `cands`, with
`invTotalPotential = 1.0f / totalPotential`. -/
def seenOf (ops : FloatOps) (cands : List (Bool × ℚ)) (k : Nat) : ℚ :=
  potentialSeenAt ops (probabilitiesOf cands) (ops.div 1 (totalPotentialOf ops cands)) k

theorem get?_getD (l : List ℚ) (k : Nat) (h : k < l.length) : l.get? k = some (l.getD k 0) := by
  rw [List.get?_eq_get h, List.getD_eq_getElem l 0 h]
  rfl

/-- The walk stops at the first place whose `potentialSeen` is not below the draw. -/
theorem walkLoop_some (ops : FloatOps) (probabilities : List ℚ) (inv random : ℚ) (k : Nat)
    (hk : k < probabilities.length)
    (hstop : ¬ potentialSeenAt ops probabilities inv k < random) :
    ∀ (fuel idx : Nat), idx ≤ k → k - idx < fuel →
      (∀ i, idx ≤ i → i < k → potentialSeenAt ops probabilities inv i < random) →
      walkLoop ops probabilities inv random fuel idx (potentialSeenAt ops probabilities inv idx) =
        some k := by
  intro fuel
  induction fuel with
  | zero => intro idx _ hf; omega
  | succ fuel ih =>
    intro idx hle hf hbefore
    unfold walkLoop
    by_cases e : idx = k
    · rw [e, if_neg (fun h => hstop h.1)]
    · have hlt : idx < k := by omega
      rw [if_pos ⟨hbefore idx (Nat.le_refl _) hlt, by omega⟩,
        get?_getD probabilities (idx + 1) (by omega)]
      exact ih (idx + 1) (by omega) (by omega) (fun i h1 h2 => hbefore i (by omega) h2)

/-- The walk reads `probabilities` behind its last entry when `potentialSeen` stays below
the draw up to the last place. -/
theorem walkLoop_none (ops : FloatOps) (probabilities : List ℚ) (inv random : ℚ) :
    ∀ (fuel idx : Nat), idx < probabilities.length →
      (∀ i, idx ≤ i → i < probabilities.length →
        potentialSeenAt ops probabilities inv i < random) →
      walkLoop ops probabilities inv random fuel idx (potentialSeenAt ops probabilities inv idx) =
        none := by
  intro fuel
  induction fuel with
  | zero => intro idx _ _; rfl
  | succ fuel ih =>
    intro idx hidx hall
    unfold walkLoop
    rw [if_pos ⟨hall idx (Nat.le_refl _) hidx, hidx⟩]
    by_cases hn : idx + 1 < probabilities.length
    · rw [get?_getD probabilities (idx + 1) hn]
      exact ih (idx + 1) hn (fun i h1 h2 => hall i (by omega) h2)
    · rw [List.get?_eq_none.mpr (by omega)]

/-- The index that the walk returns, for every arithmetic. -/
theorem dbmIndex_spec (ops : FloatOps) (probabilities : List ℚ) (total random : ℚ)
    (hne : probabilities ≠ []) :
    (∀ k, dbmIndex ops probabilities total random = some k ↔
      k < probabilities.length ∧
      random ≤ potentialSeenAt ops probabilities (ops.div 1 total) k ∧
      ∀ i, i < k → potentialSeenAt ops probabilities (ops.div 1 total) i < random) ∧
    (dbmIndex ops probabilities total random = none ↔
      ∀ i, i < probabilities.length →
        potentialSeenAt ops probabilities (ops.div 1 total) i < random) := by
  have h0 : 0 < probabilities.length := List.length_pos.mpr hne
  have hd : dbmIndex ops probabilities total random =
      walkLoop ops probabilities (ops.div 1 total) random (probabilities.length + 2) 0
        (potentialSeenAt ops probabilities (ops.div 1 total) 0) := by
    unfold dbmIndex
    rw [get?_getD probabilities 0 h0]
    rfl
  have hsome : ∀ k, k < probabilities.length →
      random ≤ potentialSeenAt ops probabilities (ops.div 1 total) k →
      (∀ i, i < k → potentialSeenAt ops probabilities (ops.div 1 total) i < random) →
      dbmIndex ops probabilities total random = some k := by
    intro k hk hstop hbefore
    rw [hd]
    exact walkLoop_some ops probabilities _ random k hk (not_lt.mpr hstop) _ 0 (Nat.zero_le _)
      (by omega) (fun i _ h2 => hbefore i h2)
  have hnone : (∀ i, i < probabilities.length →
      potentialSeenAt ops probabilities (ops.div 1 total) i < random) →
      dbmIndex ops probabilities total random = none := by
    intro hall
    rw [hd]
    exact walkLoop_none ops probabilities _ random _ 0 h0 (fun i _ h2 => hall i h2)
  -- the first place at which the walk stops, if there is one
  have hcase : (∃ k, k < probabilities.length ∧
        random ≤ potentialSeenAt ops probabilities (ops.div 1 total) k ∧
        ∀ i, i < k → potentialSeenAt ops probabilities (ops.div 1 total) i < random) ∨
      ∀ i, i < probabilities.length →
        potentialSeenAt ops probabilities (ops.div 1 total) i < random := by
    by_cases hex : ∃ j, j < probabilities.length ∧
        random ≤ potentialSeenAt ops probabilities (ops.div 1 total) j
    · left
      classical
      refine ⟨Nat.find hex, (Nat.find_spec hex).1, (Nat.find_spec hex).2, ?_⟩
      intro i hi
      have hmin := Nat.find_min hex hi
      by_contra hge
      exact hmin ⟨lt_trans hi (Nat.find_spec hex).1, not_lt.mp hge⟩
    · right
      intro i hi
      by_contra hge
      exact hex ⟨i, hi, not_lt.mp hge⟩
  constructor
  · intro k
    constructor
    · intro h
      rcases hcase with ⟨k0, hk0, hs0, hb0⟩ | hall
      · rw [hsome k0 hk0 hs0 hb0] at h
        simp only [Option.some.injEq] at h
        rw [← h]
        exact ⟨hk0, hs0, hb0⟩
      · rw [hnone hall] at h
        cases h
    · intro h
      exact hsome k h.1 h.2.1 h.2.2
  · constructor
    · intro h
      rcases hcase with ⟨k0, hk0, hs0, hb0⟩ | hall
      · rw [hsome k0 hk0 hs0 hb0] at h
        cases h
      · exact hall
    · exact hnone

/-- Without rounding `potentialSeen` is the cumulative weight. -/
theorem potentialSeenAt_exact (probabilities : List ℚ) (total : ℚ) :
    ∀ k, k < probabilities.length →
      potentialSeenAt exactOps probabilities (exactOps.div 1 total) k =
        cumulativeWeight probabilities total k := by
  intro k
  induction k with
  | zero =>
    intro h
    have hg := get?_getD probabilities 0 h
    unfold cumulativeWeight
    rw [sum_take_succ probabilities 0 _ hg]
    simp only [potentialSeenAt, exactOps, List.take_zero, List.sum_nil, zero_add]
    ring
  | succ k ih =>
    intro h
    have hg := get?_getD probabilities (k + 1) h
    rw [cumulativeWeight_succ probabilities total k _ hg, ← ih (by omega)]
    rfl

/-- Three candidates with the potentials 0.1f, 0.3f and 0.2f. -/
def tieCandidates : List (Bool × ℚ) :=
  [(true, 13421773 / 134217728), (true, 5033165 / 16777216), (true, 13421773 / 67108864)]

/-- C17, as the code has it, for every arithmetic `ops`, in particular the one of `float`:
with a candidate list that is not empty and a total weight of at least 1e-8, `addParticle`
selects the place `k` exactly when `k` is the first place of the list at which
`potentialSeen`, the sum of the terms `probabilities[i] * invTotalPotential` accumulated
in the arithmetic of the program, is not less than the draw as stored in a `float`, and
every earlier value of `potentialSeen` is less; if `potentialSeen` stays below the draw
up to the last place, no place is selected (the walk reads behind the list).  Without
rounding `potentialSeen` at the place `k` is the cumulative weight
`(w_0 + ... + w_k) / total`, and for a draw below 1 the walk selects the first place whose
cumulative weight is not less than the draw. -/
theorem dbmIndex_first_reached (ops : FloatOps) (cands : List (Bool × ℚ)) (r : ℚ)
    (hne : cands ≠ []) (htot : 1 / 100000000 ≤ totalPotentialOf ops cands) :
    (∀ k, chooseIndex ops cands r = some k ↔
      k < cands.length ∧ ops.ofDouble r ≤ seenOf ops cands k ∧
      ∀ i, i < k → seenOf ops cands i < ops.ofDouble r) ∧
    (chooseIndex ops cands r = none ↔
      ∀ i, i < cands.length → seenOf ops cands i < ops.ofDouble r) ∧
    (∀ i, i < cands.length →
      seenOf exactOps cands i =
        cumulativeWeight (probabilitiesOf cands) (totalPotentialOf exactOps cands) i) ∧
    (r < 1 → 1 / 100000000 ≤ totalPotentialOf exactOps cands →
      ∃ k, chooseIndex exactOps cands r = some k ∧ k < cands.length ∧
        r ≤ cumulativeWeight (probabilitiesOf cands) (totalPotentialOf exactOps cands) k ∧
        ∀ i, i < k →
          cumulativeWeight (probabilitiesOf cands) (totalPotentialOf exactOps cands) i < r) := by
  have hlen : (probabilitiesOf cands).length = cands.length := by
    simp [probabilitiesOf]
  have hpne : probabilitiesOf cands ≠ [] := by
    intro h
    rw [h] at hlen
    exact hne (List.length_eq_zero.mp hlen.symm)
  have hch : ∀ (o : FloatOps), 1 / 100000000 ≤ totalPotentialOf o cands →
      chooseIndex o cands r =
        dbmIndex o (probabilitiesOf cands) (totalPotentialOf o cands) (o.ofDouble r) := by
    intro o ho
    unfold chooseIndex
    rw [if_neg (not_lt.mpr ho)]
  obtain ⟨h1, h2⟩ := dbmIndex_spec ops (probabilitiesOf cands) (totalPotentialOf ops cands)
    (ops.ofDouble r) hpne
  refine ⟨?_, ?_, ?_, ?_⟩
  · intro k
    rw [hch ops htot, h1 k, hlen]
    rfl
  · rw [hch ops htot, h2, hlen]
    rfl
  · intro i hi
    exact potentialSeenAt_exact (probabilitiesOf cands) _ i (by rw [hlen]; exact hi)
  · intro hr1 hex
    obtain ⟨k, e1, e2, e3, e4⟩ := dbmIndex_exact cands r hne hex hr1
    exact ⟨k, by rw [hch exactOps hex]; exact e1, e2, e3, e4⟩

theorem dbmIndex_first_reached_witness :
    ([(true, (1 / 4 : ℚ)), (false, 5), (true, 3 / 4)] ≠ [] ∧
      1 / 100000000 ≤ totalPotentialOf exactOps [(true, 1 / 4), (false, 5), (true, 3 / 4)]) ∧
    (∀ k, chooseIndex exactOps [(true, 1 / 4), (false, 5), (true, 3 / 4)] (1 / 2) = some k ↔
      k < [(true, (1 / 4 : ℚ)), (false, 5), (true, 3 / 4)].length ∧
      exactOps.ofDouble (1 / 2) ≤
        seenOf exactOps [(true, 1 / 4), (false, 5), (true, 3 / 4)] k ∧
      ∀ i, i < k → seenOf exactOps [(true, 1 / 4), (false, 5), (true, 3 / 4)] i <
        exactOps.ofDouble (1 / 2)) ∧
    (chooseIndex exactOps [(true, 1 / 4), (false, 5), (true, 3 / 4)] (1 / 2) = none ↔
      ∀ i, i < [(true, (1 / 4 : ℚ)), (false, 5), (true, 3 / 4)].length →
        seenOf exactOps [(true, 1 / 4), (false, 5), (true, 3 / 4)] i <
          exactOps.ofDouble (1 / 2)) ∧
    (∀ i, i < [(true, (1 / 4 : ℚ)), (false, 5), (true, 3 / 4)].length →
      seenOf exactOps [(true, 1 / 4), (false, 5), (true, 3 / 4)] i =
        cumulativeWeight (probabilitiesOf [(true, 1 / 4), (false, 5), (true, 3 / 4)])
          (totalPotentialOf exactOps [(true, 1 / 4), (false, 5), (true, 3 / 4)]) i) ∧
    ((1 / 2 : ℚ) < 1 →
      1 / 100000000 ≤ totalPotentialOf exactOps [(true, 1 / 4), (false, 5), (true, 3 / 4)] →
      ∃ k, chooseIndex exactOps [(true, 1 / 4), (false, 5), (true, 3 / 4)] (1 / 2) = some k ∧
        k < [(true, (1 / 4 : ℚ)), (false, 5), (true, 3 / 4)].length ∧
        1 / 2 ≤ cumulativeWeight (probabilitiesOf [(true, 1 / 4), (false, 5), (true, 3 / 4)])
          (totalPotentialOf exactOps [(true, 1 / 4), (false, 5), (true, 3 / 4)]) k ∧
        ∀ i, i < k →
          cumulativeWeight (probabilitiesOf [(true, 1 / 4), (false, 5), (true, 3 / 4)])
            (totalPotentialOf exactOps [(true, 1 / 4), (false, 5), (true, 3 / 4)]) i < 1 / 2) :=
  ⟨⟨by simp, by rw [totalPotentialOf_exact]; norm_num [probabilitiesOf]⟩,
    dbmIndex_first_reached exactOps [(true, 1 / 4), (false, 5), (true, 3 / 4)] (1 / 2) (by simp)
      (by rw [totalPotentialOf_exact]; norm_num [probabilitiesOf])⟩

/-- C17, a case in which the code leaves the claim: with the candidate potentials 0.1f,
0.3f and 0.2f, the total in single precision is `5033165 / 2^23`, at least 1e-8, and the
draw `r = 11184811 / 2^26` is in [0,1) and a `float`.  The cumulative weight of the place
0, `w_0 / total`, is less than `r`, whether the total is the one of the program or the
exact sum, and the cumulative weight of the place 1 is not: the first place whose
cumulative weight is not less than `r` is the place 1.  In single precision
`potentialSeen = probabilities[0] * invTotalPotential` is rounded up to `r` itself, the
test `potentialSeen < random` fails, and `addParticle` selects the place 0. -/
theorem dbmIndex_rounded_first :
    (1 / 100000000 : ℚ) ≤ totalPotentialOf f32Ops tieCandidates ∧
    totalPotentialOf f32Ops tieCandidates = 5033165 / 8388608 ∧
    (0 : ℚ) ≤ 11184811 / 67108864 ∧ (11184811 / 67108864 : ℚ) < 1 ∧
    f32Ops.ofDouble (11184811 / 67108864) = 11184811 / 67108864 ∧
    chooseIndex f32Ops tieCandidates (11184811 / 67108864) = some 0 ∧
    seenOf f32Ops tieCandidates 0 = 11184811 / 67108864 ∧
    cumulativeWeight (probabilitiesOf tieCandidates) (totalPotentialOf f32Ops tieCandidates) 0 <
      11184811 / 67108864 ∧
    11184811 / 67108864 ≤
      cumulativeWeight (probabilitiesOf tieCandidates) (totalPotentialOf f32Ops tieCandidates) 1 ∧
    cumulativeWeight (probabilitiesOf tieCandidates) (totalPotentialOf exactOps tieCandidates) 0 <
      11184811 / 67108864 ∧
    11184811 / 67108864 ≤
      cumulativeWeight (probabilitiesOf tieCandidates) (totalPotentialOf exactOps tieCandidates) 1 ∧
    chooseIndex exactOps tieCandidates (11184811 / 67108864) = some 1 := by
  decide!

end QUAD_DBM_2D

end Lumo

namespace Lumo

namespace QUAD_DBM_2D

open CELL QUAD_POISSON

/-! ## A candidate list without an unfilled cell -/

/-- The image of 4 by 4 pixels with the start pixel `(0, 3)`, the terminator pixel
`(0, 0)` and the repulsor pixels `(0, 2)`, `(2, 2)`, `(3, 2)` and `(3, 3)`, read into a
new object in a new process: the start cell is the cell 12 in the north-west corner, and
the cells 8, 9, 10 and 14 around its eastern neighbour, the cell 13, are repulsor cells,
which `readImage` flags as candidates without putting them on the list. -/
def cornerImage : Option (Bool × QUAD_DBM_2D ℚ) :=
  readImage (fun _ => false) (fresh ℚ 4 4 10 noNoise) (mask16 [12]) (mask16 [])
    (mask16 [8, 10, 11, 15]) (mask16 [0]) 4 4

/-- What is observed of the two calls of `addParticle` behind `cornerImage`. -/
structure CornerView where
  read : Bool
  list0 : List Addr
  index0 : List (Option Int)
  first : Bool
  list1 : List Addr
  states1 : List CELL_STATE
  graph1 : Option (List NodeRecord)
  bottomHit1 : Int
  second : Bool
  list2 : List Addr
  graph2 : Option (List NodeRecord)
  totalNodes : Int
  deriving DecidableEq

/-- Two calls of `addParticle` behind `cornerImage`, in the arithmetic of the program and
both with the draw `1 / 2`: what `readImage` returns, the candidate list and the
flattened indices of its cells, what the first call returns, the candidate list, the
states of its cells, the graph and `_bottomHit` after the first call, what the second
call returns, and the candidate list, the graph and `_totalNodes` after it. -/
def cornerRun : Option CornerView :=
  cornerImage.bind (fun p0 =>
    (addParticle f32Ops DAG.sampleShading (fun _ => 0) p0.2 (1 / 2)).bind (fun p1 =>
      (addParticle f32Ops DAG.sampleShading (fun _ => 0) p1.2 (1 / 2)).map (fun p2 =>
        CornerView.mk p0.1 p0.2.candidates (p0.2.candidates.map (indexAt p0.2)) p1.1
          p1.2.candidates (p1.2.candidates.map (stateAt p1.2.mesh.root)) (graphOf p1.2)
          p1.2.bottomHit p2.1 p2.2.candidates (graphOf p2.2) p2.2.dag.totalNodes)))

set_option maxRecDepth 100000 in
theorem cornerRun_eq :
    cornerRun = some (CornerView.mk true [[Quadrant.q1, Quadrant.q0]] [some 13] true
      [[Quadrant.q1, Quadrant.q0]] [CELL_STATE.NEGATIVE]
      (some [{ index := 13, parent := 12, leader := false, secondary := false, depth := 0,
               neighbors := [] },
             { index := 12, parent := -1, leader := false, secondary := false, depth := 0,
               neighbors := [13] }])
      0 true [[Quadrant.q1, Quadrant.q0]]
      (some [{ index := 13, parent := 12, leader := false, secondary := false, depth := 0,
               neighbors := [] },
             { index := 13, parent := 12, leader := false, secondary := false, depth := 0,
               neighbors := [] },
             { index := 12, parent := -1, leader := false, secondary := false, depth := 0,
               neighbors := [13, 13] }])
      2) := by decide!

/-- C14, a run in which the code leaves the claim: `readImage` of `cornerImage` on a new
object returns true and leaves the one cell 13 on the candidate list.  The first call of
`addParticle` fills this cell and returns true; no new cell comes on the list, as all the
cells around the cell 13 carry the candidate flag.  Now the list is not empty and every
cell of it is filled (state `NEGATIVE`), so no unfilled candidate is left, and no
terminator has been reached; yet the second call does not return false: it accepts the
cell 13 once more, adds a second node 13 to the graph and returns true.  For every state,
a call that returns false found the candidate list itself empty. -/
theorem addParticle_accepts_filled :
    (∃ st0 st1 st2 : QUAD_DBM_2D ℚ,
      cornerImage = some (true, st0) ∧
      st0.candidates = [[Quadrant.q1, Quadrant.q0]] ∧
      indexAt st0 [Quadrant.q1, Quadrant.q0] = some 13 ∧
      addParticle f32Ops DAG.sampleShading (fun _ => 0) st0 (1 / 2) = some (true, st1) ∧
      st1.candidates = [[Quadrant.q1, Quadrant.q0]] ∧
      (∀ a ∈ st1.candidates, stateAt st1.mesh.root a = CELL_STATE.NEGATIVE) ∧
      st1.bottomHit = 0 ∧
      graphOf st1 =
        some [{ index := 13, parent := 12, leader := false, secondary := false, depth := 0,
                neighbors := [] },
              { index := 12, parent := -1, leader := false, secondary := false, depth := 0,
                neighbors := [13] }] ∧
      addParticle f32Ops DAG.sampleShading (fun _ => 0) st1 (1 / 2) = some (true, st2) ∧
      st2.candidates = [[Quadrant.q1, Quadrant.q0]] ∧
      graphOf st2 =
        some [{ index := 13, parent := 12, leader := false, secondary := false, depth := 0,
                neighbors := [] },
              { index := 13, parent := 12, leader := false, secondary := false, depth := 0,
                neighbors := [] },
              { index := 12, parent := -1, leader := false, secondary := false, depth := 0,
                neighbors := [13, 13] }] ∧
      st2.dag.totalNodes = 2) ∧
    ∀ (ops : FloatOps) (sh : Shading ℚ) (junk : Int → ℚ) (st st1 : QUAD_DBM_2D ℚ) (random : ℚ),
      addParticle ops sh junk st random = some (false, st1) → st.candidates = [] := by
  constructor
  · have h := cornerRun_eq
    unfold cornerRun at h
    obtain ⟨p0, hp0, h⟩ := Option.bind_eq_some.mp h
    obtain ⟨p1, hp1, h⟩ := Option.bind_eq_some.mp h
    obtain ⟨p2, hp2, h⟩ := Option.map_eq_some'.mp h
    simp only [CornerView.mk.injEq] at h
    obtain ⟨e0, l0, i0, e1, l1, s1, g1, b1, e2, l2, g2, t2⟩ := h
    refine ⟨p0.2, p1.2, p2.2, ?_, l0, ?_, ?_, l1, ?_, b1, g1, ?_, l2, g2, t2⟩
    · rw [hp0, ← e0]
    · rw [l0] at i0
      simpa using i0
    · rw [hp1, ← e1]
    · intro a ha
      rw [l1] at ha s1
      simp only [List.mem_singleton] at ha
      rw [ha]
      simpa using s1
    · rw [hp2, ← e2]
  · intro ops sh junk st st1 random h
    exact addParticle_false_empty ops sh junk st st1 random h

end QUAD_DBM_2D

end Lumo

namespace Lumo

/-! ## Writing and reading back, and the intensity of the root -/

namespace NODE

variable {F : Type}

theorem Plain.intensity_eq {n : NODE F} (h : Plain n) : n.intensity = none := by
  cases h
  rfl

end NODE

namespace DAG

variable {F : Type}

open NODE

/-- C4, as the code has it: for a graph built by `addSegment` calls with pairwise distinct
indices, as it is or after `buildLeader(t)` with a terminal index `t` other than -1,
`write` produces a file and `read` of that file returns a graph with the same node
indices and, stripped of the members that the file does not hold, the same tree: the same
ordered neighbours (hence the same parents), leader flags and depths.  Every node other
than the root has the same intensity in both graphs, and when a terminal index was
recorded (`read` then runs `buildLeader` again) this intensity is an assigned value.  The
intensity of the root is assigned in neither graph: the constructor of `NODE` leaves it
as it finds it, and `buildIntensity` writes the intensities of the neighbours only.  The
node count, the terminal index and the node found for every index are the same too. -/
theorem write_read_roundtrip (sh : Shading F) (g g0 gw : DAG F) (t : Int) (hb : Built g)
    (hw : gw = g ∨ (t ≠ -1 ∧ buildLeader sh g t = some gw)) :
    ∃ f g1 r1 r0, write gw = some f ∧ read sh g0 f = some g1 ∧
      g1.root = some r1 ∧ gw.root = some r0 ∧
      indices r1 = indices r0 ∧ strip r1 = strip r0 ∧
      (∀ (k : Nat) (q : NodePath),
        (nodeAt r1 (k :: q)).map NODE.intensity = (nodeAt r0 (k :: q)).map NODE.intensity) ∧
      (gw.bottomHit ≠ -1 → ∀ (k : Nat) (q : NodePath) (n : NODE F),
        nodeAt r1 (k :: q) = some n → ∃ v, n.intensity = some v) ∧
      r1.intensity = none ∧ r0.intensity = none ∧
      g1.totalNodes = gw.totalNodes ∧ g1.bottomHit = gw.bottomHit ∧
      ∀ k, find g1.hash k = find gw.hash k := by
  obtain ⟨f, g1, hf1, hf2, hroot, htot, hbot, hfind⟩ := read_write_tree sh g g0 gw t hb hw
  obtain ⟨r, hi⟩ := hb.inv
  have key : ∃ r0, gw.root = some r0 ∧ r0.intensity = none ∧
      (gw.bottomHit ≠ -1 → ∀ (k : Nat) (q : NodePath) (n : NODE F),
        nodeAt r0 (k :: q) = some n → ∃ v, n.intensity = some v) := by
    rcases hw with e | ⟨_, hbl⟩
    · subst e
      exact ⟨r, hi.root, hi.plain.intensity_eq, fun h => absurd hi.bottom h⟩
    · unfold buildLeader at hbl
      cases hp : find g.hash t with
      | none => rw [hp] at hbl; cases hbl
      | some p =>
        rw [hp, hi.root] at hbl
        simp only [Option.some.injEq] at hbl
        subst hbl
        have hpt : indexAt r p = some t := (hi.hash t p).mp hp
        have hv : (nodeAt r p).isSome := by
          simp only [indexAt] at hpt
          cases h : nodeAt r p with
          | none => rw [h] at hpt; cases hpt
          | some n => rfl
        refine ⟨buildIntensity sh (crawl r p), rfl, ?_, ?_⟩
        · rw [buildIntensity_intensity, crawl_intensity p r hv]
          exact hi.plain.intensity_eq
        · intro _ k q n hn
          rw [nodeAt_buildIntensity] at hn
          cases h0 : nodeAt (crawl r p) (k :: q) with
          | none => rw [h0] at hn; cases hn
          | some n0 =>
            rw [h0] at hn
            simp only [Option.map_some', Option.some.injEq] at hn
            subst hn
            rw [intensityStep_intensity]
            split
            · exact ⟨_, rfl⟩
            · exact ⟨_, rfl⟩
  obtain ⟨r0, hr0, hint, hass⟩ := key
  exact ⟨f, g1, r0, r0, hf1, hf2, by rw [hroot, hr0], hr0, rfl, rfl, fun _ _ => rfl, hass,
    hint, hint, htot, hbot, hfind⟩

theorem write_read_roundtrip_witness :
    (Built sampleDag ∧
      (sampleLeader = sampleDag ∨
        ((9 : Int) ≠ -1 ∧ buildLeader sampleShading sampleDag 9 = some sampleLeader))) ∧
    ∃ f g1 r1 r0, write sampleLeader = some f ∧ read sampleShading (DAG.new 1 1) f = some g1 ∧
      g1.root = some r1 ∧ sampleLeader.root = some r0 ∧
      indices r1 = indices r0 ∧ strip r1 = strip r0 ∧
      (∀ (k : Nat) (q : NodePath),
        (nodeAt r1 (k :: q)).map NODE.intensity = (nodeAt r0 (k :: q)).map NODE.intensity) ∧
      (sampleLeader.bottomHit ≠ -1 → ∀ (k : Nat) (q : NodePath) (n : NODE ℚ),
        nodeAt r1 (k :: q) = some n → ∃ v, n.intensity = some v) ∧
      r1.intensity = none ∧ r0.intensity = none ∧
      g1.totalNodes = sampleLeader.totalNodes ∧ g1.bottomHit = sampleLeader.bottomHit ∧
      ∀ k, find g1.hash k = find sampleLeader.hash k :=
  ⟨⟨sampleDag_built, Or.inr ⟨by decide, rfl⟩⟩,
    write_read_roundtrip sampleShading sampleDag (DAG.new 1 1) sampleLeader 9 sampleDag_built
      (Or.inr ⟨by decide, rfl⟩)⟩

/-- C4, the node for which the claim fails: the root.  For the graph with the segments
1 - 5, 5 - 9 and 1 - 6 and the terminal index 9, `buildLeader(9)`, `write` and `read` (which
runs `buildLeader(9)` again) return, and the root, the node 1, has no intensity assigned,
neither in the graph written nor in the graph read: the two values that the claim says
are the same are what the two calls of the constructor have found in memory. -/
theorem roundtrip_root_unassigned :
    ∃ f g1 r1 r0, buildLeader sampleShading sampleDag 9 = some sampleLeader ∧
      write sampleLeader = some f ∧ read sampleShading (DAG.new 1 1) f = some g1 ∧
      g1.root = some r1 ∧ sampleLeader.root = some r0 ∧
      r0.index = 1 ∧ r1.index = 1 ∧ r0.leader = true ∧ r1.leader = true ∧
      r0.intensity = none ∧ r1.intensity = none := by
  obtain ⟨f, g1, hf1, hf2, hroot, -⟩ := read_write_tree sampleShading sampleDag (DAG.new 1 1)
    sampleLeader 9 sampleDag_built (Or.inr ⟨by decide, rfl⟩)
  exact ⟨f, g1, _, _, rfl, hf1, hf2, hroot, rfl, rfl, rfl, rfl, rfl, rfl, rfl⟩

end DAG

end Lumo
